import Mathlib

/-!
libcommute: generators of the fermionic and spin algebras, the expressions
built from them, Hilbert spaces and the action of spin monomials.

A shallow embedding of `generator_fermion.hpp`, `generator_spin.hpp`,
`elementary_space_fermion.hpp`, `elementary_space_boson.hpp`,
`elementary_space_spin.hpp`, `hilbert_space.hpp`,
`monomial_action_spin.hpp` and `scalar_traits.hpp`. The order of monomials and
of dynamic indices and the difference of expressions follow the specification
and the tests, their headers not being among the sources.

Conventions of the embedding.
* The index pack `IndexTypes...` is a type `ι` with decidable equality and a
  decidable `<`; nothing else is assumed of it in the definitions.
* `double` coefficients that the generators produce are `0`, `1` and `-1`; they
  are represented by `Int`.  The integral `scalar_traits` (`is_zero x` is
  `x == 0`) is the scalar of the expression model.
* A failed `assert` is the result `none`; a thrown exception is the `error` of
  `Except`.
* The `double spin` argument of the spin constructors is a rational number; the
  conversion `int(x)` is truncation toward zero (C++ defines it for the values
  in the range of `int` only, and there it is this truncation). The model keeps
  the truncated value also outside that range; the theorems on the spin
  constructors assume `spin_in_int_range`, the spins whose conversions are
  defined.
* Values of type `int` are integers; `sv_index_type` values are natural numbers
  and their arithmetic is taken modulo `2^64`.
* A `std::map` is the list of its entries in the order of the keys.
* The `double` coefficient of `act` is an element of a type `C` with a product,
  a square root of indices and a power.
-/

namespace libcommute

/-! ## Linear functions of generators -/

/-- Modelled from the spec: `linear_function.hpp` is not among the sources.
The spec describes it as `(const, terms : [(Scalar, Generator)])`, an affine
combination `c0 + Σ cᵢ · gᵢ`; the generators call `f.set(c)` and
`f.set(c, g, coeff)` on it. -/
structure linear_function (G : Type) where
  /-- the constant `c0` -/
  const_term : Int
  /-- the pairs `(gᵢ, cᵢ)` -/
  terms : List (G × Int)
deriving DecidableEq, Repr

/-- Modelled from the spec: `f.set(c)` of `linear_function.hpp` makes `f` the
constant `c` with no generator terms. -/
def linear_function.set_const {G : Type} (_f : linear_function G) (c : Int) :
    linear_function G :=
  { const_term := c, terms := [] }

/-- Modelled from the spec: `f.set(c, g, coeff)` of `linear_function.hpp` makes
`f` the function `c + coeff * g`. -/
def linear_function.set_term {G : Type} (_f : linear_function G) (c : Int) (g : G)
    (coeff : Int) : linear_function G :=
  { const_term := c, terms := [(g, coeff)] }

/-! ## The base class `generator` (index part) -/

section base

variable {ι : Type} [DecidableEq ι] [LT ι] [∀ a b : ι, Decidable (a < b)]

/-- Modelled from the spec: `generator.hpp` is not among the sources.
`base::equal` compares the index tuples for equality. -/
def base_equal (i j : ι) : Bool := decide (i = j)

/-- Modelled from the spec: `generator.hpp` is not among the sources.
`base::less` compares the index tuples with `<`. -/
def base_less (i j : ι) : Bool := decide (i < j)

/-- Modelled from the spec: `generator.hpp` is not among the sources.
`base::greater` compares the index tuples with `>`. -/
def base_greater (i j : ι) : Bool := decide (i > j)

end base

/-! ## `generator_fermion` -/

/-- The class `generator_fermion`: the `dagger_` flag and the indices of the
base class. -/
structure generator_fermion (ι : Type) where
  /-- creation (`true`) or annihilation (`false`) operator -/
  dagger : Bool
  /-- the index tuple held by the base class -/
  indices : ι
deriving DecidableEq, Repr

namespace generator_fermion

variable {ι : Type} [DecidableEq ι] [LT ι] [∀ a b : ι, Decidable (a < b)]

/-- The function `generator_fermion::equal`: `dagger_ == f_g.dagger_ && base::equal(g)`. -/
def equal (g f_g : generator_fermion ι) : Bool :=
  (g.dagger == f_g.dagger) && base_equal g.indices f_g.indices

/-- The function `generator_fermion::less`. The comparison of the two `bool` flags is the
comparison of their integer values. -/
def less (g f_g : generator_fermion ι) : Bool :=
  if g.dagger != f_g.dagger then
    decide (g.dagger.toNat > f_g.dagger.toNat)
  else
    if g.dagger then base_less g.indices f_g.indices
    else base_greater g.indices f_g.indices

/-- The function `generator_fermion::greater`. -/
def greater (g f_g : generator_fermion ι) : Bool :=
  if g.dagger != f_g.dagger then
    decide (g.dagger.toNat < f_g.dagger.toNat)
  else
    if g.dagger then base_greater g.indices f_g.indices
    else base_less g.indices f_g.indices

/-- Modelled from the spec: `operator>` of `generator.hpp` (not among the
sources) compares the algebra ids and, within one algebra, calls `greater`.
Both operands are fermion generators here, so the ids agree. -/
def gt (g1 g2 : generator_fermion ι) : Bool := greater g1 g2

/-- Modelled from the spec: `operator<` of `generator.hpp` (not among the
sources), for two fermion generators: it calls `less`. -/
def lt (g1 g2 : generator_fermion ι) : Bool := less g1 g2

/-- Modelled from the spec: `operator==` of `generator.hpp` (not among the
sources) requires the same algebra id and `equal`. Both operands are fermion
generators here. -/
def eq (g1 g2 : generator_fermion ι) : Bool := equal g1 g2

/-- The function `generator_fermion::swap_with`: `none` when `assert(*this > g2)` fails,
otherwise the returned coefficient and the new value of `f`. -/
def swap_with (g g2_ : generator_fermion ι)
    (f : linear_function (generator_fermion ι)) :
    Option (Int × linear_function (generator_fermion ι)) :=
  if gt g g2_ then
    let delta : Int :=
      if base_equal g.indices g2_.indices && (g.dagger != g2_.dagger) then 1 else 0
    some (-1, f.set_const delta)
  else none

/-- The function `generator_fermion::simplify_prod`: `none` when `assert(!(*this > g2))`
fails, otherwise the returned flag and the value of `f` after the call. -/
def simplify_prod (g g2 : generator_fermion ι)
    (f : linear_function (generator_fermion ι)) :
    Option (Bool × linear_function (generator_fermion ι)) :=
  if !(gt g g2) then
    if eq g g2 then some (true, f.set_const 0)
    else some (false, f)
  else none

/-- The function `generator_fermion::conj`: the new value of `f`. -/
def conj (g : generator_fermion ι) (f : linear_function (generator_fermion ι)) :
    linear_function (generator_fermion ι) :=
  f.set_term 0 { dagger := !g.dagger, indices := g.indices } 1

end generator_fermion

/-! ## `generator_boson` -/

/-- Modelled from the spec: `generator_boson.hpp` is not among the sources.
The spec gives a boson generator the payload `dagger : bool` next to the
index. -/
structure generator_boson (ι : Type) where
  /-- creation (`true`) or annihilation (`false`) operator -/
  dagger : Bool
  /-- the index tuple held by the base class -/
  indices : ι
deriving DecidableEq, Repr

namespace generator_boson

variable {ι : Type} [DecidableEq ι] [LT ι] [∀ a b : ι, Decidable (a < b)]

/-- Modelled from the spec: `generator_boson.hpp` is not among the sources.
Equality requires the same payload and the same index. -/
def equal (g b_g : generator_boson ι) : Bool :=
  (g.dagger == b_g.dagger) && base_equal g.indices b_g.indices

/-- Modelled from the spec: `generator_boson.hpp` is not among the sources.
"Within boson: same shape as fermion": creation before annihilation, creations
by ascending index, annihilations by descending index. -/
def less (g b_g : generator_boson ι) : Bool :=
  if g.dagger != b_g.dagger then
    decide (g.dagger.toNat > b_g.dagger.toNat)
  else
    if g.dagger then base_less g.indices b_g.indices
    else base_greater g.indices b_g.indices

/-- Modelled from the spec: `generator_boson.hpp` is not among the sources.
The mirror image of `less`. -/
def greater (g b_g : generator_boson ι) : Bool :=
  if g.dagger != b_g.dagger then
    decide (g.dagger.toNat < b_g.dagger.toNat)
  else
    if g.dagger then base_greater g.indices b_g.indices
    else base_less g.indices b_g.indices

end generator_boson

/-! ## `generator_spin` -/

/-- The constant `SPIN_ALGEBRA_ID` of `generator_spin.hpp`. -/
def SPIN_ALGEBRA_ID : Int := -1

/-- The enumeration `spin_component : int {plus = 0, minus = 1, z = 2}`. -/
inductive spin_component where
  | plus
  | minus
  | z
deriving DecidableEq, Repr

/-- The integer value of an enumerator; `<` and `>` on `spin_component`
compare these values. -/
def spin_component.toInt : spin_component → Int
  | .plus => 0
  | .minus => 1
  | .z => 2

/-- The conversion `int(x)` of a `double`: truncation toward zero. -/
def to_int (x : ℚ) : Int := if 0 ≤ x then ⌊x⌋ else ⌈x⌉

/-- The values of a `double` that convert to `int`, an integer of 32 bits:
those whose truncation toward zero lies between `-2^31` and `2^31 - 1`. For
every other value the conversion is undefined in C++. -/
def int_convertible (x : ℚ) : Prop := -(2 : ℚ) ^ 31 - 1 < x ∧ x < 2 ^ 31

instance int_convertible_decidable (x : ℚ) : Decidable (int_convertible x) :=
  inferInstanceAs (Decidable (-(2 : ℚ) ^ 31 - 1 < x ∧ x < 2 ^ 31))

/-- The spin values for which the two conversions to `int` in the spin
constructors are defined: `int(spin*2)` of the assertion and the conversion of
`2*spin+1` that initialises `multiplicity_`. -/
def spin_in_int_range (spin : ℚ) : Prop :=
  int_convertible (spin * 2) ∧ int_convertible (2 * spin + 1)

instance spin_in_int_range_decidable (spin : ℚ) : Decidable (spin_in_int_range spin) :=
  inferInstanceAs (Decidable (int_convertible (spin * 2) ∧ int_convertible (2 * spin + 1)))

/-- The class `generator_spin`: `multiplicity_`, `c_` and the indices of the
base class. -/
structure generator_spin (ι : Type) where
  /-- multiplicity, 2S+1 -/
  multiplicity : Int
  /-- the component S+, S- or Sz -/
  c : spin_component
  /-- the index tuple held by the base class -/
  indices : ι
deriving DecidableEq, Repr

namespace generator_spin

variable {ι : Type} [DecidableEq ι] [LT ι] [∀ a b : ι, Decidable (a < b)]

/-- The function `generator_spin::algebra_id`. -/
def algebra_id (_g : generator_spin ι) : Int := SPIN_ALGEBRA_ID

/-- The constructor `generator_spin(spin_component c, Args&&... indices)`. -/
def mk_default (c : spin_component) (indices : ι) : generator_spin ι :=
  { multiplicity := 2, c := c, indices := indices }

/-- The constructor `generator_spin(double spin, spin_component c, Args&&...)`:
`multiplicity_` is initialised with `2*spin+1` converted to `int`; the result
is `none` when `assert(2*spin == int(spin*2))` fails. This is the constructor
for `spin_in_int_range spin`; for any other spin the conversions are undefined
in C++, and the value kept here is the truncation, which no `int` holds. -/
def mk_spin (spin : ℚ) (c : spin_component) (indices : ι) :
    Option (generator_spin ι) :=
  if 2 * spin = (to_int (spin * 2) : ℚ) then
    some { multiplicity := to_int (2 * spin + 1), c := c, indices := indices }
  else none

/-- The function `generator_spin::equal`. -/
def equal (g b_g : generator_spin ι) : Bool :=
  (g.multiplicity == b_g.multiplicity) && (g.c == b_g.c) &&
    decide (g.indices = b_g.indices)

/-- The function `generator_spin::less`. -/
def less (g s_g : generator_spin ι) : Bool :=
  if g.multiplicity != s_g.multiplicity then
    decide (g.multiplicity < s_g.multiplicity)
  else if decide (g.indices ≠ s_g.indices) then
    decide (g.indices < s_g.indices)
  else
    decide (g.c.toInt < s_g.c.toInt)

/-- The function `generator_spin::greater`. -/
def greater (g s_g : generator_spin ι) : Bool :=
  if g.multiplicity != s_g.multiplicity then
    decide (g.multiplicity > s_g.multiplicity)
  else if decide (g.indices ≠ s_g.indices) then
    decide (g.indices > s_g.indices)
  else
    decide (g.c.toInt > s_g.c.toInt)

end generator_spin

/-! ## `elementary_space_spin` -/

/-- The class `elementary_space_spin`: `multiplicity_`, `n_bits_` and the
indices of the base class. -/
structure elementary_space_spin (ι : Type) where
  /-- multiplicity, 2S+1 -/
  multiplicity : Int
  /-- the number of bits of the field -/
  n_bits : Int
  /-- the index tuple held by the base class -/
  indices : ι
deriving DecidableEq, Repr

namespace elementary_space_spin

variable {ι : Type}

/-- The constructor `elementary_space_spin(double spin, Args&&... indices)`:
`multiplicity_` is `static_cast<int>(2 * spin + 1)`, the result is `none` when
`assert(2 * spin == int(spin * 2))` fails, and `n_bits_` is
`std::ceil(std::log2(multiplicity_))`, the least `n` with
`multiplicity_ ≤ 2^n` (for a multiplicity of at least 1, where the logarithm
is finite). This is the constructor for `spin_in_int_range spin` and a
multiplicity of at least 1; for any other spin the conversions to `int` are
undefined in C++. -/
def mk_spin (spin : ℚ) (indices : ι) : Option (elementary_space_spin ι) :=
  let multiplicity : Int := to_int (2 * spin + 1)
  if 2 * spin = (to_int (spin * 2) : ℚ) then
    some { multiplicity := multiplicity,
           n_bits := (Nat.clog 2 multiplicity.toNat : Nat),
           indices := indices }
  else none

end elementary_space_spin

/-! ## Generators of any algebra and the cross-algebra order -/

/-- The constants `fermion` and `boson` that `generator_fermion::algebra_id`
and the boson generator return; `algebra_ids.hpp` is not among the sources, so
they are parameters of the model. -/
structure algebra_ids where
  /-- the value of the constant `fermion` -/
  fermion : Int
  /-- the value of the constant `boson` -/
  boson : Int
deriving DecidableEq, Repr

/-- Modelled from the spec: `algebra_ids.hpp` is not among the sources; the
spec says "Fermion id = 0, Boson id = 1". -/
def spec_algebra_ids : algebra_ids := { fermion := 0, boson := 1 }

/-- An object of a class derived from `generator`: what a reference
`generator const&` can refer to. -/
inductive generator (ι : Type) where
  | fermion (g : generator_fermion ι)
  | boson (g : generator_boson ι)
  | spin (g : generator_spin ι)
deriving DecidableEq, Repr

namespace generator

variable {ι : Type} [DecidableEq ι] [LT ι] [∀ a b : ι, Decidable (a < b)]

/-- The virtual call `algebra_id()`: `generator_fermion` returns `fermion`,
the boson generator `boson`, `generator_spin` returns `SPIN_ALGEBRA_ID`. -/
def algebra_id (ids : algebra_ids) : generator ι → Int
  | .fermion _ => ids.fermion
  | .boson _ => ids.boson
  | .spin g => g.algebra_id

/-- The virtual call `g1.less(g2)`: the override of the class of `g1`, whose
`dynamic_cast` of `g2` to that class throws (`none`) for another class. -/
def less : generator ι → generator ι → Option Bool
  | .fermion g1, .fermion g2 => some (g1.less g2)
  | .boson g1, .boson g2 => some (g1.less g2)
  | .spin g1, .spin g2 => some (g1.less g2)
  | _, _ => none

/-- Modelled from the spec: `operator<` of `generator.hpp` (not among the
sources): "across algebras: compare algebra ids numerically", within one
algebra call `less`. -/
def lt (ids : algebra_ids) (g1 g2 : generator ι) : Option Bool :=
  if g1.algebra_id ids != g2.algebra_id ids then
    some (decide (g1.algebra_id ids < g2.algebra_id ids))
  else g1.less g2

end generator

/-! ## Scalars, monomials and expressions -/

/-- The function `scalar_traits<S>::is_zero` for integral `S`: `x == 0`. -/
def is_zero (x : Int) : Bool := x == 0

/-- Modelled from the spec: the capability set of a generator type that the
normalization engine dispatches on (the spec lists `less`, `greater`,
`swap_with`, `simplify_prod` among the capabilities of every variant);
`generator.hpp` and `expression.hpp` are not among the sources. -/
structure generator_ops (G : Type) where
  /-- the comparison `operator<` -/
  lt : G → G → Bool
  /-- the comparison `operator>` -/
  gt : G → G → Bool
  /-- the call `swap_with`, `none` on a failed assertion -/
  swap_with : G → G → linear_function G → Option (Int × linear_function G)
  /-- the call `simplify_prod`, `none` on a failed assertion -/
  simplify_prod : G → G → linear_function G → Option (Bool × linear_function G)

/-- The operations of the fermionic algebra, from `generator_fermion.hpp`. -/
def fermion_ops {ι : Type} [DecidableEq ι] [LT ι] [∀ a b : ι, Decidable (a < b)] :
    generator_ops (generator_fermion ι) :=
  { lt := generator_fermion.lt
    gt := generator_fermion.gt
    swap_with := generator_fermion.swap_with
    simplify_prod := generator_fermion.simplify_prod }

/-- Modelled from the spec: a term of an expression, a monomial (an ordered
sequence of generators, the empty one being the identity) with its scalar. -/
abbrev term (G : Type) := List G × Int

/-- Modelled from the spec: an expression is a "mapping from monomial to
nonzero scalar", stored and iterated in the order of the monomials; here the
list of its terms in that order. -/
abbrev expression (G : Type) := List (term G)

/-- Lexicographic comparison of two generator sequences with `<` only. -/
def lex_lt {G : Type} (lt : G → G → Bool) : List G → List G → Bool
  | [], [] => false
  | [], _ :: _ => true
  | _ :: _, [] => false
  | a :: as, b :: bs =>
    if lt a b then true else if lt b a then false else lex_lt lt as bs

/-- Modelled from the spec: `monomial.hpp` is not among the sources; the order
of monomials is the one `test/monomial.cpp` checks, shorter monomials first and
monomials of one length lexicographically. -/
def monomial_lt {G : Type} (lt : G → G → Bool) (m1 m2 : List G) : Bool :=
  if m1.length != m2.length then decide (m1.length < m2.length)
  else lex_lt lt m1 m2

/-- Modelled from the spec: the linear function `f` spliced into a monomial
between `pre` and `post`: the constant gives the monomial without the pair,
every linear term the monomial with that generator in place of the pair, each
scaled by the scalar `s` of the term being rewritten. -/
def splice {G : Type} (f : linear_function G) (pre post : List G) (s : Int) :
    List (term G) :=
  (pre ++ post, f.const_term * s) ::
    f.terms.map (fun t => (pre ++ t.1 :: post, t.2 * s))

/-- The outcome of one left-to-right pass over the adjacent pairs of a
monomial. -/
inductive rewrite_result (G : Type) where
  /-- no pair is out of order and no pair simplifies -/
  | canonical
  /-- the first pair that can be rewritten was; these terms replace the term -/
  | rewritten (ts : List (term G))
  /-- a generator operation failed an assertion -/
  | failed

/-- Modelled from the spec (4.2, step 2): walk the adjacent pairs of the
monomial `pre ++ m` from the left, `pre` being the part already passed. The
first pair `(g1, g2)` with `g1 > g2` is swapped: the term becomes
`c · (… g2 g1 …)` plus the spliced correction; the first pair with
`g1 ≤ g2` whose `simplify_prod` succeeds is replaced by its expansion. -/
def rewrite_first {G : Type} (ops : generator_ops G) (s : Int) :
    List G → List G → rewrite_result G
  | pre, g1 :: g2 :: rest =>
    if ops.gt g1 g2 then
      match ops.swap_with g1 g2 { const_term := 0, terms := [] } with
      | some (c, f) =>
        .rewritten ((pre ++ g2 :: g1 :: rest, c * s) :: splice f pre rest s)
      | none => .failed
    else
      match ops.simplify_prod g1 g2 { const_term := 0, terms := [] } with
      | some (true, f) => .rewritten (splice f pre rest s)
      | some (false, _) => rewrite_first ops s (pre ++ [g1]) (g2 :: rest)
      | none => .failed
  | _, _ => .canonical

/-- Modelled from the spec (4.2, steps 1, 3 and 4): the work list of terms
still to be brought to canonical form and the canonical terms found so far.
Terms whose scalar tests as zero are dropped, a canonical term is kept, a
rewritten term is replaced by its rewriting and the pass restarts on it. The
result is `none` when the fuel is used up or an assertion fails. -/
def normalize_terms {G : Type} (ops : generator_ops G) :
    Nat → List (term G) → List (term G) → Option (List (term G))
  | _, [], done => some done
  | 0, _ :: _, _ => none
  | fuel + 1, (m, s) :: work, done =>
    if is_zero s then normalize_terms ops fuel work done
    else
      match rewrite_first ops s [] m with
      | .canonical => normalize_terms ops fuel work (done ++ [(m, s)])
      | .rewritten ts => normalize_terms ops fuel (ts ++ work) done
      | .failed => none

namespace expression

/-- Modelled from the spec: add one term to an expression, "sum scalars on
collisions, drop zeros"; two monomials collide when neither is before the
other. -/
def add_term {G : Type} (ops : generator_ops G) : expression G → term G → expression G
  | [], (m, s) => if is_zero s then [] else [(m, s)]
  | (m1, s1) :: rest, (m, s) =>
    if monomial_lt ops.lt m m1 then
      if is_zero s then (m1, s1) :: rest else (m, s) :: (m1, s1) :: rest
    else if monomial_lt ops.lt m1 m then (m1, s1) :: add_term ops rest (m, s)
    else if is_zero (s1 + s) then rest
    else (m1, s1 + s) :: rest

/-- Modelled from the spec: `E + F`, "merge maps, sum scalars on collisions,
drop zeros". -/
def add {G : Type} (ops : generator_ops G) (e f : expression G) : expression G :=
  f.foldl (add_term ops) e

/-- Modelled from the spec (4.2): `normalize(m, s)`, the canonical terms of
`s · m` merged into an expression (step 5). -/
def normalize {G : Type} (ops : generator_ops G) (fuel : Nat) (m : List G) (s : Int) :
    Option (expression G) :=
  (normalize_terms ops fuel [(m, s)] []).map (fun ts => add ops [] ts)

/-- Modelled from the spec: `E × F`, "for every pair `(mE, sE) × (mF, sF)`,
form the concatenation `mE ∥ mF` with scalar `sE·sF`, normalize,
accumulate". -/
def mul {G : Type} (ops : generator_ops G) (fuel : Nat) (e f : expression G) :
    Option (expression G) :=
  (e.flatMap fun t1 => f.map fun t2 => (t1.1 ++ t2.1, t1.2 * t2.2)).foldlM
    (fun acc t => (normalize ops fuel t.1 t.2).map (fun n => add ops acc n)) []

/-- Modelled from the spec: the expression of a single generator, what the
factories `c_dag(index…)` and `c(index…)` return: the monomial `g` with
scalar 1. -/
def of_generator {G : Type} (g : G) : expression G := [([g], 1)]

/-- Modelled from the spec: the constant expression `x`, the empty monomial
with scalar `x`, and no term at all for `x = 0`. -/
def const {G : Type} (x : Int) : expression G := if is_zero x then [] else [([], x)]

end expression

/-- Modelled from the spec: the expression `a·b + b·a` of two generators
`a` and `b`: the two products of the single-generator expressions, each
normalized, then added. -/
def expression.anticommutator {G : Type} (ops : generator_ops G) (fuel : Nat) (a b : G) :
    Option (expression G) :=
  match expression.mul ops fuel (expression.of_generator a) (expression.of_generator b),
      expression.mul ops fuel (expression.of_generator b) (expression.of_generator a) with
  | some ab, some ba => some (expression.add ops ab ba)
  | _, _ => none

/-! ## Elementary spaces -/

/-- The class `elementary_space_fermion`: it adds nothing to the indices of
the base class; its `n_bits()` is 1. -/
structure elementary_space_fermion (ι : Type) where
  /-- the index tuple held by the base class -/
  indices : ι
deriving DecidableEq, Repr

/-- The class `elementary_space_boson`: `n_bits_` and the indices of the base
class. It overrides neither `equal` nor `less` nor `greater`. -/
structure elementary_space_boson (ι : Type) where
  /-- the space is spanned by the states 0, ..., 2^n_bits - 1 -/
  n_bits : Int
  /-- the index tuple held by the base class -/
  indices : ι
deriving DecidableEq, Repr

/-- The constants `fermion`, `boson` and `spin` that the `algebra_id()` of the
elementary spaces return; `algebra_ids.hpp` is not among the sources, so they
are parameters of the model. -/
structure space_algebra_ids extends algebra_ids where
  /-- the value of the constant `spin` -/
  spin : Int
deriving DecidableEq, Repr

/-- Modelled from the spec: `algebra_ids.hpp` is not among the sources; the
spec says "Fermion id = 0, Boson id = 1, Spin id = 2". -/
def spec_space_algebra_ids : space_algebra_ids := { fermion := 0, boson := 1, spin := 2 }

/-- An object of a class derived from `elementary_space`: what a reference to
the base class can refer to. -/
inductive elementary_space (ι : Type) where
  | fermion (es : elementary_space_fermion ι)
  | boson (es : elementary_space_boson ι)
  | spin (es : elementary_space_spin ι)
deriving DecidableEq, Repr

namespace elementary_space

variable {ι : Type} [DecidableEq ι] [LT ι] [∀ a b : ι, Decidable (a < b)]

/-- The virtual call `algebra_id()`: the three classes return `fermion`,
`boson` and `spin`. -/
def algebra_id (ids : space_algebra_ids) : elementary_space ι → Int
  | .fermion _ => ids.fermion
  | .boson _ => ids.boson
  | .spin _ => ids.spin

/-- The virtual call `n_bits()`: 1 for a fermionic space, the stored `n_bits_`
for the other two. -/
def n_bits : elementary_space ι → Int
  | .fermion _ => 1
  | .boson es => es.n_bits
  | .spin es => es.n_bits

/-- The indices held by the base class. -/
def indices : elementary_space ι → ι
  | .fermion es => es.indices
  | .boson es => es.indices
  | .spin es => es.indices

/-- Modelled from the spec: `elementary_space.hpp` is not among the sources.
The spec gives every space the fields `(algebra_id, index, n_bits)` and says
"two elementary spaces are equal iff all fields match"; `operator==` compares
the algebra ids, so `base::equal` compares the index and `n_bits`. -/
def base_equal (es1 es2 : elementary_space ι) : Bool :=
  decide (es1.indices = es2.indices) && (es1.n_bits == es2.n_bits)

/-- Modelled from the spec: `elementary_space.hpp` is not among the sources.
Spaces are "ordered first by algebra id, then by algebra-specific fields, then
by index": `base::less` compares the index tuples with `<`. -/
def base_less (es1 es2 : elementary_space ι) : Bool :=
  decide (es1.indices < es2.indices)

/-- Modelled from the spec: `elementary_space.hpp` is not among the sources.
The mirror image of `base::less`. -/
def base_greater (es1 es2 : elementary_space ι) : Bool :=
  decide (es1.indices > es2.indices)

/-- The virtual call `es1.equal(es2)`: `elementary_space_spin::equal` for a
spin space, the inherited `base::equal` for the other two. The `dynamic_cast`
in the spin override needs `es2` to be a spin space; `operator==` calls `equal`
for two spaces of one algebra id only, and with another class there the model
answers `false`. -/
def equal : elementary_space ι → elementary_space ι → Bool
  | .spin es, .spin es_s =>
    (es.multiplicity == es_s.multiplicity) && base_equal (.spin es) (.spin es_s)
  | .spin _, _ => false
  | es1, es2 => base_equal es1 es2

/-- The virtual call `es1.less(es2)`: `elementary_space_spin::less` for a spin
space, the inherited `base::less` for the other two. -/
def less : elementary_space ι → elementary_space ι → Bool
  | .spin es, .spin es_s =>
    if es.multiplicity != es_s.multiplicity then
      decide (es.multiplicity < es_s.multiplicity)
    else base_less (.spin es) (.spin es_s)
  | .spin _, _ => false
  | es1, es2 => base_less es1 es2

/-- The virtual call `es1.greater(es2)`: `elementary_space_spin::greater` for a
spin space, the inherited `base::greater` for the other two. -/
def greater : elementary_space ι → elementary_space ι → Bool
  | .spin es, .spin es_s =>
    if es.multiplicity != es_s.multiplicity then
      decide (es.multiplicity > es_s.multiplicity)
    else base_greater (.spin es) (.spin es_s)
  | .spin _, _ => false
  | es1, es2 => base_greater es1 es2

/-- Modelled from the spec: `operator==` of `elementary_space.hpp` (not among
the sources): the same algebra id and `equal`. -/
def eq (ids : space_algebra_ids) (es1 es2 : elementary_space ι) : Bool :=
  (es1.algebra_id ids == es2.algebra_id ids) && es1.equal es2

/-- Modelled from the spec: `operator<` of `elementary_space.hpp` (not among
the sources): "ordered first by algebra id", within one algebra by `less`. -/
def lt (ids : space_algebra_ids) (es1 es2 : elementary_space ι) : Bool :=
  if es1.algebra_id ids != es2.algebra_id ids then
    decide (es1.algebra_id ids < es2.algebra_id ids)
  else es1.less es2

end elementary_space

/-! ## `std::map` -/

/-- The container `std::map<K, V, Compare>` is the list of its entries in the
order of the keys. The call `m.emplace(k, v)`: the entries are passed while
their key is before `k`; if `k` is before the key reached (or the end is
reached) the entry is inserted there, otherwise the key reached is equivalent
to `k` and nothing is inserted. The result is the map after the call and the
flag `second` of the returned pair. -/
def map_emplace {K V : Type} (lt : K → K → Bool) :
    List (K × V) → K → V → List (K × V) × Bool
  | [], k, v => ([(k, v)], true)
  | (k1, v1) :: rest, k, v =>
    if lt k1 k then
      let r := map_emplace lt rest k v
      ((k1, v1) :: r.1, r.2)
    else if lt k k1 then ((k, v) :: (k1, v1) :: rest, true)
    else ((k1, v1) :: rest, false)

/-- The call `m.find(k)` of `std::map`: the value of the entry whose key is
equivalent to `k` (neither is before the other), `none` for `m.end()`. -/
def map_find {K V : Type} (lt : K → K → Bool) : List (K × V) → K → Option V
  | [], _ => none
  | (k1, v1) :: rest, k =>
    if lt k1 k then map_find lt rest k
    else if lt k k1 then none
    else some v1

/-- The call `m.count(k)` of `std::map`: the number of entries with a key
equivalent to `k`, 0 or 1. -/
def map_count {K V : Type} (lt : K → K → Bool) (m : List (K × V)) (k : K) : Nat :=
  if (map_find lt m k).isSome then 1 else 0

/-! ## `hilbert_space` -/

/-- The type `bit_range_t`, a range of bits `[start; end]`. -/
abbrev bit_range_t := Int × Int

/-- The interface of the abstract class of the spaces that `hilbert_space`
uses: `operator<` (through `hilbert_space::less`), `operator==` and
`n_bits()`. -/
structure space_ops (S : Type) where
  /-- the comparison `operator<` -/
  lt : S → S → Bool
  /-- the comparison `operator==` -/
  eq : S → S → Bool
  /-- the virtual call `n_bits()` -/
  n_bits : S → Int

/-- The interface of the elementary spaces of the three algebras. -/
def elementary_space_ops {ι : Type} [DecidableEq ι] [LT ι] [∀ a b : ι, Decidable (a < b)]
    (ids : space_algebra_ids) : space_ops (elementary_space ι) :=
  { lt := elementary_space.lt ids
    eq := elementary_space.eq ids
    n_bits := elementary_space.n_bits }

/-- The class `hilbert_space`: the map `basis_spaces_` from the spaces to their
bit ranges, and `bit_range_end_`. -/
structure hilbert_space (S : Type) where
  /-- the entries of `basis_spaces_` in the order of the map -/
  basis_spaces : List (S × bit_range_t)
  /-- the end of the bit range spanned by this Hilbert space -/
  bit_range_end : Int
deriving DecidableEq, Repr

/-- The exception `hilbert_space::basis_space_exists`. -/
structure basis_space_exists (S : Type) where
  /-- the space that was already there -/
  basis_space_ptr : S
deriving DecidableEq, Repr

/-- The exception `hilbert_space::basis_space_not_found`. -/
structure basis_space_not_found (S : Type) where
  /-- the space that was looked for -/
  basis_space_ptr : S
deriving DecidableEq, Repr

/-- The exception `hilbert_space::no_default_basis_space`. -/
structure no_default_basis_space (G : Type) where
  /-- the generator without a default space -/
  generator_ptr : G
deriving DecidableEq, Repr

namespace hilbert_space

variable {S : Type}

/-- The constructor `hilbert_space()`: no spaces, `bit_range_end_ = -1`. -/
def empty : hilbert_space S := { basis_spaces := [], bit_range_end := -1 }

/-- The loop of `recompute_bit_ranges`: `e` is the running `bit_range_end_`;
the result is the entries with their new ranges and the final
`bit_range_end_`. -/
def recompute_loop (ops : space_ops S) :
    List (S × bit_range_t) → Int → List (S × bit_range_t) × Int
  | [], e => ([], e)
  | (bs, _) :: rest, e =>
    let n_bits := ops.n_bits bs
    let r := recompute_loop ops rest (e + n_bits)
    ((bs, (e + 1, e + n_bits)) :: r.1, r.2)

/-- The method `hilbert_space::recompute_bit_ranges`. -/
def recompute_bit_ranges (ops : space_ops S) (hs : hilbert_space S) : hilbert_space S :=
  let r := recompute_loop ops hs.basis_spaces (-1)
  { basis_spaces := r.1, bit_range_end := r.2 }

/-- The method `hilbert_space::add` as a transformer of the object: the object
when the call is left, and the exception thrown, if any. -/
def add_step (ops : space_ops S) (hs : hilbert_space S) (bs : S) :
    hilbert_space S × Option (basis_space_exists S) :=
  let r := map_emplace ops.lt hs.basis_spaces bs ((0, 0) : bit_range_t)
  let hs1 : hilbert_space S := { basis_spaces := r.1, bit_range_end := hs.bit_range_end }
  if !r.2 then (hs1, some { basis_space_ptr := bs })
  else (recompute_bit_ranges ops hs1, none)

/-- The method `hilbert_space::add`: the exception, or the Hilbert space after
the call. -/
def add (ops : space_ops S) (hs : hilbert_space S) (bs : S) :
    Except (basis_space_exists S) (hilbert_space S) :=
  match add_step ops hs bs with
  | (_, some e) => .error e
  | (hs1, none) => .ok hs1

/-- The helper `constructor_impl`: `add` the spaces one after the other. -/
def constructor_impl (ops : space_ops S) (hs : hilbert_space S) :
    List S → Except (basis_space_exists S) (hilbert_space S)
  | [] => .ok hs
  | bs :: more_bs =>
    match add ops hs bs with
    | .ok hs1 => constructor_impl ops hs1 more_bs
    | .error e => .error e

/-- The constructor `hilbert_space(Args&&... args)` from individual spaces. -/
def of_spaces (ops : space_ops S) (args : List S) :
    Except (basis_space_exists S) (hilbert_space S) :=
  constructor_impl ops empty args

/-- The method `hilbert_space::has`. -/
def has (ops : space_ops S) (hs : hilbert_space S) (bs : S) : Bool :=
  map_count ops.lt hs.basis_spaces bs == 1

/-- The method `hilbert_space::bit_range`. -/
def bit_range (ops : space_ops S) (hs : hilbert_space S) (bs : S) :
    Except (basis_space_not_found S) bit_range_t :=
  match map_find ops.lt hs.basis_spaces bs with
  | none => .error { basis_space_ptr := bs }
  | some r => .ok r

/-- The method `hilbert_space::size`. -/
def size (hs : hilbert_space S) : Nat := hs.basis_spaces.length

/-- The method `hilbert_space::total_n_bits`. -/
def total_n_bits (hs : hilbert_space S) : Int := hs.bit_range_end + 1

/-- The loop of the constructor from an expression over the generators `gs`
met in the iteration: `make_basis_space` is the virtual call
`g.make_basis_space()` (of `generator.hpp`, not among the sources, hence a
parameter). The result is the exception or the map after the loop. -/
def from_expression_loop {G : Type} (ops : space_ops S) (make_basis_space : G → S) :
    List G → List (S × bit_range_t) →
      Except (no_default_basis_space G) (List (S × bit_range_t))
  | [], m => .ok m
  | g :: gs, m =>
    let bs := make_basis_space g
    let n_bits := ops.n_bits bs
    let r := map_emplace ops.lt m bs ((0, 0) : bit_range_t)
    if r.2 && (n_bits == 0) then .error { generator_ptr := g }
    else from_expression_loop ops make_basis_space gs r.1

/-- The generators met by `for(m : expr) for(g : m.monomial)`. -/
def expression_generators {G : Type} (expr : expression G) : List G :=
  expr.flatMap (fun m => m.1)

/-- The constructor `hilbert_space(expr, hs)`: copy `hs`, run the loop, then
`recompute_bit_ranges`. -/
def from_expression {G : Type} (ops : space_ops S) (make_basis_space : G → S)
    (expr : expression G) (hs : hilbert_space S) :
    Except (no_default_basis_space G) (hilbert_space S) :=
  match from_expression_loop ops make_basis_space (expression_generators expr)
      hs.basis_spaces with
  | .error e => .error e
  | .ok m =>
    .ok (recompute_bit_ranges ops { basis_spaces := m, bit_range_end := hs.bit_range_end })

/-- The algorithm `std::equal(first1, last1, first2, pred)` on two ranges of
one length, with the predicate of `operator==`. -/
def equal_ranges (ops : space_ops S) :
    List (S × bit_range_t) → List (S × bit_range_t) → Bool
  | v1 :: l1, v2 :: l2 => (ops.eq v1.1 v2.1 && (v1.2 == v2.2)) && equal_ranges ops l1 l2
  | _, _ => true

/-- The friend `operator==` of two Hilbert spaces. -/
def eq (ops : space_ops S) (hs1 hs2 : hilbert_space S) : Bool :=
  (hs1.size == hs2.size) && equal_ranges ops hs1.basis_spaces hs2.basis_spaces

/-- The Hilbert spaces a program can build, with the spaces inserted into them
(the latest first): the empty one and the result of every successful `add`
(the constructor from individual spaces is a sequence of calls of `add`,
copying keeps the value). -/
inductive constructed (ops : space_ops S) : List S → hilbert_space S → Prop where
  | empty : constructed ops [] empty
  | add (l : List S) (hs : hilbert_space S) (bs : S) (hs1 : hilbert_space S) :
      constructed ops l hs → add ops hs bs = .ok hs1 → constructed ops (bs :: l) hs1

end hilbert_space

/-! ## `monomial_action<spin>` -/

/-- The macro `LIBCOMMUTE_SPIN_MAX_NUM_PRECOMPUTED_SQRT`. -/
def LIBCOMMUTE_SPIN_MAX_NUM_PRECOMPUTED_SQRT : Nat := 128

/-- Modelled from the spec: `state_vector.hpp` is not among the sources; the
spec gives the state index the type `u64`. The type `sv_index_type` is the
natural numbers below `2^64`, and its arithmetic is taken modulo this
number. -/
def sv_index_modulus : Nat := 2 ^ 64

/-- The conversion of an integer to `sv_index_type` (unsigned, 64 bits). -/
def to_uint64 (x : Int) : Nat := (x % (sv_index_modulus : Int)).toNat

/-- The conversion of an `sv_index_type` to `std::int64_t`. -/
def to_int64 (x : Nat) : Int :=
  if x % sv_index_modulus < 2 ^ 63 then ((x % sv_index_modulus : Nat) : Int)
  else ((x % sv_index_modulus : Nat) : Int) - (sv_index_modulus : Int)

/-- The struct `single_spin_update_t`. The `int shift` is a bit position, a
natural number. -/
structure single_spin_update_t where
  /-- spin times 2 -/
  s2 : Nat
  /-- the bit range of the spin is `(in_index >> shift) & mask` -/
  shift : Nat
  /-- the mask of the bit range -/
  mask : Nat
  /-- the generator: +, - or z -/
  c : spin_component
  /-- the power of the generator -/
  power : Nat
deriving DecidableEq, Repr

/-- The class `monomial_action<spin>`: the list `updates_`, and of the table
`sqr_roots_` its size (the constructor fills it with
`sqr_roots_[n] = std::sqrt(double(n))`). -/
structure monomial_action_spin where
  /-- the list of single-spin updates -/
  updates : List single_spin_update_t
  /-- the size of the table of precomputed square roots -/
  sqr_roots_size : Nat
deriving DecidableEq, Repr

/-- The operations on the `double` coefficient that `act` uses, on a type `C`
of coefficients: the product, `std::sqrt` of an index, and `std::pow` of a
half-integer base (`double(n) - double(s2)/2`) and an index. -/
structure coeff_ops (C : Type) where
  /-- the product of two coefficients -/
  mul : C → C → C
  /-- the function `std::sqrt` on indices -/
  sqrt : Nat → C
  /-- the function `std::pow` -/
  pow : ℚ → Nat → C

/-- The value `ss` that the constructor of `monomial_action<spin>` computes for
a generator of the given multiplicity and spin: `(spin+0.5)*(spin+0.5)` or
`spin*(spin+1)`, converted to `sv_index_type`. -/
def spin_ss (multiplicity : Int) (spin : ℚ) : Nat :=
  to_uint64 (to_int (if multiplicity % 2 = 0 then (spin + 1 / 2) * (spin + 1 / 2)
                     else spin * (spin + 1)))

namespace monomial_action_spin

variable {C : Type}

/-- The method `sqr_root`: a read of `sqr_roots_[n]` below the maximal table
size, `std::sqrt(n)` above it. A read past the end of the table has no defined
value: `none`. -/
def sqr_root (ops : coeff_ops C) (a : monomial_action_spin) (n : Nat) : Option C :=
  if n < LIBCOMMUTE_SPIN_MAX_NUM_PRECOMPUTED_SQRT then
    if n < a.sqr_roots_size then some (ops.sqrt n) else none
  else some (ops.sqrt n)

/-- The loop `for(int d = 0; d < power; ++d) coeff *= sqr_root(arg(d))`. -/
def mul_sqr_roots (ops : coeff_ops C) (a : monomial_action_spin) (arg : Nat → Nat)
    (power : Nat) (coeff : C) : Option C :=
  (List.range power).foldlM
    (fun c d => (sqr_root ops a (arg d)).map (fun r => ops.mul c r)) coeff

/-- One pass through the body of the loop of `act`, for the update `u`: the
flag is `false` when `act` returns `false` there, the other two components are
`out_index` and `coeff` at that point; `none` when a read has no defined
value. -/
def act_update (ops : coeff_ops C) (a : monomial_action_spin) (u : single_spin_update_t)
    (out_index : Nat) (coeff : C) : Option (Bool × Nat × C) :=
  let n : Int := to_int64 ((out_index >>> u.shift) &&& u.mask)
  match u.c with
  | .plus =>
    if (to_uint64 n + u.power) % sv_index_modulus > u.s2 then some (false, out_index, coeff)
    else
      match mul_sqr_roots ops a
          (fun d => (to_uint64 ((u.s2 : Int) - (n + d)) * to_uint64 (n + d + 1)) %
            sv_index_modulus) u.power coeff with
      | none => none
      | some c1 =>
        some (true,
          (out_index + (u.power <<< u.shift) % sv_index_modulus) % sv_index_modulus, c1)
  | .minus =>
    if n - to_int64 u.power < 0 then some (false, out_index, coeff)
    else
      match mul_sqr_roots ops a
          (fun d => (((to_uint64 ((u.s2 : Int) - (n - d)) + 1) % sv_index_modulus) *
            to_uint64 (n - d)) % sv_index_modulus) u.power coeff with
      | none => none
      | some c1 =>
        some (true,
          (out_index + sv_index_modulus - (u.power <<< u.shift) % sv_index_modulus) %
            sv_index_modulus, c1)
  | .z =>
    if (u.s2 % 2 == 0) && (to_uint64 n == u.s2 / 2) then some (false, out_index, coeff)
    else some (true, out_index, ops.mul coeff (ops.pow ((n : ℚ) - (u.s2 : ℚ) / 2) u.power))

/-- The loop of `act` over the updates still to be applied. -/
def act_loop (ops : coeff_ops C) (a : monomial_action_spin) :
    List single_spin_update_t → Nat → C → Option (Bool × Nat × C)
  | [], out_index, coeff => some (true, out_index, coeff)
  | u :: us, out_index, coeff =>
    match act_update ops a u out_index coeff with
    | some (true, out1, c1) => act_loop ops a us out1 c1
    | r => r

/-- The method `act`: `out_index = in_index`, then the updates from the last
to the first. The result is the returned flag with the final `out_index` and
`coeff`. -/
def act (ops : coeff_ops C) (a : monomial_action_spin) (in_index : Nat) (coeff : C) :
    Option (Bool × Nat × C) :=
  act_loop ops a a.updates.reverse in_index coeff

end monomial_action_spin

/-! ## Printing a spin generator -/

/-- The method `generator_spin::print`: the text written to the stream.
`print_tuple` (of `utility.hpp`, not among the sources) is a parameter; `%` and
`/` on `int` truncate toward zero. -/
def generator_spin.print {ι : Type} (print_tuple : ι → String) (g : generator_spin ι) :
    String :=
  let os := "S"
  let os :=
    if g.multiplicity != 2 then
      if Int.tmod g.multiplicity 2 == 0 then
        os ++ toString (g.multiplicity - 1) ++ "/2"
      else
        os ++ toString (Int.tdiv (g.multiplicity - 1) 2)
    else os
  let os :=
    match g.c with
    | .plus => os ++ "+"
    | .minus => os ++ "-"
    | .z => os ++ "z"
  let os := os ++ "("
  let os := os ++ print_tuple g.indices
  os ++ ")"

/-- Modelled from the spec: `print_tuple` of `utility.hpp` (not among the
sources) for an index of a string and an integer, "printable as
comma-separated tokens". -/
def print_tuple_string_int (indices : Lex (String × Int)) : String :=
  (ofLex indices).1 ++ "," ++ toString (ofLex indices).2

/-! ## `scalar_traits` of complex types -/

/-- The class template `std::complex<T>`: the real and the imaginary part. -/
structure complex (T : Type) where
  /-- the value of `std::real(x)` -/
  re : T
  /-- the value of `std::imag(x)` -/
  im : T
deriving DecidableEq, Repr

/-- The converting constructor `complex(const T& re = T(), const T& im = T())`
called with one argument. -/
def complex.of_real {T : Type} [Zero T] (re : T) : complex T := { re := re, im := 0 }

/-- The function `scalar_traits<S, with_trait<is_complex, S>>::is_zero` of
`scalar_traits.hpp`, lines 72-74. In its body the unqualified name `is_zero` is
looked up in the class first and names this very function (a name found as a
class member is not looked up any further); the argument `std::real(x)`, of the
component type, is converted to `S` by the converting constructor, and so is
`std::imag(x)`. Every call takes one unit of fuel; the result is `none` when
the fuel is used up before the call returns. -/
def scalar_traits_complex.is_zero {T : Type} [Zero T] : Nat → complex T → Option Bool
  | 0, _ => none
  | fuel + 1, x =>
    match scalar_traits_complex.is_zero fuel (complex.of_real x.re) with
    | none => none
    | some false => some false
    | some true => scalar_traits_complex.is_zero fuel (complex.of_real x.im)

/-! ## Dynamic indices -/

/-- Modelled from the spec: `dyn_indices.hpp` is not among the sources. One
atom of a dynamic index: "each position independently holds one of {integer,
floating, string}". The alternatives are in the order of
`dyn_indices_generic<std::string, int, double>` of `test/dyn_indices.cpp`; a
`double` is a rational number. -/
inductive dyn_atom where
  | string (s : String)
  | integer (i : Int)
  | floating (x : ℚ)
deriving DecidableEq

/-- Modelled from the spec: the kind of an atom, its position among the
alternatives `std::string, int, double`. -/
def dyn_atom.kind : dyn_atom → Nat
  | .string _ => 0
  | .integer _ => 1
  | .floating _ => 2

/-- Modelled from the spec: atoms are "ordered by (position-wise atom kind
then value)". -/
def dyn_atom.lt (a b : dyn_atom) : Bool :=
  if a.kind != b.kind then decide (a.kind < b.kind)
  else
    match a, b with
    | .string s, .string t => decide (s < t)
    | .integer i, .integer j => decide (i < j)
    | .floating x, .floating y => decide (x < y)
    | _, _ => false

/-- Modelled from the spec: two atoms are equal when they are of one kind and
have the same value. -/
def dyn_atom.eq (a b : dyn_atom) : Bool :=
  (a.kind == b.kind) &&
    match a, b with
    | .string s, .string t => decide (s = t)
    | .integer i, .integer j => decide (i = j)
    | .floating x, .floating y => decide (x = y)
    | _, _ => false

/-- Modelled from the spec: a dynamic index, "a sequence of atoms each being
one of {integer, floating, string}". -/
abbrev dyn_indices := List dyn_atom

/-- Modelled from the spec: the order of dynamic indices that
`test/dyn_indices.cpp` checks: an index with fewer atoms is before one with
more, indices of one length are compared lexicographically. -/
def dyn_indices.lt (ind1 ind2 : dyn_indices) : Bool :=
  if ind1.length != ind2.length then decide (ind1.length < ind2.length)
  else lex_lt dyn_atom.lt ind1 ind2

/-- Modelled from the spec: `operator>` of dynamic indices, the mirror image
of `operator<`. -/
def dyn_indices.gt (ind1 ind2 : dyn_indices) : Bool := dyn_indices.lt ind2 ind1

/-- Modelled from the spec: "equality is elementwise". -/
def dyn_indices.eq : dyn_indices → dyn_indices → Bool
  | [], [] => true
  | a :: ind1, b :: ind2 => dyn_atom.eq a b && dyn_indices.eq ind1 ind2
  | _, _ => false

/-! ## Equality of generators; the order and equality of monomials -/

/-- The virtual call `g1.equal(g2)`: the override of the class of `g1`, whose
`dynamic_cast` of `g2` to that class throws (`none`) for another class. -/
def generator.equal {ι : Type} [DecidableEq ι] : generator ι → generator ι → Option Bool
  | .fermion g1, .fermion g2 => some (g1.equal g2)
  | .boson g1, .boson g2 => some (g1.equal g2)
  | .spin g1, .spin g2 => some (g1.equal g2)
  | _, _ => none

/-- Modelled from the spec: `operator==` of `generator.hpp` (not among the
sources): "a Generator's identity is `(algebra_id, payload, index)`; equality
requires all three": the same algebra id and `equal`. -/
def generator.eq {ι : Type} [DecidableEq ι] [LT ι] [∀ a b : ι, Decidable (a < b)]
    (ids : algebra_ids) (g1 g2 : generator ι) : Option Bool :=
  if g1.algebra_id ids != g2.algebra_id ids then some false else g1.equal g2

/-- Modelled from the spec: `monomial.hpp` is not among the sources; a
monomial is a "finite ordered sequence of generators". -/
abbrev monomial (ι : Type) := List (generator ι)

/-- Modelled from the spec: `operator<` of monomials, the order that
`test/monomial.cpp` checks: shorter monomials first, monomials of one length
lexicographically by `operator<` of the generators. -/
def monomial.lt {ι : Type} [DecidableEq ι] [LT ι] [∀ a b : ι, Decidable (a < b)]
    (ids : algebra_ids) (m1 m2 : monomial ι) : Bool :=
  monomial_lt (fun g1 g2 => generator.lt ids g1 g2 == some true) m1 m2

/-- Modelled from the spec: `operator>` of monomials, the mirror image of
`operator<`. -/
def monomial.gt {ι : Type} [DecidableEq ι] [LT ι] [∀ a b : ι, Decidable (a < b)]
    (ids : algebra_ids) (m1 m2 : monomial ι) : Bool :=
  monomial.lt ids m2 m1

/-- Modelled from the spec: `operator==` of monomials: the same length and
equal generators at every position. -/
def monomial.eq {ι : Type} [DecidableEq ι] [LT ι] [∀ a b : ι, Decidable (a < b)]
    (ids : algebra_ids) : monomial ι → monomial ι → Bool
  | [], [] => true
  | g1 :: m1, g2 :: m2 => (generator.eq ids g1 g2 == some true) && monomial.eq ids m1 m2
  | _, _ => false

/-! ## Negation and subtraction of expressions -/

/-- Modelled from the spec: unary negation of an expression, "negate
scalars". -/
def expression.neg {G : Type} (e : expression G) : expression G :=
  e.map (fun t => (t.1, -t.2))

/-- Modelled from the spec: `E − F`, "as above with negated `F`": merge maps,
sum scalars on collisions, drop zeros. The compound assignment `E -= F` gives
`E` this value. -/
def expression.sub {G : Type} (ops : generator_ops G) (e f : expression G) : expression G :=
  expression.add ops e (expression.neg f)

/-- Modelled from the spec: the scalar `E[m]` that the expression, a "mapping
from monomial to nonzero scalar", holds for the monomial `m`; zero when `m` is
not in it. -/
def expression.coeff {G : Type} [DecidableEq G] : expression G → List G → Int
  | [], _ => 0
  | (m1, s1) :: rest, m => if m1 = m then s1 else expression.coeff rest m

/-- Modelled from the spec: the invariant of an expression: "monomials are
stored in the canonical order" and "no value is the scalar zero". -/
def expression.well_formed {G : Type} (ops : generator_ops G) (e : expression G) : Prop :=
  List.Pairwise (fun a b => monomial_lt ops.lt a b = true) (e.map Prod.fst) ∧
  ∀ t ∈ e, is_zero t.2 = false

/-! ## The constructor of `monomial_action<spin>` -/

/-- Modelled from the spec: the accessor `spin()` of `generator_spin` is not
in the `generator_spin.hpp` among the sources; the multiplicity is `2S+1`, so
the spin is `(multiplicity - 1) / 2`. -/
def generator_spin.spin {ι : Type} (g : generator_spin ι) : ℚ :=
  ((g.multiplicity : ℚ) - 1) / 2

/-- The function `is_spin` of `generator_spin.hpp`. -/
def is_spin {ι : Type} [DecidableEq ι] [LT ι] [∀ a b : ι, Decidable (a < b)]
    (ids : algebra_ids) (gen : generator ι) : Bool :=
  gen.algebra_id ids == SPIN_ALGEBRA_ID

/-- The ways in which the constructor of `monomial_action<spin>` can end
without building the object: the exception `unknown_generator` (of
`monomial_action.hpp`, not among the sources) that it throws, the exception of
`hilbert_space::bit_range`, the `std::bad_cast` of a failed `dynamic_cast` to a
reference, and a failed assertion in a constructor it calls. -/
inductive monomial_action_exception (ι : Type) where
  | unknown_generator (g : generator ι)
  | basis_space_not_found (e : basis_space_not_found (elementary_space ι))
  | bad_cast
  | assertion_failed
deriving DecidableEq, Repr

namespace monomial_action_spin

variable {ι : Type} [DecidableEq ι] [LT ι] [∀ a b : ι, Decidable (a < b)]

/-- The update that the constructor appends to `updates_` for the generator
`g` with the bit range `bit_range` of its space and the power `power`
(`monomial_action_spin.hpp`, lines 98-113). The `int shift` is kept as a bit
position; `sv_index_type(1) << n_bits` and the subtraction of 1 are taken
modulo `2^64`. -/
def make_update (g : generator_spin ι) (bit_range : bit_range_t) (power : Nat) :
    single_spin_update_t :=
  let spin := g.spin
  let shift : Int := bit_range.1
  let n_bits : Int := bit_range.2 - bit_range.1 + 1
  { s2 := to_uint64 (to_int (2 * spin))
    shift := shift.toNat
    mask := ((1 <<< n_bits.toNat) % sv_index_modulus + sv_index_modulus - 1) %
      sv_index_modulus
    c := g.c
    power := power }

/-- The loop of the constructor of `monomial_action<spin>` over the part of
the range from `it` on: `power`, `updates_` and `sqr_roots_size` are the
variables of the loop; the result is their final value, or the way the
constructor ends. The space `bs` is built by the constructor of the spin space
among the sources (`elementary_space_spin`, the `basis_space_spin` of the
constructor). -/
def constructor_loop (ids : space_algebra_ids) (hs : hilbert_space (elementary_space ι)) :
    List (generator ι) → Nat → List single_spin_update_t → Nat →
      Except (monomial_action_exception ι) (List single_spin_update_t × Nat)
  | [], _, updates, sqr_roots_size => .ok (updates, sqr_roots_size)
  | it :: rest, power, updates, sqr_roots_size =>
    if !is_spin ids.toalgebra_ids it then .error (.unknown_generator it)
    else
      let last_of_run : Option Bool :=
        match rest with
        | [] => some true
        | next_it :: _ => (generator.eq ids.toalgebra_ids next_it it).map (fun b => !b)
      match last_of_run with
      | none => .error .bad_cast
      | some false =>
        constructor_loop ids hs rest ((power + 1) % sv_index_modulus) updates sqr_roots_size
      | some true =>
        match it with
        | .spin g =>
          let spin := g.spin
          match elementary_space_spin.mk_spin spin g.indices with
          | none => .error .assertion_failed
          | some bs =>
            if !hilbert_space.has (elementary_space_ops ids) hs (.spin bs) then
              .error (.unknown_generator (.spin g))
            else
              match hilbert_space.bit_range (elementary_space_ops ids) hs (.spin bs) with
              | .error e => .error (.basis_space_not_found e)
              | .ok bit_range =>
                let ss := spin_ss g.multiplicity spin
                let sqr_roots_size := max sqr_roots_size ((ss + 1) % sv_index_modulus)
                constructor_loop ids hs rest 1
                  (updates ++ [make_update g bit_range power]) sqr_roots_size
        | _ => .error .bad_cast

/-- The constructor `monomial_action(m_range, hs)`: the loop over the range,
then the table of square roots is given its size (and filled). For an empty
range the loop body does not run. -/
def of_range (ids : space_algebra_ids) (m_range : List (generator ι))
    (hs : hilbert_space (elementary_space ι)) :
    Except (monomial_action_exception ι) monomial_action_spin :=
  match constructor_loop ids hs m_range 1 [] 0 with
  | .error e => .error e
  | .ok (updates, sqr_roots_size) =>
    .ok { updates := updates
          sqr_roots_size := min sqr_roots_size LIBCOMMUTE_SPIN_MAX_NUM_PRECOMPUTED_SQRT }

end monomial_action_spin

/-- Run-length encoding, in the words of the spec: "runs of the same generator
collapse to `(generator, power)`". -/
def run_length_encoding {α : Type} [DecidableEq α] : List α → List (α × Nat)
  | [] => []
  | a :: l =>
    match run_length_encoding l with
    | (b, k) :: r => if a = b then (a, k + 1) :: r else (a, 1) :: (b, k) :: r
    | [] => [(a, 1)]

/-- The invariants of an update that the constructor builds for a spin whose
field has `n_bits` bits in a Hilbert space of at most 64 bits: the mask selects
the bits of the field, at most 31 of them (the multiplicity is an `int`), every
value `0 .. 2s` fits in the field, and the field lies within the 64 bits of a
state index. -/
def single_spin_update_t.well_formed (u : single_spin_update_t) (n_bits : Nat) : Prop :=
  u.mask = 2 ^ n_bits - 1 ∧ u.s2 ≤ u.mask ∧ u.shift + n_bits ≤ 64 ∧ n_bits ≤ 31

/-- The elementary space of a spin generator, the space that the constructor
of `monomial_action<spin>` builds from `g.spin()` and `g.indices()`: it has the
multiplicity of the generator. -/
def generator_spin.space {ι : Type} (g : generator_spin ι) : elementary_space ι :=
  .spin { multiplicity := g.multiplicity
          n_bits := (Nat.clog 2 g.multiplicity.toNat : Nat)
          indices := g.indices }

/-- The bit range that the constructor of `monomial_action<spin>` finds for
the space of the generator `g`; `(0, 0)` stands for no range. -/
def spin_bit_range {ι : Type} [DecidableEq ι] [LT ι] [∀ a b : ι, Decidable (a < b)]
    (ids : space_algebra_ids) (hs : hilbert_space (elementary_space ι))
    (g : generator_spin ι) : bit_range_t :=
  match map_find (elementary_space_ops ids).lt hs.basis_spaces g.space with
  | some r => r
  | none => ((0, 0) : bit_range_t)

/-! ## Amplitudes of spin actions -/

namespace monomial_action_spin

/-- The arguments of the calls of `sqr_root` in one pass through the body of
the loop of `act` for the update `u`, in the order of the calls (lines
138-151): none when the pass returns `false` and none in the case `z`. -/
def sqr_root_args (u : single_spin_update_t) (out_index : Nat) : List Nat :=
  let n : Int := to_int64 ((out_index >>> u.shift) &&& u.mask)
  match u.c with
  | .plus =>
    if (to_uint64 n + u.power) % sv_index_modulus > u.s2 then []
    else
      (List.range u.power).map fun (d : Nat) =>
        (to_uint64 ((u.s2 : Int) - (n + d)) * to_uint64 (n + d + 1)) % sv_index_modulus
  | .minus =>
    if n - to_int64 u.power < 0 then []
    else
      (List.range u.power).map fun (d : Nat) =>
        (((to_uint64 ((u.s2 : Int) - (n - d)) + 1) % sv_index_modulus) *
          to_uint64 (n - d)) % sv_index_modulus
  | .z => []

/-- The value of `out_index` after one pass through the body of the loop of
`act` for the update `u`; `none` when the pass returns `false`. -/
def update_index (u : single_spin_update_t) (out_index : Nat) : Option Nat :=
  let n : Int := to_int64 ((out_index >>> u.shift) &&& u.mask)
  match u.c with
  | .plus =>
    if (to_uint64 n + u.power) % sv_index_modulus > u.s2 then none
    else some ((out_index + (u.power <<< u.shift) % sv_index_modulus) % sv_index_modulus)
  | .minus =>
    if n - to_int64 u.power < 0 then none
    else
      some ((out_index + sv_index_modulus - (u.power <<< u.shift) % sv_index_modulus) %
        sv_index_modulus)
  | .z =>
    if (u.s2 % 2 == 0) && (to_uint64 n == u.s2 / 2) then none else some out_index

/-- The arguments of all calls of `sqr_root` during the loop of `act` over the
updates still to be applied, in the order of the calls. -/
def act_sqr_root_args : List single_spin_update_t → Nat → List Nat
  | [], _ => []
  | u :: us, out_index =>
    sqr_root_args u out_index ++
      match update_index u out_index with
      | some out1 => act_sqr_root_args us out1
      | none => []

end monomial_action_spin

/-! ## The bit field of a space in a state index -/

/-- The value that the bits `[lo, hi]` of a state index hold, read the way
`act` reads the field of a spin: `(index >> shift) & mask` with `shift = lo`
and `mask = (1 << n_bits) - 1`, `n_bits = hi - lo + 1`. -/
def bit_field (index : Nat) (bit_range : bit_range_t) : Nat :=
  (index >>> bit_range.1.toNat) &&&
    ((1 <<< (bit_range.2 - bit_range.1 + 1).toNat) - 1)

/-- The requirement of `std::map` on its comparator, a strict weak ordering:
irreflexive, transitive, and with `a < b` every `c` is after `a` or before
`b`. -/
def space_ops.strict_weak_order {S : Type} (ops : space_ops S) : Prop :=
  (∀ a, ops.lt a a = false) ∧
  (∀ a b c, ops.lt a b = true → ops.lt b c = true → ops.lt a c = true) ∧
  (∀ a b c, ops.lt a b = true → ops.lt a c = true ∨ ops.lt c b = true)

/-! ## Theorems: the fermionic generator -/

/-- The value `swap_with` produces when its assertion holds. -/
theorem fermion_swap_with_of_gt {ι : Type} [DecidableEq ι] [LT ι]
    [∀ a b : ι, Decidable (a < b)] (g h : generator_fermion ι)
    (out : linear_function (generator_fermion ι))
    (hgt : generator_fermion.gt g h = true) :
    generator_fermion.swap_with g h out =
      some (-1, { const_term := if g.indices = h.indices ∧ g.dagger ≠ h.dagger then 1 else 0,
                  terms := [] }) := by
  simp only [generator_fermion.swap_with, hgt, if_true, linear_function.set_const, base_equal]
  by_cases hi : g.indices = h.indices <;> by_cases hd : g.dagger = h.dagger <;> simp [hi, hd]

/-- The value `simplify_prod` produces when its assertion holds. -/
theorem fermion_simplify_prod_of_not_gt {ι : Type} [DecidableEq ι] [LT ι]
    [∀ a b : ι, Decidable (a < b)] (g h : generator_fermion ι)
    (out : linear_function (generator_fermion ι))
    (hle : generator_fermion.gt g h = false) :
    generator_fermion.simplify_prod g h out =
      if g.dagger = h.dagger ∧ g.indices = h.indices then
        some (true, { const_term := 0, terms := [] })
      else some (false, out) := by
  simp only [generator_fermion.simplify_prod, hle, generator_fermion.eq,
    generator_fermion.equal, linear_function.set_const, base_equal]
  by_cases hi : g.indices = h.indices <;> by_cases hd : g.dagger = h.dagger <;> simp [hi, hd]

/-- The function `greater` is `less` with the operands exchanged. -/
theorem fermion_greater_eq_less_swap {ι : Type} [LT ι]
    [∀ a b : ι, Decidable (a < b)] (a b : generator_fermion ι) :
    generator_fermion.greater a b = generator_fermion.less b a := by
  obtain ⟨da, ia⟩ := a
  obtain ⟨db, ib⟩ := b
  cases da <;> cases db <;>
    simp [generator_fermion.greater, generator_fermion.less, base_less, base_greater]

/-- C1: for fermion generators `g > h`, `g.swap_with(h, out)` returns the
coefficient `-1` and sets `out` to a pure constant, with no generator terms,
that is `1` when `g` and `h` carry the same index and opposite dagger flags and
`0` otherwise. -/
theorem C1_fermion_swap_with {ι : Type} [DecidableEq ι] [LT ι]
    [∀ a b : ι, Decidable (a < b)] (g h : generator_fermion ι)
    (out : linear_function (generator_fermion ι))
    (hgt : generator_fermion.gt g h = true) :
    generator_fermion.swap_with g h out =
      some (-1, { const_term := if g.indices = h.indices ∧ g.dagger ≠ h.dagger then 1 else 0,
                  terms := [] }) :=
  fermion_swap_with_of_gt g h out hgt

/-- Witness of C1: `c_1 > c+_1`, and swapping them gives `-1` and the
constant `1`, whatever `out` held before. -/
theorem C1_fermion_swap_with_witness :
    generator_fermion.gt (⟨false, 1⟩ : generator_fermion Nat) ⟨true, 1⟩ = true ∧
    generator_fermion.swap_with (⟨false, 1⟩ : generator_fermion Nat) ⟨true, 1⟩
        { const_term := 7, terms := [(⟨true, 5⟩, 3)] } =
      some (-1, { const_term := if (1 : Nat) = 1 ∧ false ≠ true then 1 else 0, terms := [] }) :=
  ⟨by decide, C1_fermion_swap_with ⟨false, 1⟩ ⟨true, 1⟩ _ (by decide)⟩

/-- C3: for fermion generators `g`, `h` with not `g > h`,
`g.simplify_prod(h, out)` returns `true` exactly when `g` and `h` have the same
dagger flag and the same index (which is when `g` equals `h`), and then `out`
is the constant `0` with no generator terms; when it returns `false`, `out` is
left as it was. -/
theorem C3_fermion_simplify_prod {ι : Type} [DecidableEq ι] [LT ι]
    [∀ a b : ι, Decidable (a < b)] (g h : generator_fermion ι)
    (out : linear_function (generator_fermion ι))
    (hle : generator_fermion.gt g h = false) :
    (generator_fermion.simplify_prod g h out =
      if g.dagger = h.dagger ∧ g.indices = h.indices then
        some (true, { const_term := 0, terms := [] })
      else some (false, out)) ∧
    (g = h ↔ g.dagger = h.dagger ∧ g.indices = h.indices) := by
  refine ⟨fermion_simplify_prod_of_not_gt g h out hle, ?_⟩
  obtain ⟨dg, ig⟩ := g
  obtain ⟨dh, ih⟩ := h
  simp

/-- Witness of C3: `c+_1 · c+_1` simplifies to `0`. -/
theorem C3_fermion_simplify_prod_witness :
    generator_fermion.gt (⟨true, 1⟩ : generator_fermion Nat) ⟨true, 1⟩ = false ∧
    ((generator_fermion.simplify_prod (⟨true, 1⟩ : generator_fermion Nat) ⟨true, 1⟩
        { const_term := 7, terms := [(⟨true, 5⟩, 3)] } =
      if true = true ∧ (1 : Nat) = 1 then
        some (true, { const_term := 0, terms := [] })
      else some (false, { const_term := 7, terms := [(⟨true, 5⟩, 3)] })) ∧
    ((⟨true, 1⟩ : generator_fermion Nat) = ⟨true, 1⟩ ↔ true = true ∧ (1 : Nat) = 1)) :=
  ⟨by decide, C3_fermion_simplify_prod ⟨true, 1⟩ ⟨true, 1⟩ _ (by decide)⟩

/-- C4: the order on fermion generators puts every creation operator before
every annihilation operator, compares two creation operators the way their
indices compare and two annihilation operators opposite to their indices;
`greater` mirrors `less`; and `c+_1 < c+_2 < c+_3 < c_3 < c_2 < c_1`. -/
theorem C4_fermion_order :
    (∀ (ι : Type) [DecidableEq ι] [LT ι] [∀ a b : ι, Decidable (a < b)] (i j : ι),
      generator_fermion.less ⟨true, i⟩ ⟨false, j⟩ = true ∧
      generator_fermion.less ⟨false, i⟩ ⟨true, j⟩ = false ∧
      (generator_fermion.less ⟨true, i⟩ ⟨true, j⟩ = true ↔ i < j) ∧
      (generator_fermion.less ⟨false, i⟩ ⟨false, j⟩ = true ↔ j < i) ∧
      generator_fermion.greater ⟨false, i⟩ ⟨true, j⟩ = true ∧
      generator_fermion.greater ⟨true, i⟩ ⟨false, j⟩ = false ∧
      (generator_fermion.greater ⟨true, i⟩ ⟨true, j⟩ = true ↔ j < i) ∧
      (generator_fermion.greater ⟨false, i⟩ ⟨false, j⟩ = true ↔ i < j)) ∧
    List.Pairwise (fun a b => generator_fermion.less a b = true ∧
        generator_fermion.greater b a = true)
      ([⟨true, 1⟩, ⟨true, 2⟩, ⟨true, 3⟩, ⟨false, 3⟩, ⟨false, 2⟩, ⟨false, 1⟩] :
        List (generator_fermion Nat)) := by
  refine ⟨?_, by decide⟩
  intro ι _ _ _ i j
  simp [generator_fermion.less, generator_fermion.greater, base_less, base_greater]

/-- C6: for every fermion generator `g`, `conj(g)` is the linear function with
constant `0` and the single term `1 * g'`, where `g'` has the index of `g` and
the opposite dagger flag; conjugating `g'` gives back `1 * g`. -/
theorem C6_fermion_conj {ι : Type} (g : generator_fermion ι)
    (f f' : linear_function (generator_fermion ι)) :
    generator_fermion.conj g f =
      { const_term := 0, terms := [({ dagger := !g.dagger, indices := g.indices }, 1)] } ∧
    generator_fermion.conj { dagger := !g.dagger, indices := g.indices } f' =
      { const_term := 0, terms := [(g, 1)] } := by
  obtain ⟨d, i⟩ := g
  simp [generator_fermion.conj, linear_function.set_term]

/-! ## Theorems: the order within one algebra -/

/-- The function `less` on fermion generators, spelled out. -/
theorem fermion_less_iff {ι : Type} [LT ι] [∀ a b : ι, Decidable (a < b)]
    (a b : generator_fermion ι) :
    generator_fermion.less a b = true ↔
      (a.dagger = true ∧ b.dagger = false) ∨
      (a.dagger = true ∧ b.dagger = true ∧ a.indices < b.indices) ∨
      (a.dagger = false ∧ b.dagger = false ∧ b.indices < a.indices) := by
  obtain ⟨da, ia⟩ := a
  obtain ⟨db, ib⟩ := b
  cases da <;> cases db <;> simp [generator_fermion.less, base_less, base_greater]

/-- The function `equal` on fermion generators is equality of both fields. -/
theorem fermion_equal_iff {ι : Type} [DecidableEq ι]
    (a b : generator_fermion ι) :
    generator_fermion.equal a b = true ↔ a.dagger = b.dagger ∧ a.indices = b.indices := by
  simp [generator_fermion.equal, base_equal]

/-- The function `less` on spin generators is the lexicographic order of
`(multiplicity, indices, component)`. -/
theorem spin_less_iff {ι : Type} [LinearOrder ι] (a b : generator_spin ι) :
    generator_spin.less a b = true ↔
      a.multiplicity < b.multiplicity ∨
      (a.multiplicity = b.multiplicity ∧
        (a.indices < b.indices ∨
          (a.indices = b.indices ∧ a.c.toInt < b.c.toInt))) := by
  unfold generator_spin.less
  by_cases hm : a.multiplicity = b.multiplicity
  · by_cases hi : a.indices = b.indices
    · simp [hm, hi]
    · simp [hm, hi]
  · simp [hm]

/-- The function `greater` on spin generators is `less` with the operands exchanged. -/
theorem spin_greater_eq_less_swap {ι : Type} [DecidableEq ι] [LT ι]
    [∀ a b : ι, Decidable (a < b)] (a b : generator_spin ι) :
    generator_spin.greater a b = generator_spin.less b a := by
  unfold generator_spin.greater generator_spin.less
  by_cases hm : a.multiplicity = b.multiplicity
  · by_cases hi : a.indices = b.indices
    · simp [hm, hi]
    · have hi' : ¬ b.indices = a.indices := fun h => hi h.symm
      simp [hm, hi, hi']
  · have hm' : ¬ b.multiplicity = a.multiplicity := fun h => hm h.symm
    simp [hm, hm']

/-- The function `equal` on spin generators is equality of the three fields. -/
theorem spin_equal_iff {ι : Type} [DecidableEq ι] (a b : generator_spin ι) :
    generator_spin.equal a b = true ↔
      a.multiplicity = b.multiplicity ∧ a.indices = b.indices ∧ a.c = b.c := by
  simp [generator_spin.equal]
  tauto

/-- The integer values of the spin components tell them apart. -/
theorem spin_component_toInt_injective (x y : spin_component)
    (h : x.toInt = y.toInt) : x = y := by
  cases x <;> cases y <;> simp [spin_component.toInt] at h ⊢

/-- The fermionic order is a strict total order when the index order is. -/
theorem fermion_strict_total {ι : Type} [LinearOrder ι]
    (a b c : generator_fermion ι) :
    (generator_fermion.less a b = true ∨ generator_fermion.equal a b = true ∨
      generator_fermion.greater a b = true) ∧
    ¬ (generator_fermion.less a b = true ∧ generator_fermion.equal a b = true) ∧
    ¬ (generator_fermion.less a b = true ∧ generator_fermion.greater a b = true) ∧
    ¬ (generator_fermion.equal a b = true ∧ generator_fermion.greater a b = true) ∧
    generator_fermion.greater a b = generator_fermion.less b a ∧
    (generator_fermion.less a b = true → generator_fermion.less b c = true →
      generator_fermion.less a c = true) := by
  rw [fermion_greater_eq_less_swap]
  simp only [fermion_less_iff, fermion_equal_iff]
  obtain ⟨da, ia⟩ := a
  obtain ⟨db, ib⟩ := b
  obtain ⟨dc, ic⟩ := c
  rcases lt_trichotomy ia ib with h | h | h
  · have h1 : ¬ ib < ia := lt_asymm h
    have h2 : ia ≠ ib := ne_of_lt h
    cases da <;> cases db <;> cases dc <;> simp [h, h1, h2]
    intro h3
    exact lt_trans h h3
  · subst h
    cases da <;> cases db <;> cases dc <;> simp
  · have h1 : ¬ ia < ib := lt_asymm h
    have h2 : ia ≠ ib := ne_of_gt h
    cases da <;> cases db <;> cases dc <;> simp [h, h1, h2]
    intro h3
    exact lt_trans h3 h

/-- The spin order is a strict total order when the index order is. -/
theorem spin_strict_total {ι : Type} [LinearOrder ι]
    (a b c : generator_spin ι) :
    (generator_spin.less a b = true ∨ generator_spin.equal a b = true ∨
      generator_spin.greater a b = true) ∧
    ¬ (generator_spin.less a b = true ∧ generator_spin.equal a b = true) ∧
    ¬ (generator_spin.less a b = true ∧ generator_spin.greater a b = true) ∧
    ¬ (generator_spin.equal a b = true ∧ generator_spin.greater a b = true) ∧
    generator_spin.greater a b = generator_spin.less b a ∧
    (generator_spin.less a b = true → generator_spin.less b c = true →
      generator_spin.less a c = true) := by
  rw [spin_greater_eq_less_swap]
  simp only [spin_less_iff, spin_equal_iff]
  obtain ⟨ma, ca, ia⟩ := a
  obtain ⟨mb, cb, ib⟩ := b
  obtain ⟨mc, cc, ic⟩ := c
  have hc : ca.toInt = cb.toInt → ca = cb := spin_component_toInt_injective ca cb
  have hc' : ca = cb → ca.toInt = cb.toInt := fun h => by rw [h]
  simp only
  refine ⟨?_, ?_, ?_, ?_, trivial, ?_⟩
  · rcases lt_trichotomy ma mb with h | h | h
    · exact Or.inl (Or.inl h)
    · rcases lt_trichotomy ia ib with h1 | h1 | h1
      · exact Or.inl (Or.inr ⟨h, Or.inl h1⟩)
      · rcases lt_trichotomy ca.toInt cb.toInt with h2 | h2 | h2
        · exact Or.inl (Or.inr ⟨h, Or.inr ⟨h1, h2⟩⟩)
        · exact Or.inr (Or.inl ⟨h, h1, hc h2⟩)
        · exact Or.inr (Or.inr (Or.inr ⟨h.symm, Or.inr ⟨h1.symm, h2⟩⟩))
      · exact Or.inr (Or.inr (Or.inr ⟨h.symm, Or.inl h1⟩))
    · exact Or.inr (Or.inr (Or.inl h))
  · rintro ⟨h | ⟨_, h | ⟨_, h⟩⟩, h1, h2, h3⟩
    · omega
    · exact absurd h2 (ne_of_lt h)
    · have := hc' h3
      omega
  · rintro ⟨h | ⟨h0, h | ⟨h0', h⟩⟩, h1 | ⟨h2, h1 | ⟨h2', h1⟩⟩⟩
    · omega
    · omega
    · omega
    · omega
    · exact lt_asymm h h1
    · exact absurd h2' (ne_of_gt h)
    · omega
    · exact absurd h0' (ne_of_gt h1)
    · omega
  · rintro ⟨⟨h1, h2, h3⟩, h | ⟨_, h | ⟨_, h⟩⟩⟩
    · omega
    · exact absurd h2 (ne_of_gt h)
    · have := hc' h3
      omega
  · rintro (h | ⟨h0, h | ⟨h0', h⟩⟩) (h1 | ⟨h2, h1 | ⟨h2', h1⟩⟩)
    · exact Or.inl (lt_trans h h1)
    · exact Or.inl (h2 ▸ h)
    · exact Or.inl (h2 ▸ h)
    · exact Or.inl (h0 ▸ h1)
    · exact Or.inr ⟨h0.trans h2, Or.inl (lt_trans h h1)⟩
    · exact Or.inr ⟨h0.trans h2, Or.inl (h2' ▸ h)⟩
    · exact Or.inl (h0 ▸ h1)
    · exact Or.inr ⟨h0.trans h2, Or.inl (h0' ▸ h1)⟩
    · exact Or.inr ⟨h0.trans h2, Or.inr ⟨h0'.trans h2', lt_trans h h1⟩⟩

/-- C5: within the fermionic algebra, and likewise within the spin algebra,
the generator order is a strict total order whenever the index order is one:
for any two generators exactly one of `less`, `equal`, `greater` holds,
`greater(a, b)` is `less(b, a)`, and `less` is transitive. -/
theorem C5_generator_order_strict_total (ι : Type) [LinearOrder ι] :
    (∀ a b c : generator_fermion ι,
      (generator_fermion.less a b = true ∨ generator_fermion.equal a b = true ∨
        generator_fermion.greater a b = true) ∧
      ¬ (generator_fermion.less a b = true ∧ generator_fermion.equal a b = true) ∧
      ¬ (generator_fermion.less a b = true ∧ generator_fermion.greater a b = true) ∧
      ¬ (generator_fermion.equal a b = true ∧ generator_fermion.greater a b = true) ∧
      generator_fermion.greater a b = generator_fermion.less b a ∧
      (generator_fermion.less a b = true → generator_fermion.less b c = true →
        generator_fermion.less a c = true)) ∧
    (∀ a b c : generator_spin ι,
      (generator_spin.less a b = true ∨ generator_spin.equal a b = true ∨
        generator_spin.greater a b = true) ∧
      ¬ (generator_spin.less a b = true ∧ generator_spin.equal a b = true) ∧
      ¬ (generator_spin.less a b = true ∧ generator_spin.greater a b = true) ∧
      ¬ (generator_spin.equal a b = true ∧ generator_spin.greater a b = true) ∧
      generator_spin.greater a b = generator_spin.less b a ∧
      (generator_spin.less a b = true → generator_spin.less b c = true →
        generator_spin.less a c = true)) :=
  ⟨fermion_strict_total, spin_strict_total⟩

/-- Witness of C5 on natural-number indices: `c+_1 < c+_2 < c_2`, so
`c+_1 < c_2`, and `S+_1 < S-_1 < Sz_1` for spin 1/2, so `S+_1 < Sz_1`. -/
theorem C5_generator_order_strict_total_witness :
    generator_fermion.less (⟨true, 1⟩ : generator_fermion Nat) ⟨false, 2⟩ = true ∧
    generator_spin.less (⟨2, .plus, 1⟩ : generator_spin Nat) ⟨2, .z, 1⟩ = true :=
  ⟨((C5_generator_order_strict_total Nat).1 ⟨true, 1⟩ ⟨true, 2⟩ ⟨false, 2⟩).2.2.2.2.2
      (by decide) (by decide),
   ((C5_generator_order_strict_total Nat).2 ⟨2, .plus, 1⟩ ⟨2, .minus, 1⟩ ⟨2, .z, 1⟩).2.2.2.2.2
      (by decide) (by decide)⟩

/-! ## Theorems: the spin generator -/

/-- C7: for spin generators `a` and `b`, `a < b` holds exactly when the triple
`(multiplicity, index, component)` of `a` is lexicographically smaller than
that of `b`, the components being ordered `plus < minus < z`; `a` and `b` are
equal exactly when the three fields agree. -/
theorem C7_spin_order (ι : Type) [LinearOrder ι] (a b : generator_spin ι) :
    (generator_spin.less a b = true ↔
      a.multiplicity < b.multiplicity ∨
      (a.multiplicity = b.multiplicity ∧
        (a.indices < b.indices ∨
          (a.indices = b.indices ∧ a.c.toInt < b.c.toInt)))) ∧
    (generator_spin.equal a b = true ↔
      a.multiplicity = b.multiplicity ∧ a.indices = b.indices ∧ a.c = b.c) ∧
    (generator_spin.equal a b = true ↔ a = b) ∧
    spin_component.plus.toInt < spin_component.minus.toInt ∧
    spin_component.minus.toInt < spin_component.z.toInt ∧
    (∀ x y : spin_component, x.toInt = y.toInt → x = y) := by
  refine ⟨spin_less_iff a b, spin_equal_iff a b, ?_, by decide,
    by decide, spin_component_toInt_injective⟩
  rw [spin_equal_iff]
  obtain ⟨ma, ca, ia⟩ := a
  obtain ⟨mb, cb, ib⟩ := b
  simp
  tauto

/-- The order of the three algebras that `test/monomial.cpp` checks fixes the
order of their ids: when a fermion generator is less than a boson generator and
a boson generator less than a spin generator, the fermion id is below the boson
id and the boson id below `-1`. -/
theorem algebra_order_forces_ids {ι : Type} [DecidableEq ι] [LT ι]
    [∀ a b : ι, Decidable (a < b)] (ids : algebra_ids)
    (f : generator_fermion ι) (b : generator_boson ι) (s : generator_spin ι)
    (hfb : generator.lt ids (.fermion f) (.boson b) = some true)
    (hbs : generator.lt ids (.boson b) (.spin s) = some true) :
    ids.fermion < ids.boson ∧ ids.boson < SPIN_ALGEBRA_ID := by
  have hs : SPIN_ALGEBRA_ID = -1 := rfl
  constructor
  · by_cases h : ids.fermion = ids.boson
    · simp [generator.lt, generator.algebra_id, generator.less, h] at hfb
    · simpa [generator.lt, generator.algebra_id, h] using hfb
  · by_cases h : ids.boson = -1
    · simp [generator.lt, generator.algebra_id, generator.less, generator_spin.algebra_id,
        hs, h] at hbs
    · simpa [generator.lt, generator.algebra_id, generator_spin.algebra_id, hs, h] using hbs

/-- C8 as the code has it: `algebra_id()` of every spin generator is
`SPIN_ALGEBRA_ID = -1`; with the fermion id below the boson id and the boson id
below `-1`, the order of the three algebras that `test/monomial.cpp` checks,
the spin id is above the fermion id and the boson id, and under the
cross-algebra rule every fermion generator is less than every boson generator
and every boson generator is less than every spin generator, so every fermion
generator is less than every spin generator too, and none of these comparisons
holds the other way round. -/
theorem C8_spin_algebra_id {ι : Type} [DecidableEq ι] [LT ι]
    [∀ a b : ι, Decidable (a < b)] (ids : algebra_ids)
    (hfb : ids.fermion < ids.boson) (hbs : ids.boson < SPIN_ALGEBRA_ID)
    (f : generator_fermion ι) (b : generator_boson ι) (s : generator_spin ι) :
    generator_spin.algebra_id s = -1 ∧
    generator.algebra_id ids (.spin s) = -1 ∧
    generator.algebra_id ids (.fermion f) < generator.algebra_id ids (.spin s) ∧
    generator.algebra_id ids (.boson b) < generator.algebra_id ids (.spin s) ∧
    generator.lt ids (.fermion f) (.boson b) = some true ∧
    generator.lt ids (.boson b) (.spin s) = some true ∧
    generator.lt ids (.fermion f) (.spin s) = some true ∧
    generator.lt ids (.boson b) (.fermion f) = some false ∧
    generator.lt ids (.spin s) (.boson b) = some false ∧
    generator.lt ids (.spin s) (.fermion f) = some false := by
  have hs : SPIN_ALGEBRA_ID = -1 := rfl
  rw [hs] at hbs
  have h1 : ids.fermion ≠ ids.boson := by omega
  have h2 : ids.boson ≠ -1 := by omega
  have h3 : ids.fermion ≠ -1 := by omega
  have h4 : ids.fermion < -1 := by omega
  refine ⟨rfl, rfl, h4, hbs, ?_, ?_, ?_, ?_, ?_, ?_⟩
  · simp [generator.lt, generator.algebra_id, h1, hfb]
  · simp [generator.lt, generator.algebra_id, generator_spin.algebra_id, hs, h2, hbs]
  · simp [generator.lt, generator.algebra_id, generator_spin.algebra_id, hs, h3, h4]
  · simp [generator.lt, generator.algebra_id, Ne.symm h1]
    omega
  · simp [generator.lt, generator.algebra_id, generator_spin.algebra_id, hs, Ne.symm h2]
    omega
  · simp [generator.lt, generator.algebra_id, generator_spin.algebra_id, hs, Ne.symm h3]
    omega

/-- Witness of C8: with the fermion id `-3` and the boson id `-2` the
generators `c+_0`, `a_0` and `S+_0` are in this order. -/
theorem C8_spin_algebra_id_witness :
    ((-3 : Int) < -2 ∧ (-2 : Int) < SPIN_ALGEBRA_ID) ∧
    generator.lt { fermion := -3, boson := -2 }
      (.fermion ⟨true, 0⟩ : generator Nat) (.boson ⟨false, 0⟩) = some true ∧
    generator.lt { fermion := -3, boson := -2 }
      (.boson ⟨false, 0⟩ : generator Nat) (.spin (generator_spin.mk_default .plus 0)) =
      some true :=
  ⟨by decide,
   (C8_spin_algebra_id { fermion := -3, boson := -2 } (by decide) (by decide)
      (⟨true, 0⟩ : generator_fermion Nat) ⟨false, 0⟩
      (generator_spin.mk_default .plus 0)).2.2.2.2.1,
   (C8_spin_algebra_id { fermion := -3, boson := -2 } (by decide) (by decide)
      (⟨true, 0⟩ : generator_fermion Nat) ⟨false, 0⟩
      (generator_spin.mk_default .plus 0)).2.2.2.2.2.1⟩

/-- Counterexample to C8 as stated: the algebra id of the spin generator
`S+_0` is `-1`, not `2`. -/
theorem C8_spin_algebra_id_counterexample :
    generator_spin.algebra_id (generator_spin.mk_default .plus 0 : generator_spin Nat) = -1 ∧
    generator_spin.algebra_id (generator_spin.mk_default .plus 0 : generator_spin Nat) ≠ 2 := by
  decide

/-! ## Theorems: the spin constructors -/

/-- Converting an integral value to `int` gives that integer. -/
theorem to_int_intCast (k : Int) : to_int (k : ℚ) = k := by
  unfold to_int
  split <;> simp

/-- The assertion of the spin constructors holds exactly when `2s` is an
integer. -/
theorem spin_assert_iff (s : ℚ) :
    2 * s = (to_int (s * 2) : ℚ) ↔ ∃ k : Int, 2 * s = k := by
  constructor
  · intro h
    exact ⟨_, h⟩
  · rintro ⟨k, hk⟩
    have h2 : s * 2 = (k : ℚ) := by rw [mul_comm]; exact hk
    rw [h2, to_int_intCast]
    exact hk

/-- The multiplicity the spin constructors store when `2s` is the integer
`k`. -/
theorem spin_multiplicity (s : ℚ) (k : Int) (hk : 2 * s = k) :
    to_int (2 * s + 1) = k + 1 := by
  have h2 : 2 * s + 1 = ((k + 1 : Int) : ℚ) := by
    push_cast
    rw [hk]
  rw [h2, to_int_intCast]

/-- The generator that `generator_spin(spin, c, indices)` builds when `2s` is
the integer `k`. -/
theorem generator_spin_mk_spin_of_int {ι : Type} (s : ℚ) (c : spin_component) (idx : ι)
    (k : Int) (hk : 2 * s = k) :
    generator_spin.mk_spin s c idx =
      some { multiplicity := k + 1, c := c, indices := idx } := by
  unfold generator_spin.mk_spin
  rw [if_pos ((spin_assert_iff s).2 ⟨k, hk⟩), spin_multiplicity s k hk]

/-- The elementary space that `elementary_space_spin(spin, indices)` builds
when `2s` is the integer `k`. -/
theorem elementary_space_spin_mk_spin_of_int {ι : Type} (s : ℚ) (idx : ι)
    (k : Int) (hk : 2 * s = k) :
    elementary_space_spin.mk_spin s idx =
      some { multiplicity := k + 1, n_bits := (Nat.clog 2 (k + 1).toNat : Nat),
             indices := idx } := by
  unfold elementary_space_spin.mk_spin
  simp only [if_pos ((spin_assert_iff s).2 ⟨k, hk⟩), spin_multiplicity s k hk]

/-- The conversion to `int` of a value that converts lies in the range of
`int`. -/
theorem to_int_range (x : ℚ) (h : int_convertible x) :
    -(2 : Int) ^ 31 ≤ to_int x ∧ to_int x < 2 ^ 31 := by
  obtain ⟨h1, h2⟩ := h
  unfold to_int
  split
  · rename_i h0
    constructor
    · have : (0 : Int) ≤ ⌊x⌋ := Int.floor_nonneg.2 h0
      omega
    · rw [Int.floor_lt]
      exact_mod_cast h2
  · rename_i h0
    have h0 : x < 0 := lt_of_not_le h0
    constructor
    · have h3 : (-(2 : Int) ^ 31 - 1 : Int) < ⌈x⌉ := by
        rw [Int.lt_ceil]
        exact_mod_cast h1
      omega
    · have h3 : ⌈x⌉ ≤ (0 : Int) := by
        rw [Int.ceil_le]
        exact_mod_cast h0.le
      omega

/-- C9: for a spin value `s` whose conversions to `int` are defined,
constructing a spin generator from `s` is rejected exactly when `2s` is not an
integer, and when it is accepted the stored multiplicity is `2s + 1`, a value
of the range of `int`; likewise for a spin elementary space and a spin
`s ≥ 0`, where the multiplicity is at least 1 and its logarithm a number; a
spin elementary space is rejected for every `s` with `2s` not an integer; and
the constructor that takes no spin value stores the multiplicity 2. -/
theorem C9_spin_constructor {ι : Type} (s : ℚ) (c : spin_component) (idx : ι)
    (hr : spin_in_int_range s) :
    (generator_spin.mk_spin s c idx = none ↔ ¬ ∃ k : Int, 2 * s = k) ∧
    (∀ k : Int, 2 * s = k →
      generator_spin.mk_spin s c idx =
        some { multiplicity := k + 1, c := c, indices := idx }) ∧
    (∀ g, generator_spin.mk_spin s c idx = some g →
      (g.multiplicity : ℚ) = 2 * s + 1 ∧
      -(2 : Int) ^ 31 ≤ g.multiplicity ∧ g.multiplicity < 2 ^ 31) ∧
    ((¬ ∃ k : Int, 2 * s = k) → elementary_space_spin.mk_spin s idx = none) ∧
    (0 ≤ s →
      (elementary_space_spin.mk_spin s idx = none ↔ ¬ ∃ k : Int, 2 * s = k) ∧
      ∀ es, elementary_space_spin.mk_spin s idx = some es →
        (es.multiplicity : ℚ) = 2 * s + 1 ∧
        1 ≤ es.multiplicity ∧ es.multiplicity < 2 ^ 31 ∧
        es.indices = idx) ∧
    (-(2 : Int) ^ 31 ≤ to_int (s * 2) ∧ to_int (s * 2) < 2 ^ 31) ∧
    (generator_spin.mk_default c idx).multiplicity = 2 := by
  have hm := to_int_range (2 * s + 1) hr.2
  have hnone : elementary_space_spin.mk_spin s idx = none ↔ ¬ ∃ k : Int, 2 * s = k := by
    unfold elementary_space_spin.mk_spin
    rw [← spin_assert_iff]
    split <;> simp_all
  refine ⟨?_, generator_spin_mk_spin_of_int s c idx, ?_, hnone.2, fun h0 => ⟨hnone, ?_⟩,
    to_int_range (s * 2) hr.1, rfl⟩
  · unfold generator_spin.mk_spin
    rw [← spin_assert_iff]
    split <;> simp_all
  · intro g hg
    by_cases h : ∃ k : Int, 2 * s = k
    · obtain ⟨k, hk⟩ := h
      rw [spin_multiplicity s k hk] at hm
      rw [generator_spin_mk_spin_of_int s c idx k hk] at hg
      cases hg
      refine ⟨?_, hm⟩
      push_cast
      rw [hk]
    · rw [← spin_assert_iff] at h
      simp [generator_spin.mk_spin, h] at hg
  · intro es hes
    by_cases h : ∃ k : Int, 2 * s = k
    · obtain ⟨k, hk⟩ := h
      rw [spin_multiplicity s k hk] at hm
      rw [elementary_space_spin_mk_spin_of_int s idx k hk] at hes
      cases hes
      have hk0 : (0 : ℚ) ≤ (k : ℚ) := by linarith
      have hk1 : (0 : Int) ≤ k := by exact_mod_cast hk0
      refine ⟨?_, by simp only; omega, hm.2, rfl⟩
      push_cast
      rw [hk]
    · rw [← spin_assert_iff] at h
      simp [elementary_space_spin.mk_spin, h] at hes

/-- Witness of C9: the spin value 3/2 is accepted, with multiplicity 4. -/
theorem C9_spin_constructor_witness :
    spin_in_int_range (3 / 2 : ℚ) ∧
    2 * (3 / 2 : ℚ) = ((3 : Int) : ℚ) ∧
    generator_spin.mk_spin (3 / 2) .plus (0 : Nat) =
      some { multiplicity := 3 + 1, c := .plus, indices := 0 } :=
  ⟨by norm_num [spin_in_int_range, int_convertible], by norm_num,
   (C9_spin_constructor (3 / 2) .plus (0 : Nat)
     (by norm_num [spin_in_int_range, int_convertible])).2.1 3 (by norm_num)⟩

/-- C10 as the code has it: the constructor that takes no spin value stores
the multiplicity 2, and a spin generator that the constructor accepts for a
spin value `s` whose conversions to `int` are defined has a multiplicity of at
least 2 exactly when `s ≥ 1/2`. -/
theorem C10_spin_multiplicity {ι : Type} (s : ℚ) (c : spin_component) (idx : ι)
    (g : generator_spin ι) (hr : spin_in_int_range s)
    (hg : generator_spin.mk_spin s c idx = some g) :
    (2 ≤ g.multiplicity ↔ 1 / 2 ≤ s) ∧
    (-(2 : Int) ^ 31 ≤ g.multiplicity ∧ g.multiplicity < 2 ^ 31) ∧
    ∀ c0 : spin_component, (generator_spin.mk_default c0 idx).multiplicity = 2 := by
  have hm := to_int_range (2 * s + 1) hr.2
  have h : ∃ k : Int, 2 * s = k := by
    rw [← spin_assert_iff]
    by_contra hn
    simp [generator_spin.mk_spin, hn] at hg
  obtain ⟨k, hk⟩ := h
  rw [spin_multiplicity s k hk] at hm
  rw [generator_spin_mk_spin_of_int s c idx k hk] at hg
  cases hg
  refine ⟨?_, hm, fun _ => rfl⟩
  simp only
  constructor
  · intro h2
    have h3 : (1 : ℚ) ≤ (k : ℚ) := by exact_mod_cast (by omega : (1 : Int) ≤ k)
    linarith
  · intro h2
    have h3 : (1 : ℚ) ≤ (k : ℚ) := by linarith
    have h4 : (1 : Int) ≤ k := by exact_mod_cast h3
    omega

/-- Witness of C10: the spin value 1 is accepted with multiplicity 3. -/
theorem C10_spin_multiplicity_witness :
    spin_in_int_range (1 : ℚ) ∧
    generator_spin.mk_spin (1 : ℚ) .z (0 : Nat) =
      some { multiplicity := 3, c := .z, indices := 0 } ∧
    ((2 ≤ (3 : Int) ↔ 1 / 2 ≤ (1 : ℚ)) ∧
      (-(2 : Int) ^ 31 ≤ (3 : Int) ∧ (3 : Int) < 2 ^ 31) ∧
      ∀ c0 : spin_component, (generator_spin.mk_default c0 (0 : Nat)).multiplicity = 2) :=
  ⟨by norm_num [spin_in_int_range, int_convertible],
   generator_spin_mk_spin_of_int 1 .z 0 2 (by norm_num),
   C10_spin_multiplicity (1 : ℚ) .z (0 : Nat) { multiplicity := 3, c := .z, indices := 0 }
     (by norm_num [spin_in_int_range, int_convertible])
     (generator_spin_mk_spin_of_int 1 .z 0 2 (by norm_num))⟩

/-- Counterexample to C10 as stated: the spin value 0, whose conversions to
`int` are defined, is accepted (`2s = 0` is an integer) and the generator built
has multiplicity 1, which is below 2. -/
theorem C10_spin_multiplicity_counterexample :
    spin_in_int_range (0 : ℚ) ∧
    generator_spin.mk_spin (0 : ℚ) .z (0 : Nat) =
      some { multiplicity := 1, c := .z, indices := 0 } ∧
    ¬ (2 ≤ ({ multiplicity := 1, c := .z, indices := 0 } : generator_spin Nat).multiplicity) :=
  ⟨by norm_num [spin_in_int_range, int_convertible],
   generator_spin_mk_spin_of_int 0 .z 0 0 (by norm_num), by decide⟩

/-! ## Theorems: the fermionic anticommutator -/

/-- No fermion generator is less than itself. -/
theorem fermion_lt_irrefl {ι : Type} [LinearOrder ι] (a : generator_fermion ι) :
    generator_fermion.lt a a = false := by
  obtain ⟨d, i⟩ := a
  cases d <;> simp [generator_fermion.lt, generator_fermion.less, base_less, base_greater]

/-- For `g > h` the generator `h` is not greater than `g`. -/
theorem fermion_gt_asymm {ι : Type} [LinearOrder ι] (g h : generator_fermion ι)
    (hgt : generator_fermion.gt g h = true) : generator_fermion.gt h g = false := by
  have h1 := (fermion_strict_total h g g).2.2.1
  have h2 := fermion_greater_eq_less_swap g h
  unfold generator_fermion.gt at hgt ⊢
  cases hq : generator_fermion.greater h g
  · rfl
  · exact absurd ⟨h2 ▸ hgt, hq⟩ h1

/-- For `g > h` the generators differ in the dagger flag or in the index. -/
theorem fermion_ne_of_gt {ι : Type} [LinearOrder ι] (g h : generator_fermion ι)
    (hgt : generator_fermion.gt g h = true) :
    ¬ (h.dagger = g.dagger ∧ h.indices = g.indices) := by
  have h1 := (fermion_strict_total h g g).2.1
  have h2 := fermion_greater_eq_less_swap g h
  unfold generator_fermion.gt at hgt
  intro h3
  exact h1 ⟨h2 ▸ hgt, (fermion_equal_iff h g).2 h3⟩

/-- The product `g·h` for `g > h`, normalized: `-h·g` and the constant
`δ(g, h†)`. -/
theorem fermion_mul_of_gt {ι : Type} [LinearOrder ι] (g h : generator_fermion ι)
    (hgt : generator_fermion.gt g h = true) (n : Nat) :
    expression.mul fermion_ops (n + 3) (expression.of_generator g)
        (expression.of_generator h) =
      some (if g.indices = h.indices ∧ g.dagger ≠ h.dagger then [([], 1), ([h, g], -1)]
            else [([h, g], -1)]) := by
  have h1 := fermion_gt_asymm g h hgt
  have h2 := fermion_ne_of_gt g h hgt
  have h3 := fermion_swap_with_of_gt g h { const_term := 0, terms := [] } hgt
  have h4 := fermion_simplify_prod_of_not_gt h g { const_term := 0, terms := [] } h1
  rw [if_neg h2] at h4
  by_cases hd : g.indices = h.indices ∧ g.dagger ≠ h.dagger
  · rw [if_pos hd] at h3
    simp [expression.mul, expression.of_generator, expression.normalize, normalize_terms,
      rewrite_first, fermion_ops, splice, is_zero, expression.add, expression.add_term,
      monomial_lt, hgt, h1, h3, h4, hd]
  · rw [if_neg hd] at h3
    simp [expression.mul, expression.of_generator, expression.normalize, normalize_terms,
      rewrite_first, fermion_ops, splice, is_zero, expression.add, expression.add_term,
      monomial_lt, hgt, h1, h3, h4, hd]

/-- The product `h·g` for `g > h` is canonical as it stands. -/
theorem fermion_mul_of_lt {ι : Type} [LinearOrder ι] (g h : generator_fermion ι)
    (hgt : generator_fermion.gt g h = true) (n : Nat) :
    expression.mul fermion_ops (n + 1) (expression.of_generator h)
        (expression.of_generator g) = some [([h, g], 1)] := by
  have h1 := fermion_gt_asymm g h hgt
  have h2 := fermion_ne_of_gt g h hgt
  have h4 := fermion_simplify_prod_of_not_gt h g { const_term := 0, terms := [] } h1
  rw [if_neg h2] at h4
  simp [expression.mul, expression.of_generator, expression.normalize, normalize_terms,
    rewrite_first, fermion_ops, is_zero, expression.add, expression.add_term, h1, h4]

/-- The normalized `g·h + h·g` and `h·g + g·h` for `g > h`. -/
theorem fermion_anticommutator_of_gt {ι : Type} [LinearOrder ι] (g h : generator_fermion ι)
    (hgt : generator_fermion.gt g h = true) (n : Nat) :
    expression.anticommutator fermion_ops (n + 3) g h =
      some (expression.const
        (if g.indices = h.indices ∧ g.dagger ≠ h.dagger then 1 else 0)) ∧
    expression.anticommutator fermion_ops (n + 3) h g =
      some (expression.const
        (if g.indices = h.indices ∧ g.dagger ≠ h.dagger then 1 else 0)) := by
  have h1 := fermion_mul_of_gt g h hgt n
  have h2 := fermion_mul_of_lt g h hgt (n + 2)
  have h3 := fermion_lt_irrefl g
  have h4 := fermion_lt_irrefl h
  unfold expression.anticommutator
  rw [h1, h2]
  by_cases hd : g.indices = h.indices ∧ g.dagger ≠ h.dagger
  · simp [hd, expression.add, expression.add_term, expression.const, monomial_lt, lex_lt,
      fermion_ops, is_zero, h3, h4]
  · simp [hd, expression.add, expression.add_term, expression.const, monomial_lt, lex_lt,
      fermion_ops, is_zero, h3, h4]

/-- C2: for all fermion generators `g > h`, the normalized expression
`g·h + h·g` is the constant expression `δ(g, h†)`: the constant 1 when `g` and
`h` carry the same index and opposite dagger flags, the empty expression
otherwise, with no operator terms. In particular
`c†("up",1)·c("up",1) + c("up",1)·c†("up",1)` is the constant expression 1. -/
theorem C2_fermion_anticommutator :
    (∀ (ι : Type) [LinearOrder ι] (g h : generator_fermion ι),
      generator_fermion.gt g h = true → ∀ n : Nat,
        expression.anticommutator fermion_ops (n + 3) g h =
          some (expression.const
            (if g.indices = h.indices ∧ g.dagger ≠ h.dagger then 1 else 0)) ∧
        expression.anticommutator fermion_ops (n + 3) h g =
          some (expression.const
            (if g.indices = h.indices ∧ g.dagger ≠ h.dagger then 1 else 0))) ∧
    expression.anticommutator fermion_ops 3
        ({ dagger := true, indices := toLex ("up", 1) } :
          generator_fermion (Lex (String × Int)))
        { dagger := false, indices := toLex ("up", 1) } =
      some [([], 1)] := by
  refine ⟨fun ι _ g h hgt n => fermion_anticommutator_of_gt g h hgt n, ?_⟩
  have key : ∀ x : Lex (String × Int), ¬ x < x := fun x => lt_irrefl x
  simp [expression.anticommutator, expression.mul, expression.of_generator,
    expression.normalize, normalize_terms, rewrite_first, fermion_ops, splice, is_zero,
    expression.add, expression.add_term, monomial_lt, lex_lt, generator_fermion.lt,
    generator_fermion.less, generator_fermion.gt, generator_fermion.greater,
    generator_fermion.swap_with, generator_fermion.simplify_prod, generator_fermion.eq,
    generator_fermion.equal, base_equal, base_less, base_greater,
    linear_function.set_const, key]

/-- Witness of C2 on natural-number indices: `c_1 > c†_1`, and
`c_1·c†_1 + c†_1·c_1` normalizes to the constant 1. -/
theorem C2_fermion_anticommutator_witness :
    generator_fermion.gt (⟨false, 1⟩ : generator_fermion Nat) ⟨true, 1⟩ = true ∧
    expression.anticommutator fermion_ops 3 (⟨false, 1⟩ : generator_fermion Nat) ⟨true, 1⟩ =
      some (expression.const (if (1 : Nat) = 1 ∧ false ≠ true then 1 else 0)) :=
  ⟨by decide, (C2_fermion_anticommutator.1 Nat ⟨false, 1⟩ ⟨true, 1⟩ (by decide) 0).1⟩

/-! ## Theorems: the map of a Hilbert space -/

/-- The call `emplace` inserts exactly when `find` misses. -/
theorem map_emplace_snd {K V : Type} (lt : K → K → Bool) (m : List (K × V)) (k : K) (v : V) :
    (map_emplace lt m k v).2 = (map_find lt m k).isNone := by
  induction m with
  | nil => rfl
  | cons p rest ih =>
    obtain ⟨k1, v1⟩ := p
    simp only [map_emplace, map_find]
    split
    · exact ih
    · split <;> rfl

/-- A call of `emplace` that does not insert leaves the map as it was. -/
theorem map_emplace_unchanged {K V : Type} (lt : K → K → Bool) (m : List (K × V)) (k : K)
    (v : V) (h : (map_emplace lt m k v).2 = false) : (map_emplace lt m k v).1 = m := by
  induction m with
  | nil => simp [map_emplace] at h
  | cons p rest ih =>
    obtain ⟨k1, v1⟩ := p
    simp only [map_emplace] at h ⊢
    split
    · rename_i h1
      simp only [h1, if_true] at h
      rw [ih h]
    · rename_i h1
      simp only [h1] at h
      split
      · rename_i h2
        simp [h2] at h
      · rfl

/-- A call of `emplace` that inserts makes the map longer by one entry. -/
theorem map_emplace_length {K V : Type} (lt : K → K → Bool) (m : List (K × V)) (k : K)
    (v : V) (h : (map_emplace lt m k v).2 = true) :
    (map_emplace lt m k v).1.length = m.length + 1 := by
  induction m with
  | nil => rfl
  | cons p rest ih =>
    obtain ⟨k1, v1⟩ := p
    simp only [map_emplace] at h ⊢
    split
    · rename_i h1
      simp only [h1, if_true] at h
      simp [ih h]
    · rename_i h1
      simp only [h1] at h
      split
      · rfl
      · rename_i h2
        simp [h2] at h

/-- The keys of the map after `emplace`. -/
theorem map_emplace_keys_mem {K V : Type} (lt : K → K → Bool) (m : List (K × V)) (k : K)
    (v : V) (x : K) :
    x ∈ (map_emplace lt m k v).1.map Prod.fst ↔
      x ∈ m.map Prod.fst ∨ ((map_emplace lt m k v).2 = true ∧ x = k) := by
  induction m with
  | nil => simp [map_emplace]
  | cons p rest ih =>
    obtain ⟨k1, v1⟩ := p
    simp only [map_emplace]
    split
    · simp only [List.map_cons, List.mem_cons, ih]
      tauto
    · split
      · simp only [List.map_cons, List.mem_cons]
        tauto
      · simp

/-- After an inserting `emplace` the key is found, with the value given. -/
theorem map_find_emplace_self {K V : Type} (lt : K → K → Bool) (m : List (K × V)) (k : K)
    (v : V) (hirr : lt k k = false) (h : (map_emplace lt m k v).2 = true) :
    map_find lt (map_emplace lt m k v).1 k = some v := by
  induction m with
  | nil => simp [map_emplace, map_find, hirr]
  | cons p rest ih =>
    obtain ⟨k1, v1⟩ := p
    simp only [map_emplace] at h ⊢
    split
    · rename_i h1
      simp only [h1, if_true] at h
      simp only [map_find, h1, if_true]
      exact ih h
    · split
      · simp [map_find, hirr]
      · rename_i h1 h2
        simp [h1, h2] at h

/-- Whether `find` hits depends on the keys of the map only. -/
theorem map_find_isSome_keys {K V W : Type} (lt : K → K → Bool) (k : K) :
    ∀ (m : List (K × V)) (m1 : List (K × W)), m.map Prod.fst = m1.map Prod.fst →
      (map_find lt m k).isSome = (map_find lt m1 k).isSome
  | [], [], _ => rfl
  | [], _ :: _, h => by simp at h
  | _ :: _, [], h => by simp at h
  | (k1, v1) :: rest, (k2, v2) :: rest1, h => by
    simp only [List.map_cons, List.cons.injEq] at h
    obtain ⟨h1, h2⟩ := h
    subst h1
    simp only [map_find]
    split
    · exact map_find_isSome_keys lt k rest rest1 h2
    · split <;> rfl

/-- The keys after `emplace`, and whether it inserts, depend on the keys of the
map only. -/
theorem map_emplace_keys {K V W : Type} (lt : K → K → Bool) (k : K) (v : V) (w : W) :
    ∀ (m : List (K × V)) (m1 : List (K × W)), m.map Prod.fst = m1.map Prod.fst →
      (map_emplace lt m k v).1.map Prod.fst = (map_emplace lt m1 k w).1.map Prod.fst ∧
      (map_emplace lt m k v).2 = (map_emplace lt m1 k w).2
  | [], [], _ => ⟨rfl, rfl⟩
  | [], _ :: _, h => by simp at h
  | _ :: _, [], h => by simp at h
  | (k1, v1) :: rest, (k2, v2) :: rest1, h => by
    simp only [List.map_cons, List.cons.injEq] at h
    obtain ⟨h1, h2⟩ := h
    subst h1
    have ih := map_emplace_keys lt k v w rest rest1 h2
    simp only [map_emplace]
    split
    · exact ⟨by simp [ih.1], ih.2⟩
    · split
      · exact ⟨by simp [h2], rfl⟩
      · exact ⟨by simp [h2], rfl⟩

/-! ## Theorems: the bit ranges of a Hilbert space -/

/-- The result of `recompute_bit_ranges` depends on the keys of the map only,
not on the ranges stored before. -/
theorem recompute_loop_keys {S : Type} (ops : space_ops S) :
    ∀ (m m1 : List (S × bit_range_t)) (e : Int), m.map Prod.fst = m1.map Prod.fst →
      hilbert_space.recompute_loop ops m e = hilbert_space.recompute_loop ops m1 e
  | [], [], _, _ => rfl
  | [], _ :: _, _, h => by simp at h
  | _ :: _, [], _, h => by simp at h
  | (k1, v1) :: rest, (k2, v2) :: rest1, e, h => by
    simp only [List.map_cons, List.cons.injEq] at h
    obtain ⟨h1, h2⟩ := h
    subst h1
    simp only [hilbert_space.recompute_loop]
    rw [recompute_loop_keys ops rest rest1 _ h2]

/-- The loop of `recompute_bit_ranges` keeps the keys and their order. -/
theorem recompute_loop_fst_keys {S : Type} (ops : space_ops S) :
    ∀ (m : List (S × bit_range_t)) (e : Int),
      (hilbert_space.recompute_loop ops m e).1.map Prod.fst = m.map Prod.fst
  | [], _ => rfl
  | (k1, v1) :: rest, e => by
    simp only [hilbert_space.recompute_loop, List.map_cons]
    rw [recompute_loop_fst_keys ops rest]

/-- Running `recompute_bit_ranges` twice is running it once. -/
theorem recompute_loop_idem {S : Type} (ops : space_ops S) (m : List (S × bit_range_t))
    (e : Int) :
    hilbert_space.recompute_loop ops (hilbert_space.recompute_loop ops m e).1 e =
      hilbert_space.recompute_loop ops m e :=
  recompute_loop_keys ops _ _ e (recompute_loop_fst_keys ops m e)

/-- The final `bit_range_end_` is the initial one plus the sum of `n_bits`. -/
theorem recompute_loop_snd {S : Type} (ops : space_ops S) :
    ∀ (m : List (S × bit_range_t)) (e : Int),
      (hilbert_space.recompute_loop ops m e).2 =
        e + (m.map (fun p => ops.n_bits p.1)).sum
  | [], e => by simp [hilbert_space.recompute_loop]
  | (k1, v1) :: rest, e => by
    simp only [hilbert_space.recompute_loop, List.map_cons, List.sum_cons]
    rw [recompute_loop_snd ops rest]
    ring

/-- The entry at position `k` after `recompute_bit_ranges`: the range starts
after the `n_bits` of the `k` entries before it and has the width `n_bits`. -/
theorem recompute_loop_getElem {S : Type} (ops : space_ops S) :
    ∀ (m : List (S × bit_range_t)) (e : Int) (k : Nat),
      (hilbert_space.recompute_loop ops m e).1[k]? =
        m[k]?.map (fun p =>
          (p.1, (e + 1 + ((m.take k).map (fun q => ops.n_bits q.1)).sum,
                 e + ((m.take k).map (fun q => ops.n_bits q.1)).sum + ops.n_bits p.1)))
  | [], _, _ => by simp [hilbert_space.recompute_loop]
  | (k1, v1) :: rest, e, 0 => by simp [hilbert_space.recompute_loop]
  | (k1, v1) :: rest, e, k + 1 => by
    simp only [hilbert_space.recompute_loop, List.getElem?_cons_succ, List.take_succ_cons,
      List.map_cons, List.sum_cons]
    rw [recompute_loop_getElem ops rest]
    cases rest[k]? with
    | none => rfl
    | some p =>
      simp only [Option.map_some']
      congr 3 <;> ring

/-- The value of `add` when `emplace` inserts. -/
theorem hilbert_space_add_eq {S : Type} (ops : space_ops S) (hs : hilbert_space S) (bs : S) :
    hilbert_space.add ops hs bs =
      if (map_emplace ops.lt hs.basis_spaces bs ((0, 0) : bit_range_t)).2 then
        .ok (hilbert_space.recompute_bit_ranges ops
          { basis_spaces := (map_emplace ops.lt hs.basis_spaces bs ((0, 0) : bit_range_t)).1,
            bit_range_end := hs.bit_range_end })
      else .error { basis_space_ptr := bs } := by
  unfold hilbert_space.add hilbert_space.add_step
  generalize map_emplace ops.lt hs.basis_spaces bs ((0, 0) : bit_range_t) = r
  obtain ⟨r1, r2⟩ := r
  cases r2 <;> rfl

/-- Every Hilbert space built by the program is a fixed point of
`recompute_bit_ranges`. -/
theorem constructed_recomputed {S : Type} (ops : space_ops S) (l : List S)
    (hs : hilbert_space S) (h : hilbert_space.constructed ops l hs) :
    hilbert_space.recompute_bit_ranges ops hs = hs := by
  cases h with
  | empty => rfl
  | add l0 hs0 bs _ h0 hadd =>
    rw [hilbert_space_add_eq] at hadd
    split at hadd
    · cases hadd
      simp only [hilbert_space.recompute_bit_ranges]
      rw [recompute_loop_idem]
    · cases hadd

/-! ## Theorems: the order of the entries -/

/-- The call `emplace` keeps the keys in increasing order. -/
theorem map_emplace_sorted {K V : Type} (lt : K → K → Bool)
    (htrans : ∀ a b c, lt a b = true → lt b c = true → lt a c = true)
    (m : List (K × V)) (k : K) (v : V)
    (hm : List.Pairwise (fun a b => lt a b = true) (m.map Prod.fst)) :
    List.Pairwise (fun a b => lt a b = true) ((map_emplace lt m k v).1.map Prod.fst) := by
  induction m with
  | nil => simp [map_emplace]
  | cons p rest ih =>
    obtain ⟨k1, v1⟩ := p
    simp only [List.map_cons, List.pairwise_cons] at hm
    simp only [map_emplace]
    split
    · rename_i h1
      simp only [List.map_cons, List.pairwise_cons]
      refine ⟨?_, ih hm.2⟩
      intro x hx
      rcases (map_emplace_keys_mem lt rest k v x).1 hx with hx1 | ⟨_, hx1⟩
      · exact hm.1 x hx1
      · rw [hx1]
        exact h1
    · split
      · rename_i h1 h2
        simp only [List.map_cons, List.pairwise_cons, List.mem_cons]
        refine ⟨?_, hm.1, hm.2⟩
        rintro x (hx | hx)
        · rw [hx]
          exact h2
        · exact htrans _ _ _ h2 (hm.1 x hx)
      · simp only [List.map_cons, List.pairwise_cons]
        exact hm

/-- In a map with increasing keys `find` misses exactly when every key is
before or after the key looked for. -/
theorem map_find_eq_none_iff {K V : Type} (lt : K → K → Bool)
    (htrans : ∀ a b c, lt a b = true → lt b c = true → lt a c = true)
    (m : List (K × V)) (k : K)
    (hm : List.Pairwise (fun a b => lt a b = true) (m.map Prod.fst)) :
    map_find lt m k = none ↔ ∀ x ∈ m.map Prod.fst, lt x k = true ∨ lt k x = true := by
  induction m with
  | nil => simp [map_find]
  | cons p rest ih =>
    obtain ⟨k1, v1⟩ := p
    simp only [List.map_cons, List.pairwise_cons] at hm
    simp only [map_find, List.map_cons, List.mem_cons, forall_eq_or_imp]
    split
    · rename_i h1
      rw [ih hm.2]
      simp [h1]
    · rename_i h1
      split
      · rename_i h2
        simp only [h2, or_true, true_and, true_iff]
        intro x hx
        exact Or.inr (htrans _ _ _ h2 (hm.1 x hx))
      · rename_i h2
        simp [h1, h2]

/-- In a map with increasing keys `find` returns the value stored with the key
equivalent to the key looked for. -/
theorem map_find_eq_some_iff {K V : Type} (lt : K → K → Bool)
    (htrans : ∀ a b c, lt a b = true → lt b c = true → lt a c = true)
    (hcmp : ∀ a b c, lt a b = true → lt a c = true ∨ lt c b = true)
    (m : List (K × V)) (k : K) (v : V)
    (hm : List.Pairwise (fun a b => lt a b = true) (m.map Prod.fst)) :
    map_find lt m k = some v ↔
      ∃ k1, (k1, v) ∈ m ∧ lt k1 k = false ∧ lt k k1 = false := by
  induction m with
  | nil => simp [map_find]
  | cons p rest ih =>
    obtain ⟨k1, v1⟩ := p
    simp only [List.map_cons, List.pairwise_cons] at hm
    simp only [map_find, List.mem_cons]
    split
    · rename_i h1
      rw [ih hm.2]
      constructor
      · rintro ⟨k2, h2, h3⟩
        exact ⟨k2, Or.inr h2, h3⟩
      · rintro ⟨k2, h2 | h2, h3⟩
        · cases h2
          rw [h1] at h3
          exact absurd h3.1 (by simp)
        · exact ⟨k2, h2, h3⟩
    · rename_i h1
      split
      · rename_i h2
        constructor
        · intro h
          cases h
        · rintro ⟨k2, h3 | h3, h4, h5⟩
          · cases h3
            rw [h2] at h5
            cases h5
          · have h6 := hm.1 k2 (List.mem_map.2 ⟨(k2, v), h3, rfl⟩)
            rw [htrans _ _ _ h2 h6] at h5
            cases h5
      · rename_i h2
        constructor
        · intro h
          cases h
          exact ⟨k1, Or.inl rfl, by simpa using h1, by simpa using h2⟩
        · rintro ⟨k2, h3 | h3, h4, h5⟩
          · cases h3
            rfl
          · have h6 := hm.1 k2 (List.mem_map.2 ⟨(k2, v), h3, rfl⟩)
            rcases hcmp _ _ k h6 with h7 | h7
            · exact absurd h7 h1
            · rw [h7] at h5
              cases h5

/-- The keys of a Hilbert space built by the program are in increasing
order. -/
theorem constructed_sorted {S : Type} (ops : space_ops S)
    (htrans : ∀ a b c, ops.lt a b = true → ops.lt b c = true → ops.lt a c = true)
    (l : List S) (hs : hilbert_space S) (h : hilbert_space.constructed ops l hs) :
    List.Pairwise (fun a b => ops.lt a b = true) (hs.basis_spaces.map Prod.fst) := by
  induction h with
  | empty => simp [hilbert_space.empty]
  | add l0 hs0 bs hs1 _ hadd ih =>
    rw [hilbert_space_add_eq] at hadd
    split at hadd
    · cases hadd
      simp only [hilbert_space.recompute_bit_ranges]
      rw [recompute_loop_fst_keys]
      exact map_emplace_sorted ops.lt htrans _ _ _ ih
    · cases hadd

/-- The keys of a Hilbert space built by the program are the spaces that were
inserted. -/
theorem constructed_keys_mem {S : Type} (ops : space_ops S) (l : List S)
    (hs : hilbert_space S) (h : hilbert_space.constructed ops l hs) (x : S) :
    x ∈ hs.basis_spaces.map Prod.fst ↔ x ∈ l := by
  induction h with
  | empty => simp [hilbert_space.empty]
  | add l0 hs0 bs hs1 _ hadd ih =>
    rw [hilbert_space_add_eq] at hadd
    split at hadd
    · rename_i h1
      cases hadd
      simp only [hilbert_space.recompute_bit_ranges]
      rw [recompute_loop_fst_keys, map_emplace_keys_mem, ih, h1]
      simp only [true_and, List.mem_cons]
      tauto
    · cases hadd

/-! ## Theorems: the order of the elementary spaces -/

/-- With three different algebra ids, `operator<` on elementary spaces is the
lexicographic order of the algebra id, the multiplicity (of a spin space) and
the index. -/
theorem elementary_space_lt_iff {ι : Type} [LinearOrder ι] (ids : space_algebra_ids)
    (h1 : ids.fermion ≠ ids.boson) (h2 : ids.fermion ≠ ids.spin) (h3 : ids.boson ≠ ids.spin)
    (a b : elementary_space ι) :
    elementary_space.lt ids a b = true ↔
      toLex (a.algebra_id ids,
        toLex ((match a with | .spin es => es.multiplicity | _ => 0 : Int), a.indices)) <
      toLex (b.algebra_id ids,
        toLex ((match b with | .spin es => es.multiplicity | _ => 0 : Int), b.indices)) := by
  have h1' := Ne.symm h1
  have h2' := Ne.symm h2
  have h3' := Ne.symm h3
  cases a <;> cases b <;>
    simp [elementary_space.lt, elementary_space.algebra_id, elementary_space.less,
      elementary_space.base_less, elementary_space.indices, Prod.Lex.lt_iff,
      h1, h2, h3, h1', h2', h3']
  rename_i a b
  by_cases hm : a.multiplicity = b.multiplicity
  · simp [hm]
  · simp [hm]

/-- With three different algebra ids and linearly ordered indices, the order
of the elementary spaces is a strict weak ordering. -/
theorem elementary_space_ops_swo {ι : Type} [LinearOrder ι] (ids : space_algebra_ids)
    (h1 : ids.fermion ≠ ids.boson) (h2 : ids.fermion ≠ ids.spin) (h3 : ids.boson ≠ ids.spin) :
    (elementary_space_ops ids : space_ops (elementary_space ι)).strict_weak_order := by
  refine ⟨?_, ?_, ?_⟩
  · intro a
    have h := elementary_space_lt_iff ids h1 h2 h3 a a
    simp only [lt_self_iff_false, iff_false, Bool.not_eq_true] at h
    exact h
  · intro a b c hab hbc
    exact (elementary_space_lt_iff ids h1 h2 h3 a c).2
      (lt_trans ((elementary_space_lt_iff ids h1 h2 h3 a b).1 hab)
        ((elementary_space_lt_iff ids h1 h2 h3 b c).1 hbc))
  · intro a b c hab
    rcases LT.lt.lt_or_lt ((elementary_space_lt_iff ids h1 h2 h3 a b).1 hab)
      (toLex (c.algebra_id ids,
        toLex ((match c with | .spin es => es.multiplicity | _ => 0 : Int), c.indices)))
      with h | h
    · exact Or.inl ((elementary_space_lt_iff ids h1 h2 h3 a c).2 h)
    · exact Or.inr ((elementary_space_lt_iff ids h1 h2 h3 c b).2 h)

/-- The order of the elementary spaces over natural-number indices, with the
algebra ids of the spec, is a strict weak ordering. -/
theorem spec_space_ops_swo :
    (elementary_space_ops spec_space_algebra_ids :
      space_ops (elementary_space Nat)).strict_weak_order :=
  elementary_space_ops_swo spec_space_algebra_ids (by decide) (by decide) (by decide)

/-! ## Theorems: `add`, `has` and `bit_range` -/

/-- The method `has` says whether `find` hits. -/
theorem hilbert_space_has_eq {S : Type} (ops : space_ops S) (hs : hilbert_space S) (bs : S) :
    hilbert_space.has ops hs bs = (map_find ops.lt hs.basis_spaces bs).isSome := by
  unfold hilbert_space.has map_count
  cases (map_find ops.lt hs.basis_spaces bs).isSome <;> rfl

/-- C11: for every Hilbert space `H` and elementary space `es`, `add(es)` fails
with `basis_space_exists` exactly when `has(es)` held before the call, and then
`H` is left as it was; otherwise `has(es)` holds afterwards and `size()` has
grown by exactly one. -/
theorem C11_add {S : Type} (ops : space_ops S) (hirr : ∀ a, ops.lt a a = false)
    (hs : hilbert_space S) (es : S) :
    (hilbert_space.add ops hs es = .error { basis_space_ptr := es } ↔
      hilbert_space.has ops hs es = true) ∧
    (hilbert_space.has ops hs es = true →
      hilbert_space.add_step ops hs es = (hs, some { basis_space_ptr := es })) ∧
    (hilbert_space.has ops hs es = false →
      ∃ hs1, hilbert_space.add ops hs es = .ok hs1 ∧
        hilbert_space.add_step ops hs es = (hs1, none) ∧
        hilbert_space.has ops hs1 es = true ∧
        hs1.size = hs.size + 1) := by
  have hsnd := map_emplace_snd ops.lt hs.basis_spaces es ((0, 0) : bit_range_t)
  rw [hilbert_space_has_eq, hilbert_space_add_eq]
  cases hr : (map_emplace ops.lt hs.basis_spaces es ((0, 0) : bit_range_t)).2
  · have hfind : (map_find ops.lt hs.basis_spaces es).isSome = true := by
      rw [hr] at hsnd
      cases hf : map_find ops.lt hs.basis_spaces es <;> simp [hf] at hsnd ⊢
    refine ⟨by simp [hfind], ?_, by simp [hfind]⟩
    intro _
    have hun := map_emplace_unchanged ops.lt hs.basis_spaces es ((0, 0) : bit_range_t) hr
    unfold hilbert_space.add_step
    simp only [hr, hun]
    rfl
  · have hfind : (map_find ops.lt hs.basis_spaces es).isSome = false := by
      rw [hr] at hsnd
      cases hf : map_find ops.lt hs.basis_spaces es <;> simp [hf] at hsnd ⊢
    refine ⟨by simp [hfind], by simp [hfind], ?_⟩
    intro _
    refine ⟨_, rfl, ?_, ?_, ?_⟩
    · unfold hilbert_space.add_step
      simp only [hr]
      rfl
    · rw [hilbert_space_has_eq]
      simp only [hilbert_space.recompute_bit_ranges]
      rw [map_find_isSome_keys ops.lt es _
        (map_emplace ops.lt hs.basis_spaces es ((0, 0) : bit_range_t)).1
        (recompute_loop_fst_keys ops _ _),
        map_find_emplace_self ops.lt _ _ _ (hirr es) hr]
      rfl
    · simp only [hilbert_space.size, hilbert_space.recompute_bit_ranges]
      have hlen := congrArg List.length (recompute_loop_fst_keys ops
        (map_emplace ops.lt hs.basis_spaces es ((0, 0) : bit_range_t)).1 (-1))
      simp only [List.length_map] at hlen
      rw [hlen, map_emplace_length ops.lt _ _ _ hr]

/-- Witness of C11 on the elementary spaces over natural-number indices: the
Hilbert space of the fermion `0` and the boson space `(4 bits, 0)`. -/
theorem C11_add_witness :
    (∀ a : elementary_space Nat,
      (elementary_space_ops spec_space_algebra_ids).lt a a = false) ∧
    (hilbert_space.has (elementary_space_ops spec_space_algebra_ids)
        { basis_spaces := [(.fermion ⟨0⟩, (0, 0))], bit_range_end := 0 }
        (.boson ⟨4, 0⟩ : elementary_space Nat) = false →
      ∃ hs1, hilbert_space.add (elementary_space_ops spec_space_algebra_ids)
          { basis_spaces := [(.fermion ⟨0⟩, (0, 0))], bit_range_end := 0 }
          (.boson ⟨4, 0⟩ : elementary_space Nat) = .ok hs1 ∧
        hilbert_space.add_step (elementary_space_ops spec_space_algebra_ids)
          { basis_spaces := [(.fermion ⟨0⟩, (0, 0))], bit_range_end := 0 }
          (.boson ⟨4, 0⟩ : elementary_space Nat) = (hs1, none) ∧
        hilbert_space.has (elementary_space_ops spec_space_algebra_ids) hs1
          (.boson ⟨4, 0⟩ : elementary_space Nat) = true ∧
        hs1.size =
          (hilbert_space.size ({ basis_spaces := [(.fermion ⟨0⟩, (0, 0))], bit_range_end := 0 } :
            hilbert_space (elementary_space Nat))) + 1) :=
  ⟨spec_space_ops_swo.1,
   (C11_add (elementary_space_ops spec_space_algebra_ids) spec_space_ops_swo.1 _ _).2.2⟩

/-- C12: for every Hilbert space `H` and elementary space `es`, `bit_range(es)`
fails with `basis_space_not_found` exactly when `has(es)` is false, and
otherwise returns the range stored with the space equivalent to `es`; `has(es)`
is true exactly when a space equivalent to `es` was inserted by a constructor
or by `add`. -/
theorem C12_has_bit_range {S : Type} (ops : space_ops S) (hswo : ops.strict_weak_order)
    (l : List S) (hs : hilbert_space S) (hc : hilbert_space.constructed ops l hs) (es : S) :
    (hilbert_space.bit_range ops hs es = .error { basis_space_ptr := es } ↔
      hilbert_space.has ops hs es = false) ∧
    (∀ r, hilbert_space.bit_range ops hs es = .ok r ↔
      ∃ bs, (bs, r) ∈ hs.basis_spaces ∧ ops.lt bs es = false ∧ ops.lt es bs = false) ∧
    (hilbert_space.has ops hs es = true ↔
      ∃ bs ∈ l, ops.lt bs es = false ∧ ops.lt es bs = false) := by
  have hsorted := constructed_sorted ops hswo.2.1 l hs hc
  have hsome := fun r => map_find_eq_some_iff ops.lt hswo.2.1 hswo.2.2 hs.basis_spaces es r hsorted
  have hnone := map_find_eq_none_iff ops.lt hswo.2.1 hs.basis_spaces es hsorted
  rw [hilbert_space_has_eq]
  unfold hilbert_space.bit_range
  refine ⟨?_, ?_, ?_⟩
  · cases hf : map_find ops.lt hs.basis_spaces es <;> simp
  · intro r
    rw [← hsome r]
    cases hf : map_find ops.lt hs.basis_spaces es <;> simp
  · rw [← Option.ne_none_iff_isSome, Ne, hnone]
    simp only [not_forall, not_or, Bool.not_eq_true]
    constructor
    · rintro ⟨x, hx, h1, h2⟩
      exact ⟨x, (constructed_keys_mem ops l hs hc x).1 hx, h1, h2⟩
    · rintro ⟨x, hx, h1, h2⟩
      exact ⟨x, (constructed_keys_mem ops l hs hc x).2 hx, h1, h2⟩

/-- Witness of C12: in the Hilbert space built by adding the fermion space `0`
to the empty one, the range of that space is looked up. -/
theorem C12_has_bit_range_witness :
    (elementary_space_ops spec_space_algebra_ids :
      space_ops (elementary_space Nat)).strict_weak_order ∧
    hilbert_space.constructed (elementary_space_ops spec_space_algebra_ids)
      [(.fermion ⟨0⟩ : elementary_space Nat)]
      { basis_spaces := [(.fermion ⟨0⟩, (0, 0))], bit_range_end := 0 } ∧
    (hilbert_space.has (elementary_space_ops spec_space_algebra_ids)
        { basis_spaces := [(.fermion ⟨0⟩, (0, 0))], bit_range_end := 0 }
        (.fermion ⟨0⟩ : elementary_space Nat) = true ↔
      ∃ bs ∈ [(.fermion ⟨0⟩ : elementary_space Nat)],
        (elementary_space_ops spec_space_algebra_ids).lt bs (.fermion ⟨0⟩) = false ∧
        (elementary_space_ops spec_space_algebra_ids).lt (.fermion ⟨0⟩) bs = false) :=
  ⟨spec_space_ops_swo,
   hilbert_space.constructed.add [] hilbert_space.empty _ _ hilbert_space.constructed.empty rfl,
   (C12_has_bit_range (elementary_space_ops spec_space_algebra_ids) spec_space_ops_swo
     [(.fermion ⟨0⟩ : elementary_space Nat)]
     { basis_spaces := [(.fermion ⟨0⟩, (0, 0))], bit_range_end := 0 }
     (hilbert_space.constructed.add [] hilbert_space.empty _ _
       hilbert_space.constructed.empty rfl) (.fermion ⟨0⟩)).2.2⟩

/-! ## Theorems: the constructors of a Hilbert space -/

/-- The helper `constructor_impl` is a sequence of successful calls of
`add`. -/
theorem constructor_impl_constructed {S : Type} (ops : space_ops S) :
    ∀ (args : List S) (l : List S) (hs hs1 : hilbert_space S),
      hilbert_space.constructed ops l hs →
      hilbert_space.constructor_impl ops hs args = .ok hs1 →
      hilbert_space.constructed ops (args.reverse ++ l) hs1
  | [], l, hs, hs1, hc, h => by
    simp only [hilbert_space.constructor_impl, Except.ok.injEq] at h
    subst h
    simpa using hc
  | bs :: more_bs, l, hs, hs1, hc, h => by
    simp only [hilbert_space.constructor_impl] at h
    cases hadd : hilbert_space.add ops hs bs with
    | error e => simp [hadd] at h
    | ok hs0 =>
      simp only [hadd] at h
      have h1 := constructor_impl_constructed ops more_bs (bs :: l) hs0 hs1
        (hilbert_space.constructed.add l hs bs hs0 hc hadd) h
      simpa using h1

/-- A Hilbert space that is a fixed point of `recompute_bit_ranges` is
determined by its keys. -/
theorem recomputed_eq_of_keys {S : Type} (ops : space_ops S) (hs : hilbert_space S)
    (m : List (S × bit_range_t)) (e : Int)
    (hfix : hilbert_space.recompute_bit_ranges ops hs = hs)
    (hk : hs.basis_spaces.map Prod.fst = m.map Prod.fst) :
    hilbert_space.recompute_bit_ranges ops { basis_spaces := m, bit_range_end := e } = hs := by
  rw [← hfix]
  simp only [hilbert_space.recompute_bit_ranges]
  rw [recompute_loop_keys ops m hs.basis_spaces (-1) hk.symm]

/-- The loop of the constructor from an expression does what a sequence of
successful calls of `add` does to the keys. -/
theorem from_expression_loop_constructed {S G : Type} (ops : space_ops S) (mk : G → S) :
    ∀ (gs : List G) (m m1 : List (S × bit_range_t)) (l : List S) (hs : hilbert_space S),
      hilbert_space.from_expression_loop ops mk gs m = .ok m1 →
      hilbert_space.constructed ops l hs →
      hs.basis_spaces.map Prod.fst = m.map Prod.fst →
      ∃ l1 hs1, hilbert_space.constructed ops l1 hs1 ∧
        hs1.basis_spaces.map Prod.fst = m1.map Prod.fst
  | [], m, m1, l, hs, h, hc, hk => by
    simp only [hilbert_space.from_expression_loop, Except.ok.injEq] at h
    subst h
    exact ⟨l, hs, hc, hk⟩
  | g :: gs, m, m1, l, hs, h, hc, hk => by
    simp only [hilbert_space.from_expression_loop] at h
    split at h
    · cases h
    · have hkeys := map_emplace_keys ops.lt (mk g) ((0, 0) : bit_range_t)
        ((0, 0) : bit_range_t) hs.basis_spaces m hk
      cases hr : (map_emplace ops.lt m (mk g) ((0, 0) : bit_range_t)).2
      · have hun := map_emplace_unchanged ops.lt m (mk g) ((0, 0) : bit_range_t) hr
        rw [hun] at h
        exact from_expression_loop_constructed ops mk gs m m1 l hs h hc hk
      · have hadd : hilbert_space.add ops hs (mk g) =
            .ok (hilbert_space.recompute_bit_ranges ops
              { basis_spaces :=
                  (map_emplace ops.lt hs.basis_spaces (mk g) ((0, 0) : bit_range_t)).1,
                bit_range_end := hs.bit_range_end }) := by
          rw [hilbert_space_add_eq, hkeys.2, hr]
          rfl
        refine from_expression_loop_constructed ops mk gs _ m1 (mk g :: l) _ h
          (hilbert_space.constructed.add l hs (mk g) _ hc hadd) ?_
        simp only [hilbert_space.recompute_bit_ranges]
        rw [recompute_loop_fst_keys]
        exact hkeys.1

/-- The constructor from an expression and a Hilbert space built by the
program gives a Hilbert space that calls of `add` build. -/
theorem from_expression_constructed {S G : Type} (ops : space_ops S) (mk : G → S)
    (expr : expression G) (l : List S) (base hs : hilbert_space S)
    (hc : hilbert_space.constructed ops l base)
    (h : hilbert_space.from_expression ops mk expr base = .ok hs) :
    ∃ l1, hilbert_space.constructed ops l1 hs := by
  unfold hilbert_space.from_expression at h
  split at h
  · cases h
  · rename_i m hm
    cases h
    obtain ⟨l1, hs1, hc1, hk1⟩ :=
      from_expression_loop_constructed ops mk _ _ m l base hm hc rfl
    refine ⟨l1, ?_⟩
    rw [recomputed_eq_of_keys ops hs1 m _ (constructed_recomputed ops l1 hs1 hc1) hk1]
    exact hc1

/-- C13: after every constructor and every successful `add`, the spaces of a
Hilbert space are in sorted order, the first range starts at 0, the range of
the `k`-th space is `[lo_k, lo_k + n_bits_k - 1]` where `lo_k` is the sum of
`n_bits` of the spaces before it, and `lo_(k+1) = hi_k + 1`. -/
theorem C13_bit_ranges {S : Type} (ops : space_ops S)
    (htrans : ∀ a b c, ops.lt a b = true → ops.lt b c = true → ops.lt a c = true)
    (hs : hilbert_space S)
    (hc : (∃ l, hilbert_space.constructed ops l hs) ∨
      (∃ args, hilbert_space.of_spaces ops args = .ok hs) ∨
      (∃ (G : Type) (mk : G → S) (expr : expression G) (l : List S) (base : hilbert_space S),
        hilbert_space.constructed ops l base ∧
        hilbert_space.from_expression ops mk expr base = .ok hs)) :
    List.Pairwise (fun a b => ops.lt a b = true) (hs.basis_spaces.map Prod.fst) ∧
    (∀ bs lo hi, hs.basis_spaces[0]? = some (bs, (lo, hi)) → lo = 0) ∧
    (∀ k bs lo hi, hs.basis_spaces[k]? = some (bs, (lo, hi)) →
      lo = ((hs.basis_spaces.take k).map (fun q => ops.n_bits q.1)).sum ∧
      hi = lo + ops.n_bits bs - 1) ∧
    (∀ k p q, hs.basis_spaces[k]? = some p → hs.basis_spaces[k + 1]? = some q →
      q.2.1 = p.2.2 + 1) := by
  have hc1 : ∃ l, hilbert_space.constructed ops l hs := by
    rcases hc with h | ⟨args, h⟩ | ⟨G, mk, expr, l, base, hb, h⟩
    · exact h
    · exact ⟨_, constructor_impl_constructed ops args [] _ hs hilbert_space.constructed.empty h⟩
    · exact from_expression_constructed ops mk expr l base hs hb h
  obtain ⟨l, hl⟩ := hc1
  have hfix := constructed_recomputed ops l hs hl
  have hget : ∀ k, hs.basis_spaces[k]? =
      hs.basis_spaces[k]?.map (fun p =>
        (p.1, (-1 + 1 + ((hs.basis_spaces.take k).map (fun q => ops.n_bits q.1)).sum,
          -1 + ((hs.basis_spaces.take k).map (fun q => ops.n_bits q.1)).sum +
            ops.n_bits p.1))) := by
    intro k
    have h1 := recompute_loop_getElem ops hs.basis_spaces (-1) k
    have h2 : (hilbert_space.recompute_loop ops hs.basis_spaces (-1)).1 = hs.basis_spaces :=
      congrArg hilbert_space.basis_spaces hfix
    rw [h2] at h1
    exact h1
  have hlay : ∀ k bs lo hi, hs.basis_spaces[k]? = some (bs, (lo, hi)) →
      lo = ((hs.basis_spaces.take k).map (fun q => ops.n_bits q.1)).sum ∧
      hi = lo + ops.n_bits bs - 1 := by
    intro k bs lo hi hk
    have h1 := hget k
    rw [hk] at h1
    simp only [Option.map_some', Option.some.injEq, Prod.mk.injEq, true_and] at h1
    constructor
    · omega
    · omega
  refine ⟨constructed_sorted ops htrans l hs hl, ?_, hlay, ?_⟩
  · intro bs lo hi h0
    have h1 := (hlay 0 bs lo hi h0).1
    simpa using h1
  · intro k p q hp hq
    obtain ⟨bs, lo, hi⟩ := p
    obtain ⟨bs1, lo1, hi1⟩ := q
    have h1 := hlay k bs lo hi hp
    have h2 := hlay (k + 1) bs1 lo1 hi1 hq
    have h3 : hs.basis_spaces.take (k + 1) = hs.basis_spaces.take k ++ [(bs, (lo, hi))] := by
      rw [List.take_succ, hp]
      rfl
    rw [h3] at h2
    simp only [List.map_append, List.map_cons, List.map_nil, List.sum_append, List.sum_cons,
      List.sum_nil, add_zero] at h2
    simp only
    omega

/-- Witness of C13: the Hilbert space of the boson space `(4 bits, 0)` and the
fermion spaces `1` and `0`, whose ranges are `[0,0]`, `[1,1]` and `[2,5]`. -/
theorem C13_bit_ranges_witness :
    (∀ a b c : elementary_space Nat,
      (elementary_space_ops spec_space_algebra_ids).lt a b = true →
      (elementary_space_ops spec_space_algebra_ids).lt b c = true →
      (elementary_space_ops spec_space_algebra_ids).lt a c = true) ∧
    hilbert_space.of_spaces (elementary_space_ops spec_space_algebra_ids)
        [(.boson ⟨4, 0⟩ : elementary_space Nat), .fermion ⟨1⟩, .fermion ⟨0⟩] =
      .ok { basis_spaces := [(.fermion ⟨0⟩, (0, 0)), (.fermion ⟨1⟩, (1, 1)),
                             (.boson ⟨4, 0⟩, (2, 5))],
            bit_range_end := 5 } ∧
    (∀ k p q,
      ([(.fermion ⟨0⟩, (0, 0)), (.fermion ⟨1⟩, (1, 1)), (.boson ⟨4, 0⟩, (2, 5))] :
        List (elementary_space Nat × bit_range_t))[k]? = some p →
      ([(.fermion ⟨0⟩, (0, 0)), (.fermion ⟨1⟩, (1, 1)), (.boson ⟨4, 0⟩, (2, 5))] :
        List (elementary_space Nat × bit_range_t))[k + 1]? = some q →
      q.2.1 = p.2.2 + 1) :=
  ⟨spec_space_ops_swo.2.1, rfl,
   (C13_bit_ranges (elementary_space_ops spec_space_algebra_ids) spec_space_ops_swo.2.1
     { basis_spaces := [(.fermion ⟨0⟩, (0, 0)), (.fermion ⟨1⟩, (1, 1)),
                        (.boson ⟨4, 0⟩, (2, 5))],
       bit_range_end := 5 }
     (Or.inr (Or.inl ⟨[(.boson ⟨4, 0⟩ : elementary_space Nat), .fermion ⟨1⟩, .fermion ⟨0⟩],
       rfl⟩))).2.2.2⟩

/-! ## Theorems: the partition of the bits -/

/-- The ranges that `recompute_bit_ranges` assigns after `e` lie in
`(e, bit_range_end_]` when no `n_bits` is negative. -/
theorem recompute_loop_within {S : Type} (ops : space_ops S) :
    ∀ (m : List (S × bit_range_t)) (e : Int),
      (∀ x ∈ m, 0 ≤ ops.n_bits x.1) →
      e ≤ (hilbert_space.recompute_loop ops m e).2 ∧
      ∀ (k : Nat) (bs : S) (lo hi : Int),
        (hilbert_space.recompute_loop ops m e).1[k]? = some (bs, (lo, hi)) →
        ∀ p : Int, lo ≤ p → p ≤ hi → e < p ∧ p ≤ (hilbert_space.recompute_loop ops m e).2
  | [], e, _ => by simp [hilbert_space.recompute_loop]
  | (k1, v1) :: rest, e, hn => by
    have h1 : 0 ≤ ops.n_bits k1 := hn (k1, v1) (List.mem_cons_self _ _)
    have ih := recompute_loop_within ops rest (e + ops.n_bits k1)
      (fun x hx => hn x (List.mem_cons_of_mem _ hx))
    simp only [hilbert_space.recompute_loop]
    refine ⟨by omega, ?_⟩
    intro k bs lo hi hk p hlo hhi
    cases k with
    | zero =>
      simp only [List.getElem?_cons_zero, Option.some.injEq, Prod.mk.injEq] at hk
      omega
    | succ j =>
      simp only [List.getElem?_cons_succ] at hk
      have h2 := ih.2 j bs lo hi hk p hlo hhi
      omega

/-- Every position in `(e, bit_range_end_]` lies in one of the ranges that
`recompute_bit_ranges` assigns after `e`, when no `n_bits` is negative. -/
theorem recompute_loop_cover {S : Type} (ops : space_ops S) :
    ∀ (m : List (S × bit_range_t)) (e : Int),
      (∀ x ∈ m, 0 ≤ ops.n_bits x.1) →
      ∀ p : Int, e < p → p ≤ (hilbert_space.recompute_loop ops m e).2 →
        ∃ (k : Nat) (bs : S) (lo hi : Int),
          (hilbert_space.recompute_loop ops m e).1[k]? = some (bs, (lo, hi)) ∧
          lo ≤ p ∧ p ≤ hi
  | [], e, _ => by
    intro p h1 h2
    simp only [hilbert_space.recompute_loop] at h2
    omega
  | (k1, v1) :: rest, e, hn => by
    intro p h1 h2
    simp only [hilbert_space.recompute_loop] at h2 ⊢
    by_cases hp : p ≤ e + ops.n_bits k1
    · exact ⟨0, k1, e + 1, e + ops.n_bits k1, by simp, by omega, hp⟩
    · obtain ⟨k, bs, lo, hi, hk, hlo, hhi⟩ := recompute_loop_cover ops rest (e + ops.n_bits k1)
        (fun x hx => hn x (List.mem_cons_of_mem _ hx)) p (by omega) h2
      exact ⟨k + 1, bs, lo, hi, by simpa using hk, hlo, hhi⟩

/-- No position lies in two of the ranges that `recompute_bit_ranges` assigns,
when no `n_bits` is negative. -/
theorem recompute_loop_disjoint {S : Type} (ops : space_ops S) :
    ∀ (m : List (S × bit_range_t)) (e : Int),
      (∀ x ∈ m, 0 ≤ ops.n_bits x.1) →
      ∀ (k1 k2 : Nat) (r1 r2 : S × bit_range_t) (p : Int),
        (hilbert_space.recompute_loop ops m e).1[k1]? = some r1 →
        (hilbert_space.recompute_loop ops m e).1[k2]? = some r2 →
        r1.2.1 ≤ p → p ≤ r1.2.2 → r2.2.1 ≤ p → p ≤ r2.2.2 → k1 = k2
  | [], e, _ => by simp [hilbert_space.recompute_loop]
  | (k0, v0) :: rest, e, hn => by
    have hrest : ∀ x ∈ rest, 0 ≤ ops.n_bits x.1 := fun x hx => hn x (List.mem_cons_of_mem _ hx)
    have hw := (recompute_loop_within ops rest (e + ops.n_bits k0) hrest).2
    have ih := recompute_loop_disjoint ops rest (e + ops.n_bits k0) hrest
    intro k1 k2 r1 r2 p h1 h2 a1 a2 b1 b2
    obtain ⟨bs1, lo1, hi1⟩ := r1
    obtain ⟨bs2, lo2, hi2⟩ := r2
    simp only [hilbert_space.recompute_loop] at h1 h2
    simp only at a1 a2 b1 b2
    cases k1 with
    | zero =>
      cases k2 with
      | zero => rfl
      | succ j2 =>
        simp only [List.getElem?_cons_zero, Option.some.injEq, Prod.mk.injEq] at h1
        simp only [List.getElem?_cons_succ] at h2
        have h3 := hw j2 bs2 lo2 hi2 h2 p b1 b2
        omega
    | succ j1 =>
      cases k2 with
      | zero =>
        simp only [List.getElem?_cons_zero, Option.some.injEq, Prod.mk.injEq] at h2
        simp only [List.getElem?_cons_succ] at h1
        have h3 := hw j1 bs1 lo1 hi1 h1 p a1 a2
        omega
      | succ j2 =>
        simp only [List.getElem?_cons_succ] at h1 h2
        rw [ih j1 j2 _ _ p h1 h2 a1 a2 b1 b2]

/-- In every Hilbert space `total_n_bits()` is the sum of `n_bits` over its
spaces (0 for the empty one), and when no space has a negative `n_bits` the bit
ranges partition `[0, total_n_bits)`: every position of the interval lies in
the range of a space, of one space only, and no range reaches outside the
interval. -/
theorem partition_of_nonneg_n_bits {S : Type} (ops : space_ops S) (l : List S)
    (hs : hilbert_space S)
    (hc : hilbert_space.constructed ops l hs) :
    hs.total_n_bits = (hs.basis_spaces.map (fun p => ops.n_bits p.1)).sum ∧
    hilbert_space.total_n_bits (hilbert_space.empty : hilbert_space S) = 0 ∧
    ((∀ x ∈ hs.basis_spaces, 0 ≤ ops.n_bits x.1) →
      (∀ p : Int, 0 ≤ p → p < hs.total_n_bits →
        ∃ (k : Nat) (bs : S) (lo hi : Int),
          hs.basis_spaces[k]? = some (bs, (lo, hi)) ∧ lo ≤ p ∧ p ≤ hi) ∧
      (∀ (k1 k2 : Nat) (r1 r2 : S × bit_range_t) (p : Int),
        hs.basis_spaces[k1]? = some r1 → hs.basis_spaces[k2]? = some r2 →
        r1.2.1 ≤ p → p ≤ r1.2.2 → r2.2.1 ≤ p → p ≤ r2.2.2 → k1 = k2) ∧
      (∀ (k : Nat) (bs : S) (lo hi : Int), hs.basis_spaces[k]? = some (bs, (lo, hi)) →
        ∀ p : Int, lo ≤ p → p ≤ hi → 0 ≤ p ∧ p < hs.total_n_bits)) := by
  have hfix := constructed_recomputed ops l hs hc
  have h1 : (hilbert_space.recompute_loop ops hs.basis_spaces (-1)).1 = hs.basis_spaces :=
    congrArg hilbert_space.basis_spaces hfix
  have h2 : (hilbert_space.recompute_loop ops hs.basis_spaces (-1)).2 = hs.bit_range_end :=
    congrArg hilbert_space.bit_range_end hfix
  have h3 := recompute_loop_snd ops hs.basis_spaces (-1)
  rw [h2] at h3
  refine ⟨?_, rfl, ?_⟩
  · simp only [hilbert_space.total_n_bits]
    omega
  · intro hn
    have hw := recompute_loop_within ops hs.basis_spaces (-1) hn
    have hcov := recompute_loop_cover ops hs.basis_spaces (-1) hn
    have hdis := recompute_loop_disjoint ops hs.basis_spaces (-1) hn
    rw [h1] at hcov hdis
    rw [h1, h2] at hw
    rw [h2] at hcov
    simp only [hilbert_space.total_n_bits]
    refine ⟨?_, hdis, ?_⟩
    · intro p hp0 hp1
      exact hcov p (by omega) (by omega)
    · intro k bs lo hi hk p hlo hhi
      have h4 := hw.2 k bs lo hi hk p hlo hhi
      omega

/-- The Hilbert space of the fermion space `1` and the boson space
`(4 bits, 0)` is built by two calls of `add`. -/
theorem example_hilbert_space_constructed :
    hilbert_space.constructed (elementary_space_ops spec_space_algebra_ids)
      [(.boson ⟨4, 0⟩ : elementary_space Nat), .fermion ⟨1⟩]
      { basis_spaces := [(.fermion ⟨1⟩, (0, 0)), (.boson ⟨4, 0⟩, (1, 4))],
        bit_range_end := 4 } := by
  have h0 : hilbert_space.constructed (elementary_space_ops spec_space_algebra_ids)
      [(.fermion ⟨1⟩ : elementary_space Nat)]
      { basis_spaces := [(.fermion ⟨1⟩, (0, 0))], bit_range_end := 0 } :=
    hilbert_space.constructed.add [] hilbert_space.empty _ _
      hilbert_space.constructed.empty rfl
  exact hilbert_space.constructed.add _ _ _ _ h0 rfl

/-- The Hilbert space of the boson space `(4 bits, 0)` and the fermion space
`1` has 5 bits. -/
theorem example_partition :
    hilbert_space.constructed (elementary_space_ops spec_space_algebra_ids)
      [(.boson ⟨4, 0⟩ : elementary_space Nat), .fermion ⟨1⟩]
      { basis_spaces := [(.fermion ⟨1⟩, (0, 0)), (.boson ⟨4, 0⟩, (1, 4))],
        bit_range_end := 4 } ∧
    hilbert_space.total_n_bits
        ({ basis_spaces := [(.fermion ⟨1⟩, (0, 0)), (.boson ⟨4, 0⟩, (1, 4))],
           bit_range_end := 4 } : hilbert_space (elementary_space Nat)) =
      (([(.fermion ⟨1⟩, (0, 0)), (.boson ⟨4, 0⟩, (1, 4))] :
        List (elementary_space Nat × bit_range_t)).map
        (fun p => (elementary_space_ops spec_space_algebra_ids).n_bits p.1)).sum :=
  ⟨example_hilbert_space_constructed,
   (partition_of_nonneg_n_bits (elementary_space_ops spec_space_algebra_ids) _ _
     example_hilbert_space_constructed).1⟩

/-- C14 at the boson spaces `(-1 bits, 0)` and `(3 bits, 1)`, which the
constructor `elementary_space_boson(int n_bits, …)` and the static
`make_space_boson` build without a check, while the `make_space_boson` of the
dynamic indices asserts `n_bits > 0`: the constructor of the Hilbert space
accepts them, `total_n_bits()` is the sum `2`, the ranges are `[0, -2]` and
`[-1, 1]`, and the range of the second space holds the position `-1`, outside
`[0, 2)`, so the ranges do not partition the interval. -/
theorem C14_partition_negative_n_bits :
    hilbert_space.of_spaces (elementary_space_ops spec_space_algebra_ids)
        [(.boson ⟨-1, 0⟩ : elementary_space Nat), .boson ⟨3, 1⟩] =
      .ok { basis_spaces := [(.boson ⟨-1, 0⟩, (0, -2)), (.boson ⟨3, 1⟩, (-1, 1))],
            bit_range_end := 1 } ∧
    hilbert_space.total_n_bits
        ({ basis_spaces := [(.boson ⟨-1, 0⟩, (0, -2)), (.boson ⟨3, 1⟩, (-1, 1))],
           bit_range_end := 1 } : hilbert_space (elementary_space Nat)) = 2 ∧
    ¬ (∀ (k : Nat) (bs : elementary_space Nat) (lo hi : Int),
        ([(.boson ⟨-1, 0⟩, (0, -2)), (.boson ⟨3, 1⟩, (-1, 1))] :
          List (elementary_space Nat × bit_range_t))[k]? = some (bs, (lo, hi)) →
        ∀ p : Int, lo ≤ p → p ≤ hi →
          0 ≤ p ∧ p < hilbert_space.total_n_bits
            ({ basis_spaces := [(.boson ⟨-1, 0⟩, (0, -2)), (.boson ⟨3, 1⟩, (-1, 1))],
               bit_range_end := 1 } : hilbert_space (elementary_space Nat))) := by
  refine ⟨rfl, rfl, ?_⟩
  intro h
  have h1 := h 1 (.boson ⟨3, 1⟩) (-1) 1 rfl (-1) (by decide) (by decide)
  exact absurd h1.1 (by decide)

/-! ## Theorems: the Hilbert space of an expression -/

/-- In a map with increasing keys `find` hits exactly when a key is equivalent
to the key looked for. -/
theorem map_find_isSome_iff {K V : Type} (lt : K → K → Bool)
    (htrans : ∀ a b c, lt a b = true → lt b c = true → lt a c = true)
    (m : List (K × V)) (k : K)
    (hm : List.Pairwise (fun a b => lt a b = true) (m.map Prod.fst)) :
    (map_find lt m k).isSome = true ↔
      ∃ x ∈ m.map Prod.fst, lt x k = false ∧ lt k x = false := by
  rw [← Option.ne_none_iff_isSome, Ne, map_find_eq_none_iff lt htrans m k hm]
  simp only [not_forall, not_or, Bool.not_eq_true]
  constructor
  · rintro ⟨x, hx, h1, h2⟩
    exact ⟨x, hx, h1, h2⟩
  · rintro ⟨x, hx, h1, h2⟩
    exact ⟨x, hx, h1, h2⟩

/-- The keys after the loop of the constructor from an expression: the keys
before are kept, every new key is the space of a generator met, the keys stay
in increasing order, and the space of every generator met is found. -/
theorem from_expression_loop_keys {S G : Type} (ops : space_ops S)
    (hswo : ops.strict_weak_order) (mk : G → S) :
    ∀ (gs : List G) (m m1 : List (S × bit_range_t)),
      hilbert_space.from_expression_loop ops mk gs m = .ok m1 →
      List.Pairwise (fun a b => ops.lt a b = true) (m.map Prod.fst) →
      (∀ x ∈ m.map Prod.fst, x ∈ m1.map Prod.fst) ∧
      (∀ x ∈ m1.map Prod.fst, x ∈ m.map Prod.fst ∨ ∃ g ∈ gs, x = mk g) ∧
      List.Pairwise (fun a b => ops.lt a b = true) (m1.map Prod.fst) ∧
      (∀ g ∈ gs, (map_find ops.lt m1 (mk g)).isSome = true)
  | [], m, m1, h, hm => by
    simp only [hilbert_space.from_expression_loop, Except.ok.injEq] at h
    subst h
    simp [hm]
  | g :: gs, m, m1, h, hm => by
    simp only [hilbert_space.from_expression_loop] at h
    split at h
    · cases h
    · have hsorted := map_emplace_sorted ops.lt hswo.2.1 m (mk g) ((0, 0) : bit_range_t) hm
      have hmem := map_emplace_keys_mem ops.lt m (mk g) ((0, 0) : bit_range_t)
      obtain ⟨i1, i2, i3, i4⟩ := from_expression_loop_keys ops hswo mk gs _ m1 h hsorted
      refine ⟨?_, ?_, i3, ?_⟩
      · intro x hx
        exact i1 x ((hmem x).2 (Or.inl hx))
      · intro x hx
        rcases i2 x hx with h1 | ⟨g1, hg1, h1⟩
        · rcases (hmem x).1 h1 with h2 | ⟨_, h2⟩
          · exact Or.inl h2
          · exact Or.inr ⟨g, List.mem_cons_self _ _, h2⟩
        · exact Or.inr ⟨g1, List.mem_cons_of_mem _ hg1, h1⟩
      · intro g1 hg1
        rcases List.mem_cons.1 hg1 with h1 | h1
        · subst h1
          rw [map_find_isSome_iff ops.lt hswo.2.1 m1 (mk g1) i3]
          have h2 : (map_find ops.lt (map_emplace ops.lt m (mk g1) ((0, 0) : bit_range_t)).1
              (mk g1)).isSome = true := by
            cases hr : (map_emplace ops.lt m (mk g1) ((0, 0) : bit_range_t)).2
            · rw [map_emplace_unchanged ops.lt m (mk g1) _ hr]
              have h3 := map_emplace_snd ops.lt m (mk g1) ((0, 0) : bit_range_t)
              rw [hr] at h3
              cases hf : map_find ops.lt m (mk g1) <;> simp [hf] at h3 ⊢
            · rw [map_find_emplace_self ops.lt m (mk g1) _ (hswo.1 _) hr]
              rfl
          rw [map_find_isSome_iff ops.lt hswo.2.1 _ (mk g1) hsorted] at h2
          obtain ⟨x, hx, h3⟩ := h2
          exact ⟨x, i1 x hx, h3⟩
        · exact i4 g1 h1

/-- The loop of the constructor from an expression throws exactly when it
meets a generator whose space has no bits and is not found in the map. -/
theorem from_expression_loop_error_iff {S G : Type} (ops : space_ops S)
    (hswo : ops.strict_weak_order) (mk : G → S) :
    ∀ (gs : List G) (m : List (S × bit_range_t)),
      (∀ g ∈ gs, ∀ g1 ∈ gs, ops.lt (mk g) (mk g1) = false → ops.lt (mk g1) (mk g) = false →
        (ops.n_bits (mk g) = 0 ↔ ops.n_bits (mk g1) = 0)) →
      List.Pairwise (fun a b => ops.lt a b = true) (m.map Prod.fst) →
      (∀ e, hilbert_space.from_expression_loop ops mk gs m = .error e →
        e.generator_ptr ∈ gs ∧ ops.n_bits (mk e.generator_ptr) = 0 ∧
        map_find ops.lt m (mk e.generator_ptr) = none) ∧
      ((∃ g ∈ gs, ops.n_bits (mk g) = 0 ∧ map_find ops.lt m (mk g) = none) →
        ∃ e, hilbert_space.from_expression_loop ops mk gs m = .error e)
  | [], m, _, _ => by simp [hilbert_space.from_expression_loop]
  | g :: gs, m, hmk, hm => by
    have hsorted := map_emplace_sorted ops.lt hswo.2.1 m (mk g) ((0, 0) : bit_range_t) hm
    have hmem := map_emplace_keys_mem ops.lt m (mk g) ((0, 0) : bit_range_t)
    have hsnd := map_emplace_snd ops.lt m (mk g) ((0, 0) : bit_range_t)
    have ih := from_expression_loop_error_iff ops hswo mk gs
      (map_emplace ops.lt m (mk g) ((0, 0) : bit_range_t)).1
      (fun a ha b hb => hmk a (List.mem_cons_of_mem _ ha) b (List.mem_cons_of_mem _ hb)) hsorted
    simp only [hilbert_space.from_expression_loop]
    constructor
    · intro e he
      split at he
      · rename_i hcond
        cases he
        simp only [Bool.and_eq_true, beq_iff_eq] at hcond
        refine ⟨List.mem_cons_self _ _, hcond.2, ?_⟩
        rw [hcond.1] at hsnd
        cases hf : map_find ops.lt m (mk g) <;> simp [hf] at hsnd ⊢
      · obtain ⟨j1, j2, j3⟩ := ih.1 e he
        refine ⟨List.mem_cons_of_mem _ j1, j2, ?_⟩
        rw [map_find_eq_none_iff ops.lt hswo.2.1 _ _ hsorted] at j3
        rw [map_find_eq_none_iff ops.lt hswo.2.1 _ _ hm]
        intro x hx
        exact j3 x ((hmem x).2 (Or.inl hx))
    · rintro ⟨g0, hg0, hn0, hf0⟩
      split
      · exact ⟨_, rfl⟩
      · rename_i hcond
        apply ih.2
        rcases List.mem_cons.1 hg0 with h1 | h1
        · subst h1
          exfalso
          apply hcond
          rw [hf0] at hsnd
          rw [hsnd, hn0]
          rfl
        · refine ⟨g0, h1, hn0, ?_⟩
          rw [map_find_eq_none_iff ops.lt hswo.2.1 _ _ hm] at hf0
          rw [map_find_eq_none_iff ops.lt hswo.2.1 _ _ hsorted]
          intro x hx
          rcases (hmem x).1 hx with h2 | ⟨h2, h3⟩
          · exact hf0 x h2
          · subst h3
            by_contra hnc
            simp only [not_or, Bool.not_eq_true] at hnc
            have h4 := (hmk g (List.mem_cons_self _ _) g0 hg0 hnc.1 hnc.2).2 hn0
            apply hcond
            rw [h2, h4]
            rfl

/-- The method `has` is false exactly when `find` misses. -/
theorem hilbert_space_has_eq_false {S : Type} (ops : space_ops S) (hs : hilbert_space S)
    (bs : S) :
    hilbert_space.has ops hs bs = false ↔ map_find ops.lt hs.basis_spaces bs = none := by
  rw [hilbert_space_has_eq]
  cases map_find ops.lt hs.basis_spaces bs <;> simp

/-- C16: building a Hilbert space from an expression `E` and a base fails with
`no_default_basis_space` exactly when some generator occurring in `E` has no
default elementary space (the space it makes has `n_bits() == 0`) and the base
contains no space for that generator; the exception names such a generator;
otherwise the construction succeeds. The generators of `E` whose spaces the
order does not tell apart agree on having a default space. -/
theorem C16_no_default_basis_space {S G : Type} (ops : space_ops S)
    (hswo : ops.strict_weak_order) (mk : G → S) (expr : expression G)
    (l : List S) (base : hilbert_space S) (hc : hilbert_space.constructed ops l base)
    (hmk : ∀ g ∈ hilbert_space.expression_generators expr,
      ∀ g1 ∈ hilbert_space.expression_generators expr,
        ops.lt (mk g) (mk g1) = false → ops.lt (mk g1) (mk g) = false →
        (ops.n_bits (mk g) = 0 ↔ ops.n_bits (mk g1) = 0)) :
    ((∃ e, hilbert_space.from_expression ops mk expr base = .error e) ↔
      ∃ g ∈ hilbert_space.expression_generators expr,
        ops.n_bits (mk g) = 0 ∧ hilbert_space.has ops base (mk g) = false) ∧
    (∀ g, hilbert_space.from_expression ops mk expr base = .error { generator_ptr := g } →
      g ∈ hilbert_space.expression_generators expr ∧
      ops.n_bits (mk g) = 0 ∧ hilbert_space.has ops base (mk g) = false) ∧
    ((¬ ∃ g ∈ hilbert_space.expression_generators expr,
        ops.n_bits (mk g) = 0 ∧ hilbert_space.has ops base (mk g) = false) →
      ∃ hs, hilbert_space.from_expression ops mk expr base = .ok hs) := by
  have hsorted := constructed_sorted ops hswo.2.1 l base hc
  obtain ⟨k1, k2⟩ := from_expression_loop_error_iff ops hswo mk
    (hilbert_space.expression_generators expr) base.basis_spaces hmk hsorted
  have herr : ∀ e, hilbert_space.from_expression ops mk expr base = .error e →
      hilbert_space.from_expression_loop ops mk (hilbert_space.expression_generators expr)
        base.basis_spaces = .error e := by
    intro e he
    unfold hilbert_space.from_expression at he
    split at he
    · rename_i e1 h1
      cases he
      exact h1
    · cases he
  have hiff : (∃ e, hilbert_space.from_expression ops mk expr base = .error e) ↔
      ∃ g ∈ hilbert_space.expression_generators expr,
        ops.n_bits (mk g) = 0 ∧ hilbert_space.has ops base (mk g) = false := by
    constructor
    · rintro ⟨e, he⟩
      obtain ⟨j1, j2, j3⟩ := k1 e (herr e he)
      exact ⟨_, j1, j2, (hilbert_space_has_eq_false ops base _).2 j3⟩
    · rintro ⟨g, hg, hn, hh⟩
      obtain ⟨e, he⟩ := k2 ⟨g, hg, hn, (hilbert_space_has_eq_false ops base _).1 hh⟩
      refine ⟨e, ?_⟩
      unfold hilbert_space.from_expression
      rw [he]
  refine ⟨hiff, ?_, ?_⟩
  · intro g hg
    obtain ⟨j1, j2, j3⟩ := k1 _ (herr _ hg)
    exact ⟨j1, j2, (hilbert_space_has_eq_false ops base _).2 j3⟩
  · intro hno
    cases hr : hilbert_space.from_expression ops mk expr base with
    | error e => exact absurd (hiff.1 ⟨e, hr⟩) hno
    | ok hs => exact ⟨hs, rfl⟩

/-- Witness of C16: for the expression `c†_1` and the base of the fermion space
`1` and the boson space `(4 bits, 0)`, with the fermion generators given their
one-bit spaces, the construction succeeds. -/
theorem C16_no_default_basis_space_witness :
    (elementary_space_ops spec_space_algebra_ids :
      space_ops (elementary_space Nat)).strict_weak_order ∧
    hilbert_space.constructed (elementary_space_ops spec_space_algebra_ids)
      [(.boson ⟨4, 0⟩ : elementary_space Nat), .fermion ⟨1⟩]
      { basis_spaces := [(.fermion ⟨1⟩, (0, 0)), (.boson ⟨4, 0⟩, (1, 4))],
        bit_range_end := 4 } ∧
    ∃ hs, hilbert_space.from_expression (elementary_space_ops spec_space_algebra_ids)
      (fun g : generator_fermion Nat => (.fermion ⟨g.indices⟩ : elementary_space Nat))
      [([⟨true, 1⟩], 1)]
      { basis_spaces := [(.fermion ⟨1⟩, (0, 0)), (.boson ⟨4, 0⟩, (1, 4))],
        bit_range_end := 4 } = .ok hs := by
  refine ⟨spec_space_ops_swo, example_hilbert_space_constructed, ?_⟩
  refine (C16_no_default_basis_space (elementary_space_ops spec_space_algebra_ids)
    spec_space_ops_swo
    (fun g : generator_fermion Nat => (.fermion ⟨g.indices⟩ : elementary_space Nat))
    [([⟨true, 1⟩], 1)] _ _ example_hilbert_space_constructed ?_).2.2 ?_
  · intro g _ g1 _ _ _
    exact Iff.rfl
  · rintro ⟨g, _, hn, _⟩
    simp [elementary_space_ops, elementary_space.n_bits] at hn

/-! ## Theorems: the order of the calls of `add` -/

/-- Adding spaces that the order tells apart from each other and from the
spaces already there succeeds. -/
theorem constructor_impl_ok {S : Type} (ops : space_ops S) (hswo : ops.strict_weak_order) :
    ∀ (args l : List S) (hs : hilbert_space S),
      hilbert_space.constructed ops l hs →
      List.Pairwise (fun a b => ops.lt a b = true ∨ ops.lt b a = true) args →
      (∀ a ∈ args, ∀ x ∈ l, ops.lt x a = true ∨ ops.lt a x = true) →
      ∃ hs1, hilbert_space.constructor_impl ops hs args = .ok hs1
  | [], l, hs, _, _, _ => ⟨hs, rfl⟩
  | a :: rest, l, hs, hc, hp, hl => by
    have hsorted := constructed_sorted ops hswo.2.1 l hs hc
    have hfind : map_find ops.lt hs.basis_spaces a = none := by
      rw [map_find_eq_none_iff ops.lt hswo.2.1 _ _ hsorted]
      intro x hx
      exact hl a (List.mem_cons_self _ _) x ((constructed_keys_mem ops l hs hc x).1 hx)
    have hsnd := map_emplace_snd ops.lt hs.basis_spaces a ((0, 0) : bit_range_t)
    rw [hfind] at hsnd
    have hadd := hilbert_space_add_eq ops hs a
    rw [hsnd] at hadd
    simp only [Option.isNone_none, if_true] at hadd
    simp only [hilbert_space.constructor_impl, hadd]
    rw [List.pairwise_cons] at hp
    refine constructor_impl_ok ops hswo rest (a :: l) _
      (hilbert_space.constructed.add l hs a _ hc hadd) hp.2 ?_
    intro b hb x hx
    rcases List.mem_cons.1 hx with h1 | h1
    · subst h1
      exact hp.1 b hb
    · exact hl b (List.mem_cons_of_mem _ hb) x h1

/-- Two Hilbert spaces built by the program that hold the same spaces are the
same: the same order and the same bit ranges. -/
theorem constructed_unique {S : Type} (ops : space_ops S) (hswo : ops.strict_weak_order)
    (l1 l2 : List S) (hs1 hs2 : hilbert_space S)
    (h1 : hilbert_space.constructed ops l1 hs1) (h2 : hilbert_space.constructed ops l2 hs2)
    (hmem : ∀ x, x ∈ l1 ↔ x ∈ l2) : hs1 = hs2 := by
  have s1 := constructed_sorted ops hswo.2.1 l1 hs1 h1
  have s2 := constructed_sorted ops hswo.2.1 l2 hs2 h2
  have hne : ∀ a b : S, ops.lt a b = true → a ≠ b := by
    intro a b hab heq
    rw [heq, hswo.1 b] at hab
    cases hab
  have n1 : (hs1.basis_spaces.map Prod.fst).Nodup := s1.imp (hne _ _)
  have n2 : (hs2.basis_spaces.map Prod.fst).Nodup := s2.imp (hne _ _)
  have hperm : (hs1.basis_spaces.map Prod.fst).Perm (hs2.basis_spaces.map Prod.fst) := by
    rw [List.perm_ext_iff_of_nodup n1 n2]
    intro x
    rw [constructed_keys_mem ops l1 hs1 h1, constructed_keys_mem ops l2 hs2 h2]
    exact hmem x
  haveI : IsAntisymm S (fun a b => ops.lt a b = true) :=
    ⟨fun a b hab hba => absurd rfl (hne a a (hswo.2.1 a b a hab hba))⟩
  have hkeys := List.eq_of_perm_of_sorted hperm s1 s2
  have f1 := constructed_recomputed ops l1 hs1 h1
  have f2 := constructed_recomputed ops l2 hs2 h2
  rw [← f1, ← f2]
  simp only [hilbert_space.recompute_bit_ranges]
  rw [recompute_loop_keys ops hs1.basis_spaces hs2.basis_spaces (-1) hkeys]

/-- Adding the spaces of a Hilbert space built by the program to an empty one,
one at a time and in any order, builds that Hilbert space again. -/
theorem of_spaces_perm {S : Type} (ops : space_ops S) (hswo : ops.strict_weak_order)
    (l : List S) (hs : hilbert_space S) (hc : hilbert_space.constructed ops l hs)
    (args : List S) (hperm : args.Perm (hs.basis_spaces.map Prod.fst)) :
    hilbert_space.of_spaces ops args = .ok hs := by
  have hsorted := constructed_sorted ops hswo.2.1 l hs hc
  have hcmp : List.Pairwise (fun a b => ops.lt a b = true ∨ ops.lt b a = true) args := by
    refine (List.Perm.pairwise_iff ?_ hperm).2 (hsorted.imp Or.inl)
    intro x y hxy
    exact hxy.symm
  obtain ⟨hs1, h1⟩ := constructor_impl_ok ops hswo args [] hilbert_space.empty
    hilbert_space.constructed.empty hcmp (by simp)
  have hc1 := constructor_impl_constructed ops args [] _ hs1 hilbert_space.constructed.empty h1
  have heq : hs1 = hs := by
    refine constructed_unique ops hswo _ l hs1 hs hc1 hc ?_
    intro x
    rw [← constructed_keys_mem ops l hs hc x]
    simp only [List.append_nil, List.mem_reverse]
    exact hperm.mem_iff
  unfold hilbert_space.of_spaces
  rw [h1, heq]

/-- A Hilbert space is `==` to itself when every space is `==` to itself. -/
theorem hilbert_space_eq_self {S : Type} (ops : space_ops S) (heq : ∀ a, ops.eq a a = true)
    (hs : hilbert_space S) : hilbert_space.eq ops hs hs = true := by
  have h : ∀ m : List (S × bit_range_t), hilbert_space.equal_ranges ops m m = true := by
    intro m
    induction m with
    | nil => rfl
    | cons p rest ih => simp [hilbert_space.equal_ranges, heq, ih]
  simp [hilbert_space.eq, h]

/-- C15: for every expression `E` whose generators all have a default space
and every base Hilbert space, `hilbert_space(E, base)` succeeds and contains
exactly the spaces of the base together with the default spaces of the
generators occurring in `E` (every key is one of these, the keys of the base
are kept, the space of every generator is found), each once and in sorted
order; and adding those same spaces one at a time, in any order, to an empty
Hilbert space builds a Hilbert space equal to it under `operator==` (and
identical to it). -/
theorem C15_from_expression {S G : Type} (ops : space_ops S)
    (hswo : ops.strict_weak_order) (heq : ∀ a, ops.eq a a = true) (mk : G → S)
    (expr : expression G) (l : List S) (base : hilbert_space S)
    (hc : hilbert_space.constructed ops l base)
    (hdef : ∀ g ∈ hilbert_space.expression_generators expr, ops.n_bits (mk g) ≠ 0) :
    ∃ hs, hilbert_space.from_expression ops mk expr base = .ok hs ∧
      (∀ x ∈ hs.basis_spaces.map Prod.fst,
        x ∈ base.basis_spaces.map Prod.fst ∨
        ∃ g ∈ hilbert_space.expression_generators expr, x = mk g) ∧
      (∀ x ∈ base.basis_spaces.map Prod.fst, x ∈ hs.basis_spaces.map Prod.fst) ∧
      (∀ g ∈ hilbert_space.expression_generators expr,
        hilbert_space.has ops hs (mk g) = true) ∧
      List.Pairwise (fun a b => ops.lt a b = true) (hs.basis_spaces.map Prod.fst) ∧
      (∀ args : List S, args.Perm (hs.basis_spaces.map Prod.fst) →
        ∃ hs1, hilbert_space.of_spaces ops args = .ok hs1 ∧
          hilbert_space.eq ops hs hs1 = true ∧ hs1 = hs) := by
  have hsorted := constructed_sorted ops hswo.2.1 l base hc
  have hloop : ∃ m1, hilbert_space.from_expression_loop ops mk
      (hilbert_space.expression_generators expr) base.basis_spaces = .ok m1 := by
    cases hr : hilbert_space.from_expression_loop ops mk
        (hilbert_space.expression_generators expr) base.basis_spaces with
    | ok m1 => exact ⟨m1, rfl⟩
    | error e =>
      have h1 := (from_expression_loop_error_iff ops hswo mk
        (hilbert_space.expression_generators expr) base.basis_spaces
        (fun g hg g1 hg1 _ _ =>
          ⟨fun h => absurd h (hdef g hg), fun h => absurd h (hdef g1 hg1)⟩) hsorted).1 e hr
      exact absurd h1.2.1 (hdef _ h1.1)
  obtain ⟨m1, hm1⟩ := hloop
  have hfrom : hilbert_space.from_expression ops mk expr base =
      .ok (hilbert_space.recompute_bit_ranges ops
        { basis_spaces := m1, bit_range_end := base.bit_range_end }) := by
    unfold hilbert_space.from_expression
    rw [hm1]
  obtain ⟨i1, i2, i3, i4⟩ := from_expression_loop_keys ops hswo mk _ _ m1 hm1 hsorted
  obtain ⟨l1, hc1⟩ := from_expression_constructed ops mk expr l base _ hc hfrom
  have hkeys : (hilbert_space.recompute_bit_ranges ops
      { basis_spaces := m1, bit_range_end := base.bit_range_end }).basis_spaces.map Prod.fst =
      m1.map Prod.fst := by
    simp only [hilbert_space.recompute_bit_ranges]
    rw [recompute_loop_fst_keys]
  refine ⟨_, hfrom, ?_, ?_, ?_, ?_, ?_⟩
  · rw [hkeys]
    exact i2
  · rw [hkeys]
    exact i1
  · intro g hg
    rw [hilbert_space_has_eq, map_find_isSome_keys ops.lt (mk g) _ m1 hkeys]
    exact i4 g hg
  · rw [hkeys]
    exact i3
  · intro args hperm
    refine ⟨_, of_spaces_perm ops hswo l1 _ hc1 args hperm, hilbert_space_eq_self ops heq _, rfl⟩

/-- Witness of C15: for the expression `c†_1 + c_2` and the base of the fermion
space `1` and the boson space `(4 bits, 0)`, with the fermion generators given
their one-bit spaces, the fermion space `2` is added. -/
theorem C15_from_expression_witness :
    (elementary_space_ops spec_space_algebra_ids :
      space_ops (elementary_space Nat)).strict_weak_order ∧
    hilbert_space.constructed (elementary_space_ops spec_space_algebra_ids)
      [(.boson ⟨4, 0⟩ : elementary_space Nat), .fermion ⟨1⟩]
      { basis_spaces := [(.fermion ⟨1⟩, (0, 0)), (.boson ⟨4, 0⟩, (1, 4))],
        bit_range_end := 4 } ∧
    hilbert_space.from_expression (elementary_space_ops spec_space_algebra_ids)
      (fun g : generator_fermion Nat => (.fermion ⟨g.indices⟩ : elementary_space Nat))
      [([⟨true, 1⟩], 1), ([⟨false, 2⟩], 1)]
      { basis_spaces := [(.fermion ⟨1⟩, (0, 0)), (.boson ⟨4, 0⟩, (1, 4))],
        bit_range_end := 4 } =
      .ok { basis_spaces := [(.fermion ⟨1⟩, (0, 0)), (.fermion ⟨2⟩, (1, 1)),
                             (.boson ⟨4, 0⟩, (2, 5))],
            bit_range_end := 5 } ∧
    ∃ hs, hilbert_space.from_expression (elementary_space_ops spec_space_algebra_ids)
      (fun g : generator_fermion Nat => (.fermion ⟨g.indices⟩ : elementary_space Nat))
      [([⟨true, 1⟩], 1), ([⟨false, 2⟩], 1)]
      { basis_spaces := [(.fermion ⟨1⟩, (0, 0)), (.boson ⟨4, 0⟩, (1, 4))],
        bit_range_end := 4 } = .ok hs ∧
      List.Pairwise (fun a b => (elementary_space_ops spec_space_algebra_ids).lt a b = true)
        (hs.basis_spaces.map Prod.fst) := by
  refine ⟨spec_space_ops_swo, example_hilbert_space_constructed, rfl, ?_⟩
  obtain ⟨hs, h1, _, _, _, h5, _⟩ :=
    C15_from_expression (elementary_space_ops spec_space_algebra_ids) spec_space_ops_swo
      (by intro a; cases a <;> simp [elementary_space_ops, elementary_space.eq,
        elementary_space.equal, elementary_space.base_equal])
      (fun g : generator_fermion Nat => (.fermion ⟨g.indices⟩ : elementary_space Nat))
      [([⟨true, 1⟩], 1), ([⟨false, 2⟩], 1)] _ _ example_hilbert_space_constructed
      (by intro g _; simp [elementary_space_ops, elementary_space.n_bits])
  exact ⟨hs, h1, h5⟩

/-! ## Theorems: equality of elementary spaces -/

/-- What `find` returns depends on how the key compares with the other keys
only. -/
theorem map_find_congr {K V : Type} (lt : K → K → Bool) (k k1 : K)
    (h : ∀ x, lt x k = lt x k1 ∧ lt k x = lt k1 x) :
    ∀ m : List (K × V), map_find lt m k = map_find lt m k1
  | [] => rfl
  | (k0, v0) :: rest => by
    simp only [map_find]
    rw [(h k0).1, (h k0).2, map_find_congr lt k k1 h rest]

/-- After a successful `add(bs)` the Hilbert space has `bs`. -/
theorem hilbert_space_has_after_add {S : Type} (ops : space_ops S)
    (hirr : ∀ a, ops.lt a a = false) (hs hs1 : hilbert_space S) (bs : S)
    (hadd : hilbert_space.add ops hs bs = .ok hs1) :
    hilbert_space.has ops hs1 bs = true := by
  rw [hilbert_space_add_eq] at hadd
  split at hadd
  · rename_i hr
    cases hadd
    rw [hilbert_space_has_eq]
    simp only [hilbert_space.recompute_bit_ranges]
    rw [map_find_isSome_keys ops.lt bs _
      (map_emplace ops.lt hs.basis_spaces bs ((0, 0) : bit_range_t)).1
      (recompute_loop_fst_keys ops _ _),
      map_find_emplace_self ops.lt _ _ _ (hirr bs) hr]
    rfl
  · cases hadd

/-- A Hilbert space that has a space rejects it in `add`. -/
theorem hilbert_space_add_of_has {S : Type} (ops : space_ops S) (hs : hilbert_space S)
    (bs : S) (hhas : hilbert_space.has ops hs bs = true) :
    hilbert_space.add ops hs bs = .error { basis_space_ptr := bs } := by
  rw [hilbert_space_add_eq]
  have hsnd := map_emplace_snd ops.lt hs.basis_spaces bs ((0, 0) : bit_range_t)
  rw [hilbert_space_has_eq] at hhas
  cases hf : map_find ops.lt hs.basis_spaces bs with
  | none => simp [hf] at hhas
  | some r =>
    rw [hf] at hsnd
    rw [hsnd]
    rfl

/-- C17 as the code has it: two elementary spaces compare equal exactly when
all their fields match, the algebra id, the index, `n_bits` and, for spin
spaces, the multiplicity. Two boson spaces over the same index with different
`n_bits` are different spaces, but neither is less than the other, so they
cannot both be added to one Hilbert space: a Hilbert space that has one of them
rejects the other with `basis_space_exists`. -/
theorem C17_space_equality {ι : Type} [LinearOrder ι] (ids : space_algebra_ids)
    (h1 : ids.fermion ≠ ids.boson) (h2 : ids.fermion ≠ ids.spin) (h3 : ids.boson ≠ ids.spin) :
    (∀ a b : elementary_space ι, elementary_space.eq ids a b = true ↔
      a.algebra_id ids = b.algebra_id ids ∧ a.indices = b.indices ∧ a.n_bits = b.n_bits ∧
      (∀ s t, a = .spin s → b = .spin t → s.multiplicity = t.multiplicity)) ∧
    (∀ a b : elementary_space ι, elementary_space.eq ids a b = true ↔ a = b) ∧
    (∀ (n1 n2 : Int) (i : ι), n1 ≠ n2 →
      elementary_space.eq ids (.boson ⟨n1, i⟩ : elementary_space ι) (.boson ⟨n2, i⟩) = false ∧
      elementary_space.lt ids (.boson ⟨n1, i⟩ : elementary_space ι) (.boson ⟨n2, i⟩) = false ∧
      elementary_space.lt ids (.boson ⟨n2, i⟩ : elementary_space ι) (.boson ⟨n1, i⟩) = false ∧
      (∀ hs : hilbert_space (elementary_space ι),
        hilbert_space.has (elementary_space_ops ids) hs (.boson ⟨n1, i⟩) = true →
        hilbert_space.add (elementary_space_ops ids) hs (.boson ⟨n2, i⟩) =
          .error { basis_space_ptr := .boson ⟨n2, i⟩ }) ∧
      (∀ hs hs1 : hilbert_space (elementary_space ι),
        hilbert_space.add (elementary_space_ops ids) hs (.boson ⟨n1, i⟩) = .ok hs1 →
        hilbert_space.add (elementary_space_ops ids) hs1 (.boson ⟨n2, i⟩) =
          .error { basis_space_ptr := .boson ⟨n2, i⟩ })) := by
  have h1' := Ne.symm h1
  have h2' := Ne.symm h2
  have h3' := Ne.symm h3
  have hcongr : ∀ (n1 n2 : Int) (i : ι) (hs : hilbert_space (elementary_space ι)),
      hilbert_space.has (elementary_space_ops ids) hs (.boson ⟨n1, i⟩) = true →
      hilbert_space.has (elementary_space_ops ids) hs (.boson ⟨n2, i⟩) = true := by
    intro n1 n2 i hs hh
    rw [hilbert_space_has_eq] at hh ⊢
    rw [map_find_congr (elementary_space_ops ids).lt (.boson ⟨n2, i⟩) (.boson ⟨n1, i⟩) ?_
      hs.basis_spaces]
    · exact hh
    · intro x
      cases x <;> simp [elementary_space_ops, elementary_space.lt, elementary_space.less,
        elementary_space.base_less, elementary_space.algebra_id, elementary_space.indices]
  refine ⟨?_, ?_, ?_⟩
  · intro a b
    cases a <;> cases b <;>
      simp [elementary_space.eq, elementary_space.equal, elementary_space.base_equal,
        elementary_space.algebra_id, elementary_space.indices, elementary_space.n_bits,
        h1, h2, h3, h1', h2', h3']
    tauto
  · intro a b
    cases a <;> cases b <;>
      simp [elementary_space.eq, elementary_space.equal, elementary_space.base_equal,
        elementary_space.algebra_id, elementary_space.indices, elementary_space.n_bits,
        h1, h2, h3, h1', h2', h3']
    · rename_i a b
      obtain ⟨ia⟩ := a
      obtain ⟨ib⟩ := b
      simp
    · rename_i a b
      obtain ⟨na, ia⟩ := a
      obtain ⟨nb, ib⟩ := b
      simp
      tauto
    · rename_i a b
      obtain ⟨ma, na, ia⟩ := a
      obtain ⟨mb, nb, ib⟩ := b
      simp
      tauto
  · intro n1 n2 i hne
    refine ⟨?_, ?_, ?_, ?_, ?_⟩
    · simp [elementary_space.eq, elementary_space.equal, elementary_space.base_equal,
        elementary_space.n_bits, hne]
    · simp [elementary_space.lt, elementary_space.less, elementary_space.base_less,
        elementary_space.indices, elementary_space.algebra_id]
    · simp [elementary_space.lt, elementary_space.less, elementary_space.base_less,
        elementary_space.indices, elementary_space.algebra_id]
    · intro hs hh
      exact hilbert_space_add_of_has _ hs _ (hcongr n1 n2 i hs hh)
    · intro hs hs1 hadd
      refine hilbert_space_add_of_has _ hs1 _ (hcongr n1 n2 i hs1 ?_)
      exact hilbert_space_has_after_add _ (elementary_space_ops_swo ids h1 h2 h3).1 hs hs1 _ hadd

/-- Witness of C17 with the algebra ids 0, 1 and 2 over natural-number
indices: the boson spaces `(2 bits, 0)` and `(3 bits, 0)` are not equal. -/
theorem C17_space_equality_witness :
    spec_space_algebra_ids.fermion ≠ spec_space_algebra_ids.boson ∧
    spec_space_algebra_ids.fermion ≠ spec_space_algebra_ids.spin ∧
    spec_space_algebra_ids.boson ≠ spec_space_algebra_ids.spin ∧
    elementary_space.eq spec_space_algebra_ids (.boson ⟨2, 0⟩ : elementary_space Nat)
      (.boson ⟨3, 0⟩) = false :=
  ⟨by decide, by decide, by decide,
   ((C17_space_equality spec_space_algebra_ids (by decide) (by decide) (by decide)).2.2
     2 3 (0 : Nat) (by decide)).1⟩

/-- Counterexample to C17 as stated: the boson spaces `(2 bits, 0)` and
`(3 bits, 0)` cannot both be added to one Hilbert space; the second `add`
throws `basis_space_exists`. -/
theorem C17_space_equality_counterexample :
    hilbert_space.of_spaces (elementary_space_ops spec_space_algebra_ids)
        [(.boson ⟨2, 0⟩ : elementary_space Nat), .boson ⟨3, 0⟩] =
      .error { basis_space_ptr := .boson ⟨3, 0⟩ } ∧
    hilbert_space.add (elementary_space_ops spec_space_algebra_ids)
        { basis_spaces := [((.boson ⟨2, 0⟩ : elementary_space Nat), (0, 1))],
          bit_range_end := 1 }
        (.boson ⟨3, 0⟩) =
      .error { basis_space_ptr := .boson ⟨3, 0⟩ } :=
  ⟨rfl, rfl⟩

/-! ## Theorems: the action of a spin monomial -/

/-- An index below `2^63` keeps its value as `std::int64_t`. -/
theorem to_int64_of_lt (x : Nat) (h : x < 2 ^ 63) : to_int64 x = (x : Int) := by
  unfold to_int64 sv_index_modulus
  have h1 : x % 2 ^ 64 = x := Nat.mod_eq_of_lt (by omega)
  rw [h1, if_pos h]

/-- A natural number below `2^64` keeps its value as `sv_index_type`. -/
theorem to_uint64_natCast (x : Nat) (h : x < 2 ^ 64) : to_uint64 (x : Int) = x := by
  unfold to_uint64 sv_index_modulus
  omega

/-- The loop over the square roots succeeds when every read is defined, and
multiplies the coefficient by the square roots in turn. -/
theorem mul_sqr_roots_eq {C : Type} (ops : coeff_ops C) (a : monomial_action_spin)
    (arg arg1 : Nat → Nat) (coeff : C) :
    ∀ power : Nat,
      (∀ d, d < power →
        monomial_action_spin.sqr_root ops a (arg d) = some (ops.sqrt (arg1 d))) →
      monomial_action_spin.mul_sqr_roots ops a arg power coeff =
        some ((List.range power).foldl (fun c d => ops.mul c (ops.sqrt (arg1 d))) coeff)
  | 0, _ => rfl
  | k + 1, h => by
    have ih := mul_sqr_roots_eq ops a arg arg1 coeff k (fun d hd => h d (by omega))
    unfold monomial_action_spin.mul_sqr_roots at ih ⊢
    rw [List.range_succ, List.foldlM_append, ih]
    simp [h k (by omega), List.foldl_append]

/-- The largest argument of a square root for a spin with `2s = s2`:
`(s2 - j)(j + 1)` is at most `(s + 1/2)^2` for half-integer `s` and `s(s+1)`
for integer `s`. -/
theorem sqr_root_arg_le (s2 j : Nat) (hj : j ≤ s2) :
    (s2 - j) * (j + 1) ≤ ((s2 + 1) / 2) * ((s2 + 2) / 2) := by
  obtain ⟨m, hm | hm⟩ := Nat.even_or_odd' s2
  · subst hm
    have h1 : (2 * m + 1) / 2 = m := by omega
    have h2 : (2 * m + 2) / 2 = m + 1 := by omega
    rw [h1, h2]
    zify [hj]
    rcases le_or_lt (m : Int) (j : Int) with h | h
    · nlinarith [mul_nonneg (sub_nonneg.2 h) (by linarith : (0 : Int) ≤ (j : Int) - m + 1)]
    · nlinarith [mul_nonneg (by linarith : (0 : Int) ≤ (m : Int) - j - 1)
        (by linarith : (0 : Int) ≤ (m : Int) - j)]
  · subst hm
    have h1 : (2 * m + 1 + 1) / 2 = m + 1 := by omega
    have h2 : (2 * m + 1 + 2) / 2 = m + 1 := by omega
    rw [h1, h2]
    zify [hj]
    nlinarith [sq_nonneg ((m : Int) - j)]

/-- The value `ss` of the constructor for a spin with `2s = s2`. -/
theorem spin_ss_eq (s2 : Nat) (h : s2 < 2 ^ 31) :
    spin_ss ((s2 : Int) + 1) ((s2 : ℚ) / 2) = ((s2 + 1) / 2) * ((s2 + 2) / 2) := by
  have hbound : ((s2 + 1) / 2) * ((s2 + 2) / 2) < 2 ^ 64 := by
    have h1 : (s2 + 1) / 2 < 2 ^ 31 := by omega
    have h2 : (s2 + 2) / 2 < 2 ^ 31 := by omega
    calc ((s2 + 1) / 2) * ((s2 + 2) / 2) < 2 ^ 31 * 2 ^ 31 :=
          Nat.mul_lt_mul'' h1 h2
      _ < 2 ^ 64 := by norm_num
  unfold spin_ss
  obtain ⟨m, hm | hm⟩ := Nat.even_or_odd' s2
  · subst hm
    have h1 : (2 * m + 1) / 2 = m := by omega
    have h2 : (2 * m + 2) / 2 = m + 1 := by omega
    rw [h1, h2] at hbound ⊢
    have h3 : ¬ (((2 * m : Nat) : Int) + 1) % 2 = 0 := by omega
    rw [if_neg h3]
    have h4 : (((2 * m : Nat) : ℚ) / 2) * (((2 * m : Nat) : ℚ) / 2 + 1) =
        (((m * (m + 1) : Nat) : Int) : ℚ) := by
      push_cast
      ring
    rw [h4, to_int_intCast, to_uint64_natCast _ hbound]
  · subst hm
    have h1 : (2 * m + 1 + 1) / 2 = m + 1 := by omega
    have h2 : (2 * m + 1 + 2) / 2 = m + 1 := by omega
    rw [h1, h2] at hbound ⊢
    have h3 : (((2 * m + 1 : Nat) : Int) + 1) % 2 = 0 := by omega
    rw [if_pos h3]
    have h4 : ((((2 * m + 1 : Nat) : ℚ) / 2) + 1 / 2) * ((((2 * m + 1 : Nat) : ℚ) / 2) + 1 / 2) =
        ((((m + 1) * (m + 1) : Nat) : Int) : ℚ) := by
      push_cast
      ring
    rw [h4, to_int_intCast, to_uint64_natCast _ hbound]

/-- With a table of the size the constructor gives it for a spin with
`2s = s2`, the square root of `(s2 - j)(j + 1)` is read or computed. -/
theorem sqr_root_defined {C : Type} (ops : coeff_ops C) (a : monomial_action_spin)
    (s2 j : Nat) (hs2 : s2 < 2 ^ 31) (hj : j ≤ s2)
    (hsize : min (spin_ss ((s2 : Int) + 1) ((s2 : ℚ) / 2) + 1)
      LIBCOMMUTE_SPIN_MAX_NUM_PRECOMPUTED_SQRT ≤ a.sqr_roots_size) :
    monomial_action_spin.sqr_root ops a ((s2 - j) * (j + 1)) =
      some (ops.sqrt ((s2 - j) * (j + 1))) := by
  rw [spin_ss_eq s2 hs2] at hsize
  have h1 := sqr_root_arg_le s2 j hj
  unfold monomial_action_spin.sqr_root
  unfold LIBCOMMUTE_SPIN_MAX_NUM_PRECOMPUTED_SQRT at hsize ⊢
  split
  · rename_i h2
    rw [if_pos]
    omega
  · rfl

/-- The action of a single run `S+^k`. -/
theorem act_plus_single {C : Type} (ops : coeff_ops C) (a : monomial_action_spin)
    (u : single_spin_update_t) (in_index : Nat) (coeff : C)
    (hup : a.updates = [u]) (hc : u.c = .plus) (hmask : u.mask < 2 ^ 63)
    (hs2 : u.s2 < 2 ^ 31) (hk : u.power < 2 ^ 31)
    (hsize : min (spin_ss ((u.s2 : Int) + 1) ((u.s2 : ℚ) / 2) + 1)
      LIBCOMMUTE_SPIN_MAX_NUM_PRECOMPUTED_SQRT ≤ a.sqr_roots_size) :
    (u.s2 < ((in_index >>> u.shift) &&& u.mask) + u.power →
      monomial_action_spin.act ops a in_index coeff = some (false, in_index, coeff)) ∧
    (((in_index >>> u.shift) &&& u.mask) + u.power ≤ u.s2 →
      monomial_action_spin.act ops a in_index coeff =
        some (true,
          (in_index + (u.power <<< u.shift) % sv_index_modulus) % sv_index_modulus,
          (List.range u.power).foldl (fun c d => ops.mul c (ops.sqrt
            ((u.s2 - (((in_index >>> u.shift) &&& u.mask) + d)) *
              (((in_index >>> u.shift) &&& u.mask) + d + 1)))) coeff)) := by
  have hn : (in_index >>> u.shift) &&& u.mask < 2 ^ 63 :=
    lt_of_le_of_lt Nat.and_le_right hmask
  generalize hnv : (in_index >>> u.shift) &&& u.mask = n at hn ⊢
  have h64 : to_int64 n = (n : Int) := to_int64_of_lt n hn
  have hu : to_uint64 (n : Int) = n := to_uint64_natCast n (by omega)
  have hcond : (to_uint64 (n : Int) + u.power) % sv_index_modulus = n + u.power := by
    rw [hu]
    unfold sv_index_modulus
    omega
  unfold monomial_action_spin.act
  rw [hup]
  simp only [List.reverse_cons, List.reverse_nil, List.nil_append,
    monomial_action_spin.act_loop, monomial_action_spin.act_update, hc, hnv, h64, hcond]
  constructor
  · intro h
    rw [if_pos (by omega)]
  · intro h
    rw [if_neg (by omega)]
    rw [mul_sqr_roots_eq ops a _
      (fun d => (u.s2 - (n + d)) * (n + d + 1)) coeff u.power]
    intro d hd
    have h1 : to_uint64 ((u.s2 : Int) - ((n : Int) + (d : Int))) = u.s2 - (n + d) := by
      have h2 : (u.s2 : Int) - ((n : Int) + (d : Int)) = ((u.s2 - (n + d) : Nat) : Int) := by
        omega
      rw [h2, to_uint64_natCast _ (by omega)]
    have h3 : to_uint64 ((n : Int) + (d : Int) + 1) = n + d + 1 := by
      have h4 : (n : Int) + (d : Int) + 1 = ((n + d + 1 : Nat) : Int) := by omega
      rw [h4, to_uint64_natCast _ (by omega)]
    have h5 := sqr_root_arg_le u.s2 (n + d) (by omega)
    have h6 : ((u.s2 + 1) / 2) * ((u.s2 + 2) / 2) < 2 ^ 64 := by
      have i1 : (u.s2 + 1) / 2 < 2 ^ 31 := by omega
      have i2 : (u.s2 + 2) / 2 < 2 ^ 31 := by omega
      calc ((u.s2 + 1) / 2) * ((u.s2 + 2) / 2) < 2 ^ 31 * 2 ^ 31 :=
            Nat.mul_lt_mul'' i1 i2
        _ < 2 ^ 64 := by norm_num
    have h7 : ((u.s2 - (n + d)) * (n + d + 1)) % sv_index_modulus =
        (u.s2 - (n + d)) * (n + d + 1) :=
      Nat.mod_eq_of_lt (by unfold sv_index_modulus; omega)
    simp only [h1, h3, h7]
    exact sqr_root_defined ops a u.s2 (n + d) hs2 (by omega) hsize

/-- C18: for a single run `S+^k` on a spin `s` whose bit field starts at bit
`lo` and holds `n`, `act` returns `false` when `n + k > 2s`; otherwise it
returns `true` with `out = in + (k << lo)` and `coeff` multiplied, for
`d = 0 .. k-1`, by the square root of `(2s - (n+d)) * (n+d+1)`. For `s = 1/2`
and real coefficients, `S+` maps `n = 0` to `n = 1` with amplitude 1 and
annihilates `n = 1`. The fields of the update are within their machine types
(`2s` and `k` below `2^31`, the mask below `2^63`) and the table of square
roots has the size the constructor gives it. -/
theorem C18_act_plus :
    (∀ (C : Type) (ops : coeff_ops C) (a : monomial_action_spin)
      (u : single_spin_update_t) (in_index : Nat) (coeff : C),
      a.updates = [u] → u.c = .plus → u.mask < 2 ^ 63 → u.s2 < 2 ^ 31 → u.power < 2 ^ 31 →
      min (spin_ss ((u.s2 : Int) + 1) ((u.s2 : ℚ) / 2) + 1)
        LIBCOMMUTE_SPIN_MAX_NUM_PRECOMPUTED_SQRT ≤ a.sqr_roots_size →
      (u.s2 < ((in_index >>> u.shift) &&& u.mask) + u.power →
        monomial_action_spin.act ops a in_index coeff = some (false, in_index, coeff)) ∧
      (((in_index >>> u.shift) &&& u.mask) + u.power ≤ u.s2 →
        monomial_action_spin.act ops a in_index coeff =
          some (true,
            (in_index + (u.power <<< u.shift) % sv_index_modulus) % sv_index_modulus,
            (List.range u.power).foldl (fun c d => ops.mul c (ops.sqrt
              ((u.s2 - (((in_index >>> u.shift) &&& u.mask) + d)) *
                (((in_index >>> u.shift) &&& u.mask) + d + 1)))) coeff))) ∧
    (∀ (lo : Nat) (coeff : ℝ), lo < 64 →
      (0 >>> lo) &&& 1 = 0 ∧ ((2 ^ lo) >>> lo) &&& 1 = 1 ∧
      monomial_action_spin.act
        { mul := fun x y => x * y, sqrt := fun n => Real.sqrt n, pow := fun b k => (b : ℝ) ^ k }
        { updates := [{ s2 := 1, shift := lo, mask := 1, c := .plus, power := 1 }],
          sqr_roots_size := 2 } 0 coeff = some (true, 2 ^ lo, coeff) ∧
      monomial_action_spin.act
        { mul := fun x y => x * y, sqrt := fun n => Real.sqrt n, pow := fun b k => (b : ℝ) ^ k }
        { updates := [{ s2 := 1, shift := lo, mask := 1, c := .plus, power := 1 }],
          sqr_roots_size := 2 } (2 ^ lo) coeff = some (false, 2 ^ lo, coeff)) := by
  refine ⟨fun C ops a u in_index coeff hup hc hmask hs2 hk hsize =>
    act_plus_single ops a u in_index coeff hup hc hmask hs2 hk hsize, ?_⟩
  intro lo coeff hlo
  have hsz : min (spin_ss (((1 : Nat) : Int) + 1) (((1 : Nat) : ℚ) / 2) + 1)
      LIBCOMMUTE_SPIN_MAX_NUM_PRECOMPUTED_SQRT ≤ 2 := by
    rw [spin_ss_eq 1 (by norm_num)]
    decide
  have h0 : (0 >>> lo) &&& 1 = 0 := by simp
  have h1 : ((2 ^ lo) >>> lo) &&& 1 = 1 := by
    rw [Nat.shiftRight_eq_div_pow, Nat.div_self (by positivity)]
    rfl
  have hpow : (2 : Nat) ^ lo < 2 ^ 64 := Nat.pow_lt_pow_right (by norm_num) hlo
  have k2 := (act_plus_single
    { mul := fun x y => x * y, sqrt := fun n => Real.sqrt n, pow := fun b k => (b : ℝ) ^ k }
    { updates := [{ s2 := 1, shift := lo, mask := 1, c := .plus, power := 1 }],
      sqr_roots_size := 2 }
    { s2 := 1, shift := lo, mask := 1, c := .plus, power := 1 } 0 coeff rfl rfl
    (by norm_num) (by norm_num) (by norm_num) hsz).2
  have k3 := (act_plus_single
    { mul := fun x y => x * y, sqrt := fun n => Real.sqrt n, pow := fun b k => (b : ℝ) ^ k }
    { updates := [{ s2 := 1, shift := lo, mask := 1, c := .plus, power := 1 }],
      sqr_roots_size := 2 }
    { s2 := 1, shift := lo, mask := 1, c := .plus, power := 1 } (2 ^ lo) coeff rfl rfl
    (by norm_num) (by norm_num) (by norm_num) hsz).1
  simp only [h0, h1] at k2 k3
  refine ⟨h0, h1, ?_, ?_⟩
  · rw [k2 (by norm_num)]
    simp only [Nat.shiftLeft_eq, one_mul, sv_index_modulus, Nat.mod_eq_of_lt hpow, zero_add]
    have hr : List.range 1 = [0] := rfl
    simp [hr]
  · rw [k3 (by norm_num)]

/-- Witness of C18: `S+^2` on a spin 3/2 in the bits 2 and 3, holding `n = 1`
in the state 7; the state becomes 15. Integer square roots stand for the
coefficients. -/
theorem C18_act_plus_witness :
    ((7 >>> 2) &&& 3) + 2 ≤ 3 ∧
    monomial_action_spin.act
        { mul := fun x y => x * y, sqrt := Nat.sqrt, pow := fun _ k => k }
        { updates := [{ s2 := 3, shift := 2, mask := 3, c := .plus, power := 2 }],
          sqr_roots_size := 5 } 7 (1 : Nat) =
      some (true, (7 + (2 <<< 2) % sv_index_modulus) % sv_index_modulus,
        (List.range 2).foldl (fun c d => c * Nat.sqrt
          ((3 - (((7 >>> 2) &&& 3) + d)) * (((7 >>> 2) &&& 3) + d + 1))) 1) := by
  refine ⟨by decide, ?_⟩
  have hsz : min (spin_ss (((3 : Nat) : Int) + 1) (((3 : Nat) : ℚ) / 2) + 1)
      LIBCOMMUTE_SPIN_MAX_NUM_PRECOMPUTED_SQRT ≤ 5 := by
    rw [spin_ss_eq 3 (by norm_num)]
    decide
  exact (C18_act_plus.1 Nat
    { mul := fun x y => x * y, sqrt := Nat.sqrt, pow := fun _ k => k }
    { updates := [{ s2 := 3, shift := 2, mask := 3, c := .plus, power := 2 }],
      sqr_roots_size := 5 }
    { s2 := 3, shift := 2, mask := 3, c := .plus, power := 2 } 7 1 rfl rfl
    (by norm_num) (by norm_num) (by norm_num) hsz).2 (by decide)

/-- The action of a single run `S-^k`. -/
theorem act_minus_single {C : Type} (ops : coeff_ops C) (a : monomial_action_spin)
    (u : single_spin_update_t) (in_index : Nat) (coeff : C)
    (hup : a.updates = [u]) (hc : u.c = .minus)
    (hs2 : u.s2 < 2 ^ 31) (hk : u.power < 2 ^ 31)
    (hsize : min (spin_ss ((u.s2 : Int) + 1) ((u.s2 : ℚ) / 2) + 1)
      LIBCOMMUTE_SPIN_MAX_NUM_PRECOMPUTED_SQRT ≤ a.sqr_roots_size)
    (hn : (in_index >>> u.shift) &&& u.mask ≤ u.s2) :
    ((in_index >>> u.shift) &&& u.mask < u.power →
      monomial_action_spin.act ops a in_index coeff = some (false, in_index, coeff)) ∧
    (u.power ≤ (in_index >>> u.shift) &&& u.mask →
      monomial_action_spin.act ops a in_index coeff =
        some (true,
          (in_index + sv_index_modulus - (u.power <<< u.shift) % sv_index_modulus) %
            sv_index_modulus,
          (List.range u.power).foldl (fun c d => ops.mul c (ops.sqrt
            ((u.s2 - (((in_index >>> u.shift) &&& u.mask) - d) + 1) *
              (((in_index >>> u.shift) &&& u.mask) - d)))) coeff)) := by
  generalize hnv : (in_index >>> u.shift) &&& u.mask = n at hn ⊢
  have h64 : to_int64 n = (n : Int) := to_int64_of_lt n (by omega)
  have hp64 : to_int64 u.power = (u.power : Int) := to_int64_of_lt u.power (by omega)
  unfold monomial_action_spin.act
  rw [hup]
  simp only [List.reverse_cons, List.reverse_nil, List.nil_append,
    monomial_action_spin.act_loop, monomial_action_spin.act_update, hc, hnv, h64, hp64]
  constructor
  · intro h
    rw [if_pos (by omega)]
  · intro h
    rw [if_neg (by omega)]
    rw [mul_sqr_roots_eq ops a _
      (fun d => (u.s2 - (n - d) + 1) * (n - d)) coeff u.power]
    intro d hd
    have h1 : to_uint64 ((u.s2 : Int) - ((n : Int) - (d : Int))) = u.s2 - (n - d) := by
      have h2 : (u.s2 : Int) - ((n : Int) - (d : Int)) = ((u.s2 - (n - d) : Nat) : Int) := by
        omega
      rw [h2, to_uint64_natCast _ (by omega)]
    have h3 : to_uint64 ((n : Int) - (d : Int)) = n - d := by
      have h4 : (n : Int) - (d : Int) = ((n - d : Nat) : Int) := by omega
      rw [h4, to_uint64_natCast _ (by omega)]
    have h5 := sqr_root_arg_le u.s2 (n - d - 1) (by omega)
    have h8 : (u.s2 - (n - d - 1)) * (n - d - 1 + 1) = (u.s2 - (n - d) + 1) * (n - d) := by
      have i1 : u.s2 - (n - d - 1) = u.s2 - (n - d) + 1 := by omega
      have i2 : n - d - 1 + 1 = n - d := by omega
      rw [i1, i2]
    rw [h8] at h5
    have h6 : ((u.s2 + 1) / 2) * ((u.s2 + 2) / 2) < 2 ^ 64 := by
      have i1 : (u.s2 + 1) / 2 < 2 ^ 31 := by omega
      have i2 : (u.s2 + 2) / 2 < 2 ^ 31 := by omega
      calc ((u.s2 + 1) / 2) * ((u.s2 + 2) / 2) < 2 ^ 31 * 2 ^ 31 :=
            Nat.mul_lt_mul'' i1 i2
        _ < 2 ^ 64 := by norm_num
    have h9 : (u.s2 - (n - d) + 1) % sv_index_modulus = u.s2 - (n - d) + 1 :=
      Nat.mod_eq_of_lt (by unfold sv_index_modulus; omega)
    have h7 : ((u.s2 - (n - d) + 1) * (n - d)) % sv_index_modulus =
        (u.s2 - (n - d) + 1) * (n - d) :=
      Nat.mod_eq_of_lt (by unfold sv_index_modulus; omega)
    simp only [h1, h3, h9, h7]
    rw [← h8]
    exact sqr_root_defined ops a u.s2 (n - d - 1) hs2 (by omega) hsize

/-- C19: for a single run `S-^k` on a spin `s` whose bit field starts at bit
`lo` and holds `n ≤ 2s`, `act` returns `false` when `n < k`; otherwise it
returns `true` with `out = in - (k << lo)` and `coeff` multiplied, for
`d = 0 .. k-1`, by the square root of `(2s - (n-d) + 1) * (n-d)`. The fields of
the update are within their machine types (`2s` and `k` below `2^31`) and the
table of square roots has the size the constructor gives it; for a state index
below `2^64` the machine subtraction is the subtraction of natural numbers. -/
theorem C19_act_minus {C : Type} (ops : coeff_ops C) (a : monomial_action_spin)
    (u : single_spin_update_t) (in_index : Nat) (coeff : C)
    (hup : a.updates = [u]) (hc : u.c = .minus)
    (hs2 : u.s2 < 2 ^ 31) (hk : u.power < 2 ^ 31)
    (hsize : min (spin_ss ((u.s2 : Int) + 1) ((u.s2 : ℚ) / 2) + 1)
      LIBCOMMUTE_SPIN_MAX_NUM_PRECOMPUTED_SQRT ≤ a.sqr_roots_size)
    (hn : (in_index >>> u.shift) &&& u.mask ≤ u.s2) :
    ((in_index >>> u.shift) &&& u.mask < u.power →
      monomial_action_spin.act ops a in_index coeff = some (false, in_index, coeff)) ∧
    (u.power ≤ (in_index >>> u.shift) &&& u.mask →
      monomial_action_spin.act ops a in_index coeff =
        some (true,
          (in_index + sv_index_modulus - (u.power <<< u.shift) % sv_index_modulus) %
            sv_index_modulus,
          (List.range u.power).foldl (fun c d => ops.mul c (ops.sqrt
            ((u.s2 - (((in_index >>> u.shift) &&& u.mask) - d) + 1) *
              (((in_index >>> u.shift) &&& u.mask) - d)))) coeff)) ∧
    (in_index < sv_index_modulus → u.power ≤ (in_index >>> u.shift) &&& u.mask →
      (in_index + sv_index_modulus - (u.power <<< u.shift) % sv_index_modulus) %
        sv_index_modulus = in_index - u.power <<< u.shift) := by
  refine ⟨(act_minus_single ops a u in_index coeff hup hc hs2 hk hsize hn).1,
    (act_minus_single ops a u in_index coeff hup hc hs2 hk hsize hn).2, ?_⟩
  intro hin hkn
  have h1 : (in_index >>> u.shift) &&& u.mask ≤ in_index / 2 ^ u.shift := by
    rw [← Nat.shiftRight_eq_div_pow]
    exact Nat.and_le_left
  have h2 : u.power * 2 ^ u.shift ≤ (in_index / 2 ^ u.shift) * 2 ^ u.shift :=
    Nat.mul_le_mul_right _ (le_trans hkn h1)
  have h3 : (in_index / 2 ^ u.shift) * 2 ^ u.shift ≤ in_index := Nat.div_mul_le_self _ _
  rw [Nat.shiftLeft_eq]
  generalize u.power * 2 ^ u.shift = x at h2 ⊢
  unfold sv_index_modulus at hin ⊢
  omega

/-- Witness of C19: `S-^2` on a spin 3/2 in the bits 2 and 3, holding `n = 3`
in the state 15; the state becomes 7. Integer square roots stand for the
coefficients. -/
theorem C19_act_minus_witness :
    (15 >>> 2) &&& 3 ≤ 3 ∧ 2 ≤ (15 >>> 2) &&& 3 ∧
    monomial_action_spin.act
        { mul := fun x y => x * y, sqrt := Nat.sqrt, pow := fun _ k => k }
        { updates := [{ s2 := 3, shift := 2, mask := 3, c := .minus, power := 2 }],
          sqr_roots_size := 5 } 15 (1 : Nat) =
      some (true,
        (15 + sv_index_modulus - (2 <<< 2) % sv_index_modulus) % sv_index_modulus,
        (List.range 2).foldl (fun c d => c * Nat.sqrt
          ((3 - (((15 >>> 2) &&& 3) - d) + 1) * (((15 >>> 2) &&& 3) - d))) 1) := by
  refine ⟨by decide, by decide, ?_⟩
  have hsz : min (spin_ss (((3 : Nat) : Int) + 1) (((3 : Nat) : ℚ) / 2) + 1)
      LIBCOMMUTE_SPIN_MAX_NUM_PRECOMPUTED_SQRT ≤ 5 := by
    rw [spin_ss_eq 3 (by norm_num)]
    decide
  exact (C19_act_minus
    { mul := fun x y => x * y, sqrt := Nat.sqrt, pow := fun _ k => k }
    { updates := [{ s2 := 3, shift := 2, mask := 3, c := .minus, power := 2 }],
      sqr_roots_size := 5 }
    { s2 := 3, shift := 2, mask := 3, c := .minus, power := 2 } 15 1 rfl rfl
    (by norm_num) (by norm_num) hsz (by decide)).2.1 (by decide)

/-- C20: for a single run `Sz^k` on a spin `s` whose bit field holds `n`,
`act` leaves the state index unchanged; it returns `false` exactly when `2s` is
even and `n = s`, which is exactly when the eigenvalue `n - s` is zero;
otherwise it returns `true` with `coeff` multiplied by `(n - s)^k`. The mask of
the update is below `2^63`. -/
theorem C20_act_z {C : Type} (ops : coeff_ops C) (a : monomial_action_spin)
    (u : single_spin_update_t) (in_index : Nat) (coeff : C)
    (hup : a.updates = [u]) (hc : u.c = .z) (hmask : u.mask < 2 ^ 63) :
    ((u.s2 % 2 = 0 ∧ (in_index >>> u.shift) &&& u.mask = u.s2 / 2) →
      monomial_action_spin.act ops a in_index coeff = some (false, in_index, coeff)) ∧
    (¬ (u.s2 % 2 = 0 ∧ (in_index >>> u.shift) &&& u.mask = u.s2 / 2) →
      monomial_action_spin.act ops a in_index coeff =
        some (true, in_index,
          ops.mul coeff (ops.pow
            ((((in_index >>> u.shift) &&& u.mask : Nat) : ℚ) - (u.s2 : ℚ) / 2) u.power))) ∧
    ((u.s2 % 2 = 0 ∧ (in_index >>> u.shift) &&& u.mask = u.s2 / 2) ↔
      (((in_index >>> u.shift) &&& u.mask : Nat) : ℚ) - (u.s2 : ℚ) / 2 = 0) := by
  have hn : (in_index >>> u.shift) &&& u.mask < 2 ^ 63 :=
    lt_of_le_of_lt Nat.and_le_right hmask
  generalize hnv : (in_index >>> u.shift) &&& u.mask = n at hn ⊢
  have h64 : to_int64 n = (n : Int) := to_int64_of_lt n hn
  have hu : to_uint64 (n : Int) = n := to_uint64_natCast n (by omega)
  unfold monomial_action_spin.act
  rw [hup]
  simp only [List.reverse_cons, List.reverse_nil, List.nil_append,
    monomial_action_spin.act_loop, monomial_action_spin.act_update, hc, hnv, h64, hu]
  refine ⟨?_, ?_, ?_⟩
  · rintro ⟨h1, h2⟩
    simp [h1, h2]
  · intro h
    have h1 : ((u.s2 % 2 == 0) && (n == u.s2 / 2)) = false := by
      rw [Bool.eq_false_iff]
      intro h2
      simp only [Bool.and_eq_true, beq_iff_eq] at h2
      exact h h2
    rw [h1]
    simp
  · constructor
    · rintro ⟨h1, h2⟩
      have h3 : u.s2 = 2 * n := by omega
      rw [h3]
      push_cast
      ring
    · intro h
      have h1 : ((u.s2 : Nat) : ℚ) = 2 * (n : ℚ) := by linarith
      have h2 : u.s2 = 2 * n := by exact_mod_cast h1
      omega

/-- Witness of C20: `Sz^2` on a spin 1 in the bits 2 and 3, holding `n = 2` in
the state 11. Integers stand for the coefficients. -/
theorem C20_act_z_witness :
    ¬ ((2 : Nat) % 2 = 0 ∧ (11 >>> 2) &&& 3 = 2 / 2) ∧
    monomial_action_spin.act
        { mul := fun x y => x * y, sqrt := Nat.sqrt, pow := fun _ k => k }
        { updates := [{ s2 := 2, shift := 2, mask := 3, c := .z, power := 2 }],
          sqr_roots_size := 3 } 11 (1 : Nat) =
      some (true, 11, 1 * 2) :=
  ⟨by decide,
   (C20_act_z { mul := fun x y => x * y, sqrt := Nat.sqrt, pow := fun _ k => k }
     { updates := [{ s2 := 2, shift := 2, mask := 3, c := .z, power := 2 }],
       sqr_roots_size := 3 }
     { s2 := 2, shift := 2, mask := 3, c := .z, power := 2 } 11 1 rfl rfl
     (by norm_num)).2.1 (by decide)⟩

/-! ## Theorems: the bits of a spin space -/

/-- C30: for every spin `s` with `2s = k` a positive integer, and with the
conversions to `int` of the constructor defined (`2s + 1 < 2^31`), the
constructor of the spin elementary space accepts `s`, the multiplicity it
stores is `2s + 1`, a value of the range of `int`, and the `n_bits` it stores
is the least `n` with `2^n ≥ 2s + 1`: it is at least 1 and at most 31,
`2s ≤ 2^n_bits - 1`, and every width `n` with `2^n ≥ 2s + 1` is at least
`n_bits`. -/
theorem C30_spin_n_bits {ι : Type} (s : ℚ) (k : Nat) (idx : ι) (hk : 0 < k)
    (hs : 2 * s = k) (hr : spin_in_int_range s) :
    ∃ es : elementary_space_spin ι,
      elementary_space_spin.mk_spin s idx = some es ∧
      es.multiplicity = (k : Int) + 1 ∧
      es.multiplicity < 2 ^ 31 ∧
      1 ≤ es.n_bits ∧
      es.n_bits ≤ 31 ∧
      (k : Int) + 1 ≤ 2 ^ es.n_bits.toNat ∧
      (k : Int) ≤ 2 ^ es.n_bits.toNat - 1 ∧
      (∀ n : Nat, (k : Int) + 1 ≤ 2 ^ n → es.n_bits ≤ n) ∧
      (∀ n : Nat, (n : Int) < es.n_bits → (2 : Int) ^ n < (k : Int) + 1) := by
  have hs1 : 2 * s = ((k : Int) : ℚ) := by
    rw [hs]
    norm_cast
  have hm := (to_int_range (2 * s + 1) hr.2).2
  rw [spin_multiplicity s k hs1] at hm
  refine ⟨_, elementary_space_spin_mk_spin_of_int s idx k hs1, rfl, hm, ?_⟩
  have hnat : ((k : Int) + 1).toNat = k + 1 := by omega
  simp only [hnat, Int.toNat_ofNat]
  have h1 : 1 < k + 1 := by omega
  have hle : k + 1 ≤ 2 ^ Nat.clog 2 (k + 1) := Nat.le_pow_clog (by norm_num) _
  have hmin : ∀ n : Nat, k + 1 ≤ 2 ^ n → Nat.clog 2 (k + 1) ≤ n := fun n hn =>
    (Nat.le_pow_iff_clog_le (by norm_num)).1 hn
  refine ⟨?_, ?_, ?_, ?_, ?_, ?_⟩
  · have := Nat.clog_pos (by norm_num : 1 < 2) (by omega : 2 ≤ k + 1)
    omega
  · have hk31 : k + 1 ≤ 2 ^ 31 := by omega
    have := hmin 31 hk31
    omega
  · exact_mod_cast hle
  · have : ((k + 1 : Nat) : Int) ≤ 2 ^ Nat.clog 2 (k + 1) := by exact_mod_cast hle
    push_cast at this
    omega
  · intro n hn
    have hn1 : k + 1 ≤ 2 ^ n := by exact_mod_cast hn
    exact_mod_cast hmin n hn1
  · intro n hn
    have hn1 : n < Nat.clog 2 (k + 1) := by exact_mod_cast hn
    by_contra hcon
    have hn2 : k + 1 ≤ 2 ^ n := by
      have : (k : Int) + 1 ≤ 2 ^ n := by omega
      exact_mod_cast this
    have := hmin n hn2
    omega

/-- Witness of C30: the spin 3/2 has four states and gets two bits. -/
theorem C30_spin_n_bits_witness :
    ∃ es : elementary_space_spin Nat,
      elementary_space_spin.mk_spin (3 / 2 : ℚ) 0 = some es ∧
      es.multiplicity = ((3 : Nat) : Int) + 1 ∧
      es.multiplicity < 2 ^ 31 ∧
      1 ≤ es.n_bits ∧
      es.n_bits ≤ 31 ∧
      ((3 : Nat) : Int) + 1 ≤ 2 ^ es.n_bits.toNat ∧
      ((3 : Nat) : Int) ≤ 2 ^ es.n_bits.toNat - 1 ∧
      (∀ n : Nat, ((3 : Nat) : Int) + 1 ≤ 2 ^ n → es.n_bits ≤ n) ∧
      (∀ n : Nat, (n : Int) < es.n_bits → (2 : Int) ^ n < ((3 : Nat) : Int) + 1) :=
  C30_spin_n_bits (3 / 2 : ℚ) 3 (0 : Nat) (by decide) (by norm_num)
    (by norm_num [spin_in_int_range, int_convertible])

/-! ## Theorems: printing a spin generator -/

/-- C28: a spin generator prints as "S", then nothing for the multiplicity 2,
the number `m - 1` followed by "/2" for any other even multiplicity `m`, or the
integer `(m - 1) / 2` for an odd `m`, then "+", "-" or "z" for the component,
then the printed index in parentheses; so `S+(i,0)` for spin 1/2,
`S3/2+(i,0)` for spin 3/2 and `S1z(j,0)` for spin 1. -/
theorem C28_spin_print :
    (∀ (ι : Type) (print_tuple : ι → String) (g : generator_spin ι),
      generator_spin.print print_tuple g =
        "S" ++
        (if g.multiplicity = 2 then ""
         else if g.multiplicity % 2 = 0 then toString (g.multiplicity - 1) ++ "/2"
         else toString ((g.multiplicity - 1) / 2)) ++
        (match g.c with
         | .plus => "+"
         | .minus => "-"
         | .z => "z") ++
        "(" ++ print_tuple g.indices ++ ")") ∧
    generator_spin.print print_tuple_string_int
      (generator_spin.mk_default .plus (toLex ("i", (0 : Int)))) = "S+(i,0)" ∧
    generator_spin.print print_tuple_string_int
      { multiplicity := 4, c := .plus, indices := toLex ("i", (0 : Int)) } = "S3/2+(i,0)" ∧
    generator_spin.print print_tuple_string_int
      { multiplicity := 3, c := .z, indices := toLex ("j", (0 : Int)) } = "S1z(j,0)" := by
  refine ⟨?_, by decide, by decide, by decide⟩
  intro ι print_tuple g
  obtain ⟨m, c, idx⟩ := g
  have hmod : (Int.tmod m 2 = 0) ↔ (m % 2 = 0) := by
    constructor
    · intro h
      exact Int.emod_eq_zero_of_dvd (Int.dvd_of_tmod_eq_zero h)
    · intro h
      exact Int.tmod_eq_zero_of_dvd (Int.dvd_of_emod_eq_zero h)
  simp only [generator_spin.print, bne_iff_ne, ne_eq, beq_iff_eq, hmod, ite_not]
  by_cases h2 : m = 2
  · subst h2
    cases c <;> simp [String.append_assoc]
  · by_cases he : m % 2 = 0
    · cases c <;> simp [h2, he, String.append_assoc]
    · have hdiv : Int.tdiv (m - 1) 2 = (m - 1) / 2 := by
        have h1 : (m - 1) % 2 = 0 := by omega
        obtain ⟨q, hq⟩ := Int.dvd_of_emod_eq_zero h1
        rw [hq, Int.mul_tdiv_cancel_left _ (by norm_num), Int.mul_ediv_cancel_left _ (by norm_num)]
      cases c <;> simp [h2, he, hdiv, String.append_assoc]

/-! ## Theorems: the zero test of a complex scalar -/

/-- C23, what the code does: the call of `is_zero` on a complex scalar does not
return, whatever the scalar and however much fuel the model is given; the
first thing every call does is to call itself on the real part converted to a
complex number. -/
theorem C23_complex_is_zero {T : Type} [Zero T] (fuel : Nat) (x : complex T) :
    scalar_traits_complex.is_zero fuel x = none := by
  induction fuel generalizing x with
  | zero => rfl
  | succ n ih =>
    simp only [scalar_traits_complex.is_zero, ih]

/-! ## Theorems: lexicographic comparison -/

/-- No sequence is lexicographically before itself. -/
theorem lex_lt_irrefl {G : Type} (lt : G → G → Bool) (hirr : ∀ a, lt a a = false) :
    ∀ l : List G, lex_lt lt l l = false
  | [] => rfl
  | a :: l => by
    simp only [lex_lt, hirr a, Bool.false_eq_true, if_false]
    exact lex_lt_irrefl lt hirr l

/-- Of two sequences one is lexicographically before the other, or they are
the same sequence. -/
theorem lex_lt_trichotomy {G : Type} (lt : G → G → Bool)
    (htri : ∀ a b, lt a b = true ∨ a = b ∨ lt b a = true) :
    ∀ l1 l2 : List G, lex_lt lt l1 l2 = true ∨ l1 = l2 ∨ lex_lt lt l2 l1 = true
  | [], [] => Or.inr (Or.inl rfl)
  | [], _ :: _ => Or.inl rfl
  | _ :: _, [] => Or.inr (Or.inr rfl)
  | a :: l1, b :: l2 => by
    simp only [lex_lt]
    by_cases hab : lt a b = true
    · simp [hab]
    · by_cases hba : lt b a = true
      · simp [hba]
      · have heq : a = b := by
          rcases htri a b with h | h | h
          · exact absurd h hab
          · exact h
          · exact absurd h hba
        subst heq
        simp only [hab, if_false]
        rcases lex_lt_trichotomy lt htri l1 l2 with h | h | h
        · exact Or.inl h
        · exact Or.inr (Or.inl (by rw [h]))
        · exact Or.inr (Or.inr h)

/-- The lexicographic comparison with a strict total order is transitive. -/
theorem lex_lt_trans {G : Type} (lt : G → G → Bool) (hirr : ∀ a, lt a a = false)
    (htrans : ∀ a b c, lt a b = true → lt b c = true → lt a c = true)
    (htri : ∀ a b, lt a b = true ∨ a = b ∨ lt b a = true) :
    ∀ l1 l2 l3 : List G, lex_lt lt l1 l2 = true → lex_lt lt l2 l3 = true →
      lex_lt lt l1 l3 = true
  | [], [], _, h, _ => by simp [lex_lt] at h
  | [], _ :: _, [], _, h => by simp [lex_lt] at h
  | [], _ :: _, _ :: _, _, _ => rfl
  | _ :: _, [], _, h, _ => by simp [lex_lt] at h
  | _ :: _, _ :: _, [], _, h => by simp [lex_lt] at h
  | a :: l1, b :: l2, c :: l3, h12, h23 => by
    have hasym : ∀ x y, lt x y = true → lt y x = false := by
      intro x y hxy
      by_contra hyx
      have := htrans x y x hxy (by simpa using hyx)
      rw [hirr x] at this
      cases this
    simp only [lex_lt] at h12 h23 ⊢
    by_cases hab : lt a b = true
    · by_cases hbc : lt b c = true
      · simp [htrans a b c hab hbc]
      · simp only [hbc, if_false] at h23
        by_cases hcb : lt c b = true
        · simp [hcb] at h23
        · have heq : b = c := by
            rcases htri b c with h | h | h
            · exact absurd h hbc
            · exact h
            · exact absurd h hcb
          subst heq
          simp [hab]
    · simp only [hab, if_false] at h12
      by_cases hba : lt b a = true
      · simp [hba] at h12
      · have heq : a = b := by
          rcases htri a b with h | h | h
          · exact absurd h hab
          · exact h
          · exact absurd h hba
        subst heq
        simp only [hba, if_false] at h12
        by_cases hac : lt a c = true
        · simp [hac]
        · simp only [hac, if_false] at h23 ⊢
          by_cases hca : lt c a = true
          · simp [hca] at h23
          · simp only [hca, if_false] at h23 ⊢
            exact lex_lt_trans lt hirr htrans htri l1 l2 l3 h12 h23

/-- Lexicographic comparison, position by position: a sequence is before
another one of the same length exactly when, after a common beginning, it has
the smaller element at the first position where they differ. -/
theorem lex_lt_iff_first_difference {G : Type} (lt : G → G → Bool)
    (hirr : ∀ a, lt a a = false)
    (htri : ∀ a b, lt a b = true ∨ a = b ∨ lt b a = true) :
    ∀ l1 l2 : List G, l1.length = l2.length →
      (lex_lt lt l1 l2 = true ↔
        ∃ (pre : List G) (x y : G) (s1 s2 : List G),
          l1 = pre ++ x :: s1 ∧ l2 = pre ++ y :: s2 ∧ lt x y = true)
  | [], [], _ => by simp [lex_lt]
  | [], _ :: _, h => by simp at h
  | _ :: _, [], h => by simp at h
  | a :: l1, b :: l2, h => by
    have hlen : l1.length = l2.length := by simpa using h
    have ih := lex_lt_iff_first_difference lt hirr htri l1 l2 hlen
    simp only [lex_lt]
    by_cases hab : lt a b = true
    · simp only [hab, if_true, true_iff]
      exact ⟨[], a, b, l1, l2, rfl, rfl, hab⟩
    · have hab1 : lt a b = false := by simpa using hab
      by_cases hba : lt b a = true
      · simp only [hab1, hba, if_true, Bool.false_eq_true, if_false, false_iff]
        rintro ⟨pre, x, y, s1, s2, h1, h2, hxy⟩
        cases pre with
        | nil =>
          simp only [List.nil_append, List.cons.injEq] at h1 h2
          rw [← h1.1, ← h2.1] at hxy
          exact hab hxy
        | cons p pre =>
          simp only [List.cons_append, List.cons.injEq] at h1 h2
          rw [h1.1, h2.1, hirr p] at hba
          cases hba
      · have hba1 : lt b a = false := by simpa using hba
        have heq : a = b := by
          rcases htri a b with h | h | h
          · exact absurd h hab
          · exact h
          · exact absurd h hba
        subst heq
        simp only [hab1, Bool.false_eq_true, if_false]
        rw [ih]
        constructor
        · rintro ⟨pre, x, y, s1, s2, h1, h2, hxy⟩
          exact ⟨a :: pre, x, y, s1, s2, by simp [h1], by simp [h2], hxy⟩
        · rintro ⟨pre, x, y, s1, s2, h1, h2, hxy⟩
          cases pre with
          | nil =>
            simp only [List.nil_append, List.cons.injEq] at h1 h2
            rw [← h1.1, ← h2.1] at hxy
            exact absurd hxy hab
          | cons p pre =>
            simp only [List.cons_append, List.cons.injEq] at h1 h2
            exact ⟨pre, x, y, s1, s2, h1.2, h2.2, hxy⟩

/-- No monomial is before itself. -/
theorem monomial_lt_irrefl {G : Type} (lt : G → G → Bool) (hirr : ∀ a, lt a a = false)
    (m : List G) : monomial_lt lt m m = false := by
  simp [monomial_lt, lex_lt_irrefl lt hirr]

/-- Of two monomials one is before the other, or they are the same. -/
theorem monomial_lt_trichotomy {G : Type} (lt : G → G → Bool)
    (htri : ∀ a b, lt a b = true ∨ a = b ∨ lt b a = true) (m1 m2 : List G) :
    monomial_lt lt m1 m2 = true ∨ m1 = m2 ∨ monomial_lt lt m2 m1 = true := by
  unfold monomial_lt
  rcases Nat.lt_trichotomy m1.length m2.length with h | h | h
  · have h1 : m1.length ≠ m2.length := by omega
    simp [h1, h]
  · simp only [h, bne_self_eq_false, Bool.false_eq_true, if_false]
    exact lex_lt_trichotomy lt htri m1 m2
  · have h1 : m2.length ≠ m1.length := by omega
    simp [h1, h]

/-- The order of the monomials is transitive. -/
theorem monomial_lt_trans {G : Type} (lt : G → G → Bool) (hirr : ∀ a, lt a a = false)
    (htrans : ∀ a b c, lt a b = true → lt b c = true → lt a c = true)
    (htri : ∀ a b, lt a b = true ∨ a = b ∨ lt b a = true) (m1 m2 m3 : List G)
    (h12 : monomial_lt lt m1 m2 = true) (h23 : monomial_lt lt m2 m3 = true) :
    monomial_lt lt m1 m3 = true := by
  unfold monomial_lt at h12 h23 ⊢
  by_cases h1 : m1.length = m2.length
  · by_cases h2 : m2.length = m3.length
    · have h3 : m1.length = m3.length := h1.trans h2
      simp only [h1, h2, h3, bne_self_eq_false, Bool.false_eq_true, if_false] at h12 h23 ⊢
      exact lex_lt_trans lt hirr htrans htri m1 m2 m3 h12 h23
    · simp only [bne_iff_ne, ne_eq, h2, not_false_eq_true, if_true, decide_eq_true_eq] at h23
      have h3 : m1.length ≠ m3.length := by omega
      simp only [bne_iff_ne, ne_eq, h3, not_false_eq_true, if_true, decide_eq_true_eq]
      omega
  · simp only [bne_iff_ne, ne_eq, h1, not_false_eq_true, if_true, decide_eq_true_eq] at h12
    by_cases h2 : m2.length = m3.length
    · have h3 : m1.length ≠ m3.length := by omega
      simp only [bne_iff_ne, ne_eq, h3, not_false_eq_true, if_true, decide_eq_true_eq]
      omega
    · simp only [bne_iff_ne, ne_eq, h2, not_false_eq_true, if_true, decide_eq_true_eq] at h23
      have h3 : m1.length ≠ m3.length := by omega
      simp only [bne_iff_ne, ne_eq, h3, not_false_eq_true, if_true, decide_eq_true_eq]
      omega

/-- A monomial that is before another one is not after it. -/
theorem monomial_lt_asymm {G : Type} (lt : G → G → Bool) (hirr : ∀ a, lt a a = false)
    (htrans : ∀ a b c, lt a b = true → lt b c = true → lt a c = true)
    (htri : ∀ a b, lt a b = true ∨ a = b ∨ lt b a = true) (m1 m2 : List G)
    (h12 : monomial_lt lt m1 m2 = true) : monomial_lt lt m2 m1 = false := by
  by_contra h
  have h1 := monomial_lt_trans lt hirr htrans htri m1 m2 m1 h12 (by simpa using h)
  rw [monomial_lt_irrefl lt hirr] at h1
  cases h1

/-! ## Theorems: dynamic indices -/

/-- The order of the atoms, spelled out. -/
theorem dyn_atom_lt_iff (a b : dyn_atom) :
    dyn_atom.lt a b = true ↔
      a.kind < b.kind ∨
      (∃ s t, a = .string s ∧ b = .string t ∧ s < t) ∨
      (∃ i j, a = .integer i ∧ b = .integer j ∧ i < j) ∨
      (∃ x y, a = .floating x ∧ b = .floating y ∧ x < y) := by
  cases a <;> cases b <;> simp [dyn_atom.lt, dyn_atom.kind]

/-- No atom is before itself. -/
theorem dyn_atom_lt_irrefl (a : dyn_atom) : dyn_atom.lt a a = false := by
  cases a <;> simp [dyn_atom.lt]

/-- The order of the atoms is transitive. -/
theorem dyn_atom_lt_trans (a b c : dyn_atom) (hab : dyn_atom.lt a b = true)
    (hbc : dyn_atom.lt b c = true) : dyn_atom.lt a c = true := by
  cases a <;> cases b <;> cases c <;>
    simp [dyn_atom.lt, dyn_atom.kind] at hab hbc ⊢ <;>
    exact lt_trans hab hbc

/-- Of two atoms one is before the other, or they are the same atom. -/
theorem dyn_atom_lt_trichotomy (a b : dyn_atom) :
    dyn_atom.lt a b = true ∨ a = b ∨ dyn_atom.lt b a = true := by
  rw [dyn_atom_lt_iff, dyn_atom_lt_iff]
  cases a with
  | string s =>
    cases b with
    | string t =>
      rcases lt_trichotomy s t with h | h | h
      · exact Or.inl (Or.inr (Or.inl ⟨s, t, rfl, rfl, h⟩))
      · exact Or.inr (Or.inl (by rw [h]))
      · exact Or.inr (Or.inr (Or.inr (Or.inl ⟨t, s, rfl, rfl, h⟩)))
    | integer j => exact Or.inl (Or.inl (by simp [dyn_atom.kind]))
    | floating y => exact Or.inl (Or.inl (by simp [dyn_atom.kind]))
  | integer i =>
    cases b with
    | string t => exact Or.inr (Or.inr (Or.inl (by simp [dyn_atom.kind])))
    | integer j =>
      rcases lt_trichotomy i j with h | h | h
      · exact Or.inl (Or.inr (Or.inr (Or.inl ⟨i, j, rfl, rfl, h⟩)))
      · exact Or.inr (Or.inl (by rw [h]))
      · exact Or.inr (Or.inr (Or.inr (Or.inr (Or.inl ⟨j, i, rfl, rfl, h⟩))))
    | floating y => exact Or.inl (Or.inl (by simp [dyn_atom.kind]))
  | floating x =>
    cases b with
    | string t => exact Or.inr (Or.inr (Or.inl (by simp [dyn_atom.kind])))
    | integer j => exact Or.inr (Or.inr (Or.inl (by simp [dyn_atom.kind])))
    | floating y =>
      rcases lt_trichotomy x y with h | h | h
      · exact Or.inl (Or.inr (Or.inr (Or.inr ⟨x, y, rfl, rfl, h⟩)))
      · exact Or.inr (Or.inl (by rw [h]))
      · exact Or.inr (Or.inr (Or.inr (Or.inr (Or.inr ⟨y, x, rfl, rfl, h⟩))))

/-- Equality of atoms is having the same kind and value. -/
theorem dyn_atom_eq_iff (a b : dyn_atom) : dyn_atom.eq a b = true ↔ a = b := by
  cases a <;> cases b <;> simp [dyn_atom.eq, dyn_atom.kind]

/-- Elementwise equality of dynamic indices is having the same atoms in the
same positions. -/
theorem dyn_indices_eq_iff : ∀ ind1 ind2 : dyn_indices,
    dyn_indices.eq ind1 ind2 = true ↔ ind1 = ind2
  | [], [] => by simp [dyn_indices.eq]
  | [], _ :: _ => by simp [dyn_indices.eq]
  | _ :: _, [] => by simp [dyn_indices.eq]
  | a :: ind1, b :: ind2 => by
    simp [dyn_indices.eq, dyn_atom_eq_iff, dyn_indices_eq_iff ind1 ind2]

/-- C27: dynamic indices are strictly totally ordered: an index with fewer
atoms precedes one with more atoms; two indices of the same length compare
lexicographically, by the atoms at the first position where they differ; atoms
of different kinds are ordered string < integer < floating and atoms of the
same kind by value; two indices are equal exactly when they have the same
atoms in the same positions; of `<`, `==`, `>` exactly one holds, and `<` is
transitive. -/
theorem C27_dyn_indices_order :
    (∀ ind1 ind2 : dyn_indices, ind1.length < ind2.length →
      dyn_indices.lt ind1 ind2 = true ∧ dyn_indices.lt ind2 ind1 = false) ∧
    (∀ ind1 ind2 : dyn_indices, ind1.length = ind2.length →
      (dyn_indices.lt ind1 ind2 = true ↔
        ∃ (pre : List dyn_atom) (x y : dyn_atom) (s1 s2 : List dyn_atom),
          ind1 = pre ++ x :: s1 ∧ ind2 = pre ++ y :: s2 ∧ dyn_atom.lt x y = true)) ∧
    (∀ (s : String) (i : Int) (x : ℚ),
      dyn_atom.lt (.string s) (.integer i) = true ∧
      dyn_atom.lt (.integer i) (.floating x) = true ∧
      dyn_atom.lt (.string s) (.floating x) = true ∧
      dyn_atom.lt (.integer i) (.string s) = false ∧
      dyn_atom.lt (.floating x) (.integer i) = false ∧
      dyn_atom.lt (.floating x) (.string s) = false) ∧
    (∀ s t : String, dyn_atom.lt (.string s) (.string t) = true ↔ s < t) ∧
    (∀ i j : Int, dyn_atom.lt (.integer i) (.integer j) = true ↔ i < j) ∧
    (∀ x y : ℚ, dyn_atom.lt (.floating x) (.floating y) = true ↔ x < y) ∧
    (∀ ind1 ind2 : dyn_indices, dyn_indices.eq ind1 ind2 = true ↔ ind1 = ind2) ∧
    (∀ ind1 ind2 : dyn_indices,
      (dyn_indices.lt ind1 ind2 = true ∨ dyn_indices.eq ind1 ind2 = true ∨
        dyn_indices.gt ind1 ind2 = true) ∧
      ¬ (dyn_indices.lt ind1 ind2 = true ∧ dyn_indices.eq ind1 ind2 = true) ∧
      ¬ (dyn_indices.lt ind1 ind2 = true ∧ dyn_indices.gt ind1 ind2 = true) ∧
      ¬ (dyn_indices.eq ind1 ind2 = true ∧ dyn_indices.gt ind1 ind2 = true)) ∧
    (∀ ind1 ind2 ind3 : dyn_indices, dyn_indices.lt ind1 ind2 = true →
      dyn_indices.lt ind2 ind3 = true → dyn_indices.lt ind1 ind3 = true) := by
  have hlt : ∀ ind1 ind2 : dyn_indices,
      dyn_indices.lt ind1 ind2 = monomial_lt dyn_atom.lt ind1 ind2 := fun _ _ => rfl
  have hasym := monomial_lt_asymm dyn_atom.lt dyn_atom_lt_irrefl dyn_atom_lt_trans
    dyn_atom_lt_trichotomy
  refine ⟨?_, ?_, ?_, ?_, ?_, ?_, dyn_indices_eq_iff, ?_, ?_⟩
  · intro ind1 ind2 h
    have h1 : ind1.length ≠ ind2.length := by omega
    have h2 : ind2.length ≠ ind1.length := by omega
    have h3 : ¬ ind2.length < ind1.length := by omega
    simp [dyn_indices.lt, h1, h2, h, h3]
  · intro ind1 ind2 h
    simp only [dyn_indices.lt, h, bne_self_eq_false, Bool.false_eq_true, if_false]
    exact lex_lt_iff_first_difference dyn_atom.lt dyn_atom_lt_irrefl dyn_atom_lt_trichotomy
      ind1 ind2 h
  · intro s i x
    simp [dyn_atom.lt, dyn_atom.kind]
  · intro s t
    rw [dyn_atom_lt_iff]
    simp [dyn_atom.kind]
  · intro i j
    rw [dyn_atom_lt_iff]
    simp [dyn_atom.kind]
  · intro x y
    rw [dyn_atom_lt_iff]
    simp [dyn_atom.kind]
  · intro ind1 ind2
    simp only [dyn_indices.gt, dyn_indices_eq_iff, hlt]
    refine ⟨monomial_lt_trichotomy dyn_atom.lt dyn_atom_lt_trichotomy ind1 ind2, ?_, ?_, ?_⟩
    · rintro ⟨h1, h2⟩
      subst h2
      rw [monomial_lt_irrefl dyn_atom.lt dyn_atom_lt_irrefl] at h1
      cases h1
    · rintro ⟨h1, h2⟩
      rw [hasym ind1 ind2 h1] at h2
      cases h2
    · rintro ⟨h1, h2⟩
      subst h1
      rw [monomial_lt_irrefl dyn_atom.lt dyn_atom_lt_irrefl] at h2
      cases h2
  · intro ind1 ind2 ind3
    simp only [hlt]
    exact monomial_lt_trans dyn_atom.lt dyn_atom_lt_irrefl dyn_atom_lt_trans
      dyn_atom_lt_trichotomy ind1 ind2 ind3

/-- Witness of C27 on indices of `test/dyn_indices.cpp`: the index `(0.2)` is
before the index `("xxx", "xxx")`, which has more atoms, and `("xxx", 1)` is
before `("xxx", 0.1)`, an integer atom being before a floating one. -/
theorem C27_dyn_indices_order_witness :
    (dyn_indices.lt [.floating (1 / 5)] [.string "xxx", .string "xxx"] = true ∧
      dyn_indices.lt [.string "xxx", .string "xxx"] [.floating (1 / 5)] = false) ∧
    dyn_indices.lt [.string "xxx", .integer 1] [.string "xxx", .floating (1 / 10)] = true :=
  ⟨C27_dyn_indices_order.1 [.floating (1 / 5)] [.string "xxx", .string "xxx"] (by decide),
   (C27_dyn_indices_order.2.1 [.string "xxx", .integer 1] [.string "xxx", .floating (1 / 10)]
     rfl).2 ⟨[.string "xxx"], .integer 1, .floating (1 / 10), [], [], rfl, rfl,
       (C27_dyn_indices_order.2.2.1 "xxx" 1 (1 / 10)).2.1⟩⟩

/-! ## Theorems: the order of the generators of all algebras -/

/-- The function `less` on boson generators, spelled out. -/
theorem boson_less_iff {ι : Type} [LT ι] [∀ a b : ι, Decidable (a < b)]
    (a b : generator_boson ι) :
    generator_boson.less a b = true ↔
      (a.dagger = true ∧ b.dagger = false) ∨
      (a.dagger = true ∧ b.dagger = true ∧ a.indices < b.indices) ∨
      (a.dagger = false ∧ b.dagger = false ∧ b.indices < a.indices) := by
  obtain ⟨da, ia⟩ := a
  obtain ⟨db, ib⟩ := b
  cases da <;> cases db <;> simp [generator_boson.less, base_less, base_greater]

/-- The function `equal` on boson generators is equality of both fields. -/
theorem boson_equal_iff {ι : Type} [DecidableEq ι]
    (a b : generator_boson ι) :
    generator_boson.equal a b = true ↔ a.dagger = b.dagger ∧ a.indices = b.indices := by
  simp [generator_boson.equal, base_equal]

/-- The bosonic order is irreflexive, transitive and total when the index
order is. -/
theorem boson_less_strict_total {ι : Type} [LinearOrder ι] (a b c : generator_boson ι) :
    generator_boson.less a a = false ∧
    (generator_boson.less a b = true → generator_boson.less b c = true →
      generator_boson.less a c = true) ∧
    (generator_boson.less a b = true ∨ a = b ∨ generator_boson.less b a = true) := by
  have hirr : ¬ generator_boson.less a a = true := by
    rw [boson_less_iff]
    obtain ⟨da, ia⟩ := a
    cases da <;> simp
  refine ⟨by simpa using hirr, ?_, ?_⟩
  · simp only [boson_less_iff]
    obtain ⟨da, ia⟩ := a
    obtain ⟨db, ib⟩ := b
    obtain ⟨dc, ic⟩ := c
    cases da <;> cases db <;> cases dc <;> simp
    · intro h1 h2
      exact lt_trans h2 h1
    · intro h1 h2
      exact lt_trans h1 h2
  · simp only [boson_less_iff]
    obtain ⟨da, ia⟩ := a
    obtain ⟨db, ib⟩ := b
    rcases lt_trichotomy ia ib with h | h | h
    · cases da <;> cases db <;> simp [h]
    · subst h
      cases da <;> cases db <;> simp
    · cases da <;> cases db <;> simp [h]

/-- The fermionic order is irreflexive, transitive and total when the index
order is. -/
theorem fermion_less_strict_total {ι : Type} [LinearOrder ι] (a b c : generator_fermion ι) :
    generator_fermion.less a a = false ∧
    (generator_fermion.less a b = true → generator_fermion.less b c = true →
      generator_fermion.less a c = true) ∧
    (generator_fermion.less a b = true ∨ a = b ∨ generator_fermion.less b a = true) := by
  have h := fermion_strict_total a b c
  have haa := fermion_strict_total a a a
  refine ⟨?_, h.2.2.2.2.2, ?_⟩
  · have h1 : generator_fermion.equal a a = true := (fermion_equal_iff a a).2 ⟨rfl, rfl⟩
    have h2 := haa.2.1
    simp only [h1, and_true] at h2
    simpa using h2
  · rcases h.1 with h1 | h1 | h1
    · exact Or.inl h1
    · right
      left
      obtain ⟨da, ia⟩ := a
      obtain ⟨db, ib⟩ := b
      have := (fermion_equal_iff _ _).1 h1
      simp only at this
      rw [this.1, this.2]
    · rw [fermion_greater_eq_less_swap] at h1
      exact Or.inr (Or.inr h1)

/-- The spin order is irreflexive, transitive and total when the index order
is. -/
theorem spin_less_strict_total {ι : Type} [LinearOrder ι] (a b c : generator_spin ι) :
    generator_spin.less a a = false ∧
    (generator_spin.less a b = true → generator_spin.less b c = true →
      generator_spin.less a c = true) ∧
    (generator_spin.less a b = true ∨ a = b ∨ generator_spin.less b a = true) := by
  have h := spin_strict_total a b c
  have haa := spin_strict_total a a a
  refine ⟨?_, h.2.2.2.2.2, ?_⟩
  · have h1 : generator_spin.equal a a = true := (spin_equal_iff a a).2 ⟨rfl, rfl, rfl⟩
    have h2 := haa.2.1
    simp only [h1, and_true] at h2
    simpa using h2
  · rcases h.1 with h1 | h1 | h1
    · exact Or.inl h1
    · right
      left
      obtain ⟨ma, ca, ia⟩ := a
      obtain ⟨mb, cb, ib⟩ := b
      have := (spin_equal_iff _ _).1 h1
      simp only at this
      rw [this.1, this.2.1, this.2.2]
    · rw [spin_greater_eq_less_swap] at h1
      exact Or.inr (Or.inr h1)

/-- With three different algebra ids, `operator<` on generators: two
generators of one algebra are compared by `less`, two of different algebras by
their ids. -/
theorem generator_lt_eq {ι : Type} [DecidableEq ι] [LT ι] [∀ a b : ι, Decidable (a < b)]
    (ids : algebra_ids) (h1 : ids.fermion ≠ ids.boson) (h2 : ids.fermion ≠ SPIN_ALGEBRA_ID)
    (h3 : ids.boson ≠ SPIN_ALGEBRA_ID) (a b : generator ι) :
    generator.lt ids a b =
      some (match a, b with
        | .fermion f, .fermion g => f.less g
        | .boson f, .boson g => f.less g
        | .spin f, .spin g => f.less g
        | _, _ => decide (a.algebra_id ids < b.algebra_id ids)) := by
  have h1' := Ne.symm h1
  have h2' := Ne.symm h2
  have h3' := Ne.symm h3
  cases a <;> cases b <;>
    simp [generator.lt, generator.algebra_id, generator.less, generator_spin.algebra_id,
      h1, h2, h3, h1', h2', h3']

/-- With three different algebra ids, `operator==` on generators is equality
of the generators. -/
theorem generator_eq_iff {ι : Type} [DecidableEq ι] [LT ι] [∀ a b : ι, Decidable (a < b)]
    (ids : algebra_ids) (h1 : ids.fermion ≠ ids.boson) (h2 : ids.fermion ≠ SPIN_ALGEBRA_ID)
    (h3 : ids.boson ≠ SPIN_ALGEBRA_ID) (a b : generator ι) :
    generator.eq ids a b = some true ↔ a = b := by
  have h1' := Ne.symm h1
  have h2' := Ne.symm h2
  have h3' := Ne.symm h3
  cases a <;> cases b <;>
    simp [generator.eq, generator.algebra_id, generator.equal, generator_spin.algebra_id,
      h1, h2, h3, h1', h2', h3']
  · rename_i f g
    rw [fermion_equal_iff]
    obtain ⟨da, ia⟩ := f
    obtain ⟨db, ib⟩ := g
    simp
  · rename_i f g
    rw [boson_equal_iff]
    obtain ⟨da, ia⟩ := f
    obtain ⟨db, ib⟩ := g
    simp
  · rename_i f g
    rw [spin_equal_iff]
    obtain ⟨ma, ca, ia⟩ := f
    obtain ⟨mb, cb, ib⟩ := g
    simp
    tauto

/-- With three different algebra ids and linearly ordered indices,
`operator<` on generators is irreflexive, transitive and total. -/
theorem generator_lt_strict_total {ι : Type} [LinearOrder ι]
    (ids : algebra_ids) (h1 : ids.fermion ≠ ids.boson) (h2 : ids.fermion ≠ SPIN_ALGEBRA_ID)
    (h3 : ids.boson ≠ SPIN_ALGEBRA_ID) :
    (∀ a : generator ι, (generator.lt ids a a == some true) = false) ∧
    (∀ a b c : generator ι, (generator.lt ids a b == some true) = true →
      (generator.lt ids b c == some true) = true →
      (generator.lt ids a c == some true) = true) ∧
    (∀ a b : generator ι, (generator.lt ids a b == some true) = true ∨ a = b ∨
      (generator.lt ids b a == some true) = true) := by
  have hs : SPIN_ALGEBRA_ID = -1 := rfl
  rw [hs] at h2 h3
  refine ⟨?_, ?_, ?_⟩
  · intro a
    rw [generator_lt_eq ids h1 h2 h3]
    cases a with
    | fermion f => simpa using (fermion_less_strict_total f f f).1
    | boson f => simpa using (boson_less_strict_total f f f).1
    | spin f => simpa using (spin_less_strict_total f f f).1
  · intro a b c
    rw [generator_lt_eq ids h1 h2 h3, generator_lt_eq ids h1 h2 h3,
      generator_lt_eq ids h1 h2 h3]
    cases a <;> cases b <;> cases c <;>
      simp only [generator.algebra_id, generator_spin.algebra_id, hs, beq_iff_eq,
        Option.some.injEq, decide_eq_true_eq] <;>
      first
        | exact (fermion_less_strict_total _ _ _).2.1
        | exact (boson_less_strict_total _ _ _).2.1
        | exact (spin_less_strict_total _ _ _).2.1
        | (intro h4 h5; omega)
  · intro a b
    rw [generator_lt_eq ids h1 h2 h3, generator_lt_eq ids h1 h2 h3]
    cases a with
    | fermion f =>
      cases b with
      | fermion g =>
        rcases (fermion_less_strict_total f g g).2.2 with h | h | h
        · exact Or.inl (by simpa using h)
        · exact Or.inr (Or.inl (by rw [h]))
        · exact Or.inr (Or.inr (by simpa using h))
      | boson g =>
        simp only [generator.algebra_id, beq_iff_eq, Option.some.injEq, decide_eq_true_eq,
          reduceCtorEq, false_or]
        omega
      | spin g =>
        simp only [generator.algebra_id, generator_spin.algebra_id, hs, beq_iff_eq,
          Option.some.injEq, decide_eq_true_eq, reduceCtorEq, false_or]
        omega
    | boson f =>
      cases b with
      | fermion g =>
        simp only [generator.algebra_id, beq_iff_eq, Option.some.injEq, decide_eq_true_eq,
          reduceCtorEq, false_or]
        omega
      | boson g =>
        rcases (boson_less_strict_total f g g).2.2 with h | h | h
        · exact Or.inl (by simpa using h)
        · exact Or.inr (Or.inl (by rw [h]))
        · exact Or.inr (Or.inr (by simpa using h))
      | spin g =>
        simp only [generator.algebra_id, generator_spin.algebra_id, hs, beq_iff_eq,
          Option.some.injEq, decide_eq_true_eq, reduceCtorEq, false_or]
        omega
    | spin f =>
      cases b with
      | fermion g =>
        simp only [generator.algebra_id, generator_spin.algebra_id, hs, beq_iff_eq,
          Option.some.injEq, decide_eq_true_eq, reduceCtorEq, false_or]
        omega
      | boson g =>
        simp only [generator.algebra_id, generator_spin.algebra_id, hs, beq_iff_eq,
          Option.some.injEq, decide_eq_true_eq, reduceCtorEq, false_or]
        omega
      | spin g =>
        rcases (spin_less_strict_total f g g).2.2 with h | h | h
        · exact Or.inl (by simpa using h)
        · exact Or.inr (Or.inl (by rw [h]))
        · exact Or.inr (Or.inr (by simpa using h))

/-! ## Theorems: the order of the monomials -/

/-- With three different algebra ids, `operator==` on monomials is equality of
the generator sequences. -/
theorem monomial_eq_iff {ι : Type} [DecidableEq ι] [LT ι] [∀ a b : ι, Decidable (a < b)]
    (ids : algebra_ids) (h1 : ids.fermion ≠ ids.boson) (h2 : ids.fermion ≠ SPIN_ALGEBRA_ID)
    (h3 : ids.boson ≠ SPIN_ALGEBRA_ID) :
    ∀ m1 m2 : monomial ι, monomial.eq ids m1 m2 = true ↔ m1 = m2
  | [], [] => by simp [monomial.eq]
  | [], _ :: _ => by simp [monomial.eq]
  | _ :: _, [] => by simp [monomial.eq]
  | g1 :: m1, g2 :: m2 => by
    simp only [monomial.eq, Bool.and_eq_true, beq_iff_eq, List.cons.injEq,
      generator_eq_iff ids h1 h2 h3, monomial_eq_iff ids h1 h2 h3 m1 m2]

/-- C26: with the algebra ids in the order fermion < boson < spin, monomials
are totally ordered: a shorter monomial is before a longer one, monomials of
one length compare lexicographically by the generator order (by the generators
at the first position where they differ), in which every fermion generator is
before every boson generator and every boson generator before every spin
generator; two monomials are equal exactly when they are the same generator
sequence; of `<`, `==`, `>` exactly one holds, and `<` is transitive. -/
theorem C26_monomial_order {ι : Type} [LinearOrder ι] (ids : algebra_ids)
    (hfb : ids.fermion < ids.boson) (hbs : ids.boson < SPIN_ALGEBRA_ID) :
    (∀ m1 m2 : monomial ι, m1.length < m2.length →
      monomial.lt ids m1 m2 = true ∧ monomial.lt ids m2 m1 = false) ∧
    (∀ m1 m2 : monomial ι, m1.length = m2.length →
      (monomial.lt ids m1 m2 = true ↔
        ∃ (pre : List (generator ι)) (x y : generator ι) (s1 s2 : List (generator ι)),
          m1 = pre ++ x :: s1 ∧ m2 = pre ++ y :: s2 ∧ generator.lt ids x y = some true)) ∧
    (∀ (f : generator_fermion ι) (b : generator_boson ι) (s : generator_spin ι),
      generator.lt ids (.fermion f) (.boson b) = some true ∧
      generator.lt ids (.boson b) (.spin s) = some true ∧
      generator.lt ids (.fermion f) (.spin s) = some true) ∧
    (∀ m1 m2 : monomial ι, monomial.eq ids m1 m2 = true ↔ m1 = m2) ∧
    (∀ m1 m2 : monomial ι,
      (monomial.lt ids m1 m2 = true ∨ monomial.eq ids m1 m2 = true ∨
        monomial.gt ids m1 m2 = true) ∧
      ¬ (monomial.lt ids m1 m2 = true ∧ monomial.eq ids m1 m2 = true) ∧
      ¬ (monomial.lt ids m1 m2 = true ∧ monomial.gt ids m1 m2 = true) ∧
      ¬ (monomial.eq ids m1 m2 = true ∧ monomial.gt ids m1 m2 = true)) ∧
    (∀ m1 m2 m3 : monomial ι, monomial.lt ids m1 m2 = true →
      monomial.lt ids m2 m3 = true → monomial.lt ids m1 m3 = true) := by
  have hs : SPIN_ALGEBRA_ID = -1 := rfl
  have h1 : ids.fermion ≠ ids.boson := ne_of_lt hfb
  have h2 : ids.fermion ≠ SPIN_ALGEBRA_ID := ne_of_lt (lt_trans hfb hbs)
  have h3 : ids.boson ≠ SPIN_ALGEBRA_ID := ne_of_lt hbs
  obtain ⟨hirr, htrans, htri⟩ := generator_lt_strict_total (ι := ι) ids h1 h2 h3
  have heq := monomial_eq_iff (ι := ι) ids h1 h2 h3
  refine ⟨?_, ?_, ?_, heq, ?_, ?_⟩
  · intro m1 m2 h
    have h4 : m1.length ≠ m2.length := by omega
    have h5 : m2.length ≠ m1.length := by omega
    have h6 : ¬ m2.length < m1.length := by omega
    simp [monomial.lt, monomial_lt, h4, h5, h, h6]
  · intro m1 m2 h
    simp only [monomial.lt, monomial_lt, h, bne_self_eq_false, Bool.false_eq_true, if_false]
    rw [lex_lt_iff_first_difference _ hirr htri m1 m2 h]
    simp only [beq_iff_eq]
  · intro f b s
    rw [generator_lt_eq ids h1 h2 h3, generator_lt_eq ids h1 h2 h3,
      generator_lt_eq ids h1 h2 h3]
    simp only [generator.algebra_id, generator_spin.algebra_id, Option.some.injEq,
      decide_eq_true_eq]
    exact ⟨hfb, hbs, lt_trans hfb hbs⟩
  · intro m1 m2
    simp only [monomial.gt, heq, monomial.lt]
    refine ⟨monomial_lt_trichotomy _ htri m1 m2, ?_, ?_, ?_⟩
    · rintro ⟨h4, h5⟩
      subst h5
      rw [monomial_lt_irrefl _ hirr] at h4
      cases h4
    · rintro ⟨h4, h5⟩
      rw [monomial_lt_asymm _ hirr htrans htri m1 m2 h4] at h5
      cases h5
    · rintro ⟨h4, h5⟩
      subst h4
      rw [monomial_lt_irrefl _ hirr] at h5
      cases h5
  · intro m1 m2 m3
    exact monomial_lt_trans _ hirr htrans htri m1 m2 m3

/-- Witness of C26 with the ids -3, -2 and -1 of the three algebras and
natural-number indices: the monomial `c+_0 a_0` is before the monomial
`c+_0 S+_0`, and the monomial `Sz_0` before both. -/
theorem C26_monomial_order_witness :
    monomial.lt { fermion := -3, boson := -2 }
      ([.fermion ⟨true, 0⟩, .boson ⟨false, 0⟩] : monomial Nat)
      [.fermion ⟨true, 0⟩, .spin ⟨2, .plus, 0⟩] = true ∧
    (monomial.lt { fermion := -3, boson := -2 }
      ([.spin ⟨2, .z, 0⟩] : monomial Nat) [.fermion ⟨true, 0⟩, .boson ⟨false, 0⟩] = true ∧
     monomial.lt { fermion := -3, boson := -2 }
      ([.fermion ⟨true, 0⟩, .boson ⟨false, 0⟩] : monomial Nat) [.spin ⟨2, .z, 0⟩] = false) :=
  ⟨((C26_monomial_order (ι := Nat) { fermion := -3, boson := -2 } (by decide)
      (by decide)).2.1 [.fermion ⟨true, 0⟩, .boson ⟨false, 0⟩]
      [.fermion ⟨true, 0⟩, .spin ⟨2, .plus, 0⟩] rfl).2
      ⟨[.fermion ⟨true, 0⟩], .boson ⟨false, 0⟩, .spin ⟨2, .plus, 0⟩, [], [], rfl, rfl,
        by decide⟩,
   (C26_monomial_order (ι := Nat) { fermion := -3, boson := -2 } (by decide)
      (by decide)).1 [.spin ⟨2, .z, 0⟩] [.fermion ⟨true, 0⟩, .boson ⟨false, 0⟩] (by decide)⟩

/-! ## Theorems: sums and differences of expressions -/

/-- A monomial that is not in the expression has the scalar zero. -/
theorem coeff_eq_zero_of_not_mem {G : Type} [DecidableEq G] (e : expression G) (m : List G)
    (h : m ∉ e.map Prod.fst) : expression.coeff e m = 0 := by
  induction e with
  | nil => rfl
  | cons t rest ih =>
    obtain ⟨m1, s1⟩ := t
    simp only [List.map_cons, List.mem_cons, not_or] at h
    simp only [expression.coeff]
    rw [if_neg (fun h1 => h.1 h1.symm)]
    exact ih h.2

/-- In a well-formed expression the monomials are exactly those with a
nonzero scalar. -/
theorem coeff_ne_zero_iff {G : Type} [DecidableEq G] (ops : generator_ops G)
    (e : expression G)
    (hwf : expression.well_formed ops e) (m : List G) :
    expression.coeff e m ≠ 0 ↔ m ∈ e.map Prod.fst := by
  induction e with
  | nil => simp [expression.coeff]
  | cons t rest ih =>
    obtain ⟨m1, s1⟩ := t
    obtain ⟨hs, hz⟩ := hwf
    simp only [List.map_cons, List.pairwise_cons] at hs
    have hrest : expression.well_formed ops rest :=
      ⟨hs.2, fun t ht => hz t (List.mem_cons_of_mem _ ht)⟩
    have hs1 : s1 ≠ 0 := by
      have := hz (m1, s1) (List.mem_cons_self _ _)
      simpa [is_zero] using this
    simp only [expression.coeff, List.map_cons, List.mem_cons]
    by_cases h : m1 = m
    · simp [h, hs1]
    · rw [if_neg h, ih hrest]
      constructor
      · exact fun h1 => Or.inr h1
      · rintro (h1 | h1)
        · exact absurd h1.symm h
        · exact h1

/-- The monomials of an expression after a term was added. -/
theorem add_term_keys {G : Type} (ops : generator_ops G) (e : expression G) (m : List G)
    (s : Int) (x : List G) (hx : x ∈ (expression.add_term ops e (m, s)).map Prod.fst) :
    x ∈ e.map Prod.fst ∨ x = m := by
  induction e with
  | nil =>
    simp only [expression.add_term] at hx
    split at hx
    · simp at hx
    · simp at hx
      exact Or.inr hx
  | cons t rest ih =>
    obtain ⟨m1, s1⟩ := t
    simp only [expression.add_term] at hx
    split at hx
    · split at hx
      · exact Or.inl hx
      · simp only [List.map_cons, List.mem_cons] at hx ⊢
        tauto
    · split at hx
      · simp only [List.map_cons, List.mem_cons] at hx ⊢
        rcases hx with hx | hx
        · exact Or.inl (Or.inl hx)
        · rcases ih hx with h | h
          · exact Or.inl (Or.inr h)
          · exact Or.inr h
      · split at hx
        · simp only [List.map_cons, List.mem_cons]
          exact Or.inl (Or.inr hx)
        · simp only [List.map_cons, List.mem_cons] at hx ⊢
          exact Or.inl hx

/-- Adding a term keeps an expression well-formed. -/
theorem add_term_well_formed {G : Type} (ops : generator_ops G)
    (htrans : ∀ a b c, monomial_lt ops.lt a b = true → monomial_lt ops.lt b c = true →
      monomial_lt ops.lt a c = true)
    (e : expression G) (m : List G) (s : Int) (hwf : expression.well_formed ops e) :
    expression.well_formed ops (expression.add_term ops e (m, s)) := by
  induction e with
  | nil =>
    simp only [expression.add_term]
    split
    · exact hwf
    · rename_i h
      exact ⟨by simp, by simpa using h⟩
  | cons t rest ih =>
    obtain ⟨m1, s1⟩ := t
    obtain ⟨hs, hz⟩ := hwf
    simp only [List.map_cons, List.pairwise_cons] at hs
    have hrest : expression.well_formed ops rest :=
      ⟨hs.2, fun t ht => hz t (List.mem_cons_of_mem _ ht)⟩
    simp only [expression.add_term]
    split
    · rename_i h1
      split
      · exact ⟨by simpa using hs, hz⟩
      · rename_i h2
        refine ⟨?_, ?_⟩
        · simp only [List.map_cons, List.pairwise_cons, List.mem_cons]
          refine ⟨?_, hs⟩
          rintro x (hx | hx)
          · rw [hx]
            exact h1
          · exact htrans _ _ _ h1 (hs.1 x hx)
        · intro t ht
          rcases List.mem_cons.1 ht with h | h
          · rw [h]
            simpa using h2
          · exact hz t h
    · rename_i h1
      split
      · rename_i h2
        have ih1 := ih hrest
        refine ⟨?_, ?_⟩
        · simp only [List.map_cons, List.pairwise_cons]
          refine ⟨?_, ih1.1⟩
          intro x hx
          rcases add_term_keys ops rest m s x hx with h | h
          · exact hs.1 x h
          · rw [h]
            exact h2
        · intro t ht
          rcases List.mem_cons.1 ht with h | h
          · rw [h]
            exact hz _ (List.mem_cons_self _ _)
          · exact ih1.2 t h
      · rename_i h2
        split
        · exact hrest
        · rename_i h3
          refine ⟨by simpa using hs, ?_⟩
          intro t ht
          rcases List.mem_cons.1 ht with h | h
          · rw [h]
            simpa using h3
          · exact hz t (List.mem_cons_of_mem _ h)

/-- The scalars of an expression after a term was added: the scalar of the
monomial of the term grows by the scalar of the term. -/
theorem add_term_coeff {G : Type} [DecidableEq G] (ops : generator_ops G)
    (hirr : ∀ m, monomial_lt ops.lt m m = false)
    (htrans : ∀ a b c, monomial_lt ops.lt a b = true → monomial_lt ops.lt b c = true →
      monomial_lt ops.lt a c = true)
    (htri : ∀ a b, monomial_lt ops.lt a b = true ∨ a = b ∨ monomial_lt ops.lt b a = true)
    (e : expression G) (m : List G) (s : Int) (hwf : expression.well_formed ops e)
    (x : List G) :
    expression.coeff (expression.add_term ops e (m, s)) x =
      expression.coeff e x + (if x = m then s else 0) := by
  induction e with
  | nil =>
    simp only [expression.add_term]
    split
    · rename_i h
      have h0 : s = 0 := by simpa [is_zero] using h
      simp [expression.coeff, h0]
    · simp only [expression.coeff, zero_add]
      by_cases h : m = x
      · simp [h]
      · have h1 : ¬ x = m := fun h2 => h h2.symm
        simp [h, h1]
  | cons t rest ih =>
    obtain ⟨m1, s1⟩ := t
    obtain ⟨hs, hz⟩ := hwf
    simp only [List.map_cons, List.pairwise_cons] at hs
    have hrest : expression.well_formed ops rest :=
      ⟨hs.2, fun t ht => hz t (List.mem_cons_of_mem _ ht)⟩
    have hm1 : m1 ∉ rest.map Prod.fst := by
      intro h
      have := hs.1 m1 h
      rw [hirr] at this
      cases this
    simp only [expression.add_term]
    split
    · rename_i h1
      have hne : m1 ≠ m := by
        intro h
        rw [h, hirr] at h1
        cases h1
      have hm : m ∉ rest.map Prod.fst := by
        intro h
        have h2 := htrans _ _ _ h1 (hs.1 m h)
        rw [hirr] at h2
        cases h2
      split
      · rename_i h2
        have h0 : s = 0 := by simpa [is_zero] using h2
        simp [h0]
      · simp only [expression.coeff]
        by_cases hx : x = m
        · subst hx
          simp [hne, coeff_eq_zero_of_not_mem rest x hm]
        · have hx1 : ¬ m = x := fun h => hx h.symm
          simp [hx, hx1]
    · rename_i h1
      split
      · rename_i h2
        have hne : m1 ≠ m := by
          intro h
          rw [h, hirr] at h2
          cases h2
        simp only [expression.coeff]
        by_cases hx : m1 = x
        · have hx1 : ¬ x = m := fun h => hne (hx.trans h)
          simp [hx, hx1]
        · simp only [hx, if_false]
          exact ih hrest
      · rename_i h2
        have heq : m = m1 := by
          rcases htri m m1 with h | h | h
          · exact absurd h h1
          · exact h
          · exact absurd h h2
        subst heq
        split
        · rename_i h3
          have h0 : s1 + s = 0 := by simpa [is_zero] using h3
          simp only [expression.coeff]
          by_cases hx : m = x
          · subst hx
            simp [coeff_eq_zero_of_not_mem rest m hm1, h0]
          · have hx1 : ¬ x = m := fun h => hx h.symm
            simp [hx, hx1]
        · simp only [expression.coeff]
          by_cases hx : m = x
          · simp [hx]
          · have hx1 : ¬ x = m := fun h => hx h.symm
            simp [hx, hx1]

/-- The sum of two expressions: it is well-formed, and the scalar of every
monomial is the scalar in the first expression plus the scalars of the terms
of the second one with that monomial. -/
theorem add_well_formed_coeff {G : Type} [DecidableEq G] (ops : generator_ops G)
    (hirr : ∀ m, monomial_lt ops.lt m m = false)
    (htrans : ∀ a b c, monomial_lt ops.lt a b = true → monomial_lt ops.lt b c = true →
      monomial_lt ops.lt a c = true)
    (htri : ∀ a b, monomial_lt ops.lt a b = true ∨ a = b ∨ monomial_lt ops.lt b a = true)
    (f e : expression G) (hwf : expression.well_formed ops e) :
    expression.well_formed ops (expression.add ops e f) ∧
    ∀ x, expression.coeff (expression.add ops e f) x =
      expression.coeff e x + (f.map (fun t => if x = t.1 then t.2 else 0)).sum := by
  induction f generalizing e with
  | nil =>
    refine ⟨hwf, fun x => ?_⟩
    simp [expression.add]
  | cons t rest ih =>
    obtain ⟨m, s⟩ := t
    have h1 := add_term_well_formed ops htrans e m s hwf
    have h2 := ih (expression.add_term ops e (m, s)) h1
    refine ⟨h2.1, fun x => ?_⟩
    have h3 := h2.2 x
    simp only [expression.add, List.foldl_cons] at h3 ⊢
    rw [h3, add_term_coeff ops hirr htrans htri e m s hwf x]
    simp only [List.map_cons, List.sum_cons]
    ring

/-- In a well-formed expression the terms with a given monomial add up to the
scalar of that monomial. -/
theorem sum_terms_eq_coeff {G : Type} [DecidableEq G] (ops : generator_ops G)
    (hirr : ∀ m, monomial_lt ops.lt m m = false) (f : expression G)
    (hwf : expression.well_formed ops f) (x : List G) :
    (f.map (fun t => if x = t.1 then t.2 else 0)).sum = expression.coeff f x := by
  induction f with
  | nil => rfl
  | cons t rest ih =>
    obtain ⟨m1, s1⟩ := t
    obtain ⟨hs, hz⟩ := hwf
    simp only [List.map_cons, List.pairwise_cons] at hs
    have hrest : expression.well_formed ops rest :=
      ⟨hs.2, fun t ht => hz t (List.mem_cons_of_mem _ ht)⟩
    have hm1 : m1 ∉ rest.map Prod.fst := by
      intro h
      have := hs.1 m1 h
      rw [hirr] at this
      cases this
    simp only [List.map_cons, List.sum_cons, expression.coeff]
    rw [ih hrest]
    by_cases hx : m1 = x
    · subst hx
      simp [coeff_eq_zero_of_not_mem rest m1 hm1]
    · have hx1 : ¬ x = m1 := fun h => hx h.symm
      simp [hx, hx1]

/-- The negated expression is well-formed and holds the negated scalars. -/
theorem neg_well_formed_coeff {G : Type} [DecidableEq G] (ops : generator_ops G)
    (f : expression G) (hwf : expression.well_formed ops f) :
    expression.well_formed ops (expression.neg f) ∧
    ∀ x, expression.coeff (expression.neg f) x = - expression.coeff f x := by
  induction f with
  | nil => exact ⟨hwf, fun x => by simp [expression.neg, expression.coeff]⟩
  | cons t rest ih =>
    obtain ⟨m1, s1⟩ := t
    obtain ⟨hs, hz⟩ := hwf
    have hkeys : ∀ l : expression G, (expression.neg l).map Prod.fst = l.map Prod.fst := by
      intro l
      simp [expression.neg]
    simp only [List.map_cons, List.pairwise_cons] at hs
    have hrest : expression.well_formed ops rest :=
      ⟨hs.2, fun t ht => hz t (List.mem_cons_of_mem _ ht)⟩
    obtain ⟨ih1, ih2⟩ := ih hrest
    refine ⟨⟨?_, ?_⟩, ?_⟩
    · rw [hkeys]
      simpa using hs
    · intro t ht
      simp only [expression.neg, List.mem_map] at ht
      obtain ⟨t0, ht0, rfl⟩ := ht
      have := hz t0 ht0
      simpa [is_zero] using this
    · intro x
      have h3 := ih2 x
      simp only [expression.neg, List.map_cons, expression.coeff] at h3 ⊢
      by_cases hx : m1 = x
      · simp [hx]
      · simp only [hx, if_false]
        exact h3

/-- Two well-formed expressions that hold the same scalar for every monomial
are the same expression. -/
theorem expression_ext {G : Type} [DecidableEq G] (ops : generator_ops G)
    (hirr : ∀ m, monomial_lt ops.lt m m = false)
    (htrans : ∀ a b c, monomial_lt ops.lt a b = true → monomial_lt ops.lt b c = true →
      monomial_lt ops.lt a c = true) :
    ∀ (e f : expression G), expression.well_formed ops e → expression.well_formed ops f →
      (∀ x, expression.coeff e x = expression.coeff f x) → e = f
  | [], [], _, _, _ => rfl
  | [], (m2, s2) :: f, _, hf, h => by
    have h1 := h m2
    have h2 : s2 ≠ 0 := by
      have := hf.2 (m2, s2) (List.mem_cons_self _ _)
      simpa [is_zero] using this
    simp [expression.coeff] at h1
    exact absurd h1.symm h2
  | (m1, s1) :: e, [], he, _, h => by
    have h1 := h m1
    have h2 : s1 ≠ 0 := by
      have := he.2 (m1, s1) (List.mem_cons_self _ _)
      simpa [is_zero] using this
    simp [expression.coeff] at h1
    exact absurd h1 h2
  | (m1, s1) :: e, (m2, s2) :: f, he, hf, h => by
    have hs1 : s1 ≠ 0 := by
      have := he.2 (m1, s1) (List.mem_cons_self _ _)
      simpa [is_zero] using this
    have hs2 : s2 ≠ 0 := by
      have := hf.2 (m2, s2) (List.mem_cons_self _ _)
      simpa [is_zero] using this
    have hse := he.1
    have hsf := hf.1
    simp only [List.map_cons, List.pairwise_cons] at hse hsf
    have he1 : expression.well_formed ops e :=
      ⟨hse.2, fun t ht => he.2 t (List.mem_cons_of_mem _ ht)⟩
    have hf1 : expression.well_formed ops f :=
      ⟨hsf.2, fun t ht => hf.2 t (List.mem_cons_of_mem _ ht)⟩
    have hm1 : m1 ∉ e.map Prod.fst := by
      intro h0
      have := hse.1 m1 h0
      rw [hirr] at this
      cases this
    have hm2 : m2 ∉ f.map Prod.fst := by
      intro h0
      have := hsf.1 m2 h0
      rw [hirr] at this
      cases this
    have hmm : m1 = m2 := by
      by_contra hne
      have hne1 : ¬ m2 = m1 := fun h0 => hne h0.symm
      have h1 := h m1
      have h2 := h m2
      simp only [expression.coeff, if_true, hne, hne1, if_false] at h1 h2
      have h3 : m1 ∈ f.map Prod.fst := by
        rw [← coeff_ne_zero_iff ops f hf1, ← h1]
        exact hs1
      have h4 : m2 ∈ e.map Prod.fst := by
        rw [← coeff_ne_zero_iff ops e he1, h2]
        exact hs2
      have h5 := htrans _ _ _ (hsf.1 m1 h3) (hse.1 m2 h4)
      rw [hirr] at h5
      cases h5
    subst hmm
    have hss : s1 = s2 := by
      have h1 := h m1
      simpa [expression.coeff] using h1
    subst hss
    have htail : ∀ x, expression.coeff e x = expression.coeff f x := by
      intro x
      by_cases hx : m1 = x
      · subst hx
        rw [coeff_eq_zero_of_not_mem e m1 hm1, coeff_eq_zero_of_not_mem f m1 hm2]
      · have h1 := h x
        simpa [expression.coeff, hx] using h1
    rw [expression_ext ops hirr htrans e f he1 hf1 htail]

/-- The scalar of a monomial of a well-formed expression is the one stored
with it. -/
theorem coeff_of_mem {G : Type} [DecidableEq G] (ops : generator_ops G)
    (hirr : ∀ m, monomial_lt ops.lt m m = false) (e : expression G)
    (hwf : expression.well_formed ops e) (m : List G) (s : Int) (h : (m, s) ∈ e) :
    expression.coeff e m = s := by
  induction e with
  | nil => simp at h
  | cons t rest ih =>
    obtain ⟨m1, s1⟩ := t
    obtain ⟨hs, hz⟩ := hwf
    simp only [List.map_cons, List.pairwise_cons] at hs
    have hrest : expression.well_formed ops rest :=
      ⟨hs.2, fun t ht => hz t (List.mem_cons_of_mem _ ht)⟩
    simp only [expression.coeff]
    rcases List.mem_cons.1 h with h1 | h1
    · cases h1
      simp
    · have hne : m1 ≠ m := by
        intro h2
        subst h2
        have := hs.1 m1 (List.mem_map.2 ⟨(m1, s), h1, rfl⟩)
        rw [hirr] at this
        cases this
      rw [if_neg hne]
      exact ih hrest h1

/-- C25: for well-formed expressions `E` and `F` over generators with a strict
total order, `E - F` (the value `E -= F` gives to `E`) is well-formed and holds
for each monomial the scalar `E[m] - F[m]`; its monomials are exactly those
with a nonzero difference; `E - E` is the empty expression, `E - 0 = E`,
`0 - E = -E`, and a term present in both with the same scalar is not in the
result. -/
theorem C25_expression_sub {G : Type} [DecidableEq G] (ops : generator_ops G)
    (hirr : ∀ a, ops.lt a a = false)
    (htrans : ∀ a b c, ops.lt a b = true → ops.lt b c = true → ops.lt a c = true)
    (htri : ∀ a b, ops.lt a b = true ∨ a = b ∨ ops.lt b a = true)
    (e f : expression G) (he : expression.well_formed ops e)
    (hf : expression.well_formed ops f) :
    expression.well_formed ops (expression.sub ops e f) ∧
    (∀ m, expression.coeff (expression.sub ops e f) m =
      expression.coeff e m - expression.coeff f m) ∧
    (∀ m, m ∈ (expression.sub ops e f).map Prod.fst ↔
      expression.coeff e m - expression.coeff f m ≠ 0) ∧
    expression.sub ops e e = [] ∧
    expression.sub ops e [] = e ∧
    expression.sub ops [] e = expression.neg e ∧
    (∀ m s, (m, s) ∈ e → (m, s) ∈ f → m ∉ (expression.sub ops e f).map Prod.fst) := by
  have mirr := monomial_lt_irrefl ops.lt hirr
  have mtrans := monomial_lt_trans ops.lt hirr htrans htri
  have mtri := monomial_lt_trichotomy ops.lt htri
  have hempty : expression.well_formed ops ([] : expression G) := ⟨by simp, by simp⟩
  have hsub : ∀ e1 f1 : expression G, expression.well_formed ops e1 →
      expression.well_formed ops f1 →
      expression.well_formed ops (expression.sub ops e1 f1) ∧
      ∀ m, expression.coeff (expression.sub ops e1 f1) m =
        expression.coeff e1 m - expression.coeff f1 m := by
    intro e1 f1 he1 hf1
    obtain ⟨hn1, hn2⟩ := neg_well_formed_coeff ops f1 hf1
    obtain ⟨ha1, ha2⟩ := add_well_formed_coeff ops mirr mtrans mtri (expression.neg f1) e1 he1
    refine ⟨ha1, fun m => ?_⟩
    unfold expression.sub
    rw [ha2 m, sum_terms_eq_coeff ops mirr _ hn1 m, hn2 m]
    ring
  obtain ⟨h1, h2⟩ := hsub e f he hf
  have h3 : ∀ m, m ∈ (expression.sub ops e f).map Prod.fst ↔
      expression.coeff e m - expression.coeff f m ≠ 0 := by
    intro m
    rw [← coeff_ne_zero_iff ops _ h1, h2 m]
  refine ⟨h1, h2, h3, ?_, rfl, ?_, ?_⟩
  · apply expression_ext ops mirr mtrans _ _ (hsub e e he he).1 hempty
    intro x
    rw [(hsub e e he he).2 x]
    simp [expression.coeff]
  · apply expression_ext ops mirr mtrans _ _ (hsub [] e hempty he).1
      (neg_well_formed_coeff ops e he).1
    intro x
    rw [(hsub [] e hempty he).2 x, (neg_well_formed_coeff ops e he).2 x]
    simp [expression.coeff]
  · intro m s hme hmf
    rw [h3 m, coeff_of_mem ops mirr e he m s hme, coeff_of_mem ops mirr f hf m s hmf]
    simp

/-- The two expressions of the witness of C25 are well-formed. -/
theorem example_expressions_well_formed :
    expression.well_formed (fermion_ops : generator_ops (generator_fermion Nat))
      [([⟨true, 1⟩], 1), ([⟨false, 2⟩], 1)] ∧
    expression.well_formed (fermion_ops : generator_ops (generator_fermion Nat))
      [([], 2), ([⟨false, 2⟩], 1)] := by
  unfold expression.well_formed
  decide

/-- Witness of C25 on fermion generators with natural-number indices, the last
check of the test of the subtraction: `(c+_1 + c_2) - (2 + c_2)` is
`-2 + c+_1`; the term `c_2`, present in both with the scalar 1, is not in the
result. -/
theorem C25_expression_sub_witness :
    expression.sub (fermion_ops : generator_ops (generator_fermion Nat))
      [([⟨true, 1⟩], 1), ([⟨false, 2⟩], 1)] [([], 2), ([⟨false, 2⟩], 1)] =
      [([], -2), ([⟨true, 1⟩], 1)] ∧
    [(⟨false, 2⟩ : generator_fermion Nat)] ∉
      (expression.sub (fermion_ops : generator_ops (generator_fermion Nat))
        [([⟨true, 1⟩], 1), ([⟨false, 2⟩], 1)] [([], 2), ([⟨false, 2⟩], 1)]).map Prod.fst :=
  ⟨by decide,
   (C25_expression_sub (fermion_ops : generator_ops (generator_fermion Nat))
      (fun a => (fermion_less_strict_total a a a).1)
      (fun a b c => (fermion_less_strict_total a b c).2.1)
      (fun a b => (fermion_less_strict_total a b b).2.2)
      [([⟨true, 1⟩], 1), ([⟨false, 2⟩], 1)] [([], 2), ([⟨false, 2⟩], 1)]
      example_expressions_well_formed.1 example_expressions_well_formed.2).2.2.2.2.2.2
      [⟨false, 2⟩] 1 (by decide) (by decide)⟩

/-! ## Theorems: the loop of `act`, update by update -/

/-- The field of a state index that a mask of `n_bits` bits selects. -/
theorem field_eq_div_mod (x sh nb : Nat) :
    (x >>> sh) &&& (2 ^ nb - 1) = x / 2 ^ sh % 2 ^ nb := by
  rw [Nat.shiftRight_eq_div_pow, Nat.and_pow_two_sub_one_eq_mod]

/-- With a complete table every square root is defined. -/
theorem sqr_root_full {C : Type} (ops : coeff_ops C) (a : monomial_action_spin)
    (h : LIBCOMMUTE_SPIN_MAX_NUM_PRECOMPUTED_SQRT ≤ a.sqr_roots_size) (x : Nat) :
    monomial_action_spin.sqr_root ops a x = some (ops.sqrt x) := by
  unfold monomial_action_spin.sqr_root
  split
  · rw [if_pos (by omega)]
  · rfl

/-- An argument from the maximal table size on is not looked up. -/
theorem sqr_root_of_ge {C : Type} (ops : coeff_ops C) (a : monomial_action_spin) (x : Nat)
    (h : LIBCOMMUTE_SPIN_MAX_NUM_PRECOMPUTED_SQRT ≤ x) :
    monomial_action_spin.sqr_root ops a x = some (ops.sqrt x) := by
  unfold monomial_action_spin.sqr_root
  rw [if_neg (by omega)]

/-- The loop over the square roots gives the same result with two tables when
every read gives the same result. -/
theorem mul_sqr_roots_congr {C : Type} (ops : coeff_ops C) (a a1 : monomial_action_spin)
    (arg : Nat → Nat) (coeff : C) :
    ∀ power : Nat,
      (∀ d, d < power →
        monomial_action_spin.sqr_root ops a (arg d) =
          monomial_action_spin.sqr_root ops a1 (arg d)) →
      monomial_action_spin.mul_sqr_roots ops a arg power coeff =
        monomial_action_spin.mul_sqr_roots ops a1 arg power coeff
  | 0, _ => rfl
  | k + 1, h => by
    have ih := mul_sqr_roots_congr ops a a1 arg coeff k (fun d hd => h d (by omega))
    unfold monomial_action_spin.mul_sqr_roots at ih ⊢
    rw [List.range_succ, List.foldlM_append, List.foldlM_append, ih]
    simp [h k (by omega)]

/-- The argument of the square root in the case `minus` is read within the
table, or is not looked up, whatever the value `m ≥ 1` of the field. -/
theorem minus_arg_defined {C : Type} (ops : coeff_ops C) (a : monomial_action_spin)
    (s2 m : Nat) (hs2 : s2 < 2 ^ 31) (hm1 : 1 ≤ m) (hm : m < 2 ^ 31)
    (hsize : min (spin_ss ((s2 : Int) + 1) ((s2 : ℚ) / 2) + 1)
      LIBCOMMUTE_SPIN_MAX_NUM_PRECOMPUTED_SQRT ≤ a.sqr_roots_size) :
    monomial_action_spin.sqr_root ops a
        ((((to_uint64 ((s2 : Int) - (m : Int)) + 1) % sv_index_modulus) *
          to_uint64 (m : Int)) % sv_index_modulus) =
      some (ops.sqrt ((((to_uint64 ((s2 : Int) - (m : Int)) + 1) % sv_index_modulus) *
          to_uint64 (m : Int)) % sv_index_modulus)) := by
  have hmu : to_uint64 (m : Int) = m := to_uint64_natCast m (by omega)
  rw [hmu]
  rcases Nat.lt_or_ge s2 m with h | h
  · -- the field holds more than 2s
    by_cases h1 : m = s2 + 1
    · have h2 : to_uint64 ((s2 : Int) - (m : Int)) = 2 ^ 64 - 1 := by
        unfold to_uint64 sv_index_modulus
        omega
      have h3 : ((2 ^ 64 - 1 + 1) % sv_index_modulus * m) % sv_index_modulus = 0 := by
        unfold sv_index_modulus
        norm_num
      rw [h2, h3]
      unfold monomial_action_spin.sqr_root
      unfold LIBCOMMUTE_SPIN_MAX_NUM_PRECOMPUTED_SQRT at hsize ⊢
      rw [if_pos (by norm_num), if_pos (by omega)]
    · have h2 : to_uint64 ((s2 : Int) - (m : Int)) = 2 ^ 64 - (m - s2) := by
        unfold to_uint64 sv_index_modulus
        omega
      have h3 : (2 ^ 64 - (m - s2) + 1) % sv_index_modulus = 2 ^ 64 - (m - s2 - 1) := by
        unfold sv_index_modulus
        omega
      have hq1 : (m - s2 - 1) * m < 2 ^ 62 := by
        calc (m - s2 - 1) * m < 2 ^ 31 * 2 ^ 31 :=
              Nat.mul_lt_mul'' (by omega) hm
          _ = 2 ^ 62 := by norm_num
      have hq0 : 0 < (m - s2 - 1) * m := Nat.mul_pos (by omega) (by omega)
      have h4 : ((2 ^ 64 - (m - s2 - 1)) * m) % sv_index_modulus =
          2 ^ 64 - (m - s2 - 1) * m := by
        have h5 : (2 ^ 64 - (m - s2 - 1)) * m =
            (2 ^ 64 - (m - s2 - 1) * m) + (m - 1) * 2 ^ 64 := by
          have h6 : (m - s2 - 1) ≤ 2 ^ 64 := by omega
          zify [h6, hm1, le_of_lt (lt_trans hq1 (by norm_num : (2 : Nat) ^ 62 < 2 ^ 64))]
          ring
        unfold sv_index_modulus
        rw [h5, Nat.add_mul_mod_self_right]
        exact Nat.mod_eq_of_lt (by omega)
      rw [h2, h3, h4]
      exact sqr_root_of_ge ops a _ (by unfold LIBCOMMUTE_SPIN_MAX_NUM_PRECOMPUTED_SQRT; omega)
  · -- the field holds at most 2s
    have h2 : to_uint64 ((s2 : Int) - (m : Int)) = s2 - m := by
      have : (s2 : Int) - (m : Int) = ((s2 - m : Nat) : Int) := by omega
      rw [this, to_uint64_natCast _ (by omega)]
    have h3 : (s2 - m + 1) % sv_index_modulus = s2 - m + 1 :=
      Nat.mod_eq_of_lt (by unfold sv_index_modulus; omega)
    have h4 : (s2 - m + 1) * m = (s2 - (m - 1)) * (m - 1 + 1) := by
      have : s2 - m + 1 = s2 - (m - 1) := by omega
      rw [this, Nat.sub_add_cancel hm1]
    have h5 := sqr_root_arg_le s2 (m - 1) (by omega)
    have h6 : ((s2 + 1) / 2) * ((s2 + 2) / 2) < 2 ^ 64 := by
      calc ((s2 + 1) / 2) * ((s2 + 2) / 2) < 2 ^ 31 * 2 ^ 31 :=
            Nat.mul_lt_mul'' (by omega) (by omega)
        _ < 2 ^ 64 := by norm_num
    have h7 : ((s2 - (m - 1)) * (m - 1 + 1)) % sv_index_modulus =
        (s2 - (m - 1)) * (m - 1 + 1) :=
      Nat.mod_eq_of_lt (by unfold sv_index_modulus; omega)
    rw [h2, h3, h4, h7]
    exact sqr_root_defined ops a s2 (m - 1) hs2 (by omega) hsize


/-- The argument of the square root in the case `plus` is read within the
table when the field holds `j < 2s`. -/
theorem plus_arg_defined {C : Type} (ops : coeff_ops C) (a : monomial_action_spin)
    (s2 j : Nat) (hs2 : s2 < 2 ^ 31) (hj : j ≤ s2)
    (hsize : min (spin_ss ((s2 : Int) + 1) ((s2 : ℚ) / 2) + 1)
      LIBCOMMUTE_SPIN_MAX_NUM_PRECOMPUTED_SQRT ≤ a.sqr_roots_size) :
    monomial_action_spin.sqr_root ops a
        ((to_uint64 ((s2 : Int) - (j : Int)) * to_uint64 ((j : Int) + 1)) %
          sv_index_modulus) =
      some (ops.sqrt ((to_uint64 ((s2 : Int) - (j : Int)) * to_uint64 ((j : Int) + 1)) %
          sv_index_modulus)) := by
  have h1 : to_uint64 ((s2 : Int) - (j : Int)) = s2 - j := by
    have h2 : (s2 : Int) - (j : Int) = ((s2 - j : Nat) : Int) := by omega
    rw [h2, to_uint64_natCast _ (by omega)]
  have h3 : to_uint64 ((j : Int) + 1) = j + 1 := by
    have h4 : (j : Int) + 1 = ((j + 1 : Nat) : Int) := by omega
    rw [h4, to_uint64_natCast _ (by omega)]
  have h5 := sqr_root_arg_le s2 j hj
  have h6 : ((s2 + 1) / 2) * ((s2 + 2) / 2) < 2 ^ 64 := by
    calc ((s2 + 1) / 2) * ((s2 + 2) / 2) < 2 ^ 31 * 2 ^ 31 :=
          Nat.mul_lt_mul'' (by omega) (by omega)
      _ < 2 ^ 64 := by norm_num
  have h7 : ((s2 - j) * (j + 1)) % sv_index_modulus = (s2 - j) * (j + 1) :=
    Nat.mod_eq_of_lt (by unfold sv_index_modulus; omega)
  rw [h1, h3, h7]
  exact sqr_root_defined ops a s2 j hs2 hj hsize

/-- The field that an update selects holds less than `2^31`, and its
conversions between `sv_index_type` and `std::int64_t` keep the value. -/
theorem update_field_lt (u : single_spin_update_t) (n_bits : Nat)
    (hwf : u.well_formed n_bits) (out_index : Nat) :
    (out_index >>> u.shift) &&& u.mask = out_index / 2 ^ u.shift % 2 ^ n_bits ∧
    (out_index >>> u.shift) &&& u.mask < 2 ^ 31 ∧ u.s2 < 2 ^ 31 ∧
    to_int64 ((out_index >>> u.shift) &&& u.mask) =
      (((out_index >>> u.shift) &&& u.mask : Nat) : Int) := by
  obtain ⟨h1, h2, _, h4⟩ := hwf
  have h5 : (2 : Nat) ^ n_bits ≤ 2 ^ 31 := Nat.pow_le_pow_right (by norm_num) h4
  have h6 : 0 < (2 : Nat) ^ n_bits := by positivity
  have h7 : (out_index >>> u.shift) &&& u.mask ≤ u.mask := Nat.and_le_right
  refine ⟨?_, by omega, by omega, to_int64_of_lt _ (by omega)⟩
  rw [h1, field_eq_div_mod]

/-- The result of one update does not depend on the size of the table of
square roots, as long as the table has at least the size the constructor gives
it for the spin of the update. -/
theorem act_update_table {C : Type} (ops : coeff_ops C) (a a1 : monomial_action_spin)
    (u : single_spin_update_t) (n_bits : Nat) (out_index : Nat) (coeff : C)
    (hwf : u.well_formed n_bits) (hk : u.power < 2 ^ 31)
    (hsize : min (spin_ss ((u.s2 : Int) + 1) ((u.s2 : ℚ) / 2) + 1)
      LIBCOMMUTE_SPIN_MAX_NUM_PRECOMPUTED_SQRT ≤ a.sqr_roots_size)
    (hsize1 : min (spin_ss ((u.s2 : Int) + 1) ((u.s2 : ℚ) / 2) + 1)
      LIBCOMMUTE_SPIN_MAX_NUM_PRECOMPUTED_SQRT ≤ a1.sqr_roots_size) :
    monomial_action_spin.act_update ops a u out_index coeff =
      monomial_action_spin.act_update ops a1 u out_index coeff := by
  obtain ⟨_, hn, hs2, h64⟩ := update_field_lt u n_bits hwf out_index
  unfold monomial_action_spin.act_update
  generalize (out_index >>> u.shift) &&& u.mask = n at hn h64 ⊢
  have hu : to_uint64 (n : Int) = n := to_uint64_natCast n (by omega)
  have hp64 : to_int64 u.power = (u.power : Int) := to_int64_of_lt _ (by omega)
  simp only [h64, hu, hp64]
  cases u.c with
  | plus =>
    simp only
    have hcond : (n + u.power) % sv_index_modulus = n + u.power :=
      Nat.mod_eq_of_lt (by unfold sv_index_modulus; omega)
    rw [hcond]
    split
    · rfl
    · rename_i h
      rw [mul_sqr_roots_congr ops a a1 _ coeff u.power]
      intro d hd
      have h1 : (n : Int) + (d : Int) = ((n + d : Nat) : Int) := by push_cast; rfl
      rw [h1, plus_arg_defined ops a u.s2 (n + d) hs2 (by omega) hsize,
        plus_arg_defined ops a1 u.s2 (n + d) hs2 (by omega) hsize1]
  | minus =>
    simp only
    split
    · rfl
    · rename_i h
      rw [mul_sqr_roots_congr ops a a1 _ coeff u.power]
      intro d hd
      have h1 : (n : Int) - (d : Int) = ((n - d : Nat) : Int) := by omega
      rw [h1, minus_arg_defined ops a u.s2 (n - d) hs2 (by omega) (by omega) hsize,
        minus_arg_defined ops a1 u.s2 (n - d) hs2 (by omega) (by omega) hsize1]
  | z => rfl


/-- One update of the case `plus` with a complete table: the flag, the new
index and the new coefficient in terms of the value `n` of the field. -/
theorem act_update_plus {C : Type} (ops : coeff_ops C) (a : monomial_action_spin)
    (u : single_spin_update_t) (n_bits : Nat) (out_index : Nat) (coeff : C)
    (hfull : LIBCOMMUTE_SPIN_MAX_NUM_PRECOMPUTED_SQRT ≤ a.sqr_roots_size)
    (hwf : u.well_formed n_bits) (hk : u.power < 2 ^ 31) (hc : u.c = .plus) :
    monomial_action_spin.act_update ops a u out_index coeff =
      if u.s2 < out_index / 2 ^ u.shift % 2 ^ n_bits + u.power then
        some (false, out_index, coeff)
      else
        some (true, (out_index + (u.power * 2 ^ u.shift) % 2 ^ 64) % 2 ^ 64,
          (List.range u.power).foldl (fun (c : C) (d : Nat) => ops.mul c (ops.sqrt
            ((to_uint64 ((u.s2 : Int) -
                (((out_index / 2 ^ u.shift % 2 ^ n_bits : Nat) : Int) + (d : Int))) *
              to_uint64 (((out_index / 2 ^ u.shift % 2 ^ n_bits : Nat) : Int) + (d : Int) + 1)) %
              sv_index_modulus))) coeff) := by
  obtain ⟨hf, hn, hs2, h64⟩ := update_field_lt u n_bits hwf out_index
  unfold monomial_action_spin.act_update
  rw [hf] at hn h64
  rw [hf]
  generalize out_index / 2 ^ u.shift % 2 ^ n_bits = n at hn h64 ⊢
  have hu : to_uint64 (n : Int) = n := to_uint64_natCast n (by omega)
  have hcond : (n + u.power) % sv_index_modulus = n + u.power :=
    Nat.mod_eq_of_lt (by unfold sv_index_modulus; omega)
  simp only [h64, hu, hc, hcond, Nat.shiftLeft_eq]
  by_cases h : u.s2 < n + u.power
  · rw [if_pos h, if_pos (show n + u.power > u.s2 from h)]
  · rw [if_neg h, if_neg (show ¬ n + u.power > u.s2 from h)]
    rw [mul_sqr_roots_eq ops a _ _ coeff u.power (fun d _ => sqr_root_full ops a hfull _)]
    rfl

/-- One update of the case `minus` with a complete table. -/
theorem act_update_minus {C : Type} (ops : coeff_ops C) (a : monomial_action_spin)
    (u : single_spin_update_t) (n_bits : Nat) (out_index : Nat) (coeff : C)
    (hfull : LIBCOMMUTE_SPIN_MAX_NUM_PRECOMPUTED_SQRT ≤ a.sqr_roots_size)
    (hwf : u.well_formed n_bits) (hk : u.power < 2 ^ 31) (hc : u.c = .minus) :
    monomial_action_spin.act_update ops a u out_index coeff =
      if out_index / 2 ^ u.shift % 2 ^ n_bits < u.power then
        some (false, out_index, coeff)
      else
        some (true, (out_index + 2 ^ 64 - (u.power * 2 ^ u.shift) % 2 ^ 64) % 2 ^ 64,
          (List.range u.power).foldl (fun (c : C) (d : Nat) => ops.mul c (ops.sqrt
            ((((to_uint64 ((u.s2 : Int) -
                (((out_index / 2 ^ u.shift % 2 ^ n_bits : Nat) : Int) - (d : Int))) + 1) %
                sv_index_modulus) *
              to_uint64 (((out_index / 2 ^ u.shift % 2 ^ n_bits : Nat) : Int) - (d : Int))) %
              sv_index_modulus))) coeff) := by
  obtain ⟨hf, hn, hs2, h64⟩ := update_field_lt u n_bits hwf out_index
  unfold monomial_action_spin.act_update
  rw [hf] at hn h64
  rw [hf]
  generalize out_index / 2 ^ u.shift % 2 ^ n_bits = n at hn h64 ⊢
  have hp64 : to_int64 u.power = (u.power : Int) := to_int64_of_lt _ (by omega)
  simp only [h64, hc, hp64, Nat.shiftLeft_eq]
  by_cases h : n < u.power
  · rw [if_pos h, if_pos (show (n : Int) - (u.power : Int) < 0 by omega)]
  · rw [if_neg h, if_neg (show ¬ (n : Int) - (u.power : Int) < 0 by omega)]
    rw [mul_sqr_roots_eq ops a _ _ coeff u.power (fun d _ => sqr_root_full ops a hfull _)]
    rfl

/-- One update of the case `z`. -/
theorem act_update_z {C : Type} (ops : coeff_ops C) (a : monomial_action_spin)
    (u : single_spin_update_t) (n_bits : Nat) (out_index : Nat) (coeff : C)
    (hwf : u.well_formed n_bits) (hc : u.c = .z) :
    monomial_action_spin.act_update ops a u out_index coeff =
      if u.s2 % 2 = 0 ∧ out_index / 2 ^ u.shift % 2 ^ n_bits = u.s2 / 2 then
        some (false, out_index, coeff)
      else
        some (true, out_index,
          ops.mul coeff (ops.pow
            (((out_index / 2 ^ u.shift % 2 ^ n_bits : Nat) : ℚ) - (u.s2 : ℚ) / 2) u.power)) := by
  obtain ⟨hf, hn, hs2, h64⟩ := update_field_lt u n_bits hwf out_index
  unfold monomial_action_spin.act_update
  rw [hf] at hn h64
  rw [hf]
  generalize out_index / 2 ^ u.shift % 2 ^ n_bits = n at hn h64 ⊢
  have hu : to_uint64 (n : Int) = n := to_uint64_natCast n (by omega)
  simp only [h64, hc, hu, Bool.and_eq_true, beq_iff_eq, Int.cast_natCast]


/-- One update with a complete table always has a defined result. -/
theorem act_update_defined {C : Type} (ops : coeff_ops C) (a : monomial_action_spin)
    (hfull : LIBCOMMUTE_SPIN_MAX_NUM_PRECOMPUTED_SQRT ≤ a.sqr_roots_size)
    (u : single_spin_update_t) (n_bits : Nat) (hwf : u.well_formed n_bits)
    (hk : u.power < 2 ^ 31) (out_index : Nat) (coeff : C) :
    monomial_action_spin.act_update ops a u out_index coeff ≠ none := by
  cases hc : u.c with
  | plus =>
    rw [act_update_plus ops a u n_bits out_index coeff hfull hwf hk hc]
    split <;> simp
  | minus =>
    rw [act_update_minus ops a u n_bits out_index coeff hfull hwf hk hc]
    split <;> simp
  | z =>
    rw [act_update_z ops a u n_bits out_index coeff hwf hc]
    split <;> simp

/-- The loop of `act` over one update is that update. -/
theorem act_loop_singleton {C : Type} (ops : coeff_ops C) (a : monomial_action_spin)
    (u : single_spin_update_t) (out_index : Nat) (coeff : C) :
    monomial_action_spin.act_loop ops a [u] out_index coeff =
      monomial_action_spin.act_update ops a u out_index coeff := by
  simp only [monomial_action_spin.act_loop]
  rcases monomial_action_spin.act_update ops a u out_index coeff with _ | ⟨b, o, c1⟩
  · rfl
  · cases b <;> rfl

/-- The loop of `act` does not depend on the size of the table of square
roots, as long as the table has at least the size the constructor gives it for
the spins of the updates. -/
theorem act_loop_table {C : Type} (ops : coeff_ops C) (a a1 : monomial_action_spin) :
    ∀ (us : List single_spin_update_t),
      (∀ u ∈ us, (∃ n_bits, u.well_formed n_bits) ∧ u.power < 2 ^ 31 ∧
        min (spin_ss ((u.s2 : Int) + 1) ((u.s2 : ℚ) / 2) + 1)
          LIBCOMMUTE_SPIN_MAX_NUM_PRECOMPUTED_SQRT ≤ a.sqr_roots_size ∧
        min (spin_ss ((u.s2 : Int) + 1) ((u.s2 : ℚ) / 2) + 1)
          LIBCOMMUTE_SPIN_MAX_NUM_PRECOMPUTED_SQRT ≤ a1.sqr_roots_size) →
      ∀ (out_index : Nat) (coeff : C),
        monomial_action_spin.act_loop ops a us out_index coeff =
          monomial_action_spin.act_loop ops a1 us out_index coeff
  | [], _, _, _ => rfl
  | u :: us, h, out_index, coeff => by
    obtain ⟨⟨n_bits, hwf⟩, hk, hs, hs1⟩ := h u (List.mem_cons_self _ _)
    simp only [monomial_action_spin.act_loop]
    rw [act_update_table ops a a1 u n_bits out_index coeff hwf hk hs hs1]
    rcases monomial_action_spin.act_update ops a1 u out_index coeff with _ | ⟨b, o, c1⟩
    · rfl
    · cases b with
      | false => rfl
      | true =>
        simp only
        exact act_loop_table ops a a1 us (fun v hv => h v (List.mem_cons_of_mem _ hv)) o c1

/-- The loop of `act` with a complete table always has a defined result. -/
theorem act_loop_defined {C : Type} (ops : coeff_ops C) (a : monomial_action_spin)
    (hfull : LIBCOMMUTE_SPIN_MAX_NUM_PRECOMPUTED_SQRT ≤ a.sqr_roots_size) :
    ∀ (us : List single_spin_update_t),
      (∀ u ∈ us, (∃ n_bits, u.well_formed n_bits) ∧ u.power < 2 ^ 31) →
      ∀ (out_index : Nat) (coeff : C),
        monomial_action_spin.act_loop ops a us out_index coeff ≠ none
  | [], _, _, _ => by simp [monomial_action_spin.act_loop]
  | u :: us, h, out_index, coeff => by
    obtain ⟨⟨n_bits, hwf⟩, hk⟩ := h u (List.mem_cons_self _ _)
    have h1 := act_update_defined ops a hfull u n_bits hwf hk out_index coeff
    simp only [monomial_action_spin.act_loop]
    rcases h2 : monomial_action_spin.act_update ops a u out_index coeff with _ | ⟨b, o, c1⟩
    · exact absurd h2 h1
    · cases b with
      | false => simp
      | true =>
        simp only
        exact act_loop_defined ops a hfull us (fun v hv => h v (List.mem_cons_of_mem _ hv)) o c1


/-! ## Theorems: the constructor of `monomial_action<spin>` -/

/-- The space that the constructor of the spin space builds for the spin and
the indices of a generator. -/
theorem mk_spin_of_generator {ι : Type} (g : generator_spin ι) :
    elementary_space_spin.mk_spin g.spin g.indices =
      some { multiplicity := g.multiplicity
             n_bits := (Nat.clog 2 g.multiplicity.toNat : Nat)
             indices := g.indices } := by
  have h : 2 * g.spin = ((g.multiplicity - 1 : Int) : ℚ) := by
    unfold generator_spin.spin
    push_cast
    ring
  rw [elementary_space_spin_mk_spin_of_int g.spin g.indices (g.multiplicity - 1) h]
  simp

/-- With the ids of the fermion and boson algebras different from the id of
the spin algebra, `is_spin` holds for the spin generators only. -/
theorem is_spin_iff {ι : Type} [DecidableEq ι] [LT ι] [∀ a b : ι, Decidable (a < b)]
    (ids : algebra_ids) (h2 : ids.fermion ≠ SPIN_ALGEBRA_ID) (h3 : ids.boson ≠ SPIN_ALGEBRA_ID)
    (x : generator ι) : is_spin ids x = true ↔ ∃ g, x = .spin g := by
  cases x <;> simp [is_spin, generator.algebra_id, generator_spin.algebra_id, h2, h3]

/-- Comparing any generator with a spin generator by `operator==`. -/
theorem generator_eq_spin {ι : Type} [DecidableEq ι] [LT ι] [∀ a b : ι, Decidable (a < b)]
    (ids : algebra_ids) (h2 : ids.fermion ≠ SPIN_ALGEBRA_ID) (h3 : ids.boson ≠ SPIN_ALGEBRA_ID)
    (x : generator ι) (g : generator_spin ι) :
    generator.eq ids x (.spin g) = some (decide (x = .spin g)) := by
  cases x with
  | fermion f =>
    simp [generator.eq, generator.algebra_id, generator_spin.algebra_id, h2]
  | boson f =>
    simp [generator.eq, generator.algebra_id, generator_spin.algebra_id, h3]
  | spin f =>
    have heq : generator_spin.equal f g = decide (f = g) := by
      by_cases h : f = g
      · subst h
        simp [generator_spin.equal]
      · have h1 : ¬ generator_spin.equal f g = true := by
          rw [spin_equal_iff]
          intro hh
          apply h
          obtain ⟨mf, cf, jf⟩ := f
          obtain ⟨mg, cg, jg⟩ := g
          simp only at hh
          rw [hh.1, hh.2.1, hh.2.2]
        simp only [h, decide_False]
        simpa using h1
    simp [generator.eq, generator.algebra_id, generator_spin.algebra_id, generator.equal, heq]

/-- One pass through the body of the loop of the constructor for a spin
generator: within a run the power is counted up; at the end of a run the space
is looked up and the update appended. -/
theorem constructor_loop_spin {ι : Type} [DecidableEq ι] [LT ι] [∀ a b : ι, Decidable (a < b)]
    (ids : space_algebra_ids) (h2 : ids.fermion ≠ SPIN_ALGEBRA_ID)
    (h3 : ids.boson ≠ SPIN_ALGEBRA_ID) (hs : hilbert_space (elementary_space ι))
    (g : generator_spin ι) (rest : List (generator ι)) (power : Nat)
    (updates : List single_spin_update_t) (sqr_roots_size : Nat) :
    monomial_action_spin.constructor_loop ids hs (.spin g :: rest) power updates
        sqr_roots_size =
      if rest.head? = some (.spin g) then
        monomial_action_spin.constructor_loop ids hs rest ((power + 1) % sv_index_modulus)
          updates sqr_roots_size
      else if hilbert_space.has (elementary_space_ops ids) hs g.space then
        monomial_action_spin.constructor_loop ids hs rest 1
          (updates ++ [monomial_action_spin.make_update g (spin_bit_range ids hs g) power])
          (max sqr_roots_size ((spin_ss g.multiplicity g.spin + 1) % sv_index_modulus))
      else .error (.unknown_generator (.spin g)) := by
  have hspin : is_spin ids.toalgebra_ids (.spin g : generator ι) = true :=
    (is_spin_iff ids.toalgebra_ids h2 h3 _).2 ⟨g, rfl⟩
  rw [monomial_action_spin.constructor_loop.eq_def]
  simp only [hspin, Bool.not_true, Bool.false_eq_true, if_false, mk_spin_of_generator]
  have hfind : (if (!hilbert_space.has (elementary_space_ops ids) hs g.space) = true then
        (Except.error (.unknown_generator (.spin g)) :
          Except (monomial_action_exception ι) (List single_spin_update_t × Nat))
      else
        match hilbert_space.bit_range (elementary_space_ops ids) hs g.space with
        | .error e => .error (.basis_space_not_found e)
        | .ok bit_range =>
          monomial_action_spin.constructor_loop ids hs rest 1
            (updates ++ [monomial_action_spin.make_update g bit_range power])
            (max sqr_roots_size ((spin_ss g.multiplicity g.spin + 1) % sv_index_modulus))) =
      if hilbert_space.has (elementary_space_ops ids) hs g.space then
        monomial_action_spin.constructor_loop ids hs rest 1
          (updates ++ [monomial_action_spin.make_update g (spin_bit_range ids hs g) power])
          (max sqr_roots_size ((spin_ss g.multiplicity g.spin + 1) % sv_index_modulus))
      else .error (.unknown_generator (.spin g)) := by
    rw [hilbert_space_has_eq, hilbert_space.bit_range, spin_bit_range]
    cases map_find (elementary_space_ops ids).lt hs.basis_spaces g.space with
    | none => rfl
    | some r => rfl
  cases rest with
  | nil =>
    simp only [List.head?_nil, reduceCtorEq, if_false]
    exact hfind
  | cons x rest1 =>
    simp only [generator_eq_spin ids.toalgebra_ids h2 h3, Option.map_some', List.head?_cons,
      Option.some.injEq]
    by_cases hh : x = .spin g
    · simp only [hh, decide_True, Bool.not_true, if_true]
    · simp only [hh, decide_False, Bool.not_false, if_false]
      exact hfind


/-- In a list of integers without negative entries, the entries before a
position and the entry at the position add up to at most the sum of the
list. -/
theorem sum_take_le (l : List Int) (hl : ∀ x ∈ l, 0 ≤ x) :
    ∀ (i : Nat) (n : Int), l[i]? = some n →
      0 ≤ (l.take i).sum ∧ (l.take i).sum + n ≤ l.sum := by
  induction l with
  | nil => simp
  | cons x rest ih =>
    intro i n hi
    have hx : 0 ≤ x := hl x (List.mem_cons_self _ _)
    have hrest : ∀ y ∈ rest, 0 ≤ y := fun y hy => hl y (List.mem_cons_of_mem _ hy)
    have hsum : 0 ≤ rest.sum := List.sum_nonneg hrest
    cases i with
    | zero =>
      simp only [List.getElem?_cons_zero, Option.some.injEq] at hi
      subst hi
      simp only [List.take_zero, List.sum_nil, List.sum_cons]
      omega
    | succ j =>
      simp only [List.getElem?_cons_succ] at hi
      have := ih hrest j n hi
      simp only [List.take_succ_cons, List.sum_cons]
      omega

/-- The place of a space in a Hilbert space built by the program whose spaces
have no negative `n_bits`: its range starts at a bit position `lo ≥ 0`, has
the width `n_bits` and ends below `total_n_bits()`. -/
theorem constructed_range_layout {S : Type} (ops : space_ops S) (l : List S)
    (hs : hilbert_space S) (hc : hilbert_space.constructed ops l hs)
    (hn : ∀ x ∈ l, 0 ≤ ops.n_bits x) (bs : S) (lo hi : Int)
    (hmem : (bs, (lo, hi)) ∈ hs.basis_spaces) :
    0 ≤ lo ∧ hi = lo + ops.n_bits bs - 1 ∧ lo + ops.n_bits bs ≤ hs.total_n_bits := by
  have hfix := constructed_recomputed ops l hs hc
  have h1 : (hilbert_space.recompute_loop ops hs.basis_spaces (-1)).1 = hs.basis_spaces :=
    congrArg hilbert_space.basis_spaces hfix
  have h2 : (hilbert_space.recompute_loop ops hs.basis_spaces (-1)).2 = hs.bit_range_end :=
    congrArg hilbert_space.bit_range_end hfix
  have h3 := recompute_loop_snd ops hs.basis_spaces (-1)
  rw [h2] at h3
  obtain ⟨i, hi1⟩ := List.mem_iff_getElem?.1 hmem
  have h4 := recompute_loop_getElem ops hs.basis_spaces (-1) i
  rw [h1, hi1] at h4
  simp only [Option.map_some', Option.some.injEq, Prod.mk.injEq, true_and] at h4
  have hkeys : ∀ x ∈ hs.basis_spaces.map (fun p => ops.n_bits p.1), 0 ≤ x := by
    intro x hx
    obtain ⟨p, hp, rfl⟩ := List.mem_map.1 hx
    exact hn p.1 ((constructed_keys_mem ops l hs hc p.1).1 (List.mem_map.2 ⟨p, hp, rfl⟩))
  have h5 := sum_take_le _ hkeys i (ops.n_bits bs) (by
    rw [List.getElem?_map, hi1]
    rfl)
  rw [← List.map_take] at h5
  simp only [hilbert_space.total_n_bits]
  omega


/-- With three different algebra ids, a space that is neither before nor
after the space of a spin generator is a spin space with the multiplicity and
the indices of the generator. -/
theorem equivalent_to_spin_space {ι : Type} [LinearOrder ι] (ids : space_algebra_ids)
    (h1 : ids.fermion ≠ ids.boson) (h2 : ids.fermion ≠ ids.spin) (h3 : ids.boson ≠ ids.spin)
    (g : generator_spin ι) (x : elementary_space ι)
    (hx1 : elementary_space.lt ids x g.space = false)
    (hx2 : elementary_space.lt ids g.space x = false) :
    ∃ es : elementary_space_spin ι,
      x = .spin es ∧ es.multiplicity = g.multiplicity ∧ es.indices = g.indices := by
  have k1 := (elementary_space_lt_iff ids h1 h2 h3 x g.space).not.1 (by simp [hx1])
  have k2 := (elementary_space_lt_iff ids h1 h2 h3 g.space x).not.1 (by simp [hx2])
  have k3 := le_antisymm (not_lt.1 k2) (not_lt.1 k1)
  simp only [generator_spin.space, elementary_space.algebra_id, elementary_space.indices,
    EmbeddingLike.apply_eq_iff_eq, Prod.mk.injEq] at k3
  cases x with
  | fermion es => exact absurd k3.1 h2
  | boson es => exact absurd k3.1 h3
  | spin es =>
    simp only [elementary_space.indices] at k3
    exact ⟨es, rfl, k3.2.1, k3.2.2⟩

/-- In a Hilbert space built from spin spaces that their constructor made, the
space found for a spin generator is the space of the generator, stored with
the bit range that the constructor of `monomial_action<spin>` reads. -/
theorem spin_space_found {ι : Type} [LinearOrder ι] (ids : space_algebra_ids)
    (h1 : ids.fermion ≠ ids.boson) (h2 : ids.fermion ≠ ids.spin) (h3 : ids.boson ≠ ids.spin)
    (l : List (elementary_space ι)) (hs : hilbert_space (elementary_space ι))
    (hc : hilbert_space.constructed (elementary_space_ops ids) l hs)
    (hmade : ∀ es : elementary_space_spin ι, .spin es ∈ l →
      es.n_bits = (Nat.clog 2 es.multiplicity.toNat : Nat))
    (g : generator_spin ι)
    (hhas : hilbert_space.has (elementary_space_ops ids) hs g.space = true) :
    (g.space, spin_bit_range ids hs g) ∈ hs.basis_spaces := by
  obtain ⟨_, htrans, hcmp⟩ := elementary_space_ops_swo (ι := ι) ids h1 h2 h3
  have hsorted := constructed_sorted (elementary_space_ops ids) htrans l hs hc
  rw [hilbert_space_has_eq] at hhas
  obtain ⟨r, hr⟩ := Option.isSome_iff_exists.1 hhas
  have hrange : spin_bit_range ids hs g = r := by
    unfold spin_bit_range
    rw [hr]
  rw [hrange]
  obtain ⟨k1, hk1, hk2, hk3⟩ :=
    (map_find_eq_some_iff (elementary_space_ops ids).lt htrans hcmp hs.basis_spaces g.space r
      hsorted).1 hr
  obtain ⟨es, hes, hm, hi⟩ := equivalent_to_spin_space ids h1 h2 h3 g k1 hk2 hk3
  have hin : k1 ∈ l := (constructed_keys_mem (elementary_space_ops ids) l hs hc k1).1
    (List.mem_map.2 ⟨(k1, r), hk1, rfl⟩)
  rw [hes] at hin
  have hnb := hmade es hin
  have hk : k1 = g.space := by
    rw [hes]
    obtain ⟨m, nb, idx⟩ := es
    simp only at hm hi hnb
    simp only [generator_spin.space, hm, hi, hnb]
  rw [← hk]
  exact hk1


/-- The update that the constructor builds for a spin generator of a
multiplicity between 1 and `2^31` whose space has the range `[lo, hi]` of
`clog2(multiplicity)` bits within the first 64 bits: its fields, and the
invariants they satisfy. -/
theorem make_update_fields {ι : Type} [DecidableEq ι] [LT ι] [∀ a b : ι, Decidable (a < b)]
    (g : generator_spin ι) (lo hi : Int) (power : Nat)
    (hm1 : 1 ≤ g.multiplicity) (hm : g.multiplicity < 2 ^ 31) (hlo : 0 ≤ lo)
    (hhi : hi = lo + ((Nat.clog 2 g.multiplicity.toNat : Nat) : Int) - 1)
    (htot : lo + ((Nat.clog 2 g.multiplicity.toNat : Nat) : Int) ≤ 64) :
    (monomial_action_spin.make_update g (lo, hi) power).well_formed
      (Nat.clog 2 g.multiplicity.toNat) ∧
    ((monomial_action_spin.make_update g (lo, hi) power).s2 : Int) = g.multiplicity - 1 ∧
    ((monomial_action_spin.make_update g (lo, hi) power).shift : Int) = lo ∧
    (monomial_action_spin.make_update g (lo, hi) power).mask =
      2 ^ (hi - lo + 1).toNat - 1 ∧
    (monomial_action_spin.make_update g (lo, hi) power).c = g.c ∧
    (monomial_action_spin.make_update g (lo, hi) power).power = power ∧
    spin_ss (((monomial_action_spin.make_update g (lo, hi) power).s2 : Int) + 1)
        (((monomial_action_spin.make_update g (lo, hi) power).s2 : ℚ) / 2) =
      spin_ss g.multiplicity g.spin := by
  have hspin : 2 * g.spin = ((g.multiplicity - 1 : Int) : ℚ) := by
    unfold generator_spin.spin
    push_cast
    ring
  have hs2 : to_uint64 (to_int (2 * g.spin)) = (g.multiplicity - 1).toNat := by
    rw [hspin, to_int_intCast]
    unfold to_uint64 sv_index_modulus
    omega
  have hnb : (hi - lo + 1).toNat = Nat.clog 2 g.multiplicity.toNat := by omega
  have hclog : Nat.clog 2 g.multiplicity.toNat ≤ 31 :=
    (Nat.le_pow_iff_clog_le (by norm_num)).1 (by omega)
  have hpow : (2 : Nat) ^ Nat.clog 2 g.multiplicity.toNat ≤ 2 ^ 31 :=
    Nat.pow_le_pow_right (by norm_num) hclog
  have hpos : 0 < (2 : Nat) ^ Nat.clog 2 g.multiplicity.toNat := by positivity
  have hle : g.multiplicity.toNat ≤ 2 ^ Nat.clog 2 g.multiplicity.toNat :=
    Nat.le_pow_clog (by norm_num) _
  have hmask : ((1 <<< (hi - lo + 1).toNat) % sv_index_modulus + sv_index_modulus - 1) %
      sv_index_modulus = 2 ^ Nat.clog 2 g.multiplicity.toNat - 1 := by
    rw [hnb, Nat.shiftLeft_eq, one_mul]
    unfold sv_index_modulus
    omega
  have hs2c : (((g.multiplicity - 1).toNat : Nat) : Int) = g.multiplicity - 1 := by omega
  refine ⟨⟨?_, ?_, ?_, hclog⟩, ?_, ?_, ?_, rfl, rfl, ?_⟩
  · exact hmask
  · show to_uint64 (to_int (2 * g.spin)) ≤ _
    rw [hs2]
    show _ ≤ ((1 <<< (hi - lo + 1).toNat) % sv_index_modulus + sv_index_modulus - 1) %
      sv_index_modulus
    rw [hmask]
    omega
  · show lo.toNat + _ ≤ 64
    omega
  · show ((to_uint64 (to_int (2 * g.spin)) : Nat) : Int) = _
    rw [hs2, hs2c]
  · show ((lo.toNat : Nat) : Int) = lo
    omega
  · show ((1 <<< (hi - lo + 1).toNat) % sv_index_modulus + sv_index_modulus - 1) %
      sv_index_modulus = _
    rw [hmask, hnb]
  · show spin_ss (((to_uint64 (to_int (2 * g.spin)) : Nat) : Int) + 1)
      (((to_uint64 (to_int (2 * g.spin)) : Nat) : ℚ) / 2) = _
    rw [hs2]
    have h1 : (((g.multiplicity - 1).toNat : Nat) : Int) + 1 = g.multiplicity := by omega
    have h2 : (((g.multiplicity - 1).toNat : Nat) : ℚ) / 2 = g.spin := by
      unfold generator_spin.spin
      have h3 : (((g.multiplicity - 1).toNat : Nat) : ℚ) = (g.multiplicity : ℚ) - 1 := by
        have h4 : ((((g.multiplicity - 1).toNat : Nat) : Int) : ℚ) =
            ((g.multiplicity - 1 : Int) : ℚ) := by rw [hs2c]
        push_cast at h4
        exact h4
      rw [h3]
    rw [h1, h2]


/-- The run-length encoding of a non-empty sequence starts with a run of its
first element. -/
theorem run_length_encoding_head {α : Type} [DecidableEq α] (a : α) (l : List α) :
    ∃ k r, run_length_encoding (a :: l) = (a, k) :: r ∧ 1 ≤ k := by
  rw [run_length_encoding]
  rcases run_length_encoding l with _ | ⟨⟨b, k⟩, r⟩
  · exact ⟨1, [], rfl, le_refl _⟩
  · by_cases h : a = b
    · exact ⟨k + 1, r, by simp [h], by omega⟩
    · exact ⟨1, (b, k) :: r, by simp [h], le_refl _⟩

/-- The run-length encoding, one step: a first element equal to the second
makes the first run longer, another one starts a run of its own. -/
theorem run_length_encoding_cons_cons {α : Type} [DecidableEq α] (a b : α) (l : List α)
    (k : Nat) (r : List (α × Nat)) (h : run_length_encoding (b :: l) = (b, k) :: r) :
    run_length_encoding (a :: b :: l) =
      if a = b then (a, k + 1) :: r else (a, 1) :: (b, k) :: r := by
  rw [run_length_encoding, h]

/-- The runs of a run-length encoding, written out, give the sequence back;
every run has at least one element; neighbouring runs are of different
elements; the lengths of the runs add up to the length of the sequence. -/
theorem run_length_encoding_spec {α : Type} [DecidableEq α] (l : List α) :
    (run_length_encoding l).flatMap (fun q => List.replicate q.2 q.1) = l ∧
    (∀ q ∈ run_length_encoding l, 1 ≤ q.2) ∧
    List.Chain' (fun q1 q2 : α × Nat => q1.1 ≠ q2.1) (run_length_encoding l) ∧
    ((run_length_encoding l).map Prod.snd).sum = l.length := by
  induction l with
  | nil => simp [run_length_encoding]
  | cons a l ih =>
    obtain ⟨ih1, ih2, ih3, ih4⟩ := ih
    rw [run_length_encoding]
    rcases hr : run_length_encoding l with _ | ⟨⟨b, k⟩, r⟩
    · rw [hr] at ih1 ih4
      simp only [List.flatMap_nil] at ih1
      subst ih1
      simp
    · rw [hr] at ih1 ih2 ih3 ih4
      simp only
      by_cases h : a = b
      · subst h
        simp only [if_true]
        refine ⟨?_, ?_, ?_, ?_⟩
        · rw [← ih1]
          simp [List.replicate_succ]
        · intro q hq
          rcases List.mem_cons.1 hq with hq1 | hq1
          · rw [hq1]
            simp
          · exact ih2 q (List.mem_cons_of_mem _ hq1)
        · cases r with
          | nil => simp
          | cons q r1 =>
            simp only [List.chain'_cons] at ih3 ⊢
            exact ih3
        · simp only [List.map_cons, List.sum_cons, List.length_cons] at ih4 ⊢
          omega
      · simp only [h, if_false]
        refine ⟨?_, ?_, ?_, ?_⟩
        · rw [← ih1]
          simp
        · intro q hq
          rcases List.mem_cons.1 hq with hq1 | hq1
          · rw [hq1]
          · exact ih2 q hq1
        · simp only [List.chain'_cons]
          exact ⟨h, ih3⟩
        · simp only [List.map_cons, List.sum_cons, List.length_cons] at ih4 ⊢
          omega

/-- Every run of a run-length encoding is a run of an element of the sequence
and is not longer than the sequence. -/
theorem run_length_encoding_mem {α : Type} [DecidableEq α] (l : List α) (q : α × Nat)
    (hq : q ∈ run_length_encoding l) : q.1 ∈ l ∧ 1 ≤ q.2 ∧ q.2 ≤ l.length := by
  obtain ⟨h1, h2, _, h4⟩ := run_length_encoding_spec l
  have hpos := h2 q hq
  refine ⟨?_, hpos, ?_⟩
  · rw [← h1, List.mem_flatMap]
    exact ⟨q, hq, by simp; omega⟩
  · rw [← h4]
    exact List.single_le_sum (by simp) _ (List.mem_map.2 ⟨q, hq, rfl⟩)


/-- The constructor throws `unknown_generator` at a generator that is not a
spin generator. -/
theorem constructor_loop_not_spin {ι : Type} [DecidableEq ι] [LT ι]
    [∀ a b : ι, Decidable (a < b)] (ids : space_algebra_ids)
    (hs : hilbert_space (elementary_space ι)) (x : generator ι) (rest : List (generator ι))
    (power : Nat) (updates : List single_spin_update_t) (sqr_roots_size : Nat)
    (hx : is_spin ids.toalgebra_ids x = false) :
    monomial_action_spin.constructor_loop ids hs (x :: rest) power updates sqr_roots_size =
      .error (.unknown_generator x) := by
  rw [monomial_action_spin.constructor_loop.eq_def]
  simp [hx]

/-- The constructor throws `unknown_generator` when the range holds a
generator that is not a spin generator or whose space is not in the Hilbert
space. -/
theorem constructor_loop_error {ι : Type} [DecidableEq ι] [LT ι]
    [∀ a b : ι, Decidable (a < b)] (ids : space_algebra_ids)
    (h2 : ids.fermion ≠ SPIN_ALGEBRA_ID) (h3 : ids.boson ≠ SPIN_ALGEBRA_ID)
    (hs : hilbert_space (elementary_space ι)) :
    ∀ (m : List (generator ι)) (power : Nat) (updates : List single_spin_update_t)
      (sqr_roots_size : Nat),
      (∃ x ∈ m, ¬ ∃ g : generator_spin ι, x = .spin g ∧
        hilbert_space.has (elementary_space_ops ids) hs g.space = true) →
      ∃ x, monomial_action_spin.constructor_loop ids hs m power updates sqr_roots_size =
        .error (.unknown_generator x)
  | [], _, _, _, h => by
    obtain ⟨x, hx, _⟩ := h
    simp at hx
  | y :: rest, power, updates, sqr_roots_size, h => by
    by_cases hy : is_spin ids.toalgebra_ids y = true
    · obtain ⟨g, rfl⟩ := (is_spin_iff ids.toalgebra_ids h2 h3 y).1 hy
      rw [constructor_loop_spin ids h2 h3]
      obtain ⟨x, hx, hbad⟩ := h
      by_cases hhead : rest.head? = some (.spin g)
      · rw [if_pos hhead]
        apply constructor_loop_error ids h2 h3 hs rest
        rcases List.mem_cons.1 hx with hx1 | hx1
        · refine ⟨x, ?_, hbad⟩
          rw [hx1]
          exact List.mem_of_mem_head? hhead
        · exact ⟨x, hx1, hbad⟩
      · rw [if_neg hhead]
        by_cases hhas : hilbert_space.has (elementary_space_ops ids) hs g.space = true
        · rw [if_pos hhas]
          apply constructor_loop_error ids h2 h3 hs rest
          rcases List.mem_cons.1 hx with hx1 | hx1
          · exact absurd ⟨g, hx1, hhas⟩ hbad
          · exact ⟨x, hx1, hbad⟩
        · rw [if_neg hhas]
          exact ⟨_, rfl⟩
    · exact ⟨y, constructor_loop_not_spin ids hs y rest power updates sqr_roots_size
        (by simpa using hy)⟩

/-- The constructor on a range of spin generators whose spaces are in the
Hilbert space: it appends one update for every run of the run-length encoding
of the range, the first run counted from the power the loop starts with, and
the size of the table grows to hold the square roots for every spin. -/
theorem constructor_loop_runs {ι : Type} [DecidableEq ι] [LT ι]
    [∀ a b : ι, Decidable (a < b)] (ids : space_algebra_ids)
    (h2 : ids.fermion ≠ SPIN_ALGEBRA_ID) (h3 : ids.boson ≠ SPIN_ALGEBRA_ID)
    (hs : hilbert_space (elementary_space ι)) :
    ∀ (rest : List (generator_spin ι)) (g : generator_spin ι) (power : Nat)
      (updates : List single_spin_update_t) (sqr_roots_size : Nat),
      (∀ x ∈ g :: rest, hilbert_space.has (elementary_space_ops ids) hs x.space = true) →
      1 ≤ power → power + rest.length < sv_index_modulus →
      ∃ (k : Nat) (r : List (generator_spin ι × Nat)) (size1 : Nat),
        run_length_encoding (g :: rest) = (g, k) :: r ∧
        monomial_action_spin.constructor_loop ids hs ((g :: rest).map .spin) power updates
            sqr_roots_size =
          .ok (updates ++ ((g, k + (power - 1)) :: r).map
            (fun q => monomial_action_spin.make_update q.1 (spin_bit_range ids hs q.1) q.2),
            size1) ∧
        sqr_roots_size ≤ size1 ∧
        ∀ x ∈ g :: rest, (spin_ss x.multiplicity x.spin + 1) % sv_index_modulus ≤ size1
  | [], g, power, updates, sqr_roots_size, hhas, hp, _ => by
    refine ⟨1, [], max sqr_roots_size ((spin_ss g.multiplicity g.spin + 1) % sv_index_modulus),
      rfl, ?_, le_max_left _ _, ?_⟩
    · simp only [List.map_cons, List.map_nil]
      rw [constructor_loop_spin ids h2 h3, if_neg (by simp),
        if_pos (hhas g (List.mem_cons_self _ _))]
      rw [monomial_action_spin.constructor_loop.eq_def]
      have : 1 + (power - 1) = power := by omega
      simp only [this]
    · intro x hx
      simp only [List.mem_singleton] at hx
      rw [hx]
      exact le_max_right _ _
  | g1 :: rest1, g, power, updates, sqr_roots_size, hhas, hp, hlen => by
    have hhas1 : ∀ x ∈ g1 :: rest1,
        hilbert_space.has (elementary_space_ops ids) hs x.space = true :=
      fun x hx => hhas x (List.mem_cons_of_mem _ hx)
    simp only [List.length_cons] at hlen
    simp only [List.map_cons]
    rw [constructor_loop_spin ids h2 h3]
    simp only [List.head?_cons, Option.some.injEq, generator.spin.injEq]
    by_cases hg : g1 = g
    · subst hg
      rw [if_pos rfl, Nat.mod_eq_of_lt (by omega)]
      obtain ⟨k1, r1, size1, hr1, hloop, hsz, hall⟩ :=
        constructor_loop_runs ids h2 h3 hs rest1 g1 (power + 1) updates sqr_roots_size hhas1
          (by omega) (by omega)
      refine ⟨k1 + 1, r1, size1, ?_, ?_, hsz, ?_⟩
      · rw [run_length_encoding_cons_cons g1 g1 rest1 k1 r1 hr1, if_pos rfl]
      · simp only [List.map_cons] at hloop
        rw [hloop]
        have : k1 + 1 + (power - 1) = k1 + (power + 1 - 1) := by omega
        rw [this]
      · intro x hx
        rcases List.mem_cons.1 hx with hx1 | hx1
        · rw [hx1]
          exact hall g1 (List.mem_cons_self _ _)
        · exact hall x hx1
    · rw [if_neg hg, if_pos (hhas g (List.mem_cons_self _ _))]
      obtain ⟨k1, r1, size1, hr1, hloop, hsz, hall⟩ :=
        constructor_loop_runs ids h2 h3 hs rest1 g1 1
          (updates ++ [monomial_action_spin.make_update g (spin_bit_range ids hs g) power])
          (max sqr_roots_size ((spin_ss g.multiplicity g.spin + 1) % sv_index_modulus)) hhas1
          (by omega) (by omega)
      refine ⟨1, (g1, k1) :: r1, size1, ?_, ?_, le_trans (le_max_left _ _) hsz, ?_⟩
      · rw [run_length_encoding_cons_cons g g1 rest1 k1 r1 hr1, if_neg (fun h => hg h.symm)]
      · simp only [List.map_cons] at hloop
        rw [hloop]
        have : 1 + (power - 1) = power := by omega
        simp only [List.map_cons, this, Nat.sub_self, Nat.add_zero, List.append_assoc,
          List.singleton_append]
      · intro x hx
        rcases List.mem_cons.1 hx with hx1 | hx1
        · rw [hx1]
          exact le_trans (le_max_right _ _) hsz
        · exact hall x hx1


/-- The constructor succeeds on a range of spin generators whose spaces are
in the Hilbert space. -/
theorem constructor_loop_ok {ι : Type} [DecidableEq ι] [LT ι]
    [∀ a b : ι, Decidable (a < b)] (ids : space_algebra_ids)
    (h2 : ids.fermion ≠ SPIN_ALGEBRA_ID) (h3 : ids.boson ≠ SPIN_ALGEBRA_ID)
    (hs : hilbert_space (elementary_space ι)) :
    ∀ (m : List (generator ι)) (power : Nat) (updates : List single_spin_update_t)
      (sqr_roots_size : Nat),
      (∀ x ∈ m, ∃ g : generator_spin ι, x = .spin g ∧
        hilbert_space.has (elementary_space_ops ids) hs g.space = true) →
      ∃ r, monomial_action_spin.constructor_loop ids hs m power updates sqr_roots_size = .ok r
  | [], power, updates, sqr_roots_size, _ => by
    rw [monomial_action_spin.constructor_loop.eq_def]
    exact ⟨_, rfl⟩
  | y :: rest, power, updates, sqr_roots_size, h => by
    obtain ⟨g, rfl, hhas⟩ := h y (List.mem_cons_self _ _)
    have hrest := fun x hx => h x (List.mem_cons_of_mem _ hx)
    rw [constructor_loop_spin ids h2 h3]
    by_cases hhead : rest.head? = some (.spin g)
    · rw [if_pos hhead]
      exact constructor_loop_ok ids h2 h3 hs rest _ _ _ hrest
    · rw [if_neg hhead, if_pos hhas]
      exact constructor_loop_ok ids h2 h3 hs rest _ _ _ hrest

/-- A range of generators that are all spin generators with a property is the
image of a list of spin generators with the property. -/
theorem spin_list_of_forall {ι : Type} (P : generator_spin ι → Prop) :
    ∀ (m : List (generator ι)), (∀ x ∈ m, ∃ g : generator_spin ι, x = .spin g ∧ P g) →
      ∃ gs : List (generator_spin ι), m = gs.map .spin ∧ ∀ g ∈ gs, P g
  | [], _ => ⟨[], rfl, by simp⟩
  | y :: rest, h => by
    obtain ⟨g, rfl, hg⟩ := h y (List.mem_cons_self _ _)
    obtain ⟨gs, hgs, hall⟩ := spin_list_of_forall P rest
      (fun x hx => h x (List.mem_cons_of_mem _ hx))
    refine ⟨g :: gs, by rw [hgs]; rfl, ?_⟩
    intro x hx
    rcases List.mem_cons.1 hx with hx1 | hx1
    · rw [hx1]
      exact hg
    · exact hall x hx1

/-- A range on which the constructor succeeds is a range of spin generators
whose spaces are in the Hilbert space. -/
theorem of_range_ok_spin {ι : Type} [DecidableEq ι] [LT ι]
    [∀ a b : ι, Decidable (a < b)] (ids : space_algebra_ids)
    (h2 : ids.fermion ≠ SPIN_ALGEBRA_ID) (h3 : ids.boson ≠ SPIN_ALGEBRA_ID)
    (hs : hilbert_space (elementary_space ι)) (m : List (generator ι))
    (a : monomial_action_spin) (hok : monomial_action_spin.of_range ids m hs = .ok a) :
    ∃ gs : List (generator_spin ι), m = gs.map .spin ∧
      ∀ g ∈ gs, hilbert_space.has (elementary_space_ops ids) hs g.space = true := by
  apply spin_list_of_forall
  by_contra hcon
  push_neg at hcon
  obtain ⟨x, hx, hbad⟩ := hcon
  obtain ⟨y, hy⟩ := constructor_loop_error ids h2 h3 hs m 1 [] 0
    ⟨x, hx, fun ⟨g, hg1, hg2⟩ => hbad g hg1 hg2⟩
  unfold monomial_action_spin.of_range at hok
  rw [hy] at hok
  cases hok

/-- The action that the constructor builds for a range of spin generators
whose spaces are in the Hilbert space: one update for every run of the
run-length encoding, and a table of square roots for the largest spin. -/
theorem of_range_spin {ι : Type} [DecidableEq ι] [LT ι]
    [∀ a b : ι, Decidable (a < b)] (ids : space_algebra_ids)
    (h2 : ids.fermion ≠ SPIN_ALGEBRA_ID) (h3 : ids.boson ≠ SPIN_ALGEBRA_ID)
    (hs : hilbert_space (elementary_space ι)) (gs : List (generator_spin ι))
    (hhas : ∀ g ∈ gs, hilbert_space.has (elementary_space_ops ids) hs g.space = true)
    (hlen : gs.length < 2 ^ 31) :
    ∃ size1 : Nat,
      monomial_action_spin.of_range ids (gs.map .spin) hs =
        .ok { updates := (run_length_encoding gs).map
                (fun q => monomial_action_spin.make_update q.1 (spin_bit_range ids hs q.1) q.2)
              sqr_roots_size := min size1 LIBCOMMUTE_SPIN_MAX_NUM_PRECOMPUTED_SQRT } ∧
      ∀ x ∈ gs, (spin_ss x.multiplicity x.spin + 1) % sv_index_modulus ≤ size1 := by
  cases gs with
  | nil =>
    refine ⟨0, ?_, by simp⟩
    unfold monomial_action_spin.of_range
    rw [List.map_nil, monomial_action_spin.constructor_loop.eq_def]
    rfl
  | cons g rest =>
    simp only [List.length_cons] at hlen
    obtain ⟨k, r, size1, hr, hloop, _, hall⟩ :=
      constructor_loop_runs ids h2 h3 hs rest g 1 [] 0 hhas (le_refl _)
        (by unfold sv_index_modulus; omega)
    refine ⟨size1, ?_, hall⟩
    unfold monomial_action_spin.of_range
    rw [hloop, hr]
    simp


/-- The update that the constructor builds for a spin generator whose space is
in a Hilbert space of at most 64 bits, built by the program from spaces
without negative `n_bits` and spin spaces that their constructor made: the bit
range it reads and the fields it stores. -/
theorem spin_update_fields {ι : Type} [LinearOrder ι] (ids : space_algebra_ids)
    (h1 : ids.fermion ≠ ids.boson) (h2 : ids.fermion ≠ ids.spin) (h3 : ids.boson ≠ ids.spin)
    (l : List (elementary_space ι)) (hs : hilbert_space (elementary_space ι))
    (hc : hilbert_space.constructed (elementary_space_ops ids) l hs)
    (hn : ∀ x ∈ l, 0 ≤ (elementary_space_ops ids).n_bits x)
    (hmade : ∀ es : elementary_space_spin ι, .spin es ∈ l →
      es.n_bits = (Nat.clog 2 es.multiplicity.toNat : Nat))
    (h64 : hs.total_n_bits ≤ 64)
    (g : generator_spin ι)
    (hhas : hilbert_space.has (elementary_space_ops ids) hs g.space = true)
    (hm1 : 1 ≤ g.multiplicity) (hm : g.multiplicity < 2 ^ 31) (power : Nat) :
    ∃ lo hi : Int,
      hilbert_space.bit_range (elementary_space_ops ids) hs g.space = .ok (lo, hi) ∧
      spin_bit_range ids hs g = (lo, hi) ∧
      (monomial_action_spin.make_update g (spin_bit_range ids hs g) power).well_formed
        (Nat.clog 2 g.multiplicity.toNat) ∧
      ((monomial_action_spin.make_update g (spin_bit_range ids hs g) power).s2 : Int) =
        g.multiplicity - 1 ∧
      ((monomial_action_spin.make_update g (spin_bit_range ids hs g) power).shift : Int) = lo ∧
      (monomial_action_spin.make_update g (spin_bit_range ids hs g) power).mask =
        2 ^ (hi - lo + 1).toNat - 1 ∧
      (monomial_action_spin.make_update g (spin_bit_range ids hs g) power).c = g.c ∧
      (monomial_action_spin.make_update g (spin_bit_range ids hs g) power).power = power ∧
      spin_ss (((monomial_action_spin.make_update g (spin_bit_range ids hs g) power).s2 : Int) + 1)
          (((monomial_action_spin.make_update g (spin_bit_range ids hs g) power).s2 : ℚ) / 2) =
        spin_ss g.multiplicity g.spin := by
  have hfound := spin_space_found ids h1 h2 h3 l hs hc hmade g hhas
  have hbr : hilbert_space.bit_range (elementary_space_ops ids) hs g.space =
      .ok (spin_bit_range ids hs g) := by
    rw [hilbert_space_has_eq] at hhas
    obtain ⟨r, hr1⟩ := Option.isSome_iff_exists.1 hhas
    unfold spin_bit_range hilbert_space.bit_range
    rw [hr1]
  generalize spin_bit_range ids hs g = r at hfound hbr ⊢
  obtain ⟨lo, hi⟩ := r
  have hlay := constructed_range_layout (elementary_space_ops ids) l hs hc hn g.space lo hi hfound
  have hnb : (elementary_space_ops ids).n_bits g.space =
      ((Nat.clog 2 g.multiplicity.toNat : Nat) : Int) := rfl
  rw [hnb] at hlay
  refine ⟨lo, hi, hbr, rfl, ?_⟩
  exact make_update_fields g lo hi power hm1 hm hlay.1 hlay.2.1 (by omega)

/-- C22: with the ids of the fermion and boson algebras different from the id
of the spin algebra, compiling a spin monomial action for a non-empty monomial
over a Hilbert space fails with `unknown_generator` exactly when the monomial
contains a generator that is not a spin generator, or a spin generator whose
elementary space (built from its spin and its index) is not in the Hilbert
space; otherwise compilation succeeds. -/
theorem C22_unknown_generator {ι : Type} [DecidableEq ι] [LT ι]
    [∀ a b : ι, Decidable (a < b)] (ids : space_algebra_ids)
    (h4 : ids.fermion ≠ SPIN_ALGEBRA_ID) (h5 : ids.boson ≠ SPIN_ALGEBRA_ID)
    (hs : hilbert_space (elementary_space ι)) (m : List (generator ι)) (hne : m ≠ []) :
    ((∃ x, monomial_action_spin.of_range ids m hs = .error (.unknown_generator x)) ↔
      ∃ x ∈ m, (∀ g : generator_spin ι, x ≠ .spin g) ∨
        ∃ (g : generator_spin ι) (bs : elementary_space_spin ι),
          x = .spin g ∧ elementary_space_spin.mk_spin g.spin g.indices = some bs ∧
          hilbert_space.has (elementary_space_ops ids) hs (.spin bs) = false) ∧
    ((¬ ∃ x ∈ m, (∀ g : generator_spin ι, x ≠ .spin g) ∨
        ∃ (g : generator_spin ι) (bs : elementary_space_spin ι),
          x = .spin g ∧ elementary_space_spin.mk_spin g.spin g.indices = some bs ∧
          hilbert_space.has (elementary_space_ops ids) hs (.spin bs) = false) →
      ∃ a, monomial_action_spin.of_range ids m hs = .ok a) := by
  cases m with
  | nil => exact absurd rfl hne
  | cons y rest =>
    have hbad : ∀ x : generator ι,
        ((∀ g : generator_spin ι, x ≠ .spin g) ∨
          ∃ (g : generator_spin ι) (bs : elementary_space_spin ι),
            x = .spin g ∧ elementary_space_spin.mk_spin g.spin g.indices = some bs ∧
            hilbert_space.has (elementary_space_ops ids) hs (.spin bs) = false) ↔
        ¬ ∃ g : generator_spin ι, x = .spin g ∧
          hilbert_space.has (elementary_space_ops ids) hs g.space = true := by
      intro x
      constructor
      · rintro (h | ⟨g, bs, hx, hbs, hhas⟩) ⟨g1, hg1, hhas1⟩
        · exact h g1 hg1
        · rw [hx] at hg1
          cases hg1
          rw [mk_spin_of_generator] at hbs
          cases hbs
          rw [show generator_spin.space g = .spin _ from rfl, hhas] at hhas1
          cases hhas1
      · intro h
        by_cases hx : ∃ g : generator_spin ι, x = .spin g
        · obtain ⟨g, hg⟩ := hx
          right
          refine ⟨g, _, hg, mk_spin_of_generator g, ?_⟩
          by_contra hcon
          exact h ⟨g, hg, by simpa using hcon⟩
        · left
          intro g hg
          exact hx ⟨g, hg⟩
    have hgood : (¬ ∃ x ∈ y :: rest, ¬ ∃ g : generator_spin ι, x = .spin g ∧
        hilbert_space.has (elementary_space_ops ids) hs g.space = true) →
        ∃ a, monomial_action_spin.of_range ids (y :: rest) hs = .ok a := by
      intro h
      push_neg at h
      obtain ⟨r, hr⟩ := constructor_loop_ok ids h4 h5 hs (y :: rest) 1 [] 0 h
      unfold monomial_action_spin.of_range
      rw [hr]
      exact ⟨_, rfl⟩
    simp only [hbad]
    refine ⟨⟨?_, ?_⟩, hgood⟩
    · rintro ⟨x, hx⟩
      by_contra hcon
      obtain ⟨a, ha⟩ := hgood hcon
      rw [ha] at hx
      cases hx
    · intro h
      obtain ⟨x, hx⟩ := constructor_loop_error ids h4 h5 hs (y :: rest) 1 [] 0 h
      refine ⟨x, ?_⟩
      unfold monomial_action_spin.of_range
      rw [hx]

/-! ## Theorems: examples over the Hilbert space of one spin 1 -/

/-- The Hilbert space of one spin-1 space with the index 0, as the program
builds it: 2 bits, the range `[0, 1]`. -/
theorem example_spin_space_constructed :
    hilbert_space.constructed
      (elementary_space_ops { fermion := -3, boson := -2, spin := -1 })
      [(.spin ⟨3, 2, 0⟩ : elementary_space Nat)]
      { basis_spaces := [(.spin ⟨3, 2, 0⟩, (0, 1))], bit_range_end := 1 } :=
  hilbert_space.constructed.add [] hilbert_space.empty _ _
    hilbert_space.constructed.empty rfl

/-- The spaces of the example have the bits that the constructor of the spin
space computes, and none has a negative number of bits. -/
theorem example_spin_space_bits :
    (∀ x ∈ [(.spin ⟨3, 2, 0⟩ : elementary_space Nat)],
      0 ≤ (elementary_space_ops { fermion := -3, boson := -2, spin := -1 }).n_bits x) ∧
    (∀ es : elementary_space_spin Nat,
      .spin es ∈ [(.spin ⟨3, 2, 0⟩ : elementary_space Nat)] →
      es.n_bits = (Nat.clog 2 es.multiplicity.toNat : Nat)) := by
  have h : Nat.clog 2 3 = 2 :=
    le_antisymm ((Nat.le_pow_iff_clog_le Nat.one_lt_two).1 (by norm_num))
      ((Nat.pow_lt_iff_lt_clog Nat.one_lt_two).1 (by norm_num))
  constructor
  · intro x hx
    rw [List.mem_singleton] at hx
    subst hx
    decide
  · intro es hes
    rw [List.mem_singleton] at hes
    cases hes
    show (2 : Int) = ((Nat.clog 2 (3 : Int).toNat : Nat) : Int)
    rw [show (3 : Int).toNat = 3 from rfl, h]
    rfl

/-- The spin-1 generators with the index 0 have their space in the Hilbert
space of the example, and a multiplicity between 1 and `2^31`. -/
theorem example_spin_generators (gs : List (generator_spin Nat))
    (h : ∀ g ∈ gs, g.multiplicity = 3 ∧ g.indices = 0) :
    (∀ g ∈ gs, hilbert_space.has
      (elementary_space_ops { fermion := -3, boson := -2, spin := -1 })
      { basis_spaces := [(.spin ⟨3, 2, 0⟩, (0, 1))], bit_range_end := 1 } g.space = true) ∧
    (∀ g ∈ gs, 1 ≤ g.multiplicity ∧ g.multiplicity < 2 ^ 31) := by
  constructor
  · intro g hg
    obtain ⟨m, c, i⟩ := g
    obtain ⟨h1, h2⟩ := h _ hg
    simp only at h1 h2
    subst h1
    subst h2
    cases c <;> decide
  · intro g hg
    rw [(h g hg).1]
    decide

/-- Witness of C22, with the ids `fermion = -3`, `boson = -2`, `spin = -1`:
over the Hilbert space of the spin-1 space 0, the monomial `S+_0 c+_5` is
rejected with `unknown_generator`. -/
theorem C22_unknown_generator_witness :
    ∃ x, monomial_action_spin.of_range { fermion := -3, boson := -2, spin := -1 }
      ([.spin ⟨3, .plus, 0⟩, .fermion ⟨true, 5⟩] : List (generator Nat))
      { basis_spaces := [(.spin ⟨3, 2, 0⟩, (0, 1))], bit_range_end := 1 } =
        .error (.unknown_generator x) :=
  (C22_unknown_generator { fermion := -3, boson := -2, spin := -1 } (by decide) (by decide)
    { basis_spaces := [(.spin ⟨3, 2, 0⟩, (0, 1))], bit_range_end := 1 }
    ([.spin ⟨3, .plus, 0⟩, .fermion ⟨true, 5⟩] : List (generator Nat)) (by simp)).1.2
    ⟨.fermion ⟨true, 5⟩, by simp, Or.inl (fun g h => by cases h)⟩

/-! ## Theorems: the compiled updates and the composition of actions -/

/-- C29: over a Hilbert space of at most 64 bits, built by the program from
spaces without negative `n_bits` and spin spaces that their constructor made,
for a non-empty monomial of fewer than `2^31` spin generators (of
multiplicities between 1 and `2^31`) whose spaces are in the Hilbert space,
the action compiles and its update list is the run-length encoding of the
monomial: one update per run, in the order of the monomial, with the power
equal to the length of the run, `2s`, the component, `shift = lo` and
`mask = 2^(hi-lo+1) - 1` of the space of the generator. The runs written out
give the monomial, every power is at least 1, neighbouring runs are of
different generators, and the powers add up to the length of the monomial. -/
theorem C29_run_length_encoding {ι : Type} [LinearOrder ι] (ids : space_algebra_ids)
    (h1 : ids.fermion ≠ ids.boson) (h2 : ids.fermion ≠ ids.spin) (h3 : ids.boson ≠ ids.spin)
    (h4 : ids.fermion ≠ SPIN_ALGEBRA_ID) (h5 : ids.boson ≠ SPIN_ALGEBRA_ID)
    (l : List (elementary_space ι)) (hs : hilbert_space (elementary_space ι))
    (hc : hilbert_space.constructed (elementary_space_ops ids) l hs)
    (hn : ∀ x ∈ l, 0 ≤ (elementary_space_ops ids).n_bits x)
    (hmade : ∀ es : elementary_space_spin ι, .spin es ∈ l →
      es.n_bits = (Nat.clog 2 es.multiplicity.toNat : Nat))
    (h64 : hs.total_n_bits ≤ 64)
    (m : List (generator_spin ι)) (hne : m ≠ [])
    (hhas : ∀ g ∈ m, hilbert_space.has (elementary_space_ops ids) hs g.space = true)
    (hmult : ∀ g ∈ m, 1 ≤ g.multiplicity ∧ g.multiplicity < 2 ^ 31)
    (hlen : m.length < 2 ^ 31) :
    ∃ a : monomial_action_spin,
      monomial_action_spin.of_range ids (m.map .spin) hs = .ok a ∧
      a.updates ≠ [] ∧
      List.Forall₂
        (fun (q : generator_spin ι × Nat) (u : single_spin_update_t) =>
          u.power = q.2 ∧ u.c = q.1.c ∧ (u.s2 : Int) = q.1.multiplicity - 1 ∧
          (u.s2 : ℚ) = 2 * q.1.spin ∧
          ∃ (bs : elementary_space_spin ι) (lo hi : Int),
            elementary_space_spin.mk_spin q.1.spin q.1.indices = some bs ∧
            hilbert_space.bit_range (elementary_space_ops ids) hs (.spin bs) = .ok (lo, hi) ∧
            (u.shift : Int) = lo ∧ u.mask = 2 ^ (hi - lo + 1).toNat - 1)
        (run_length_encoding m) a.updates ∧
      (run_length_encoding m).flatMap (fun q => List.replicate q.2 q.1) = m ∧
      (∀ q ∈ run_length_encoding m, 1 ≤ q.2) ∧
      List.Chain' (fun q1 q2 : generator_spin ι × Nat => q1.1 ≠ q2.1)
        (run_length_encoding m) ∧
      (∀ u ∈ a.updates, 1 ≤ u.power) ∧
      (a.updates.map fun u => u.power).sum = m.length := by
  obtain ⟨size1, hof, _⟩ := of_range_spin ids h4 h5 hs m hhas hlen
  obtain ⟨hs1, hs2, hs3, hs4⟩ := run_length_encoding_spec m
  refine ⟨_, hof, ?_, ?_, hs1, hs2, hs3, ?_, ?_⟩
  · intro h
    have h6 : run_length_encoding m = [] := List.map_eq_nil_iff.1 h
    rw [h6] at hs1
    exact hne hs1.symm
  · show List.Forall₂ _ (run_length_encoding m) ((run_length_encoding m).map _)
    rw [List.forall₂_map_right_iff]
    apply List.forall₂_same.2
    intro q hq
    obtain ⟨hq1, _, _⟩ := run_length_encoding_mem m q hq
    obtain ⟨lo, hi, hbr, _, _, hf1, hf2, hf3, hf4, hf5, _⟩ :=
      spin_update_fields ids h1 h2 h3 l hs hc hn hmade h64 q.1 (hhas q.1 hq1)
        (hmult q.1 hq1).1 (hmult q.1 hq1).2 q.2
    refine ⟨hf5, hf4, hf1, ?_, _, lo, hi, mk_spin_of_generator q.1, hbr, hf2, hf3⟩
    have h6 : (((monomial_action_spin.make_update q.1 (spin_bit_range ids hs q.1) q.2).s2 :
        Int) : ℚ) = ((q.1.multiplicity - 1 : Int) : ℚ) := by rw [hf1]
    push_cast at h6
    rw [h6]
    unfold generator_spin.spin
    ring
  · intro u hu
    obtain ⟨q, hq, rfl⟩ := List.mem_map.1 hu
    exact hs2 q hq
  · show (((run_length_encoding m).map _).map _).sum = _
    rw [List.map_map, ← hs4]
    rfl

/-- Witness of C29: the monomial `S+ S+ S-` of a spin 1 with the index 0, over
the Hilbert space of that spin: the runs are `(S+, 2)` and `(S-, 1)`. -/
theorem C29_run_length_encoding_witness :
    run_length_encoding
        ([⟨3, .plus, 0⟩, ⟨3, .plus, 0⟩, ⟨3, .minus, 0⟩] : List (generator_spin Nat)) =
      [(⟨3, .plus, 0⟩, 2), (⟨3, .minus, 0⟩, 1)] ∧
    ∃ a : monomial_action_spin,
      monomial_action_spin.of_range { fermion := -3, boson := -2, spin := -1 }
        (([⟨3, .plus, 0⟩, ⟨3, .plus, 0⟩, ⟨3, .minus, 0⟩] :
          List (generator_spin Nat)).map .spin)
        { basis_spaces := [(.spin ⟨3, 2, 0⟩, (0, 1))], bit_range_end := 1 } = .ok a ∧
      a.updates ≠ [] ∧
      List.Forall₂
        (fun (q : generator_spin Nat × Nat) (u : single_spin_update_t) =>
          u.power = q.2 ∧ u.c = q.1.c ∧ (u.s2 : Int) = q.1.multiplicity - 1 ∧
          (u.s2 : ℚ) = 2 * q.1.spin ∧
          ∃ (bs : elementary_space_spin Nat) (lo hi : Int),
            elementary_space_spin.mk_spin q.1.spin q.1.indices = some bs ∧
            hilbert_space.bit_range
              (elementary_space_ops { fermion := -3, boson := -2, spin := -1 })
              { basis_spaces := [(.spin ⟨3, 2, 0⟩, (0, 1))], bit_range_end := 1 }
              (.spin bs) = .ok (lo, hi) ∧
            (u.shift : Int) = lo ∧ u.mask = 2 ^ (hi - lo + 1).toNat - 1)
        (run_length_encoding
          ([⟨3, .plus, 0⟩, ⟨3, .plus, 0⟩, ⟨3, .minus, 0⟩] : List (generator_spin Nat)))
        a.updates ∧
      (run_length_encoding
          ([⟨3, .plus, 0⟩, ⟨3, .plus, 0⟩, ⟨3, .minus, 0⟩] :
            List (generator_spin Nat))).flatMap (fun q => List.replicate q.2 q.1) =
        [⟨3, .plus, 0⟩, ⟨3, .plus, 0⟩, ⟨3, .minus, 0⟩] ∧
      (∀ q ∈ run_length_encoding
          ([⟨3, .plus, 0⟩, ⟨3, .plus, 0⟩, ⟨3, .minus, 0⟩] : List (generator_spin Nat)),
        1 ≤ q.2) ∧
      List.Chain' (fun q1 q2 : generator_spin Nat × Nat => q1.1 ≠ q2.1)
        (run_length_encoding
          ([⟨3, .plus, 0⟩, ⟨3, .plus, 0⟩, ⟨3, .minus, 0⟩] : List (generator_spin Nat))) ∧
      (∀ u ∈ a.updates, 1 ≤ u.power) ∧
      (a.updates.map fun u => u.power).sum =
        ([⟨3, .plus, 0⟩, ⟨3, .plus, 0⟩, ⟨3, .minus, 0⟩] : List (generator_spin Nat)).length :=
  ⟨by decide,
   C29_run_length_encoding { fermion := -3, boson := -2, spin := -1 }
    (by decide) (by decide) (by decide) (by decide) (by decide)
    _ _ example_spin_space_constructed example_spin_space_bits.1 example_spin_space_bits.2
    (by decide) [⟨3, .plus, 0⟩, ⟨3, .plus, 0⟩, ⟨3, .minus, 0⟩] (by simp)
    (example_spin_generators _ (by decide)).1 (example_spin_generators _ (by decide)).2
    (by decide)⟩

/-- The conjugate of a fermion generator, read off the linear function that
`conj` produces. -/
theorem fermion_conj_terms {ι : Type} (g : generator_fermion ι)
    (f : linear_function (generator_fermion ι)) :
    (generator_fermion.conj g f).terms.map Prod.fst =
      [{ dagger := !g.dagger, indices := g.indices }] := rfl

/-- Conjugating both fermion generators turns `<` into `>` and `>` into `<`. -/
theorem fermion_conj_order {ι : Type} [DecidableEq ι] [LT ι] [∀ a b : ι, Decidable (a < b)]
    (g h : generator_fermion ι) :
    generator_fermion.greater { dagger := !g.dagger, indices := g.indices }
        { dagger := !h.dagger, indices := h.indices } = generator_fermion.less g h ∧
    generator_fermion.less { dagger := !g.dagger, indices := g.indices }
        { dagger := !h.dagger, indices := h.indices } = generator_fermion.greater g h := by
  obtain ⟨dg, ig⟩ := g
  obtain ⟨dh, ih⟩ := h
  cases dg <;> cases dh <;>
    simp [generator_fermion.greater, generator_fermion.less]

/-- C37: Hermitian conjugation reverses the order of the fermion generators.
For all fermion generators `g` and `h`, `conj` gives the single terms `1 * g'`
and `1 * h'`, and `g < h` holds exactly when `g' > h'` (and `g > h` exactly
when `g' < h'`), with `less` and `greater` of the class as the comparisons. Hence for a sequence of fermion generators in which every
generator is before its successor (or: is not after its successor), the
reversed sequence of the conjugates has the same property. -/
theorem C37_fermion_conj_order {ι : Type} [DecidableEq ι] [LT ι]
    [∀ a b : ι, Decidable (a < b)] (f : linear_function (generator_fermion ι)) :
    (∀ g h : generator_fermion ι,
      ∃ g1 h1 : generator_fermion ι,
        generator_fermion.conj g f = { const_term := 0, terms := [(g1, 1)] } ∧
        generator_fermion.conj h f = { const_term := 0, terms := [(h1, 1)] } ∧
        (generator_fermion.less g h = true ↔ generator_fermion.greater g1 h1 = true) ∧
        (generator_fermion.greater g h = true ↔ generator_fermion.less g1 h1 = true)) ∧
    (∀ m : List (generator_fermion ι),
      List.Chain' (fun a b => generator_fermion.less a b = true) m →
      List.Chain' (fun a b => generator_fermion.less a b = true)
        (m.reverse.flatMap fun g => (generator_fermion.conj g f).terms.map Prod.fst)) ∧
    (∀ m : List (generator_fermion ι),
      List.Chain' (fun a b => generator_fermion.greater a b = false) m →
      List.Chain' (fun a b => generator_fermion.greater a b = false)
        (m.reverse.flatMap fun g => (generator_fermion.conj g f).terms.map Prod.fst)) ∧
    (∀ m : List (generator_fermion ι),
      List.Pairwise (fun a b => generator_fermion.less a b = true) m →
      List.Pairwise (fun a b => generator_fermion.less a b = true)
        (m.reverse.flatMap fun g => (generator_fermion.conj g f).terms.map Prod.fst)) := by
  have hflat : ∀ m : List (generator_fermion ι),
      (m.flatMap fun g => (generator_fermion.conj g f).terms.map Prod.fst) =
        m.map (fun g => { dagger := !g.dagger, indices := g.indices }) := by
    intro m
    induction m with
    | nil => rfl
    | cons a rest ih =>
      rw [List.flatMap_cons, ih, fermion_conj_terms]
      rfl
  have hswap : ∀ a b : generator_fermion ι,
      generator_fermion.greater a b = generator_fermion.less b a := by
    intro a b
    obtain ⟨da, ia⟩ := a
    obtain ⟨db, ib⟩ := b
    cases da <;> cases db <;>
      simp [generator_fermion.greater, generator_fermion.less, base_less, base_greater]
  refine ⟨?_, ?_, ?_, ?_⟩
  · intro g h
    refine ⟨_, _, rfl, rfl, ?_, ?_⟩
    · rw [(fermion_conj_order g h).1]
    · rw [(fermion_conj_order g h).2]
  · intro m hm
    rw [hflat, List.chain'_map, List.chain'_reverse]
    refine hm.imp ?_
    intro a b hab
    show generator_fermion.less _ _ = true
    rw [← hswap, (fermion_conj_order a b).1]
    exact hab
  · intro m hm
    rw [hflat, List.chain'_map, List.chain'_reverse]
    refine hm.imp ?_
    intro a b hab
    show generator_fermion.greater _ _ = false
    rw [hswap, (fermion_conj_order a b).2]
    exact hab
  · intro m hm
    rw [hflat, List.pairwise_map, List.pairwise_reverse]
    refine hm.imp ?_
    intro a b hab
    rw [← hswap, (fermion_conj_order a b).1]
    exact hab

/-- Witness of C37 on natural-number indices: the sorted sequence
`c+_1 c+_2 c_3` is reversed and conjugated to `c+_3 c_2 c_1`, which is
sorted. -/
theorem C37_fermion_conj_order_witness :
    ([⟨true, 1⟩, ⟨true, 2⟩, ⟨false, 3⟩] : List (generator_fermion Nat)).reverse.flatMap
        (fun g => (generator_fermion.conj g { const_term := 0, terms := [] }).terms.map
          Prod.fst) = [⟨true, 3⟩, ⟨false, 2⟩, ⟨false, 1⟩] ∧
    List.Chain' (fun a b => generator_fermion.less a b = true)
      (([⟨true, 1⟩, ⟨true, 2⟩, ⟨false, 3⟩] : List (generator_fermion Nat)).reverse.flatMap
        fun g => (generator_fermion.conj g { const_term := 0, terms := [] }).terms.map
          Prod.fst) :=
  ⟨by decide,
   (C37_fermion_conj_order { const_term := 0, terms := [] }).2.1
     [⟨true, 1⟩, ⟨true, 2⟩, ⟨false, 3⟩]
     (List.Chain'.cons (by decide) (List.Chain'.cons (by decide) (List.chain'_singleton _)))⟩

/-! ## Theorems: the order of the calls of `add`, from any Hilbert space -/

/-- A successful call of `add` means that the order tells the new space apart
from every space inserted before. -/
theorem add_ok_inequivalent {S : Type} (ops : space_ops S) (hswo : ops.strict_weak_order)
    (l : List S) (hs hs1 : hilbert_space S) (hc : hilbert_space.constructed ops l hs)
    (bs : S) (h : hilbert_space.add ops hs bs = .ok hs1) :
    ∀ x ∈ l, ops.lt x bs = true ∨ ops.lt bs x = true := by
  rw [hilbert_space_add_eq] at h
  by_cases he : (map_emplace ops.lt hs.basis_spaces bs ((0, 0) : bit_range_t)).2 = true
  · rw [map_emplace_snd, Option.isNone_iff_eq_none] at he
    have hall := (map_find_eq_none_iff ops.lt hswo.2.1 hs.basis_spaces bs
      (constructed_sorted ops hswo.2.1 l hs hc)).1 he
    intro x hx
    exact hall x ((constructed_keys_mem ops l hs hc x).2 hx)
  · rw [if_neg he] at h
    cases h

/-- When `constructor_impl` succeeds, the order tells the spaces added apart
from each other and from the spaces inserted before. -/
theorem constructor_impl_inequivalent {S : Type} (ops : space_ops S)
    (hswo : ops.strict_weak_order) :
    ∀ (args l : List S) (hs hs1 : hilbert_space S),
      hilbert_space.constructed ops l hs →
      hilbert_space.constructor_impl ops hs args = .ok hs1 →
      List.Pairwise (fun a b => ops.lt a b = true ∨ ops.lt b a = true) args ∧
      (∀ a ∈ args, ∀ x ∈ l, ops.lt x a = true ∨ ops.lt a x = true)
  | [], _, _, _, _, _ => by simp
  | bs :: more, l, hs, hs1, hc, h => by
    simp only [hilbert_space.constructor_impl] at h
    rcases hadd : hilbert_space.add ops hs bs with e | hs2
    · rw [hadd] at h
      cases h
    · rw [hadd] at h
      have hbs := add_ok_inequivalent ops hswo l hs hs2 hc bs hadd
      obtain ⟨ih1, ih2⟩ := constructor_impl_inequivalent ops hswo more (bs :: l) hs2 hs1
        (hilbert_space.constructed.add l hs bs hs2 hc hadd) h
      refine ⟨List.pairwise_cons.2 ⟨?_, ih1⟩, ?_⟩
      · intro a ha
        exact ih2 a ha bs (List.mem_cons_self _ _)
      · intro a ha x hx
        rcases List.mem_cons.1 ha with rfl | ha
        · exact hbs x hx
        · exact ih2 a ha x (List.mem_cons_of_mem _ hx)

/-- C33: the Hilbert space obtained by a sequence of calls of `add` does not
depend on the order of the calls. From any Hilbert space built by the program,
when adding the spaces `args1` one after the other succeeds, adding them in
any other order `args2` succeeds too and gives the identical Hilbert space
(the same spaces in the same sorted order, with the same bit ranges and the
same `total_n_bits()`), which `operator==` confirms; and adding succeeds
whenever the order tells the spaces apart from each other and from the spaces
already there. The order of the spaces is a strict weak ordering, and every
space is `==` to itself. -/
theorem C33_add_order {S : Type} (ops : space_ops S) (hswo : ops.strict_weak_order)
    (heq : ∀ a, ops.eq a a = true) (l : List S) (hs0 : hilbert_space S)
    (hc : hilbert_space.constructed ops l hs0) (args1 args2 : List S)
    (hperm : args1.Perm args2) :
    (∀ hs1, hilbert_space.constructor_impl ops hs0 args1 = .ok hs1 →
      ∃ hs2, hilbert_space.constructor_impl ops hs0 args2 = .ok hs2 ∧
        hilbert_space.eq ops hs1 hs2 = true ∧
        hs2.basis_spaces = hs1.basis_spaces ∧ hs2.total_n_bits = hs1.total_n_bits) ∧
    (List.Pairwise (fun a b => ops.lt a b = true ∨ ops.lt b a = true) args1 →
      (∀ a ∈ args1, ∀ x ∈ l, ops.lt x a = true ∨ ops.lt a x = true) →
      ∃ hs1, hilbert_space.constructor_impl ops hs0 args1 = .ok hs1 ∧
        hilbert_space.constructor_impl ops hs0 args2 = .ok hs1) := by
  have hmain : ∀ hs1, hilbert_space.constructor_impl ops hs0 args1 = .ok hs1 →
      hilbert_space.constructor_impl ops hs0 args2 = .ok hs1 := by
    intro hs1 h1
    obtain ⟨hp, hd⟩ := constructor_impl_inequivalent ops hswo args1 l hs0 hs1 hc h1
    have hp2 : List.Pairwise (fun a b => ops.lt a b = true ∨ ops.lt b a = true) args2 := by
      refine (List.Perm.pairwise_iff ?_ hperm).1 hp
      intro x y hxy
      exact hxy.symm
    obtain ⟨hs2, h2⟩ := constructor_impl_ok ops hswo args2 l hs0 hc hp2
      (fun a ha x hx => hd a (hperm.mem_iff.2 ha) x hx)
    have c1 := constructor_impl_constructed ops args1 l hs0 hs1 hc h1
    have c2 := constructor_impl_constructed ops args2 l hs0 hs2 hc h2
    have hsame : hs2 = hs1 := by
      refine constructed_unique ops hswo _ _ hs2 hs1 c2 c1 ?_
      intro x
      simp only [List.mem_append, List.mem_reverse]
      rw [hperm.mem_iff]
    rw [h2, hsame]
  refine ⟨?_, ?_⟩
  · intro hs1 h1
    exact ⟨hs1, hmain hs1 h1, hilbert_space_eq_self ops heq hs1, rfl, rfl⟩
  · intro hp hd
    obtain ⟨hs1, h1⟩ := constructor_impl_ok ops hswo args1 l hs0 hc hp hd
    exact ⟨hs1, h1, hmain hs1 h1⟩

/-! ## Theorems: what `add` does to the bit ranges -/

/-- An inserting `emplace` into a map with increasing keys puts the new entry
between the entries with a key before the new key and the entries with a key
after it. -/
theorem map_emplace_split {K V : Type} (lt : K → K → Bool)
    (htrans : ∀ a b c, lt a b = true → lt b c = true → lt a c = true) (k : K) (v : V) :
    ∀ (m : List (K × V)),
      List.Pairwise (fun a b => lt a b = true) (m.map Prod.fst) →
      (map_emplace lt m k v).2 = true →
      ∃ pre post, m = pre ++ post ∧ (map_emplace lt m k v).1 = pre ++ (k, v) :: post ∧
        (∀ x ∈ pre, lt x.1 k = true) ∧ (∀ x ∈ post, lt k x.1 = true)
  | [], _, _ => ⟨[], [], rfl, rfl, by simp, by simp⟩
  | (k1, v1) :: rest, hm, h => by
    simp only [List.map_cons, List.pairwise_cons] at hm
    simp only [map_emplace] at h ⊢
    by_cases h1 : lt k1 k = true
    · simp only [h1, if_true] at h ⊢
      obtain ⟨pre, post, e1, e2, e3, e4⟩ := map_emplace_split lt htrans k v rest hm.2 h
      refine ⟨(k1, v1) :: pre, post, by rw [e1]; rfl, by rw [e2]; rfl, ?_, e4⟩
      intro x hx
      rcases List.mem_cons.1 hx with rfl | hx
      · exact h1
      · exact e3 x hx
    · simp only [h1, Bool.false_eq_true, if_false] at h ⊢
      by_cases h2 : lt k k1 = true
      · simp only [h2, if_true]
        refine ⟨[], (k1, v1) :: rest, rfl, rfl, by simp, ?_⟩
        intro x hx
        rcases List.mem_cons.1 hx with rfl | hx
        · exact h2
        · exact htrans _ _ _ h2 (hm.1 x.1 (List.mem_map.2 ⟨x, hx, rfl⟩))
      · simp only [h2, Bool.false_eq_true, if_false] at h

/-- The loop of `recompute_bit_ranges` over two lists of entries, one after the
other. -/
theorem recompute_loop_append {S : Type} (ops : space_ops S) :
    ∀ (m1 m2 : List (S × bit_range_t)) (e : Int),
      hilbert_space.recompute_loop ops (m1 ++ m2) e =
        ((hilbert_space.recompute_loop ops m1 e).1 ++
          (hilbert_space.recompute_loop ops m2 (hilbert_space.recompute_loop ops m1 e).2).1,
         (hilbert_space.recompute_loop ops m2 (hilbert_space.recompute_loop ops m1 e).2).2)
  | [], m2, e => rfl
  | (bs, r) :: m1, m2, e => by
    have ih := recompute_loop_append ops m1 m2 (e + ops.n_bits bs)
    simp only [List.cons_append, hilbert_space.recompute_loop, List.append_eq] at ih ⊢
    rw [ih]

/-- Starting the loop of `recompute_bit_ranges` `n` positions later moves every
range, and the final `bit_range_end_`, by `n`. -/
theorem recompute_loop_shift {S : Type} (ops : space_ops S) (n : Int) :
    ∀ (m : List (S × bit_range_t)) (e : Int),
      hilbert_space.recompute_loop ops m (e + n) =
        ((hilbert_space.recompute_loop ops m e).1.map
            (fun p => (p.1, (p.2.1 + n, p.2.2 + n))),
         (hilbert_space.recompute_loop ops m e).2 + n)
  | [], e => rfl
  | (bs, r) :: m, e => by
    simp only [hilbert_space.recompute_loop, List.map_cons]
    have h : e + n + ops.n_bits bs = e + ops.n_bits bs + n := by ring
    rw [h, recompute_loop_shift ops n m (e + ops.n_bits bs)]
    have h1 : e + n + 1 = e + 1 + n := by ring
    rw [h1]

/-- The Hilbert space after a successful `add`, entry by entry: the entries
before the new space as they were, the new space with the range that starts
after them, and the entries after the new space with their ranges moved by the
`n_bits` of the new space. -/
theorem add_ok_entries {S : Type} (ops : space_ops S) (hswo : ops.strict_weak_order)
    (l : List S) (hs hs1 : hilbert_space S) (hc : hilbert_space.constructed ops l hs)
    (es : S) (hadd : hilbert_space.add ops hs es = .ok hs1) :
    ∃ pre post : List (S × bit_range_t),
      hs.basis_spaces = pre ++ post ∧
      hs1.basis_spaces =
        pre ++ (es, ((pre.map fun p => ops.n_bits p.1).sum,
          (pre.map fun p => ops.n_bits p.1).sum + ops.n_bits es - 1)) ::
          post.map (fun p => (p.1, (p.2.1 + ops.n_bits es, p.2.2 + ops.n_bits es))) ∧
      (∀ x ∈ pre, ops.lt x.1 es = true) ∧ (∀ x ∈ post, ops.lt es x.1 = true) ∧
      hs1.bit_range_end = hs.bit_range_end + ops.n_bits es := by
  have hfix := constructed_recomputed ops l hs hc
  rw [hilbert_space_add_eq] at hadd
  by_cases he : (map_emplace ops.lt hs.basis_spaces es ((0, 0) : bit_range_t)).2 = true
  · rw [if_pos he] at hadd
    obtain ⟨pre, post, e1, e2, e3, e4⟩ := map_emplace_split ops.lt hswo.2.1 es
      ((0, 0) : bit_range_t) hs.basis_spaces (constructed_sorted ops hswo.2.1 l hs hc) he
    refine ⟨pre, post, e1, ?_, e3, e4, ?_⟩
    · cases hadd
      simp only [hilbert_space.recompute_bit_ranges]
      rw [e2, recompute_loop_append]
      have hold : hs.basis_spaces =
          (hilbert_space.recompute_loop ops pre (-1)).1 ++
            (hilbert_space.recompute_loop ops post
              (hilbert_space.recompute_loop ops pre (-1)).2).1 := by
        conv_lhs => rw [← hfix]
        simp only [hilbert_space.recompute_bit_ranges]
        rw [e1, recompute_loop_append]
      have hlen : (hilbert_space.recompute_loop ops pre (-1)).1.length = pre.length := by
        have := congrArg List.length (recompute_loop_fst_keys ops pre (-1))
        simpa using this
      have hpre : (hilbert_space.recompute_loop ops pre (-1)).1 = pre ∧
          (hilbert_space.recompute_loop ops post
              (hilbert_space.recompute_loop ops pre (-1)).2).1 = post := by
        rw [e1] at hold
        obtain ⟨k1, k2⟩ := List.append_inj hold hlen.symm
        exact ⟨k1.symm, k2.symm⟩
      rw [hpre.1]
      simp only [hilbert_space.recompute_loop]
      rw [recompute_loop_snd, recompute_loop_shift, ← recompute_loop_snd ops pre (-1), hpre.2]
      have h6 : (hilbert_space.recompute_loop ops pre (-1)).2 + 1 =
          (pre.map fun p => ops.n_bits p.1).sum := by
        rw [recompute_loop_snd]
        ring
      have h7 : (hilbert_space.recompute_loop ops pre (-1)).2 + ops.n_bits es =
          (pre.map fun p => ops.n_bits p.1).sum + ops.n_bits es - 1 := by
        rw [recompute_loop_snd]
        ring
      rw [h6, h7]
    · cases hadd
      have hend : hs.bit_range_end =
          (hilbert_space.recompute_loop ops hs.basis_spaces (-1)).2 := by
        conv_lhs => rw [← hfix]
        rfl
      simp only [hilbert_space.recompute_bit_ranges]
      rw [hend, recompute_loop_snd, recompute_loop_snd, e2, e1]
      simp only [List.map_append, List.map_cons, List.sum_append, List.sum_cons]
      ring
  · rw [if_neg he] at hadd
    cases hadd

/-- In a Hilbert space built by the program, `bit_range` of a stored space is
the range stored with it. -/
theorem bit_range_of_mem {S : Type} (ops : space_ops S) (hswo : ops.strict_weak_order)
    (l : List S) (hs : hilbert_space S) (hc : hilbert_space.constructed ops l hs)
    (bs : S) (r : bit_range_t) (hmem : (bs, r) ∈ hs.basis_spaces) :
    hilbert_space.bit_range ops hs bs = .ok r := by
  have h := (map_find_eq_some_iff ops.lt hswo.2.1 hswo.2.2 hs.basis_spaces bs r
    (constructed_sorted ops hswo.2.1 l hs hc)).2 ⟨bs, hmem, hswo.1 bs, hswo.1 bs⟩
  unfold hilbert_space.bit_range
  rw [h]

/-- C34: a successful `add(es)` to a Hilbert space built by the program leaves
the bit range of every space that sorts before `es` unchanged, moves the bit
range of every space that sorts after `es` up by exactly `n_bits(es)` (every
space sorts before or after `es`), gives `es` the range that starts at the sum
of `n_bits` of the spaces before it and has `n_bits(es)` bits, and increases
`total_n_bits()` by `n_bits(es)`. The order of the spaces is a strict weak
ordering. -/
theorem C34_add_frame {S : Type} (ops : space_ops S) (hswo : ops.strict_weak_order)
    (l : List S) (hs hs1 : hilbert_space S) (hc : hilbert_space.constructed ops l hs)
    (es : S) (hadd : hilbert_space.add ops hs es = .ok hs1) :
    (∀ bs r, (bs, r) ∈ hs.basis_spaces → ops.lt bs es = true →
      hilbert_space.bit_range ops hs bs = .ok r ∧
      hilbert_space.bit_range ops hs1 bs = .ok r) ∧
    (∀ bs lo hi, (bs, (lo, hi)) ∈ hs.basis_spaces → ops.lt es bs = true →
      hilbert_space.bit_range ops hs bs = .ok (lo, hi) ∧
      hilbert_space.bit_range ops hs1 bs =
        .ok (lo + ops.n_bits es, hi + ops.n_bits es)) ∧
    (∀ p ∈ hs.basis_spaces, ops.lt p.1 es = true ∨ ops.lt es p.1 = true) ∧
    hilbert_space.bit_range ops hs1 es =
      .ok (((hs.basis_spaces.filter fun p => ops.lt p.1 es).map fun p => ops.n_bits p.1).sum,
        ((hs.basis_spaces.filter fun p => ops.lt p.1 es).map fun p => ops.n_bits p.1).sum +
          ops.n_bits es - 1) ∧
    hs1.total_n_bits = hs.total_n_bits + ops.n_bits es := by
  obtain ⟨pre, post, e1, e2, e3, e4, e5⟩ := add_ok_entries ops hswo l hs hs1 hc es hadd
  have hc1 := hilbert_space.constructed.add l hs es hs1 hc hadd
  have hasym : ∀ a b : S, ops.lt a b = true → ops.lt b a = false := by
    intro a b hab
    by_contra hba
    have h := hswo.2.1 a b a hab (by simpa using hba)
    rw [hswo.1 a] at h
    cases h
  have hfilter : (hs.basis_spaces.filter fun p => ops.lt p.1 es) = pre := by
    rw [e1, List.filter_append]
    have h1 : pre.filter (fun p => ops.lt p.1 es) = pre :=
      List.filter_eq_self.2 (fun x hx => e3 x hx)
    have h2 : post.filter (fun p => ops.lt p.1 es) = [] :=
      List.filter_eq_nil_iff.2 (fun x hx => by rw [hasym _ _ (e4 x hx)]; simp)
    rw [h1, h2, List.append_nil]
  refine ⟨?_, ?_, ?_, ?_, ?_⟩
  · intro bs r hmem hlt
    refine ⟨bit_range_of_mem ops hswo l hs hc bs r hmem, ?_⟩
    apply bit_range_of_mem ops hswo _ hs1 hc1
    rw [e1] at hmem
    rw [e2]
    rcases List.mem_append.1 hmem with h | h
    · exact List.mem_append_left _ h
    · have := e4 _ h
      rw [hasym _ _ hlt] at this
      cases this
  · intro bs lo hi hmem hlt
    refine ⟨bit_range_of_mem ops hswo l hs hc bs _ hmem, ?_⟩
    apply bit_range_of_mem ops hswo _ hs1 hc1
    rw [e1] at hmem
    rw [e2]
    rcases List.mem_append.1 hmem with h | h
    · have := e3 _ h
      rw [hasym _ _ hlt] at this
      cases this
    · apply List.mem_append_right
      apply List.mem_cons_of_mem
      exact List.mem_map.2 ⟨(bs, (lo, hi)), h, rfl⟩
  · intro p hp
    rw [e1] at hp
    rcases List.mem_append.1 hp with h | h
    · exact Or.inl (e3 p h)
    · exact Or.inr (e4 p h)
  · rw [hfilter]
    apply bit_range_of_mem ops hswo _ hs1 hc1
    rw [e2]
    exact List.mem_append_right _ (List.mem_cons_self _ _)
  · unfold hilbert_space.total_n_bits
    rw [e5]
    ring

/-- Witness of C34: adding the fermion space `2` to the Hilbert space of the
fermion space `1` and the boson space `(4 bits, 0)`: the range `[1, 4]` of the
boson space becomes `[2, 5]`. -/
theorem C34_add_frame_witness :
    hilbert_space.bit_range (elementary_space_ops spec_space_algebra_ids)
        { basis_spaces := [(.fermion ⟨1⟩, (0, 0)), (.boson ⟨4, 0⟩, (1, 4))],
          bit_range_end := 4 } (.boson ⟨4, 0⟩ : elementary_space Nat) = .ok (1, 4) ∧
    hilbert_space.bit_range (elementary_space_ops spec_space_algebra_ids)
        { basis_spaces := [(.fermion ⟨1⟩, (0, 0)), (.fermion ⟨2⟩, (1, 1)),
                           (.boson ⟨4, 0⟩, (2, 5))],
          bit_range_end := 5 } (.boson ⟨4, 0⟩ : elementary_space Nat) =
      .ok (1 + (elementary_space_ops spec_space_algebra_ids).n_bits
              (.fermion ⟨2⟩ : elementary_space Nat),
           4 + (elementary_space_ops spec_space_algebra_ids).n_bits
              (.fermion ⟨2⟩ : elementary_space Nat)) :=
  (C34_add_frame (elementary_space_ops spec_space_algebra_ids) spec_space_ops_swo _
    { basis_spaces := [(.fermion ⟨1⟩, (0, 0)), (.boson ⟨4, 0⟩, (1, 4))], bit_range_end := 4 }
    { basis_spaces := [(.fermion ⟨1⟩, (0, 0)), (.fermion ⟨2⟩, (1, 1)),
                       (.boson ⟨4, 0⟩, (2, 5))],
      bit_range_end := 5 }
    example_hilbert_space_constructed (.fermion ⟨2⟩) rfl).2.1
    (.boson ⟨4, 0⟩) 1 4 (by decide) (by decide)

/-- Witness of C33: the fermion space `1` and the boson space `(4 bits, 0)`
added to the empty Hilbert space in the two orders. -/
theorem C33_add_order_witness :
    ∃ hs2, hilbert_space.constructor_impl (elementary_space_ops spec_space_algebra_ids)
        hilbert_space.empty [(.fermion ⟨1⟩ : elementary_space Nat), .boson ⟨4, 0⟩] = .ok hs2 ∧
      hilbert_space.eq (elementary_space_ops spec_space_algebra_ids)
        { basis_spaces := [(.fermion ⟨1⟩, (0, 0)), (.boson ⟨4, 0⟩, (1, 4))],
          bit_range_end := 4 } hs2 = true ∧
      hs2.basis_spaces = [(.fermion ⟨1⟩, (0, 0)), (.boson ⟨4, 0⟩, (1, 4))] ∧
      hs2.total_n_bits = hilbert_space.total_n_bits
        ({ basis_spaces := [(.fermion ⟨1⟩, (0, 0)), (.boson ⟨4, 0⟩, (1, 4))],
           bit_range_end := 4 } : hilbert_space (elementary_space Nat)) :=
  (C33_add_order (elementary_space_ops spec_space_algebra_ids) spec_space_ops_swo
    (by intro a; cases a <;> simp [elementary_space_ops, elementary_space.eq,
      elementary_space.equal, elementary_space.base_equal])
    [] hilbert_space.empty hilbert_space.constructed.empty
    [(.boson ⟨4, 0⟩ : elementary_space Nat), .fermion ⟨1⟩]
    [(.fermion ⟨1⟩ : elementary_space Nat), .boson ⟨4, 0⟩]
    (List.Perm.swap _ _ _)).1
    { basis_spaces := [(.fermion ⟨1⟩, (0, 0)), (.boson ⟨4, 0⟩, (1, 4))], bit_range_end := 4 }
    rfl

/-! ## Theorems: a bit field of a state index under an update -/

/-- Adding `j` to a field that has room for it: the field grows by `j`, the
bits below the field and the bits above it stay. -/
theorem field_add_room (x j sh nb : Nat) (hfit : x / 2 ^ sh % 2 ^ nb + j < 2 ^ nb) :
    (x + j * 2 ^ sh) / 2 ^ sh % 2 ^ nb = x / 2 ^ sh % 2 ^ nb + j ∧
    (x + j * 2 ^ sh) / 2 ^ (sh + nb) = x / 2 ^ (sh + nb) ∧
    (x + j * 2 ^ sh) % 2 ^ sh = x % 2 ^ sh := by
  have hA : 0 < 2 ^ sh := by positivity
  have hB : 0 < 2 ^ nb := by positivity
  have h1 : (x + j * 2 ^ sh) / 2 ^ sh = x / 2 ^ sh + j := Nat.add_mul_div_right _ _ hA
  have h2 : (x + j * 2 ^ sh) % 2 ^ sh = x % 2 ^ sh := Nat.add_mul_mod_self_right _ _ _
  have h3 : (x / 2 ^ sh + j) / 2 ^ nb = x / 2 ^ sh / 2 ^ nb ∧
      (x / 2 ^ sh + j) % 2 ^ nb = x / 2 ^ sh % 2 ^ nb + j := by
    rw [Nat.div_mod_unique hB]
    refine ⟨?_, hfit⟩
    have := Nat.mod_add_div (x / 2 ^ sh) (2 ^ nb)
    omega
  refine ⟨by rw [h1, h3.2], ?_, h2⟩
  rw [pow_add, ← Nat.div_div_eq_div_mul, ← Nat.div_div_eq_div_mul, h1, h3.1]

/-- Taking `j` from a field that holds at least `j`: the field shrinks by `j`,
the bits below the field and the bits above it stay. -/
theorem field_sub_room (x j sh nb : Nat) (hj : j ≤ x / 2 ^ sh % 2 ^ nb) :
    j * 2 ^ sh ≤ x ∧
    (x - j * 2 ^ sh) / 2 ^ sh % 2 ^ nb = x / 2 ^ sh % 2 ^ nb - j ∧
    (x - j * 2 ^ sh) / 2 ^ (sh + nb) = x / 2 ^ (sh + nb) ∧
    (x - j * 2 ^ sh) % 2 ^ sh = x % 2 ^ sh := by
  have hB : 0 < 2 ^ nb := by positivity
  have hle : j * 2 ^ sh ≤ x := by
    have h1 : j ≤ x / 2 ^ sh := le_trans hj (Nat.mod_le _ _)
    calc j * 2 ^ sh ≤ x / 2 ^ sh * 2 ^ sh := Nat.mul_le_mul_right _ h1
      _ ≤ x := Nat.div_mul_le_self _ _
  have hfit : (x - j * 2 ^ sh) / 2 ^ sh % 2 ^ nb + j < 2 ^ nb ∧
      (x - j * 2 ^ sh) / 2 ^ sh % 2 ^ nb = x / 2 ^ sh % 2 ^ nb - j := by
    have hA : 0 < 2 ^ sh := by positivity
    have h1 : (x - j * 2 ^ sh) / 2 ^ sh = x / 2 ^ sh - j := by
      have h0 := Nat.add_mul_div_right (x - j * 2 ^ sh) j hA
      rw [Nat.sub_add_cancel hle] at h0
      exact Nat.eq_sub_of_add_eq h0.symm
    have h3 : (x / 2 ^ sh - j) / 2 ^ nb = x / 2 ^ sh / 2 ^ nb ∧
        (x / 2 ^ sh - j) % 2 ^ nb = x / 2 ^ sh % 2 ^ nb - j := by
      rw [Nat.div_mod_unique hB]
      have := Nat.mod_add_div (x / 2 ^ sh) (2 ^ nb)
      have := Nat.mod_lt (x / 2 ^ sh) hB
      refine ⟨?_, by omega⟩
      have h4 : j ≤ x / 2 ^ sh := le_trans hj (Nat.mod_le _ _)
      omega
    rw [h1, h3.2]
    have := Nat.mod_lt (x / 2 ^ sh) hB
    exact ⟨by omega, rfl⟩
  obtain ⟨k1, k2, k3⟩ := field_add_room (x - j * 2 ^ sh) j sh nb hfit.1
  rw [Nat.sub_add_cancel hle] at k1 k2 k3
  exact ⟨hle, hfit.2, k2.symm, k3.symm⟩

/-- A state index below `2^64` with a field inside the 64 bits: what lies above
the field decides on which side of `2^64` an index is. -/
theorem lt_of_high_eq (x y sh nb : Nat) (h : sh + nb ≤ 64) (hx : x < 2 ^ 64)
    (hy : y / 2 ^ (sh + nb) = x / 2 ^ (sh + nb)) : y < 2 ^ 64 := by
  have hpos : 0 < 2 ^ (sh + nb) := by positivity
  have h1 : (2 : Nat) ^ 64 = 2 ^ (64 - (sh + nb)) * 2 ^ (sh + nb) := by
    rw [← pow_add]
    congr 1
    omega
  rw [h1] at hx ⊢
  rw [← Nat.div_lt_iff_lt_mul hpos] at hx ⊢
  rw [hy]
  exact hx

/-- A field of a state index is unchanged when the bits below another field
and the bits above that field are unchanged and the two fields do not
overlap. -/
theorem field_eq_of_outside (x y sh nb sh1 nb1 : Nat)
    (hlow : y % 2 ^ sh = x % 2 ^ sh) (hhigh : y / 2 ^ (sh + nb) = x / 2 ^ (sh + nb))
    (hdisj : sh1 + nb1 ≤ sh ∨ sh + nb ≤ sh1) :
    y / 2 ^ sh1 % 2 ^ nb1 = x / 2 ^ sh1 % 2 ^ nb1 := by
  rcases hdisj with h | h
  · have e : ∀ z : Nat, z / 2 ^ sh1 % 2 ^ nb1 = z % 2 ^ sh / 2 ^ sh1 % 2 ^ nb1 := by
      intro z
      have h1 : sh = (sh1 + nb1) + (sh - (sh1 + nb1)) := by omega
      have h2 : z % 2 ^ (sh1 + nb1) = z % 2 ^ sh % 2 ^ (sh1 + nb1) := by
        rw [Nat.mod_mod_of_dvd]
        exact pow_dvd_pow 2 (by omega)
      have h3 : ∀ w : Nat, w / 2 ^ sh1 % 2 ^ nb1 = w % 2 ^ (sh1 + nb1) / 2 ^ sh1 := by
        intro w
        rw [pow_add, Nat.mod_mul_right_div_self]
      rw [h3 z, h3 (z % 2 ^ sh), h2]
    rw [e y, e x, hlow]
  · have e : ∀ z : Nat, z / 2 ^ sh1 = z / 2 ^ (sh + nb) / 2 ^ (sh1 - (sh + nb)) := by
      intro z
      rw [Nat.div_div_eq_div_mul, ← pow_add]
      congr 2
      omega
    rw [e y, e x, hhigh]

/-- A bit of a state index is unchanged when it lies below or above a field and
the bits below the field and the bits above it are unchanged. -/
theorem testBit_eq_of_outside (x y sh nb p : Nat)
    (hlow : y % 2 ^ sh = x % 2 ^ sh) (hhigh : y / 2 ^ (sh + nb) = x / 2 ^ (sh + nb))
    (hp : p < sh ∨ sh + nb ≤ p) : y.testBit p = x.testBit p := by
  have h := field_eq_of_outside x y sh nb p 1 hlow hhigh (by omega)
  rw [Nat.testBit_to_div_mod, Nat.testBit_to_div_mod]
  rw [pow_one] at h
  rw [h]

/-! ## Theorems: one update in terms of the field it acts on -/

/-- One pass through the body of the loop of `act` is `act` of the action that
has this update only and the same table. -/
theorem act_update_eq_act {C : Type} (ops : coeff_ops C) (a : monomial_action_spin)
    (u : single_spin_update_t) (x : Nat) (c : C) :
    monomial_action_spin.act_update ops a u x c =
      monomial_action_spin.act ops { updates := [u], sqr_roots_size := a.sqr_roots_size }
        x c := by
  unfold monomial_action_spin.act
  simp only [List.reverse_cons, List.reverse_nil, List.nil_append]
  rw [act_loop_singleton]
  rfl

/-- An update `S+^k` on a state index below `2^64`, in terms of the value `n`
of the field: `false` when `n + k > 2s`; otherwise the field becomes `n + k`
by adding `k << shift`, without a reduction modulo `2^64`. -/
theorem act_update_plus_field {C : Type} (ops : coeff_ops C) (a : monomial_action_spin)
    (u : single_spin_update_t) (n_bits : Nat) (x : Nat) (c : C)
    (hwf : u.well_formed n_bits) (hk : u.power < 2 ^ 31) (hc : u.c = .plus)
    (hsize : min (spin_ss ((u.s2 : Int) + 1) ((u.s2 : ℚ) / 2) + 1)
      LIBCOMMUTE_SPIN_MAX_NUM_PRECOMPUTED_SQRT ≤ a.sqr_roots_size)
    (hx : x < 2 ^ 64) :
    (u.s2 < x / 2 ^ u.shift % 2 ^ n_bits + u.power →
      monomial_action_spin.act_update ops a u x c = some (false, x, c)) ∧
    (x / 2 ^ u.shift % 2 ^ n_bits + u.power ≤ u.s2 →
      x + u.power * 2 ^ u.shift < 2 ^ 64 ∧
      monomial_action_spin.act_update ops a u x c =
        some (true, x + u.power * 2 ^ u.shift,
          (List.range u.power).foldl (fun c d => ops.mul c (ops.sqrt
            ((u.s2 - (x / 2 ^ u.shift % 2 ^ n_bits + d)) *
              (x / 2 ^ u.shift % 2 ^ n_bits + d + 1)))) c)) := by
  obtain ⟨f1, f2, f3, _⟩ := update_field_lt u n_bits hwf x
  have hmask : u.mask < 2 ^ 63 := by
    obtain ⟨h1, _, _, h4⟩ := hwf
    have h5 : (2 : Nat) ^ n_bits ≤ 2 ^ 31 := Nat.pow_le_pow_right (by norm_num) h4
    omega
  have key := act_plus_single ops { updates := [u], sqr_roots_size := a.sqr_roots_size } u x c
    rfl hc hmask f3 hk hsize
  rw [← act_update_eq_act, f1] at key
  refine ⟨key.1, ?_⟩
  intro hle
  have hfit : x / 2 ^ u.shift % 2 ^ n_bits + u.power < 2 ^ n_bits := by
    obtain ⟨h1, h2, _, _⟩ := hwf
    have : 0 < 2 ^ n_bits := by positivity
    omega
  obtain ⟨_, g2, _⟩ := field_add_room x u.power u.shift n_bits hfit
  have hlt := lt_of_high_eq x (x + u.power * 2 ^ u.shift) u.shift n_bits hwf.2.2.1 hx g2
  refine ⟨hlt, ?_⟩
  rw [key.2 hle, Nat.shiftLeft_eq]
  unfold sv_index_modulus
  rw [Nat.mod_eq_of_lt (show u.power * 2 ^ u.shift < 2 ^ 64 by omega), Nat.mod_eq_of_lt hlt]

/-- An update `S-^k` on a state index below `2^64` whose field holds a value
`n ≤ 2s`: `false` when `n < k`; otherwise the field becomes `n - k` by
subtracting `k << shift`, without a reduction modulo `2^64`. -/
theorem act_update_minus_field {C : Type} (ops : coeff_ops C) (a : monomial_action_spin)
    (u : single_spin_update_t) (n_bits : Nat) (x : Nat) (c : C)
    (hwf : u.well_formed n_bits) (hk : u.power < 2 ^ 31) (hc : u.c = .minus)
    (hsize : min (spin_ss ((u.s2 : Int) + 1) ((u.s2 : ℚ) / 2) + 1)
      LIBCOMMUTE_SPIN_MAX_NUM_PRECOMPUTED_SQRT ≤ a.sqr_roots_size)
    (hx : x < 2 ^ 64) (hn : x / 2 ^ u.shift % 2 ^ n_bits ≤ u.s2) :
    (x / 2 ^ u.shift % 2 ^ n_bits < u.power →
      monomial_action_spin.act_update ops a u x c = some (false, x, c)) ∧
    (u.power ≤ x / 2 ^ u.shift % 2 ^ n_bits →
      u.power * 2 ^ u.shift ≤ x ∧
      monomial_action_spin.act_update ops a u x c =
        some (true, x - u.power * 2 ^ u.shift,
          (List.range u.power).foldl (fun c d => ops.mul c (ops.sqrt
            ((u.s2 - (x / 2 ^ u.shift % 2 ^ n_bits - d) + 1) *
              (x / 2 ^ u.shift % 2 ^ n_bits - d)))) c)) := by
  obtain ⟨f1, f2, f3, _⟩ := update_field_lt u n_bits hwf x
  have key := act_minus_single ops { updates := [u], sqr_roots_size := a.sqr_roots_size } u x c
    rfl hc f3 hk hsize (by rw [f1]; exact hn)
  rw [← act_update_eq_act, f1] at key
  refine ⟨key.1, ?_⟩
  intro hle
  obtain ⟨g1, _, _, _⟩ := field_sub_room x u.power u.shift n_bits hle
  refine ⟨g1, ?_⟩
  rw [key.2 hle, Nat.shiftLeft_eq]
  unfold sv_index_modulus
  rw [Nat.mod_eq_of_lt (show u.power * 2 ^ u.shift < 2 ^ 64 by omega)]
  have h1 : x + 2 ^ 64 - u.power * 2 ^ u.shift = (x - u.power * 2 ^ u.shift) + 2 ^ 64 := by
    omega
  rw [h1, Nat.add_mod_right, Nat.mod_eq_of_lt (by omega)]

/-- An update `Sz^k` in terms of the value `n` of the field: `false` when
`n - s = 0`, otherwise the index stays and the coefficient is multiplied by
`pow(n - s, k)`. -/
theorem act_update_z_field {C : Type} (ops : coeff_ops C) (a : monomial_action_spin)
    (u : single_spin_update_t) (n_bits : Nat) (x : Nat) (c : C)
    (hwf : u.well_formed n_bits) (hc : u.c = .z) :
    monomial_action_spin.act_update ops a u x c =
      if ((x / 2 ^ u.shift % 2 ^ n_bits : Nat) : ℚ) - (u.s2 : ℚ) / 2 = 0 then
        some (false, x, c)
      else
        some (true, x,
          ops.mul c (ops.pow
            (((x / 2 ^ u.shift % 2 ^ n_bits : Nat) : ℚ) - (u.s2 : ℚ) / 2) u.power)) := by
  rw [act_update_z ops a u n_bits x c hwf hc]
  have h : (u.s2 % 2 = 0 ∧ x / 2 ^ u.shift % 2 ^ n_bits = u.s2 / 2) ↔
      ((x / 2 ^ u.shift % 2 ^ n_bits : Nat) : ℚ) - (u.s2 : ℚ) / 2 = 0 := by
    generalize x / 2 ^ u.shift % 2 ^ n_bits = n
    constructor
    · rintro ⟨h1, h2⟩
      have h3 : u.s2 = 2 * n := by omega
      rw [h3]
      push_cast
      ring
    · intro h1
      have h2 : (u.s2 : ℚ) = ((2 * n : Nat) : ℚ) := by
        push_cast
        linarith
      have h3 : u.s2 = 2 * n := by exact_mod_cast h2
      omega
  by_cases hz : u.s2 % 2 = 0 ∧ x / 2 ^ u.shift % 2 ^ n_bits = u.s2 / 2
  · rw [if_pos hz, if_pos (h.1 hz)]
  · rw [if_neg hz, if_neg (fun h1 => hz (h.2 h1))]

/-! ## Theorems: the actions of `S+`, `S-` and `Sz` on one spin -/

/-- The action of the single generator `S+` on a state index below `2^64`
whose field holds `n`. -/
theorem act_plus_one {C : Type} (ops : coeff_ops C) (s2 shift mask n_bits size : Nat)
    (hwf : single_spin_update_t.well_formed
      { s2 := s2, shift := shift, mask := mask, c := .plus, power := 1 } n_bits)
    (hsize : min (spin_ss ((s2 : Int) + 1) ((s2 : ℚ) / 2) + 1)
      LIBCOMMUTE_SPIN_MAX_NUM_PRECOMPUTED_SQRT ≤ size)
    (x : Nat) (hx : x < 2 ^ 64) (c : C) :
    (s2 ≤ x / 2 ^ shift % 2 ^ n_bits →
      monomial_action_spin.act_update ops { updates := [], sqr_roots_size := size }
        { s2 := s2, shift := shift, mask := mask, c := .plus, power := 1 } x c =
        some (false, x, c)) ∧
    (x / 2 ^ shift % 2 ^ n_bits < s2 →
      x + 2 ^ shift < 2 ^ 64 ∧
      (x + 2 ^ shift) / 2 ^ shift % 2 ^ n_bits = x / 2 ^ shift % 2 ^ n_bits + 1 ∧
      monomial_action_spin.act_update ops { updates := [], sqr_roots_size := size }
        { s2 := s2, shift := shift, mask := mask, c := .plus, power := 1 } x c =
        some (true, x + 2 ^ shift,
          ops.mul c (ops.sqrt ((s2 - x / 2 ^ shift % 2 ^ n_bits) *
            (x / 2 ^ shift % 2 ^ n_bits + 1))))) := by
  obtain ⟨k1, k2⟩ := act_update_plus_field ops { updates := [], sqr_roots_size := size }
    { s2 := s2, shift := shift, mask := mask, c := .plus, power := 1 } n_bits x c hwf
    (by norm_num) rfl hsize hx
  simp only [one_mul] at k1 k2
  refine ⟨fun h => k1 (by omega), fun h => ?_⟩
  obtain ⟨k3, k4⟩ := k2 (by omega)
  have hfit : x / 2 ^ shift % 2 ^ n_bits + 1 < 2 ^ n_bits := by
    obtain ⟨h1, h2, _, _⟩ := hwf
    simp only at h1 h2
    have : 0 < 2 ^ n_bits := by positivity
    omega
  have k5 := (field_add_room x 1 shift n_bits hfit).1
  rw [one_mul] at k5
  refine ⟨k3, k5, ?_⟩
  rw [k4]
  simp [List.range_succ]

/-- The action of the single generator `S-` on a state index below `2^64`
whose field holds `n ≤ 2s`. -/
theorem act_minus_one {C : Type} (ops : coeff_ops C) (s2 shift mask n_bits size : Nat)
    (hwf : single_spin_update_t.well_formed
      { s2 := s2, shift := shift, mask := mask, c := .minus, power := 1 } n_bits)
    (hsize : min (spin_ss ((s2 : Int) + 1) ((s2 : ℚ) / 2) + 1)
      LIBCOMMUTE_SPIN_MAX_NUM_PRECOMPUTED_SQRT ≤ size)
    (x : Nat) (hx : x < 2 ^ 64) (c : C) (hn : x / 2 ^ shift % 2 ^ n_bits ≤ s2) :
    (x / 2 ^ shift % 2 ^ n_bits = 0 →
      monomial_action_spin.act_update ops { updates := [], sqr_roots_size := size }
        { s2 := s2, shift := shift, mask := mask, c := .minus, power := 1 } x c =
        some (false, x, c)) ∧
    (1 ≤ x / 2 ^ shift % 2 ^ n_bits →
      2 ^ shift ≤ x ∧
      (x - 2 ^ shift) / 2 ^ shift % 2 ^ n_bits = x / 2 ^ shift % 2 ^ n_bits - 1 ∧
      monomial_action_spin.act_update ops { updates := [], sqr_roots_size := size }
        { s2 := s2, shift := shift, mask := mask, c := .minus, power := 1 } x c =
        some (true, x - 2 ^ shift,
          ops.mul c (ops.sqrt ((s2 - x / 2 ^ shift % 2 ^ n_bits + 1) *
            (x / 2 ^ shift % 2 ^ n_bits))))) := by
  obtain ⟨k1, k2⟩ := act_update_minus_field ops { updates := [], sqr_roots_size := size }
    { s2 := s2, shift := shift, mask := mask, c := .minus, power := 1 } n_bits x c hwf
    (by norm_num) rfl hsize hx hn
  simp only [one_mul] at k1 k2
  refine ⟨fun h => k1 (by omega), fun h => ?_⟩
  obtain ⟨k3, k4⟩ := k2 h
  have k5 := (field_sub_room x 1 shift n_bits h).2.1
  rw [one_mul] at k5
  refine ⟨k3, k5, ?_⟩
  rw [k4]
  simp [List.range_succ]

/-- C35: the action of `S-` is the adjoint of the action of `S+`. For a spin
with `2s = s2` in a field of `n_bits` bits at `shift` (mask `2^n_bits - 1`,
`s2` at most the mask, the field within the 64 bits), tables of the size the
constructor gives them, and a state index below `2^64` whose field holds `n`:
when `n < 2s`, `S+` returns `true`, the field becomes `n + 1` and the
coefficient is multiplied by the square root of `(2s - n)(n + 1)`, and `S-`
takes the new state back to the old one, multiplying the coefficient by the
square root of the same number; `S+` returns `false` exactly when `n ≥ 2s`
(on valid states: exactly when `n = 2s`), and on valid states `S-` returns
`false` exactly when `n = 0`. -/
theorem C35_plus_minus_adjoint {C : Type} (ops : coeff_ops C)
    (s2 shift mask n_bits size1 size2 : Nat)
    (hwf : single_spin_update_t.well_formed
      { s2 := s2, shift := shift, mask := mask, c := .plus, power := 1 } n_bits)
    (hsize1 : min (spin_ss ((s2 : Int) + 1) ((s2 : ℚ) / 2) + 1)
      LIBCOMMUTE_SPIN_MAX_NUM_PRECOMPUTED_SQRT ≤ size1)
    (hsize2 : min (spin_ss ((s2 : Int) + 1) ((s2 : ℚ) / 2) + 1)
      LIBCOMMUTE_SPIN_MAX_NUM_PRECOMPUTED_SQRT ≤ size2)
    (x : Nat) (hx : x < 2 ^ 64) (c c1 : C) :
    (x / 2 ^ shift % 2 ^ n_bits < s2 →
      monomial_action_spin.act ops
          { updates := [{ s2 := s2, shift := shift, mask := mask, c := .plus, power := 1 }],
            sqr_roots_size := size1 } x c =
        some (true, x + 2 ^ shift,
          ops.mul c (ops.sqrt ((s2 - x / 2 ^ shift % 2 ^ n_bits) *
            (x / 2 ^ shift % 2 ^ n_bits + 1)))) ∧
      x + 2 ^ shift < 2 ^ 64 ∧
      (x + 2 ^ shift) / 2 ^ shift % 2 ^ n_bits = x / 2 ^ shift % 2 ^ n_bits + 1 ∧
      monomial_action_spin.act ops
          { updates := [{ s2 := s2, shift := shift, mask := mask, c := .minus, power := 1 }],
            sqr_roots_size := size2 } (x + 2 ^ shift) c1 =
        some (true, x,
          ops.mul c1 (ops.sqrt ((s2 - x / 2 ^ shift % 2 ^ n_bits) *
            (x / 2 ^ shift % 2 ^ n_bits + 1))))) ∧
    (monomial_action_spin.act ops
          { updates := [{ s2 := s2, shift := shift, mask := mask, c := .plus, power := 1 }],
            sqr_roots_size := size1 } x c = some (false, x, c) ↔
      s2 ≤ x / 2 ^ shift % 2 ^ n_bits) ∧
    (x / 2 ^ shift % 2 ^ n_bits ≤ s2 →
      (monomial_action_spin.act ops
          { updates := [{ s2 := s2, shift := shift, mask := mask, c := .plus, power := 1 }],
            sqr_roots_size := size1 } x c = some (false, x, c) ↔
        x / 2 ^ shift % 2 ^ n_bits = s2) ∧
      (monomial_action_spin.act ops
          { updates := [{ s2 := s2, shift := shift, mask := mask, c := .minus, power := 1 }],
            sqr_roots_size := size2 } x c = some (false, x, c) ↔
        x / 2 ^ shift % 2 ^ n_bits = 0)) := by
  have hwf2 : single_spin_update_t.well_formed
      { s2 := s2, shift := shift, mask := mask, c := .minus, power := 1 } n_bits := hwf
  have ep : ∀ (y : Nat) (d : C), monomial_action_spin.act ops
      { updates := [{ s2 := s2, shift := shift, mask := mask, c := .plus, power := 1 }],
        sqr_roots_size := size1 } y d =
      monomial_action_spin.act_update ops { updates := [], sqr_roots_size := size1 }
        { s2 := s2, shift := shift, mask := mask, c := .plus, power := 1 } y d :=
    fun y d => (act_update_eq_act ops { updates := [], sqr_roots_size := size1 } _ y d).symm
  have em : ∀ (y : Nat) (d : C), monomial_action_spin.act ops
      { updates := [{ s2 := s2, shift := shift, mask := mask, c := .minus, power := 1 }],
        sqr_roots_size := size2 } y d =
      monomial_action_spin.act_update ops { updates := [], sqr_roots_size := size2 }
        { s2 := s2, shift := shift, mask := mask, c := .minus, power := 1 } y d :=
    fun y d => (act_update_eq_act ops { updates := [], sqr_roots_size := size2 } _ y d).symm
  obtain ⟨p1, p2⟩ := act_plus_one ops s2 shift mask n_bits size1 hwf hsize1 x hx c
  have hplus : monomial_action_spin.act ops
        { updates := [{ s2 := s2, shift := shift, mask := mask, c := .plus, power := 1 }],
          sqr_roots_size := size1 } x c = some (false, x, c) ↔
      s2 ≤ x / 2 ^ shift % 2 ^ n_bits := by
    rw [ep]
    constructor
    · intro h
      by_contra hlt
      rw [(p2 (by omega)).2.2] at h
      cases h
    · exact p1
  refine ⟨?_, hplus, ?_⟩
  · intro hlt
    obtain ⟨q1, q2, q3⟩ := p2 hlt
    refine ⟨by rw [ep, q3], q1, q2, ?_⟩
    obtain ⟨_, m2⟩ := act_minus_one ops s2 shift mask n_bits size2 hwf2 hsize2
      (x + 2 ^ shift) q1 c1 (by rw [q2]; omega)
    obtain ⟨_, _, m5⟩ := m2 (by rw [q2]; omega)
    rw [em, m5, q2, Nat.add_sub_cancel]
    have h1 : s2 - (x / 2 ^ shift % 2 ^ n_bits + 1) + 1 = s2 - x / 2 ^ shift % 2 ^ n_bits := by
      omega
    rw [h1]
  · intro hn
    refine ⟨by rw [hplus]; omega, ?_⟩
    obtain ⟨m1, m2⟩ := act_minus_one ops s2 shift mask n_bits size2 hwf2 hsize2 x hx c hn
    rw [em]
    constructor
    · intro h
      by_contra hne
      rw [(m2 (by omega)).2.2] at h
      cases h
    · exact m1

/-- Witness of C35: a spin 3/2 in the bits 2 and 3, holding `n = 1` in the
state 7: `S+` gives the state 11 and `S-` takes it back to 7. Integer square
roots stand for the coefficients. -/
theorem C35_plus_minus_adjoint_witness :
    monomial_action_spin.act
        { mul := fun x y => x * y, sqrt := Nat.sqrt, pow := fun _ k => k }
        { updates := [{ s2 := 3, shift := 2, mask := 3, c := .plus, power := 1 }],
          sqr_roots_size := 5 } 7 (1 : Nat) =
      some (true, 7 + 2 ^ 2, 1 * Nat.sqrt ((3 - 7 / 2 ^ 2 % 2 ^ 2) * (7 / 2 ^ 2 % 2 ^ 2 + 1))) ∧
    7 + 2 ^ 2 < 2 ^ 64 ∧
    (7 + 2 ^ 2) / 2 ^ 2 % 2 ^ 2 = 7 / 2 ^ 2 % 2 ^ 2 + 1 ∧
    monomial_action_spin.act
        { mul := fun x y => x * y, sqrt := Nat.sqrt, pow := fun _ k => k }
        { updates := [{ s2 := 3, shift := 2, mask := 3, c := .minus, power := 1 }],
          sqr_roots_size := 5 } (7 + 2 ^ 2) (1 : Nat) =
      some (true, 7, 1 * Nat.sqrt ((3 - 7 / 2 ^ 2 % 2 ^ 2) * (7 / 2 ^ 2 % 2 ^ 2 + 1))) :=
  (C35_plus_minus_adjoint
    { mul := fun x y => x * y, sqrt := Nat.sqrt, pow := fun _ k => k } 3 2 3 2 5 5
    ⟨by decide, by decide, by decide, by decide⟩
    (by rw [spin_ss_eq 3 (by norm_num)]; decide) (by rw [spin_ss_eq 3 (by norm_num)]; decide)
    7 (by norm_num) 1 1).1 (by decide)

/-! ## Theorems: the commutator of `S+` and `S-` -/

/-- The loop over the square roots has a defined result exactly when every
read has one. -/
theorem mul_sqr_roots_isSome {C : Type} (ops : coeff_ops C) (a : monomial_action_spin)
    (arg : Nat → Nat) :
    ∀ (power : Nat) (coeff : C),
      (monomial_action_spin.mul_sqr_roots ops a arg power coeff).isSome = true ↔
        ∀ x ∈ (List.range power).map arg,
          (monomial_action_spin.sqr_root ops a x).isSome = true
  | 0, coeff => by simp [monomial_action_spin.mul_sqr_roots]
  | k + 1, coeff => by
    have ih := mul_sqr_roots_isSome ops a arg k
    unfold monomial_action_spin.mul_sqr_roots at ih ⊢
    rw [List.range_succ, List.foldlM_append, List.map_append]
    simp only [List.map_cons, List.map_nil, List.mem_append, List.mem_singleton]
    rcases h : List.foldlM (fun c d => (monomial_action_spin.sqr_root ops a (arg d)).map
        (fun r => ops.mul c r)) coeff (List.range k) with _ | c1
    · have h1 := (ih coeff).not.1 (by rw [h]; simp)
      simp only [Option.bind_eq_bind, Option.none_bind, Option.isSome_none,
        Bool.false_eq_true, false_iff]
      intro hall
      exact h1 (fun x hx => hall x (Or.inl hx))
    · have h1 := (ih coeff).1 (by rw [h]; simp)
      simp only [Option.bind_eq_bind, Option.some_bind, List.foldlM_cons, List.foldlM_nil]
      constructor
      · intro h2 x hx
        rcases hx with hx | hx
        · exact h1 x hx
        · rw [hx]
          rcases h3 : monomial_action_spin.sqr_root ops a (arg k) with _ | r
          · rw [h3] at h2
            simp at h2
          · rfl
      · intro hall
        have h3 := hall (arg k) (Or.inr rfl)
        obtain ⟨r, hr⟩ := Option.isSome_iff_exists.1 h3
        rw [hr]
        simp

/-- One pass through the body of the loop of `act` and its trace: the result
is defined exactly when every traced read is, and the pass goes on with the
traced index exactly when it returns `true`. -/
theorem act_update_trace {C : Type} (ops : coeff_ops C) (a : monomial_action_spin)
    (u : single_spin_update_t) (x : Nat) (c : C) :
    ((monomial_action_spin.act_update ops a u x c).isSome = true ↔
      ∀ y ∈ monomial_action_spin.sqr_root_args u x,
        (monomial_action_spin.sqr_root ops a y).isSome = true) ∧
    (∀ b x1 c1, monomial_action_spin.act_update ops a u x c = some (b, x1, c1) →
      (b = true → monomial_action_spin.update_index u x = some x1) ∧
      (b = false → monomial_action_spin.update_index u x = none)) := by
  unfold monomial_action_spin.act_update monomial_action_spin.sqr_root_args
    monomial_action_spin.update_index
  rcases hc : u.c with _ | _ | _
  · simp only
    split
    · simp
    · constructor
      · rw [← mul_sqr_roots_isSome ops a _ u.power c]
        generalize monomial_action_spin.mul_sqr_roots ops a _ u.power c = r
        rcases r with _ | c2 <;> rfl
      · intro b x1 c1
        generalize monomial_action_spin.mul_sqr_roots ops a _ u.power c = r
        intro h
        rcases r with _ | c2
        · cases h
        · simp only [Option.some.injEq, Prod.mk.injEq] at h
          obtain ⟨rfl, rfl, _⟩ := h
          simp
  · simp only
    split
    · simp
    · constructor
      · rw [← mul_sqr_roots_isSome ops a _ u.power c]
        generalize monomial_action_spin.mul_sqr_roots ops a _ u.power c = r
        rcases r with _ | c2 <;> rfl
      · intro b x1 c1
        generalize monomial_action_spin.mul_sqr_roots ops a _ u.power c = r
        intro h
        rcases r with _ | c2
        · cases h
        · simp only [Option.some.injEq, Prod.mk.injEq] at h
          obtain ⟨rfl, rfl, _⟩ := h
          simp
  · simp only
    split
    · simp
    · simp only [Option.isSome_some, List.not_mem_nil, false_implies, implies_true, true_and,
        Option.some.injEq, Prod.mk.injEq, and_imp]
      intro b x1 c1 h1 h2 _
      subst h1
      subst h2
      simp

/-- The loop of `act` and its trace: the result is defined exactly when every
traced read is. -/
theorem act_loop_trace {C : Type} (ops : coeff_ops C) (a : monomial_action_spin) :
    ∀ (us : List single_spin_update_t) (x : Nat) (c : C),
      (monomial_action_spin.act_loop ops a us x c).isSome = true ↔
        ∀ y ∈ monomial_action_spin.act_sqr_root_args us x,
          (monomial_action_spin.sqr_root ops a y).isSome = true
  | [], x, c => by simp [monomial_action_spin.act_loop, monomial_action_spin.act_sqr_root_args]
  | u :: us, x, c => by
    obtain ⟨t1, t2⟩ := act_update_trace ops a u x c
    simp only [monomial_action_spin.act_loop, monomial_action_spin.act_sqr_root_args,
      List.mem_append]
    rcases h : monomial_action_spin.act_update ops a u x c with _ | ⟨b, x1, c1⟩
    · rw [h] at t1
      have h1 := t1.not.1 (by simp)
      simp only [Option.isSome_none, Bool.false_eq_true, false_iff]
      intro hall
      exact h1 (fun y hy => hall y (Or.inl hy))
    · rw [h] at t1
      have h1 := t1.1 rfl
      cases b with
      | false =>
        rw [(t2 false x1 c1 h).2 rfl]
        simp only [Option.isSome_some, List.not_mem_nil, or_false, true_iff]
        exact h1
      | true =>
        rw [(t2 true x1 c1 h).1 rfl]
        simp only
        rw [act_loop_trace ops a us x1 c1]
        constructor
        · intro hall y hy
          rcases hy with hy | hy
          · exact h1 y hy
          · exact hall y hy
        · intro hall y hy
          exact hall y (Or.inr hy)

/-- A read of the table of square roots has a defined value exactly when its
argument is below the size of the table or not below the maximal size, and
the value is the square root of the argument. -/
theorem sqr_root_isSome_iff {C : Type} (ops : coeff_ops C) (a : monomial_action_spin)
    (y : Nat) :
    ((monomial_action_spin.sqr_root ops a y).isSome = true ↔
      y < a.sqr_roots_size ∨ LIBCOMMUTE_SPIN_MAX_NUM_PRECOMPUTED_SQRT ≤ y) ∧
    ((monomial_action_spin.sqr_root ops a y).isSome = true →
      monomial_action_spin.sqr_root ops a y = some (ops.sqrt y)) := by
  unfold monomial_action_spin.sqr_root
  by_cases h1 : y < LIBCOMMUTE_SPIN_MAX_NUM_PRECOMPUTED_SQRT
  · by_cases h2 : y < a.sqr_roots_size
    · simp [h1, h2]
    · simp only [h1, h2, if_true, if_false, Option.isSome_none, Bool.false_eq_true, false_iff,
        false_implies, and_true]
      rintro (h | h)
      · exact h
      · omega
  · simp only [h1, if_false, Option.isSome_some, true_iff, true_implies, and_true]
    omega

/-- The reads of the loop of `act` over updates that the constructor could
have built, with a table of at least the size the constructor gives it for
the spins of the updates: every argument is below the size of the table or
not below the maximal size. -/
theorem act_sqr_root_args_defined (a : monomial_action_spin)
    (us : List single_spin_update_t)
    (hus : ∀ u ∈ us, (∃ n_bits, u.well_formed n_bits) ∧ u.power < 2 ^ 31 ∧
      min (spin_ss ((u.s2 : Int) + 1) ((u.s2 : ℚ) / 2) + 1)
        LIBCOMMUTE_SPIN_MAX_NUM_PRECOMPUTED_SQRT ≤ a.sqr_roots_size)
    (x : Nat) :
    ∀ y ∈ monomial_action_spin.act_sqr_root_args us x,
      y < a.sqr_roots_size ∨ LIBCOMMUTE_SPIN_MAX_NUM_PRECOMPUTED_SQRT ≤ y := by
  have hdef : monomial_action_spin.act_loop
      ({ mul := fun _ _ => (), sqrt := fun _ => (), pow := fun _ _ => () } : coeff_ops Unit)
      a us x () ≠ none := by
    rw [act_loop_table _ a
      { updates := [], sqr_roots_size := LIBCOMMUTE_SPIN_MAX_NUM_PRECOMPUTED_SQRT } us
      (fun u hu => ⟨(hus u hu).1, (hus u hu).2.1, (hus u hu).2.2, min_le_right _ _⟩)]
    exact act_loop_defined _ _ (le_refl _) us (fun u hu => ⟨(hus u hu).1, (hus u hu).2.1⟩) x ()
  have hsome := (act_loop_trace _ a us x ()).1 (Option.isSome_iff_ne_none.2 hdef)
  intro y hy
  exact (sqr_root_isSome_iff _ a y).1.1 (hsome y hy)

/-- The updates of the action that the constructor builds for a monomial of
spin generators whose spaces are in the Hilbert space: each is the update of a
generator of the monomial, acts on the bit range of the space of that
generator, has a power between 1 and `2^31`, and the table of square roots has
at least the size that the spin of the update needs. -/
theorem of_range_updates {ι : Type} [LinearOrder ι] (ids : space_algebra_ids)
    (h1 : ids.fermion ≠ ids.boson) (h2 : ids.fermion ≠ ids.spin) (h3 : ids.boson ≠ ids.spin)
    (h4 : ids.fermion ≠ SPIN_ALGEBRA_ID) (h5 : ids.boson ≠ SPIN_ALGEBRA_ID)
    (l : List (elementary_space ι)) (hs : hilbert_space (elementary_space ι))
    (hc : hilbert_space.constructed (elementary_space_ops ids) l hs)
    (hn : ∀ x ∈ l, 0 ≤ (elementary_space_ops ids).n_bits x)
    (hmade : ∀ es : elementary_space_spin ι, .spin es ∈ l →
      es.n_bits = (Nat.clog 2 es.multiplicity.toNat : Nat))
    (h64 : hs.total_n_bits ≤ 64)
    (gs : List (generator_spin ι))
    (hhas : ∀ g ∈ gs, hilbert_space.has (elementary_space_ops ids) hs g.space = true)
    (hmult : ∀ g ∈ gs, 1 ≤ g.multiplicity ∧ g.multiplicity < 2 ^ 31)
    (hlen : gs.length < 2 ^ 31) :
    ∃ a : monomial_action_spin,
      monomial_action_spin.of_range ids (gs.map .spin) hs = .ok a ∧
      ∀ u ∈ a.updates, ∃ g ∈ gs, ∃ lo hi : Int,
        (g.space, (lo, hi)) ∈ hs.basis_spaces ∧
        u.well_formed (Nat.clog 2 g.multiplicity.toNat) ∧
        (u.s2 : Int) = g.multiplicity - 1 ∧ (u.shift : Int) = lo ∧
        hi = lo + ((Nat.clog 2 g.multiplicity.toNat : Nat) : Int) - 1 ∧
        u.c = g.c ∧ 1 ≤ u.power ∧ u.power < 2 ^ 31 ∧
        min (spin_ss ((u.s2 : Int) + 1) ((u.s2 : ℚ) / 2) + 1)
          LIBCOMMUTE_SPIN_MAX_NUM_PRECOMPUTED_SQRT ≤ a.sqr_roots_size := by
  obtain ⟨size1, hof, hsize⟩ := of_range_spin ids h4 h5 hs gs hhas hlen
  refine ⟨_, hof, ?_⟩
  intro u hu
  obtain ⟨q, hq, rfl⟩ := List.mem_map.1 hu
  obtain ⟨hq1, hq2, hq3⟩ := run_length_encoding_mem gs q hq
  obtain ⟨lo, hi, _, hbr, hwf, hs2, hsh, _, hcc, hp, hss⟩ :=
    spin_update_fields ids h1 h2 h3 l hs hc hn hmade h64 q.1 (hhas q.1 hq1) (hmult q.1 hq1).1
      (hmult q.1 hq1).2 q.2
  have hfound := spin_space_found ids h1 h2 h3 l hs hc hmade q.1 (hhas q.1 hq1)
  rw [hbr] at hfound
  have hlay := constructed_range_layout (elementary_space_ops ids) l hs hc hn q.1.space lo hi
    hfound
  refine ⟨q.1, hq1, lo, hi, hfound, hwf, hs2, hsh, hlay.2.1, hcc, ?_, ?_, ?_⟩
  · rw [hp]
    exact hq2
  · rw [hp]
    omega
  · rw [hss]
    have hsz := hsize q.1 hq1
    have hbound : spin_ss q.1.multiplicity q.1.spin + 1 < sv_index_modulus := by
      rw [← hss]
      have hlt : (monomial_action_spin.make_update q.1 (spin_bit_range ids hs q.1) q.2).s2 <
          2 ^ 31 := by
        have := (hmult q.1 hq1).2
        omega
      rw [spin_ss_eq _ hlt]
      have i1 : ((monomial_action_spin.make_update q.1 (spin_bit_range ids hs q.1) q.2).s2
          + 1) / 2 < 2 ^ 31 := by omega
      have i2 : ((monomial_action_spin.make_update q.1 (spin_bit_range ids hs q.1) q.2).s2
          + 2) / 2 < 2 ^ 31 := by omega
      have i3 := Nat.mul_lt_mul'' i1 i2
      unfold sv_index_modulus
      omega
    rw [Nat.mod_eq_of_lt hbound] at hsz
    exact min_le_min hsz (le_refl _)

/-- The bound that the size of the table of square roots rests on, over the
rational numbers: for a spin `s` with `2s = s2` and `0 ≤ j ≤ 2s`,
`(2s - j)(j + 1)` is at most `(s + 1/2)^2` when `s` is half-integer and at
most `s(s + 1)` when `s` is integer; and these are the values `ss` of the
constructor. -/
theorem sqr_root_arg_bound (s2 j : Nat) (hs2 : s2 < 2 ^ 31) (hj : j ≤ s2) :
    (s2 - j) * (j + 1) ≤ spin_ss ((s2 : Int) + 1) ((s2 : ℚ) / 2) ∧
    (s2 % 2 = 1 →
      ((spin_ss ((s2 : Int) + 1) ((s2 : ℚ) / 2) : Nat) : ℚ) =
        ((s2 : ℚ) / 2 + 1 / 2) * ((s2 : ℚ) / 2 + 1 / 2) ∧
      ((s2 : ℚ) - j) * (j + 1) ≤ ((s2 : ℚ) / 2 + 1 / 2) * ((s2 : ℚ) / 2 + 1 / 2)) ∧
    (s2 % 2 = 0 →
      ((spin_ss ((s2 : Int) + 1) ((s2 : ℚ) / 2) : Nat) : ℚ) =
        (s2 : ℚ) / 2 * ((s2 : ℚ) / 2 + 1) ∧
      ((s2 : ℚ) - j) * (j + 1) ≤ (s2 : ℚ) / 2 * ((s2 : ℚ) / 2 + 1)) := by
  have hle := sqr_root_arg_le s2 j hj
  rw [spin_ss_eq s2 hs2]
  have hq : ((s2 : ℚ) - j) * (j + 1) = (((s2 - j) * (j + 1) : Nat) : ℚ) := by
    push_cast [Nat.cast_sub hj]
    ring
  have hleq : (((s2 - j) * (j + 1) : Nat) : ℚ) ≤ (((s2 + 1) / 2 * ((s2 + 2) / 2) : Nat) : ℚ) :=
    by exact_mod_cast hle
  refine ⟨hle, ?_, ?_⟩
  · intro hodd
    obtain ⟨m, rfl⟩ : ∃ m, s2 = 2 * m + 1 := ⟨s2 / 2, by omega⟩
    have e1 : (2 * m + 1 + 1) / 2 = m + 1 := by omega
    have e2 : (2 * m + 1 + 2) / 2 = m + 1 := by omega
    rw [e1, e2] at hleq ⊢
    have e3 : (((m + 1) * (m + 1) : Nat) : ℚ) =
        (((2 * m + 1 : Nat) : ℚ) / 2 + 1 / 2) * (((2 * m + 1 : Nat) : ℚ) / 2 + 1 / 2) := by
      push_cast
      ring
    refine ⟨e3, ?_⟩
    rw [hq, ← e3]
    exact hleq
  · intro heven
    obtain ⟨m, rfl⟩ : ∃ m, s2 = 2 * m := ⟨s2 / 2, by omega⟩
    have e1 : (2 * m + 1) / 2 = m := by omega
    have e2 : (2 * m + 2) / 2 = m + 1 := by omega
    rw [e1, e2] at hleq ⊢
    have e3 : ((m * (m + 1) : Nat) : ℚ) =
        ((2 * m : Nat) : ℚ) / 2 * (((2 * m : Nat) : ℚ) / 2 + 1) := by
      push_cast
      ring
    refine ⟨e3, ?_⟩
    rw [hq, ← e3]
    exact hleq

/-- C31: over a Hilbert space of at most 64 bits, built by the program from
spaces without negative `n_bits` and spin spaces that their constructor made,
for the action compiled from a monomial of spin generators whose spaces are in
the Hilbert space (multiplicities between 1 and `2^31`, fewer than `2^31`
generators) and every input index: each argument `y` that `act` passes to
`sqr_root` is below `sqr_roots_.size()` or at least 128, so that the read is
within the table or is not a read, and `sqr_root(y)` is the square root of
`y`; `act` has a defined result, which it has exactly when every read that is
traced has one. The size of the table rests on the bound
`(2s - j)(j + 1) ≤ ss`, where `ss` is `(s + 1/2)^2` for half-integer `s` and
`s(s + 1)` for integer `s`. -/
theorem C31_sqr_root_in_bounds {ι : Type} [LinearOrder ι] {C : Type} (ops : coeff_ops C)
    (ids : space_algebra_ids)
    (h1 : ids.fermion ≠ ids.boson) (h2 : ids.fermion ≠ ids.spin) (h3 : ids.boson ≠ ids.spin)
    (h4 : ids.fermion ≠ SPIN_ALGEBRA_ID) (h5 : ids.boson ≠ SPIN_ALGEBRA_ID)
    (l : List (elementary_space ι)) (hs : hilbert_space (elementary_space ι))
    (hc : hilbert_space.constructed (elementary_space_ops ids) l hs)
    (hn : ∀ x ∈ l, 0 ≤ (elementary_space_ops ids).n_bits x)
    (hmade : ∀ es : elementary_space_spin ι, .spin es ∈ l →
      es.n_bits = (Nat.clog 2 es.multiplicity.toNat : Nat))
    (h64 : hs.total_n_bits ≤ 64)
    (m : List (generator_spin ι))
    (hhas : ∀ g ∈ m, hilbert_space.has (elementary_space_ops ids) hs g.space = true)
    (hmult : ∀ g ∈ m, 1 ≤ g.multiplicity ∧ g.multiplicity < 2 ^ 31)
    (hlen : m.length < 2 ^ 31) :
    (∃ a : monomial_action_spin,
      monomial_action_spin.of_range ids (m.map .spin) hs = .ok a ∧
      (∀ (in_index : Nat),
        ∀ y ∈ monomial_action_spin.act_sqr_root_args a.updates.reverse in_index,
          (y < a.sqr_roots_size ∨ LIBCOMMUTE_SPIN_MAX_NUM_PRECOMPUTED_SQRT ≤ y) ∧
          monomial_action_spin.sqr_root ops a y = some (ops.sqrt y)) ∧
      (∀ (in_index : Nat) (coeff : C),
        monomial_action_spin.act ops a in_index coeff ≠ none ∧
        ((monomial_action_spin.act ops a in_index coeff).isSome = true ↔
          ∀ y ∈ monomial_action_spin.act_sqr_root_args a.updates.reverse in_index,
            (monomial_action_spin.sqr_root ops a y).isSome = true)) ∧
      (∀ u ∈ a.updates, ∀ j : Nat, j ≤ u.s2 →
        (u.s2 - j) * (j + 1) < spin_ss ((u.s2 : Int) + 1) ((u.s2 : ℚ) / 2) + 1 ∧
        min (spin_ss ((u.s2 : Int) + 1) ((u.s2 : ℚ) / 2) + 1)
          LIBCOMMUTE_SPIN_MAX_NUM_PRECOMPUTED_SQRT ≤ a.sqr_roots_size)) ∧
    (∀ s2 j : Nat, s2 < 2 ^ 31 → j ≤ s2 →
      (s2 - j) * (j + 1) ≤ spin_ss ((s2 : Int) + 1) ((s2 : ℚ) / 2) ∧
      (s2 % 2 = 1 →
        ((spin_ss ((s2 : Int) + 1) ((s2 : ℚ) / 2) : Nat) : ℚ) =
          ((s2 : ℚ) / 2 + 1 / 2) * ((s2 : ℚ) / 2 + 1 / 2) ∧
        ((s2 : ℚ) - j) * (j + 1) ≤ ((s2 : ℚ) / 2 + 1 / 2) * ((s2 : ℚ) / 2 + 1 / 2)) ∧
      (s2 % 2 = 0 →
        ((spin_ss ((s2 : Int) + 1) ((s2 : ℚ) / 2) : Nat) : ℚ) =
          (s2 : ℚ) / 2 * ((s2 : ℚ) / 2 + 1) ∧
        ((s2 : ℚ) - j) * (j + 1) ≤ (s2 : ℚ) / 2 * ((s2 : ℚ) / 2 + 1))) := by
  refine ⟨?_, fun s2 j hs2 hj => sqr_root_arg_bound s2 j hs2 hj⟩
  obtain ⟨a, hof, hupd⟩ := of_range_updates ids h1 h2 h3 h4 h5 l hs hc hn hmade h64 m hhas
    hmult hlen
  have hus : ∀ u ∈ a.updates.reverse, (∃ n_bits, u.well_formed n_bits) ∧ u.power < 2 ^ 31 ∧
      min (spin_ss ((u.s2 : Int) + 1) ((u.s2 : ℚ) / 2) + 1)
        LIBCOMMUTE_SPIN_MAX_NUM_PRECOMPUTED_SQRT ≤ a.sqr_roots_size := by
    intro u hu
    obtain ⟨g, _, lo, hi, _, hwf, _, _, _, _, _, hk, hsz⟩ := hupd u (List.mem_reverse.1 hu)
    exact ⟨⟨_, hwf⟩, hk, hsz⟩
  have hargs := act_sqr_root_args_defined a a.updates.reverse hus
  refine ⟨a, hof, ?_, ?_, ?_⟩
  · intro in_index y hy
    have hb := hargs in_index y hy
    exact ⟨hb, (sqr_root_isSome_iff ops a y).2 ((sqr_root_isSome_iff ops a y).1.2 hb)⟩
  · intro in_index coeff
    have htr := act_loop_trace ops a a.updates.reverse in_index coeff
    refine ⟨?_, htr⟩
    apply Option.isSome_iff_ne_none.1
    apply htr.2
    intro y hy
    exact (sqr_root_isSome_iff ops a y).1.2 (hargs in_index y hy)
  · intro u hu j hj
    obtain ⟨g, hg, lo, hi, _, hwf, hs2, _, _, _, _, _, hsz⟩ := hupd u hu
    have hlt : u.s2 < 2 ^ 31 := by
      have := (hmult g hg).2
      omega
    exact ⟨Nat.lt_succ_of_le (sqr_root_arg_bound u.s2 j hlt hj).1, hsz⟩

/-! ## Theorems: the bits that an action changes -/

/-- The bit field of a range, as a quotient and a remainder. -/
theorem bit_field_eq (x : Nat) (r : bit_range_t) :
    bit_field x r = x / 2 ^ r.1.toNat % 2 ^ (r.2 - r.1 + 1).toNat := by
  unfold bit_field
  rw [Nat.one_shiftLeft, field_eq_div_mod]

/-- One successful pass through the body of the loop of `act`, on a state
index below `2^64` whose field holds a value `n ≤ 2s`: the new index is below
`2^64`, the bits below the field and the bits above it are as before, and the
field holds a value `≤ 2s` again. -/
theorem act_update_frame {C : Type} (ops : coeff_ops C) (a : monomial_action_spin)
    (u : single_spin_update_t) (n_bits : Nat) (x : Nat) (c : C)
    (hwf : u.well_formed n_bits) (hk : u.power < 2 ^ 31)
    (hsize : min (spin_ss ((u.s2 : Int) + 1) ((u.s2 : ℚ) / 2) + 1)
      LIBCOMMUTE_SPIN_MAX_NUM_PRECOMPUTED_SQRT ≤ a.sqr_roots_size)
    (hx : x < 2 ^ 64) (hn : x / 2 ^ u.shift % 2 ^ n_bits ≤ u.s2)
    (out : Nat) (c1 : C)
    (h : monomial_action_spin.act_update ops a u x c = some (true, out, c1)) :
    out < 2 ^ 64 ∧ out % 2 ^ u.shift = x % 2 ^ u.shift ∧
    out / 2 ^ (u.shift + n_bits) = x / 2 ^ (u.shift + n_bits) ∧
    out / 2 ^ u.shift % 2 ^ n_bits ≤ u.s2 := by
  cases hc : u.c with
  | plus =>
    obtain ⟨k1, k2⟩ := act_update_plus_field ops a u n_bits x c hwf hk hc hsize hx
    by_cases hle : x / 2 ^ u.shift % 2 ^ n_bits + u.power ≤ u.s2
    · obtain ⟨k3, k4⟩ := k2 hle
      rw [k4] at h
      simp only [Option.some.injEq, Prod.mk.injEq, true_and] at h
      obtain ⟨rfl, _⟩ := h
      have hfit : x / 2 ^ u.shift % 2 ^ n_bits + u.power < 2 ^ n_bits := by
        obtain ⟨h1, h2, _, _⟩ := hwf
        have : 0 < 2 ^ n_bits := by positivity
        omega
      obtain ⟨g1, g2, g3⟩ := field_add_room x u.power u.shift n_bits hfit
      exact ⟨k3, g3, g2, by rw [g1]; exact hle⟩
    · rw [k1 (by omega)] at h
      simp at h
  | minus =>
    obtain ⟨k1, k2⟩ := act_update_minus_field ops a u n_bits x c hwf hk hc hsize hx hn
    by_cases hle : u.power ≤ x / 2 ^ u.shift % 2 ^ n_bits
    · obtain ⟨k3, k4⟩ := k2 hle
      rw [k4] at h
      simp only [Option.some.injEq, Prod.mk.injEq, true_and] at h
      obtain ⟨rfl, _⟩ := h
      obtain ⟨_, g1, g2, g3⟩ := field_sub_room x u.power u.shift n_bits hle
      exact ⟨lt_of_le_of_lt (Nat.sub_le _ _) hx, g3, g2, by rw [g1]; omega⟩
    · rw [k1 (by omega)] at h
      simp at h
  | z =>
    rw [act_update_z_field ops a u n_bits x c hwf hc] at h
    split at h
    · simp at h
    · simp only [Option.some.injEq, Prod.mk.injEq, true_and] at h
      obtain ⟨rfl, _⟩ := h
      exact ⟨hx, rfl, rfl, hn⟩

/-- The loop of `act` over updates on fields that are the same or do not
overlap, with square-root tables as the constructor sizes them, on a state
index below `2^64` in which every field holds a value within its bound: when
the loop returns `true`, the output index is below `2^64`, every field holds a
value within its bound again, and every range of bits that overlaps none of
the fields of the updates holds what it held. -/
theorem act_loop_frame {C : Type} (ops : coeff_ops C) (a : monomial_action_spin)
    (fields : Nat × Nat × Nat → Prop)
    (hsep : ∀ f1, fields f1 → ∀ f2, fields f2 →
      f1 = f2 ∨ f1.1 + f1.2.1 ≤ f2.1 ∨ f2.1 + f2.2.1 ≤ f1.1) :
    ∀ (us : List single_spin_update_t),
      (∀ u ∈ us, ∃ n_bits, u.well_formed n_bits ∧ fields (u.shift, n_bits, u.s2) ∧
        u.power < 2 ^ 31 ∧
        min (spin_ss ((u.s2 : Int) + 1) ((u.s2 : ℚ) / 2) + 1)
          LIBCOMMUTE_SPIN_MAX_NUM_PRECOMPUTED_SQRT ≤ a.sqr_roots_size) →
      ∀ (x : Nat) (c : C) (out : Nat) (c1 : C), x < 2 ^ 64 →
        (∀ f, fields f → x / 2 ^ f.1 % 2 ^ f.2.1 ≤ f.2.2) →
        monomial_action_spin.act_loop ops a us x c = some (true, out, c1) →
        out < 2 ^ 64 ∧ (∀ f, fields f → out / 2 ^ f.1 % 2 ^ f.2.1 ≤ f.2.2) ∧
        ∀ sh1 nb1 : Nat,
          (∀ u ∈ us, ∀ n_bits, u.well_formed n_bits →
            sh1 + nb1 ≤ u.shift ∨ u.shift + n_bits ≤ sh1) →
          out / 2 ^ sh1 % 2 ^ nb1 = x / 2 ^ sh1 % 2 ^ nb1
  | [], _, x, c, out, c1, hx, hv, h => by
    simp only [monomial_action_spin.act_loop, Option.some.injEq, Prod.mk.injEq, true_and] at h
    obtain ⟨rfl, _⟩ := h
    exact ⟨hx, hv, fun _ _ _ => rfl⟩
  | u :: us, hus, x, c, out, c1, hx, hv, h => by
    obtain ⟨n_bits, hwf, hmem, hk, hsz⟩ := hus u (List.mem_cons_self _ _)
    simp only [monomial_action_spin.act_loop] at h
    rcases hu : monomial_action_spin.act_update ops a u x c with _ | ⟨b, x1, c2⟩
    · rw [hu] at h
      cases h
    · rw [hu] at h
      cases b with
      | false => simp at h
      | true =>
        simp only at h
        obtain ⟨g1, g2, g3, g4⟩ := act_update_frame ops a u n_bits x c hwf hk hsz hx
          (hv _ hmem) x1 c2 hu
        have hv1 : ∀ f, fields f → x1 / 2 ^ f.1 % 2 ^ f.2.1 ≤ f.2.2 := by
          intro f hf
          rcases hsep f hf _ hmem with heq | hd | hd
          · rw [heq]
            exact g4
          · rw [field_eq_of_outside x x1 u.shift n_bits f.1 f.2.1 g2 g3 (Or.inl hd)]
            exact hv f hf
          · rw [field_eq_of_outside x x1 u.shift n_bits f.1 f.2.1 g2 g3 (Or.inr hd)]
            exact hv f hf
        obtain ⟨r1, r2, r3⟩ := act_loop_frame ops a fields hsep us
          (fun v hv2 => hus v (List.mem_cons_of_mem _ hv2)) x1 c2 out c1 g1 hv1 h
        refine ⟨r1, r2, ?_⟩
        intro sh1 nb1 hout
        rw [r3 sh1 nb1 (fun v hv2 nb hw => hout v (List.mem_cons_of_mem _ hv2) nb hw)]
        exact field_eq_of_outside x x1 u.shift n_bits sh1 nb1 g2 g3
          (hout u (List.mem_cons_self _ _) n_bits hwf)

/-- The width of the field of an update determines the number of bits. -/
theorem well_formed_unique (u : single_spin_update_t) (n1 n2 : Nat)
    (h1 : u.well_formed n1) (h2 : u.well_formed n2) : n1 = n2 := by
  have e1 := h1.1
  have e2 := h2.1
  have p1 : 0 < 2 ^ n1 := by positivity
  have p2 : 0 < 2 ^ n2 := by positivity
  have e : 2 ^ n1 = 2 ^ n2 := by omega
  exact Nat.pow_right_injective (le_refl 2) e

/-- In a Hilbert space built by the program whose spaces have no negative
`n_bits`, an entry that comes earlier in the map has its range of `n_bits`
bits before the range of an entry that comes later. -/
theorem constructed_entries_ordered {S : Type} (ops : space_ops S) (l : List S)
    (hs : hilbert_space S) (hc : hilbert_space.constructed ops l hs)
    (hn : ∀ x ∈ l, 0 ≤ ops.n_bits x) (i j : Nat) (e1 e2 : S × bit_range_t)
    (h1 : hs.basis_spaces[i]? = some e1) (h2 : hs.basis_spaces[j]? = some e2)
    (hij : i < j) : e1.2.1 + ops.n_bits e1.1 ≤ e2.2.1 := by
  have hfix := constructed_recomputed ops l hs hc
  have hb : hs.basis_spaces = (hilbert_space.recompute_loop ops hs.basis_spaces (-1)).1 := by
    conv_lhs => rw [← hfix]
    rfl
  have g1 := recompute_loop_getElem ops hs.basis_spaces (-1) i
  have g2 := recompute_loop_getElem ops hs.basis_spaces (-1) j
  rw [← hb, h1] at g1
  rw [← hb, h2] at g2
  simp only [Option.map_some', Option.some.injEq] at g1 g2
  have hnn : ∀ x ∈ hs.basis_spaces.map (fun q => ops.n_bits q.1), (0 : Int) ≤ x := by
    intro x hx
    obtain ⟨q, hq, rfl⟩ := List.mem_map.1 hx
    exact hn q.1 ((constructed_keys_mem ops l hs hc q.1).1 (List.mem_map.2 ⟨q, hq, rfl⟩))
  have hnn1 : ∀ x ∈ (hs.basis_spaces.map (fun q => ops.n_bits q.1)).take j, (0 : Int) ≤ x :=
    fun x hx => hnn x (List.mem_of_mem_take hx)
  have hget : ((hs.basis_spaces.map (fun q => ops.n_bits q.1)).take j)[i]? =
      some (ops.n_bits e1.1) := by
    rw [List.getElem?_take_of_lt hij, List.getElem?_map, h1]
    rfl
  have hsum := (sum_take_le _ hnn1 i (ops.n_bits e1.1) hget).2
  rw [List.take_take, min_eq_left (le_of_lt hij)] at hsum
  rw [← List.map_take, ← List.map_take] at hsum
  have k1 := congrArg (fun e : S × bit_range_t => e.2.1) g1
  have k2 := congrArg (fun e : S × bit_range_t => e.2.1) g2
  simp only at k1 k2
  omega

/-- Two entries of a Hilbert space built by the program whose spaces have no
negative `n_bits` are the same entry, or their ranges do not overlap. -/
theorem constructed_entries_separated {S : Type} (ops : space_ops S) (l : List S)
    (hs : hilbert_space S) (hc : hilbert_space.constructed ops l hs)
    (hn : ∀ x ∈ l, 0 ≤ ops.n_bits x) (e1 e2 : S × bit_range_t)
    (h1 : e1 ∈ hs.basis_spaces) (h2 : e2 ∈ hs.basis_spaces) :
    e1 = e2 ∨ e1.2.1 + ops.n_bits e1.1 ≤ e2.2.1 ∨ e2.2.1 + ops.n_bits e2.1 ≤ e1.2.1 := by
  obtain ⟨i, hi⟩ := List.mem_iff_getElem?.1 h1
  obtain ⟨j, hj⟩ := List.mem_iff_getElem?.1 h2
  rcases Nat.lt_trichotomy i j with hlt | heq | hgt
  · exact Or.inr (Or.inl (constructed_entries_ordered ops l hs hc hn i j e1 e2 hi hj hlt))
  · rw [heq, hj] at hi
    exact Or.inl (Option.some.inj hi).symm
  · exact Or.inr (Or.inr (constructed_entries_ordered ops l hs hc hn j i e2 e1 hj hi hgt))

/-- C32: over a Hilbert space of at most 64 bits, built by the program from
spaces without negative `n_bits` and spin spaces that their constructor made,
for the action compiled from a monomial of spin generators whose spaces are in
the Hilbert space, and an input index below `2^64` in which the field of every
spin space holds a value `n ≤ 2s`: whenever `act` returns `true`, the output
index is below `2^64`, it differs from the input only inside the bit ranges of
the spins of the monomial (every bit outside these ranges is unchanged, and so
is the field of every space that is not the space of a generator of the
monomial), and the field of every spin space holds a value `≤ 2s` again. -/
theorem C32_act_frame {ι : Type} [LinearOrder ι] {C : Type} (ops : coeff_ops C)
    (ids : space_algebra_ids)
    (h1 : ids.fermion ≠ ids.boson) (h2 : ids.fermion ≠ ids.spin) (h3 : ids.boson ≠ ids.spin)
    (h4 : ids.fermion ≠ SPIN_ALGEBRA_ID) (h5 : ids.boson ≠ SPIN_ALGEBRA_ID)
    (l : List (elementary_space ι)) (hs : hilbert_space (elementary_space ι))
    (hc : hilbert_space.constructed (elementary_space_ops ids) l hs)
    (hn : ∀ x ∈ l, 0 ≤ (elementary_space_ops ids).n_bits x)
    (hmade : ∀ es : elementary_space_spin ι, .spin es ∈ l →
      es.n_bits = (Nat.clog 2 es.multiplicity.toNat : Nat))
    (h64 : hs.total_n_bits ≤ 64)
    (m : List (generator_spin ι))
    (hhas : ∀ g ∈ m, hilbert_space.has (elementary_space_ops ids) hs g.space = true)
    (hmult : ∀ g ∈ m, 1 ≤ g.multiplicity ∧ g.multiplicity < 2 ^ 31)
    (hlen : m.length < 2 ^ 31)
    (in_index : Nat) (hx : in_index < 2 ^ 64)
    (hvalid : ∀ (es : elementary_space_spin ι) (r : bit_range_t),
      (.spin es, r) ∈ hs.basis_spaces → (bit_field in_index r : Int) ≤ es.multiplicity - 1) :
    ∃ a : monomial_action_spin,
      monomial_action_spin.of_range ids (m.map .spin) hs = .ok a ∧
      ∀ (coeff : C) (out_index : Nat) (c1 : C),
        monomial_action_spin.act ops a in_index coeff = some (true, out_index, c1) →
        out_index < 2 ^ 64 ∧
        (∀ p : Nat,
          (∀ g ∈ m, ∀ lo hi : Int,
            hilbert_space.bit_range (elementary_space_ops ids) hs g.space = .ok (lo, hi) →
            (p : Int) < lo ∨ hi < (p : Int)) →
          out_index.testBit p = in_index.testBit p) ∧
        (∀ (bs : elementary_space ι) (r : bit_range_t), (bs, r) ∈ hs.basis_spaces →
          (∀ g ∈ m, g.space ≠ bs) → bit_field out_index r = bit_field in_index r) ∧
        (∀ (es : elementary_space_spin ι) (r : bit_range_t),
          (.spin es, r) ∈ hs.basis_spaces →
          (bit_field out_index r : Int) ≤ es.multiplicity - 1) := by
  have swo := elementary_space_ops_swo (ι := ι) ids h1 h2 h3
  obtain ⟨a, hof, hupd⟩ := of_range_updates ids h1 h2 h3 h4 h5 l hs hc hn hmade h64 m hhas
    hmult hlen
  refine ⟨a, hof, ?_⟩
  -- the layout of an entry
  have hlay : ∀ (bs : elementary_space ι) (r : bit_range_t), (bs, r) ∈ hs.basis_spaces →
      0 ≤ r.1 ∧ r.2 = r.1 + (elementary_space_ops ids).n_bits bs - 1 ∧
      0 ≤ (elementary_space_ops ids).n_bits bs := by
    intro bs r hmem
    obtain ⟨lo, hi⟩ := r
    have k := constructed_range_layout (elementary_space_ops ids) l hs hc hn bs lo hi hmem
    refine ⟨k.1, k.2.1, ?_⟩
    exact hn bs ((constructed_keys_mem _ l hs hc bs).1 (List.mem_map.2 ⟨(bs, (lo, hi)), hmem, rfl⟩))
  have hfield : ∀ (y : Nat) (bs : elementary_space ι) (r : bit_range_t),
      (bs, r) ∈ hs.basis_spaces →
      bit_field y r =
        y / 2 ^ r.1.toNat % 2 ^ ((elementary_space_ops ids).n_bits bs).toNat := by
    intro y bs r hmem
    obtain ⟨k1, k2, k3⟩ := hlay bs r hmem
    rw [bit_field_eq]
    congr 3
    omega
  -- the fields of the spin spaces
  let fields : Nat × Nat × Nat → Prop := fun f =>
    ∃ (es : elementary_space_spin ι) (r : bit_range_t),
      (.spin es, r) ∈ hs.basis_spaces ∧
      f = (r.1.toNat, es.n_bits.toNat, (es.multiplicity - 1).toNat)
  have hsep : ∀ f1, fields f1 → ∀ f2, fields f2 →
      f1 = f2 ∨ f1.1 + f1.2.1 ≤ f2.1 ∨ f2.1 + f2.2.1 ≤ f1.1 := by
    rintro f1 ⟨es1, r1, m1, rfl⟩ f2 ⟨es2, r2, m2, rfl⟩
    obtain ⟨a1, _, a3⟩ := hlay _ _ m1
    obtain ⟨b1, _, b3⟩ := hlay _ _ m2
    have e1 : (elementary_space_ops ids).n_bits (.spin es1) = es1.n_bits := rfl
    have e2 : (elementary_space_ops ids).n_bits (.spin es2) = es2.n_bits := rfl
    rw [e1] at a3
    rw [e2] at b3
    rcases constructed_entries_separated (elementary_space_ops ids) l hs hc hn _ _ m1 m2 with
      heq | hd | hd
    · left
      simp only [Prod.mk.injEq, elementary_space.spin.injEq] at heq
      obtain ⟨k1, k2⟩ := heq
      rw [k1, k2]
    · right
      left
      simp only [e1] at hd
      show r1.1.toNat + es1.n_bits.toNat ≤ r2.1.toNat
      omega
    · right
      right
      simp only [e2] at hd
      show r2.1.toNat + es2.n_bits.toNat ≤ r1.1.toNat
      omega
  have hv0 : ∀ f, fields f → in_index / 2 ^ f.1 % 2 ^ f.2.1 ≤ f.2.2 := by
    rintro f ⟨es, r, hmem, rfl⟩
    have k := hvalid es r hmem
    rw [hfield in_index _ r hmem] at k
    show in_index / 2 ^ r.1.toNat % 2 ^ es.n_bits.toNat ≤ (es.multiplicity - 1).toNat
    have e1 : (elementary_space_ops ids).n_bits (.spin es) = es.n_bits := rfl
    rw [e1] at k
    omega
  -- the updates act on fields of spin spaces
  have hus : ∀ u ∈ a.updates.reverse, ∃ n_bits, u.well_formed n_bits ∧
      fields (u.shift, n_bits, u.s2) ∧ u.power < 2 ^ 31 ∧
      min (spin_ss ((u.s2 : Int) + 1) ((u.s2 : ℚ) / 2) + 1)
        LIBCOMMUTE_SPIN_MAX_NUM_PRECOMPUTED_SQRT ≤ a.sqr_roots_size := by
    intro u hu
    obtain ⟨g, hg, lo, hi, hmem, hwf, hs2, hsh, _, _, _, hk, hsz⟩ :=
      hupd u (List.mem_reverse.1 hu)
    refine ⟨_, hwf, ⟨_, (lo, hi), hmem, ?_⟩, hk, hsz⟩
    simp only [Prod.mk.injEq]
    refine ⟨by omega, by simp, by omega⟩
  intro coeff out_index c1 hact
  unfold monomial_action_spin.act at hact
  obtain ⟨r1, r2, r3⟩ := act_loop_frame ops a fields hsep a.updates.reverse hus in_index coeff
    out_index c1 hx hv0 hact
  refine ⟨r1, ?_, ?_, ?_⟩
  · intro p hp
    have k := r3 p 1 (by
      intro u hu nb hw
      obtain ⟨g, hg, lo, hi, hmem, hwf, hs2, hsh, hhi, _, _, _, _⟩ :=
        hupd u (List.mem_reverse.1 hu)
      have hnb := well_formed_unique u _ _ hw hwf
      have hbr := bit_range_of_mem (elementary_space_ops ids) swo l hs hc _ _ hmem
      rcases hp g hg lo hi hbr with h | h
      · left
        omega
      · right
        omega)
    rw [pow_one] at k
    rw [Nat.testBit_to_div_mod, Nat.testBit_to_div_mod, k]
  · intro bs r hmem hne
    rw [hfield out_index bs r hmem, hfield in_index bs r hmem]
    apply r3
    intro u hu nb hw
    obtain ⟨g, hg, lo, hi, hmem1, hwf, hs2, hsh, hhi, _, _, _, _⟩ :=
      hupd u (List.mem_reverse.1 hu)
    have hnb := well_formed_unique u _ _ hw hwf
    obtain ⟨a1, _, a3⟩ := hlay _ _ hmem
    obtain ⟨b1, _, b3⟩ := hlay _ _ hmem1
    have e1 : (elementary_space_ops ids).n_bits g.space =
        ((Nat.clog 2 g.multiplicity.toNat : Nat) : Int) := rfl
    rcases constructed_entries_separated (elementary_space_ops ids) l hs hc hn _ _ hmem hmem1
      with heq | hd | hd
    · simp only [Prod.mk.injEq] at heq
      exact absurd heq.1.symm (hne g hg)
    · left
      simp only at hd
      omega
    · right
      simp only [e1] at hd
      omega
  · intro es r hmem
    have k := r2 _ ⟨es, r, hmem, rfl⟩
    have k0 := hvalid es r hmem
    rw [hfield out_index _ r hmem]
    have e1 : (elementary_space_ops ids).n_bits (.spin es) = es.n_bits := rfl
    rw [e1]
    have k1 : out_index / 2 ^ r.1.toNat % 2 ^ es.n_bits.toNat ≤ (es.multiplicity - 1).toNat := k
    omega

/-- Witness of C32: the action of `S+` of a spin 1 with the index 0, over the
Hilbert space of that spin, on the state 1 (the field holds `n = 1`). -/
theorem C32_act_frame_witness :
    ∃ a : monomial_action_spin,
      monomial_action_spin.of_range { fermion := -3, boson := -2, spin := -1 }
        (([⟨3, .plus, 0⟩] : List (generator_spin Nat)).map .spin)
        { basis_spaces := [(.spin ⟨3, 2, 0⟩, (0, 1))], bit_range_end := 1 } = .ok a ∧
      ∀ (coeff : Nat) (out_index : Nat) (c1 : Nat),
        monomial_action_spin.act
          { mul := fun x y => x * y, sqrt := Nat.sqrt, pow := fun _ k => k }
          a 1 coeff = some (true, out_index, c1) →
        out_index < 2 ^ 64 ∧
        (∀ p : Nat,
          (∀ g ∈ ([⟨3, .plus, 0⟩] : List (generator_spin Nat)), ∀ lo hi : Int,
            hilbert_space.bit_range
              (elementary_space_ops { fermion := -3, boson := -2, spin := -1 })
              { basis_spaces := [(.spin ⟨3, 2, 0⟩, (0, 1))], bit_range_end := 1 }
              g.space = .ok (lo, hi) →
            (p : Int) < lo ∨ hi < (p : Int)) →
          out_index.testBit p = (1 : Nat).testBit p) ∧
        (∀ (bs : elementary_space Nat) (r : bit_range_t),
          (bs, r) ∈ ([(.spin ⟨3, 2, 0⟩, (0, 1))] : List (elementary_space Nat × bit_range_t)) →
          (∀ g ∈ ([⟨3, .plus, 0⟩] : List (generator_spin Nat)), g.space ≠ bs) →
          bit_field out_index r = bit_field 1 r) ∧
        (∀ (es : elementary_space_spin Nat) (r : bit_range_t),
          (.spin es, r) ∈
            ([(.spin ⟨3, 2, 0⟩, (0, 1))] : List (elementary_space Nat × bit_range_t)) →
          (bit_field out_index r : Int) ≤ es.multiplicity - 1) :=
  C32_act_frame { mul := fun x y => x * y, sqrt := Nat.sqrt, pow := fun _ k => k }
    { fermion := -3, boson := -2, spin := -1 }
    (by decide) (by decide) (by decide) (by decide) (by decide)
    _ _ example_spin_space_constructed example_spin_space_bits.1 example_spin_space_bits.2
    (by decide) [⟨3, .plus, 0⟩]
    (example_spin_generators _ (by decide)).1 (example_spin_generators _ (by decide)).2
    (by decide) 1 (by norm_num)
    (by
      intro es r hmem
      rw [List.mem_singleton] at hmem
      cases hmem
      decide)

/-- Witness of C31: the action of `S+ S+ S-` of a spin 1 with the index 0,
over the Hilbert space of that spin. -/
theorem C31_sqr_root_in_bounds_witness :
    ∃ a : monomial_action_spin,
      monomial_action_spin.of_range { fermion := -3, boson := -2, spin := -1 }
        (([⟨3, .plus, 0⟩, ⟨3, .plus, 0⟩, ⟨3, .minus, 0⟩] :
          List (generator_spin Nat)).map .spin)
        { basis_spaces := [(.spin ⟨3, 2, 0⟩, (0, 1))], bit_range_end := 1 } = .ok a ∧
      ∀ (in_index : Nat),
        ∀ y ∈ monomial_action_spin.act_sqr_root_args a.updates.reverse in_index,
          (y < a.sqr_roots_size ∨ LIBCOMMUTE_SPIN_MAX_NUM_PRECOMPUTED_SQRT ≤ y) ∧
          monomial_action_spin.sqr_root
            { mul := fun x y => x * y, sqrt := Nat.sqrt, pow := fun _ k => k } a y =
            some (Nat.sqrt y) :=
  let ⟨a, k1, k2, _⟩ :=
    (C31_sqr_root_in_bounds { mul := fun x y => x * y, sqrt := Nat.sqrt, pow := fun _ k => k }
      { fermion := -3, boson := -2, spin := -1 }
      (by decide) (by decide) (by decide) (by decide) (by decide)
      _ _ example_spin_space_constructed example_spin_space_bits.1 example_spin_space_bits.2
      (by decide) [⟨3, .plus, 0⟩, ⟨3, .plus, 0⟩, ⟨3, .minus, 0⟩]
      (example_spin_generators _ (by decide)).1 (example_spin_generators _ (by decide)).2
      (by decide)).1
  ⟨a, k1, k2⟩

end libcommute
